import Mathlib

/-!
# Verification of the LSRA register allocator (src/jit/lsra.cpp)

This development gives a shallow embedding, in Lean 4, of the algorithmic core of
the linear-scan register allocator found in `src/jit/lsra.cpp`, and proves (or
refutes) the specification claims about it.

Conventions used throughout:
* machine registers are natural numbers; `REG_STK` and `REG_NA` are represented by
  dedicated constructors of small inductive types rather than sentinel values;
* C++ register masks (`regMaskTP`) are represented by sorted, duplicate-free lists
  of register numbers; taking the lowest set bit (`genFindLowestBit`) corresponds
  to taking the head of the list;
* platform-conditional code is embedded for the generic (non-ARM) target, and
  debug-only stress hooks (`stressLimitRegs`, `doReverseSelect`, ...) are embedded
  with their release-build values;
* quantities that the surrounding compiler computes outside the allocator
  (execution-frequency weights, normalized spill types, candidate masks) appear as
  input fields of the embedded data structures.
-/

namespace LSRA

/-- A variable-to-location map entry: a variable lives either in a physical
register or on the stack (`REG_STK`). -/
inductive VLoc where
  | reg (r : Nat)
  | stk
deriving DecidableEq, Repr

/-! ## Spill-count tracking: `updateMaxSpill` / `initMaxSpill` (lsra.cpp 6606-6793)

The write-back phase calls `updateMaxSpill` once per real RefPosition.  We embed a
RefPosition by the exact fields `updateMaxSpill` inspects: its flags, whether its
Interval is a source-level local variable, the id of that Interval, and the
normalized type (`RegSet::tmpNormalizeType` applied to the tree-node type, a
computation external to the allocator). -/

structure SpillRef where
  /-- id of the Interval of this RefPosition (`refPosition->getInterval()`). -/
  ivlId : Nat
  /-- `interval->isLocalVar`. -/
  isLocalVar : Bool
  /-- `refPosition->spillAfter`. -/
  spillAfter : Bool
  /-- `refPosition->reload`. -/
  reload : Bool
  /-- `refPosition->RegOptional()`. -/
  regOptional : Bool
  /-- `refPosition->assignedReg() == REG_NA`. -/
  assignedRegNA : Bool
  /-- the normalized type `typ` computed at lsra.cpp 6720-6764. -/
  typ : Nat
deriving DecidableEq, Repr

/-- The per-type counters maintained by the allocator (lsra.cpp 6610-6614). -/
structure SpillCounts where
  currentSpill : Nat → Nat
  maxSpill : Nat → Nat

/-- `LinearScan::initMaxSpill` (lsra.cpp 6606-6615): all counters start at zero. -/
def initMaxSpill : SpillCounts := ⟨fun _ => 0, fun _ => 0⟩

/-- `LinearScan::updateMaxSpill` (lsra.cpp 6685-6793), non-SIMD path: a
RefPosition that is spilled, reloaded, or left unallocated while regOptional,
and whose Interval is not a local variable, bumps the per-normalized-type
counters. -/
def updateMaxSpill (s : SpillCounts) (r : SpillRef) : SpillCounts :=
  if r.spillAfter || r.reload || (r.regOptional && r.assignedRegNA) then
    if !r.isLocalVar then
      if r.spillAfter && !r.reload then
        let c := s.currentSpill r.typ + 1
        { currentSpill := fun t => if t = r.typ then c else s.currentSpill t
          maxSpill := fun t =>
            if t = r.typ then (if c > s.maxSpill r.typ then c else s.maxSpill r.typ)
            else s.maxSpill t }
      else if r.reload then
        { s with currentSpill := fun t => if t = r.typ then s.currentSpill r.typ - 1
                                          else s.currentSpill t }
      else if r.regOptional && r.assignedRegNA then
        { s with currentSpill := fun t => if t = r.typ then s.currentSpill r.typ - 1
                                          else s.currentSpill t }
      else s
    else s
  else s

/-- The write-back walk: `updateMaxSpill` applied to every real RefPosition of
the stream, in `location` order (lsra.cpp 6681-6683). -/
def writeBackSpill (l : List SpillRef) : SpillCounts :=
  l.foldl updateMaxSpill initMaxSpill

/-- A RefPosition that makes a value of normalized type `t` become spilled:
the `spillAfter && !reload` branch of `updateMaxSpill` (lsra.cpp 6767). -/
def isSpillEvt (r : SpillRef) (t : Nat) : Bool :=
  !r.isLocalVar && r.spillAfter && !r.reload && (r.typ == t)

/-- A RefPosition that consumes a pending spill of normalized type `t`: the
`reload` branch (lsra.cpp 6775) or the unallocated-regOptional branch
(lsra.cpp 6780) of `updateMaxSpill`. -/
def isUnspillEvt (r : SpillRef) (t : Nat) : Bool :=
  !r.isLocalVar && (r.typ == t) &&
    (r.reload || (!r.spillAfter && r.regOptional && r.assignedRegNA))

/-- Reference simulation: the set of Interval ids of type `t` that are spilled
and not yet reloaded, updated by one RefPosition. -/
def pendingStep (t : Nat) (pend : Finset Nat) (r : SpillRef) : Finset Nat :=
  if isSpillEvt r t then insert r.ivlId pend
  else if isUnspillEvt r t then pend.erase r.ivlId
  else pend

/-- The set of values of type `t` concurrently spilled after a prefix of the
stream. -/
def specPending (t : Nat) (l : List SpillRef) : Finset Nat :=
  l.foldl (pendingStep t) ∅

/-- The true maximum, over every point of the stream, of the number of values of
type `t` that are spilled and not yet reloaded, starting from the pending set
`pend`. -/
def runningMaxCard (t : Nat) (pend : Finset Nat) : List SpillRef → Nat
  | [] => pend.card
  | r :: rest => max pend.card (runningMaxCard t (pendingStep t pend r) rest)

/-- Stream well-formedness for type `t` (mirroring the `assert(currentSpill[typ]
> 0)` checks of `updateMaxSpill`): a value is spilled only when it has no spill
pending, and reloaded (or consumed regOptional-unallocated) only when it has one
pending. -/
def spillWFb (t : Nat) : Finset Nat → List SpillRef → Bool
  | _, [] => true
  | pend, r :: rest =>
    (!isSpillEvt r t || !(decide (r.ivlId ∈ pend))) &&
    (!isUnspillEvt r t || decide (r.ivlId ∈ pend)) &&
    spillWFb t (pendingStep t pend r) rest

section SpillLemmas

variable {t : Nat}

theorem pendingStep_card_le (t : Nat) (pend : Finset Nat) (r : SpillRef) :
    (pendingStep t pend r).card ≤ pend.card + 1 := by
  unfold pendingStep
  split
  · exact Finset.card_insert_le _ _
  · split
    · exact le_trans (Finset.card_erase_le) (Nat.le_succ _)
    · exact Nat.le_succ _

theorem runningMaxCard_ge (t : Nat) (pend : Finset Nat) (l : List SpillRef) :
    pend.card ≤ runningMaxCard t pend l := by
  cases l with
  | nil => simp [runningMaxCard]
  | cons r rest => simp [runningMaxCard]

/-- Projection of one `updateMaxSpill` step at a fixed type `t`. -/
theorem updateMaxSpill_proj (s : SpillCounts) (r : SpillRef) (t : Nat) :
    ((updateMaxSpill s r).currentSpill t =
      (if isSpillEvt r t then s.currentSpill t + 1
       else if isUnspillEvt r t then s.currentSpill t - 1
       else s.currentSpill t)) ∧
    ((updateMaxSpill s r).maxSpill t =
      (if isSpillEvt r t then
        (if s.currentSpill t + 1 > s.maxSpill t then s.currentSpill t + 1 else s.maxSpill t)
       else s.maxSpill t)) := by
  unfold updateMaxSpill isSpillEvt isUnspillEvt
  by_cases hl : r.isLocalVar <;>
    by_cases hsa : r.spillAfter <;>
      by_cases hrl : r.reload <;>
        by_cases hro : r.regOptional <;>
          by_cases hna : r.assignedRegNA <;>
            by_cases ht : r.typ = t <;>
              simp_all [beq_iff_eq] <;> omega

end SpillLemmas

/-- Main induction for the spill-accounting claim: starting from coherent
counters, the code counter tracks the cardinality of the simulated pending set,
and the code maximum tracks the running maximum of that cardinality. -/
theorem writeBack_tracks_pending (t : Nat) :
    ∀ (l : List SpillRef) (s : SpillCounts) (pend : Finset Nat),
      s.currentSpill t = pend.card →
      pend.card ≤ s.maxSpill t →
      spillWFb t pend l = true →
      (l.foldl updateMaxSpill s).currentSpill t = (l.foldl (pendingStep t) pend).card ∧
      (l.foldl updateMaxSpill s).maxSpill t = max (s.maxSpill t) (runningMaxCard t pend l) := by
  intro l
  induction l with
  | nil =>
    intro s pend hc hm _
    refine ⟨by simpa using hc, ?_⟩
    simp [runningMaxCard]
    omega
  | cons r rest ih =>
    intro s pend hc hm hwf
    simp only [spillWFb, Bool.and_eq_true] at hwf
    obtain ⟨⟨h1, h2⟩, h3⟩ := hwf
    have hproj := updateMaxSpill_proj s r t
    by_cases hs : isSpillEvt r t = true
    · -- spill event: ivlId not pending, counter increments
      have hnotmem : r.ivlId ∉ pend := by simpa [hs] using h1
      have hcard : (pendingStep t pend r).card = pend.card + 1 := by
        simp [pendingStep, hs, Finset.card_insert_of_not_mem hnotmem]
      have hc' : (updateMaxSpill s r).currentSpill t = pend.card + 1 := by
        rw [hproj.1]; simp [hs, hc]
      have hm' : (updateMaxSpill s r).maxSpill t =
          max (s.maxSpill t) (pend.card + 1) := by
        rw [hproj.2]
        simp only [hs, if_true]
        rw [hc, Nat.max_def]
        split <;> split <;> omega
      have := ih (updateMaxSpill s r) (pendingStep t pend r)
        (by rw [hc', hcard]) (by rw [hm', hcard]; exact le_max_right _ _) h3
      refine ⟨by simpa using this.1, ?_⟩
      have hX : pend.card + 1 ≤ runningMaxCard t (pendingStep t pend r) rest := by
        have := runningMaxCard_ge t (pendingStep t pend r) rest
        omega
      simp only [List.foldl_cons]
      rw [this.2, hm']
      simp only [runningMaxCard]
      omega
    · by_cases hu : isUnspillEvt r t = true
      · -- unspill event: ivlId pending, counter decrements
        have hmem : r.ivlId ∈ pend := by simpa [hu] using h2
        have hcard : (pendingStep t pend r).card = pend.card - 1 := by
          simp [pendingStep, hs, hu, Finset.card_erase_of_mem hmem]
        have hc' : (updateMaxSpill s r).currentSpill t = pend.card - 1 := by
          rw [hproj.1]; simp [hs, hu, hc]
        have hm' : (updateMaxSpill s r).maxSpill t = s.maxSpill t := by
          rw [hproj.2]; simp [hs]
        have := ih (updateMaxSpill s r) (pendingStep t pend r)
          (by rw [hc', hcard]) (by rw [hm', hcard]; omega) h3
        refine ⟨by simpa using this.1, ?_⟩
        simp only [List.foldl_cons]
        rw [this.2, hm']
        simp only [runningMaxCard]
        omega
      · -- no event of type t: everything at t unchanged
        have hcard : pendingStep t pend r = pend := by
          simp [pendingStep, hs, hu]
        have hc' : (updateMaxSpill s r).currentSpill t = pend.card := by
          rw [hproj.1]; simp [hs, hu, hc]
        have hm' : (updateMaxSpill s r).maxSpill t = s.maxSpill t := by
          rw [hproj.2]; simp [hs]
        have := ih (updateMaxSpill s r) (pendingStep t pend r)
          (by rw [hc', hcard]) (by rw [hm', hcard]; exact hm) h3
        refine ⟨by simpa using this.1, ?_⟩
        simp only [List.foldl_cons]
        rw [this.2, hm']
        simp only [runningMaxCard, hcard]
        omega

/-- One `updateMaxSpill` step on a local-variable Interval leaves the counters
untouched (lsra.cpp 6712: the body is guarded by `!interval->isLocalVar`). -/
theorem updateMaxSpill_localVar (s : SpillCounts) (r : SpillRef)
    (h : r.isLocalVar = true) : updateMaxSpill s r = s := by
  unfold updateMaxSpill
  simp [h]

theorem foldl_updateMaxSpill_filter (l : List SpillRef) :
    ∀ s : SpillCounts,
      l.foldl updateMaxSpill s = (l.filter fun r => !r.isLocalVar).foldl updateMaxSpill s := by
  induction l with
  | nil => intro s; rfl
  | cons r rest ih =>
    intro s
    by_cases h : r.isLocalVar = true
    · simp [List.filter_cons, h, updateMaxSpill_localVar s r h, ih]
    · simp only [Bool.not_eq_true] at h
      simp [List.filter_cons, h, ih]

/-- C10: `updateMaxSpill` counts only intervals that are not source-level local
variables — a spilled, reloaded, or unallocated-regOptional RefPosition whose
Interval is a local variable never changes the per-type `currentSpill` or
`maxSpill` counters, so the write-back spill accounting over any stream equals
the accounting over the stream with all local-variable RefPositions removed
(local variables are excluded from spill-temp sizing). -/
theorem claim_C10_maxSpill_ignores_local_vars (l : List SpillRef) :
    writeBackSpill l = writeBackSpill (l.filter fun r => !r.isLocalVar) :=
  foldl_updateMaxSpill_filter l initMaxSpill

/-- C6: for each normalized type `t`, the `maxSpill` count computed during
write-back equals the true maximum, over the location-ordered RefPosition
stream, of the number of values of that type that have been spilled
(`spillAfter`) and not yet reloaded — provided the stream is well-formed (a
value is never spilled twice without an intervening reload, and never reloaded
without a pending spill, which mirrors the asserts in `updateMaxSpill`). -/
theorem claim_C6_maxSpill_eq_true_maximum (l : List SpillRef) (t : Nat)
    (h : spillWFb t ∅ l = true) :
    (writeBackSpill l).maxSpill t = runningMaxCard t ∅ l := by
  have hmain := writeBack_tracks_pending t l initMaxSpill ∅ rfl (by simp [initMaxSpill]) h
  simpa [writeBackSpill, initMaxSpill] using hmain.2

/-- The concrete scenario of the spec: one value of normalized type 3 spilled
and then reloaded, with no other spill of that type in between. -/
def spillScenario : List SpillRef :=
  [{ ivlId := 7, isLocalVar := false, spillAfter := true, reload := false,
     regOptional := false, assignedRegNA := false, typ := 3 },
   { ivlId := 7, isLocalVar := false, spillAfter := false, reload := true,
     regOptional := false, assignedRegNA := false, typ := 3 }]

theorem claim_C6_witness :
    spillWFb 3 ∅ spillScenario = true ∧
    (writeBackSpill spillScenario).maxSpill 3 = runningMaxCard 3 ∅ spillScenario ∧
    (writeBackSpill spillScenario).maxSpill 3 = 1 :=
  ⟨by decide, claim_C6_maxSpill_eq_true_maximum spillScenario 3 (by decide), by decide⟩

/-! ## Spilling a busy register: `allocateBusyReg` (lsra.cpp 3504-3773)

`allocateBusyReg` walks the registers of the needed class in register order and
selects an occupied register to evict.  We embed one candidate register by the
data the loop reads for it: whether it is in the candidate mask, whether it
passes the `isSpillCandidate` checks (busy-until-kill, fixed-reference
conflicts, unassigned-with-fixed-ref, in-use checks, lsra.cpp 3381-3476),
whether its occupant's recent RefPosition is active at the current location
(`isRefPositionActive`, which makes `canSpillReg` return false, lsra.cpp
3150-3156), the weight of that recent RefPosition (`getWeight`), the occupant
Interval's next reference location and the register's own next reference
location (whose minimum the loop uses, lsra.cpp 3603-3607), and whether the
recent RefPosition is marked `reload` and `RegOptional` (the equal-distance
tie-break, lsra.cpp 3666-3667). -/

structure BusyCand where
  regNum : Nat
  /-- `candidates & candidateBit` (lsra.cpp 3557). -/
  inCandidates : Bool
  /-- `isSpillCandidate(current, refPosition, physRegRecord, nextLocation)` (lsra.cpp 3565). -/
  spillCand : Bool
  /-- `isRefPositionActive(recentAssignedRef, refLocation)` (lsra.cpp 3152). -/
  refActive : Bool
  /-- `getWeight(recentAssignedRef)` (lsra.cpp 3161); `BB_ZERO_WEIGHT` when the
  occupant has no recent RefPosition. -/
  weight : Nat
  /-- `assignedInterval->getNextRefLocation()` (the `nextLocation` out-param of
  `isSpillCandidate`, lsra.cpp 3395). -/
  intervalNextLoc : Nat
  /-- `physRegRecord->getNextRefLocation()` (lsra.cpp 3603). -/
  physRegNextLoc : Nat
  /-- `recentAssignedRef->reload && recentAssignedRef->RegOptional()` (lsra.cpp 3667). -/
  reloadRegOptional : Bool
deriving DecidableEq, Repr

/-- `BB_MAX_WEIGHT` (the maximum unsigned block weight). -/
def BB_MAX_WEIGHT : Nat := 4294967295

/-- A candidate register survives the three skip checks of the loop
(lsra.cpp 3557-3560, 3565-3569, 3593-3596). -/
def busyEligible (c : BusyCand) : Bool :=
  c.inCandidates && c.spillCand && !c.refActive

/-- The running state of the `allocateBusyReg` loop: `farthestLocation`,
`farthestRefPosWeight` and `farthestRefPhysRegRecord` (lsra.cpp 3530-3552). -/
structure BusySel where
  farthestLocation : Nat
  farthestWeight : Nat
  found : Option BusyCand
deriving Repr

/-- The combined next-reference distance the loop compares: the minimum of the
occupant Interval\u2019s next reference and the register\u2019s own next reference
(lsra.cpp 3603-3607). -/
def busyNextLoc (c : BusyCand) : Nat := min c.intervalNextLoc c.physRegNextLoc

/-- The `isBetterLocation` computation of the loop body (lsra.cpp 3609-3675),
non-ARM, release build. -/
def busyBetter (allocateIfProfitable : Bool) (st : BusySel) (c : BusyCand) : Bool :=
  if c.weight < st.farthestWeight then true
  else if allocateIfProfitable && st.found.isNone then false
  else if busyNextLoc c > st.farthestLocation then true
  else if busyNextLoc c = st.farthestLocation then c.reloadRegOptional
  else false

/-- One iteration of the `allocateBusyReg` register loop (lsra.cpp 3554-3686),
non-ARM, release build. -/
def busyStep (allocateIfProfitable : Bool) (st : BusySel) (c : BusyCand) : BusySel :=
  if !c.inCandidates then st
  else if !c.spillCand then st
  else if c.refActive then st
  else if c.weight > st.farthestWeight then st
  else if busyBetter allocateIfProfitable st c then
    { farthestLocation := busyNextLoc c, farthestWeight := c.weight, found := some c }
  else st

/-- `LinearScan::allocateBusyReg` (lsra.cpp 3504-3773), reduced to its selection
of the register to evict.  `refWeight` is `getWeight(refPosition)`; for a
mandatory reference the scan starts from `BB_MAX_WEIGHT`, for a regOptional one
from the reference's own weight (lsra.cpp 3537-3552).  Returns the chosen
candidate, or `none` when the reference stays unallocated. -/
def allocateBusyRegSel (allocateIfProfitable : Bool) (refWeight : Nat)
    (cands : List BusyCand) : Option BusyCand :=
  (cands.foldl (busyStep allocateIfProfitable)
    { farthestLocation := 0
      farthestWeight := if allocateIfProfitable then refWeight else BB_MAX_WEIGHT
      found := none }).found

/-- `r` is at least as good a spill candidate as `c`: its occupant's weight is
no larger, and at equal weight its next reference is no nearer. -/
def busyBeats (r c : BusyCand) : Prop :=
  r.weight ≤ c.weight ∧ (c.weight = r.weight → busyNextLoc c ≤ busyNextLoc r)

theorem busyBeats_trans {a b c : BusyCand} (h1 : busyBeats a b) (h2 : busyBeats b c) :
    busyBeats a c := by
  obtain ⟨hw1, hl1⟩ := h1
  obtain ⟨hw2, hl2⟩ := h2
  refine ⟨le_trans hw1 hw2, fun he => ?_⟩
  have hb : b.weight = a.weight := le_antisymm (by omega) hw1
  exact le_trans (hl2 (by omega)) (hl1 hb)

/-- Characterization of `busyBetter` in the mandatory case. -/
theorem busyBetter_false_iff (st : BusySel) (c : BusyCand) :
    busyBetter false st c = true ↔
      (c.weight < st.farthestWeight ∨ busyNextLoc c > st.farthestLocation ∨
        (busyNextLoc c = st.farthestLocation ∧ c.reloadRegOptional = true)) := by
  unfold busyBetter
  by_cases h5 : c.weight < st.farthestWeight
  · simp [h5]
  · by_cases h7 : busyNextLoc c > st.farthestLocation
    · simp [h5, h7]
    · by_cases h8 : busyNextLoc c = st.farthestLocation
      · simp [h5, h7, h8]
      · simp [h5, h7, h8]

/-- Characterization of `busyBetter` in the regOptional case. -/
theorem busyBetter_true_iff (st : BusySel) (c : BusyCand) :
    busyBetter true st c = true ↔
      (c.weight < st.farthestWeight ∨
        (st.found.isNone = false ∧
          (busyNextLoc c > st.farthestLocation ∨
           (busyNextLoc c = st.farthestLocation ∧ c.reloadRegOptional = true)))) := by
  unfold busyBetter
  by_cases h5 : c.weight < st.farthestWeight
  · simp [h5]
  · by_cases h6 : st.found.isNone
    · simp [h5, h6]
    · by_cases h7 : busyNextLoc c > st.farthestLocation
      · simp [h5, h6, h7]
      · by_cases h8 : busyNextLoc c = st.farthestLocation
        · simp [h5, h6, h7, h8]
        · simp [h5, h6, h7, h8]

theorem busyStep_select_eq (aip : Bool) (st : BusySel) (c : BusyCand)
    (hel : busyEligible c = true) (h4 : ¬ c.weight > st.farthestWeight)
    (hb : busyBetter aip st c = true) :
    busyStep aip st c =
      { farthestLocation := busyNextLoc c, farthestWeight := c.weight, found := some c } := by
  obtain ⟨⟨h1, h2⟩, h3⟩ : (c.inCandidates = true ∧ c.spillCand = true) ∧ c.refActive = false := by
    simpa [busyEligible, Bool.and_eq_true, Bool.not_eq_true'] using hel
  unfold busyStep
  simp [h1, h2, h3, h4, hb]

theorem busyStep_keep_of_weight (aip : Bool) (st : BusySel) (c : BusyCand)
    (h4 : c.weight > st.farthestWeight) : busyStep aip st c = st := by
  unfold busyStep
  by_cases h1 : c.inCandidates = true <;>
    by_cases h2 : c.spillCand = true <;>
      by_cases h3 : c.refActive = true <;>
        simp [h1, h2, h3, h4]

theorem busyStep_keep_of_not_better (aip : Bool) (st : BusySel) (c : BusyCand)
    (hb : ¬ busyBetter aip st c = true) : busyStep aip st c = st := by
  unfold busyStep
  by_cases h1 : c.inCandidates = true <;>
    by_cases h2 : c.spillCand = true <;>
      by_cases h3 : c.refActive = true <;>
        by_cases h4 : c.weight > st.farthestWeight <;>
          simp [h1, h2, h3, h4, hb]

/-- A candidate that fails the eligibility checks is skipped. -/
theorem busyStep_skip_eq (aip : Bool) (st : BusySel) (c : BusyCand)
    (hel : ¬ busyEligible c = true) : busyStep aip st c = st := by
  unfold busyStep
  by_cases h1 : c.inCandidates = true
  · by_cases h2 : c.spillCand = true
    · have h3 : c.refActive = true := by
        rcases Bool.eq_false_or_eq_true c.refActive with h | h
        · exact h
        · exact absurd (by simp [busyEligible, h1, h2, h]) hel
      simp [h1, h2, h3]
    · simp [h1, h2]
  · simp [h1]

/-- Main loop invariant for `allocateBusyReg` in the mandatory case
(`allocateIfProfitable = false`): the selected candidate has the minimum
occupant weight of any eligible candidate seen, and among those of equal
weight, the farthest combined next-reference location. -/
theorem busy_fold_mandatory (cands : List BusyCand)
    (hw : ∀ c ∈ cands, c.weight < BB_MAX_WEIGHT) :
    ∀ st : BusySel,
    (st.found = none → st.farthestWeight = BB_MAX_WEIGHT) →
    (∀ r0, st.found = some r0 →
      busyEligible r0 = true ∧ st.farthestWeight = r0.weight ∧
      st.farthestLocation = busyNextLoc r0) →
    ((cands.foldl (busyStep false) st).found = none →
        st.found = none ∧ ∀ c ∈ cands, busyEligible c = false) ∧
    (∀ r, (cands.foldl (busyStep false) st).found = some r →
        busyEligible r = true ∧
        (cands.foldl (busyStep false) st).farthestWeight = r.weight ∧
        (cands.foldl (busyStep false) st).farthestLocation = busyNextLoc r ∧
        (r ∈ cands ∨ st.found = some r) ∧
        (∀ c ∈ cands, busyEligible c = true → busyBeats r c) ∧
        (∀ r0, st.found = some r0 → busyBeats r r0)) := by
  induction cands with
  | nil =>
    intro st hn hs
    refine ⟨fun h => ⟨h, by simp⟩, fun r hr => ?_⟩
    simp only [List.foldl_nil] at hr
    obtain ⟨he, hw0, hl0⟩ := hs r hr
    refine ⟨he, hw0, hl0, Or.inr hr, by simp, fun r0 h0 => ?_⟩
    rw [hr] at h0
    cases h0
    exact ⟨le_refl _, fun _ => le_refl _⟩
  | cons c rest ih =>
    intro st hn hs
    have hwc : c.weight < BB_MAX_WEIGHT := hw c (by simp)
    have hwrest : ∀ x ∈ rest, x.weight < BB_MAX_WEIGHT := fun x hx => hw x (by simp [hx])
    simp only [List.foldl_cons]
    by_cases hel : busyEligible c = true
    · by_cases h4 : c.weight > st.farthestWeight
      · -- filtered out by weight; st.found must be some r0 with r0.weight < c.weight
        rw [busyStep_keep_of_weight false st c h4]
        obtain ⟨ihn, ihs⟩ := ih hwrest st hn hs
        constructor
        · intro hnone
          obtain ⟨hfn, _⟩ := ihn hnone
          exact absurd (hn hfn ▸ h4) (by omega)
        · intro r hr
          obtain ⟨he, hws, hls, hmem, hall, hr0⟩ := ihs r hr
          refine ⟨he, hws, hls, ?_, ?_, hr0⟩
          · rcases hmem with h | h
            · exact Or.inl (by simp [h])
            · exact Or.inr h
          · intro x hx hex
            rcases List.mem_cons.mp hx with rfl | hx
            · cases hfound : st.found with
              | none => exact absurd (hn hfound ▸ h4) (by omega)
              | some r0 =>
                have hb := hr0 r0 hfound
                have hfw := (hs r0 hfound).2.1
                rw [hfw] at h4
                exact ⟨by have := hb.1; omega, fun hcw => by have := hb.1; omega⟩
            · exact hall x hx hex
      · -- passes the weight filter; either c is selected or it is rejected
        by_cases hsel : busyBetter false st c = true
        · -- c becomes the new best
          rw [busyStep_select_eq false st c hel h4 hsel]
          rw [busyBetter_false_iff] at hsel
          obtain ⟨ihn, ihs⟩ := ih hwrest
            { farthestLocation := busyNextLoc c, farthestWeight := c.weight, found := some c }
            (by simp) (fun rr hrr => by
              simp only [Option.some.injEq] at hrr
              subst hrr
              exact ⟨hel, rfl, rfl⟩)
          constructor
          · intro hnone
            obtain ⟨hfn, _⟩ := ihn hnone
            simp at hfn
          · intro r hr
            obtain ⟨he, hws, hls, hmem, hall, hr0⟩ := ihs r hr
            have hbc : busyBeats r c := hr0 c rfl
            refine ⟨he, hws, hls, ?_, ?_, ?_⟩
            · rcases hmem with h | h
              · exact Or.inl (by simp [h])
              · simp only [Option.some.injEq] at h; subst h; exact Or.inl (by simp)
            · intro x hx hex
              rcases List.mem_cons.mp hx with rfl | hx
              · exact hbc
              · exact hall x hx hex
            · intro r0 h0
              -- r beats c, and c beats the displaced former best r0
              obtain ⟨_, hfw0, hfl0⟩ := hs r0 h0
              refine busyBeats_trans hbc ⟨by omega, fun hcw => ?_⟩
              rcases hsel with h | h | ⟨h, _⟩
              · omega
              · rw [← hfl0]; omega
              · rw [← hfl0]; omega
        · -- c rejected: equal weight, location not better; previous best survives
          rw [busyStep_keep_of_not_better false st c hsel]
          rw [busyBetter_false_iff] at hsel
          push_neg at hsel
          obtain ⟨h5, h7, h8⟩ := hsel
          have heqw : c.weight = st.farthestWeight := by omega
          obtain ⟨r0, hfound⟩ : ∃ r0, st.found = some r0 := by
            cases hf : st.found with
            | none => exact absurd (heqw.trans (hn hf)) (by omega)
            | some r0 => exact ⟨r0, rfl⟩
          obtain ⟨he0, hfw0, hfl0⟩ := hs r0 hfound
          obtain ⟨ihn, ihs⟩ := ih hwrest st hn hs
          constructor
          · intro hnone
            obtain ⟨hfn, _⟩ := ihn hnone
            rw [hfn] at hfound; cases hfound
          · intro r hr
            obtain ⟨he, hws, hls, hmem, hall, hr0⟩ := ihs r hr
            have hb0 := hr0 r0 hfound
            refine ⟨he, hws, hls, ?_, ?_, hr0⟩
            · rcases hmem with h | h
              · exact Or.inl (by simp [h])
              · exact Or.inr h
            · intro x hx hex
              rcases List.mem_cons.mp hx with rfl | hx
              · -- r beats r0, and r0 is at least as good as x
                have hloc : busyNextLoc x ≤ st.farthestLocation := by omega
                refine busyBeats_trans hb0 ⟨by omega, fun _ => by rw [← hfl0]; omega⟩
              · exact hall x hx hex
    · -- c not eligible: skipped entirely
      rw [busyStep_skip_eq false st c hel]
      obtain ⟨ihn, ihs⟩ := ih hwrest st hn hs
      constructor
      · intro hnone
        obtain ⟨hfn, hrest⟩ := ihn hnone
        refine ⟨hfn, fun x hx => ?_⟩
        rcases List.mem_cons.mp hx with rfl | hx
        · rcases Bool.eq_false_or_eq_true (busyEligible x) with h | h
          · exact absurd h hel
          · exact h
        · exact hrest x hx
      · intro r hr
        obtain ⟨he, hws, hls, hmem, hall, hr0⟩ := ihs r hr
        refine ⟨he, hws, hls, ?_, ?_, hr0⟩
        · rcases hmem with h | h
          · exact Or.inl (by simp [h])
          · exact Or.inr h
        · intro x hx hex
          rcases List.mem_cons.mp hx with rfl | hx
          · exact absurd hex hel
          · exact hall x hx hex

/-- Main loop invariant for `allocateBusyReg` in the regOptional case
(`allocateIfProfitable = true`): a candidate is ever selected exactly when some
eligible candidate's occupant weight is strictly below the weight of the
reference being allocated (lsra.cpp 3537-3542, 3631-3640, 3688-3694). -/
theorem busy_fold_profitable (refWeight : Nat) (cands : List BusyCand) :
    ∀ st : BusySel,
    (st.found = none → st.farthestWeight = refWeight) →
    (∀ r0, st.found = some r0 →
      busyEligible r0 = true ∧ st.farthestWeight = r0.weight ∧ r0.weight < refWeight) →
    ((cands.foldl (busyStep true) st).found = none →
        st.found = none ∧ ∀ c ∈ cands, busyEligible c = true → ¬ c.weight < refWeight) ∧
    (∀ r, (cands.foldl (busyStep true) st).found = some r →
        busyEligible r = true ∧ r.weight < refWeight ∧
        ((∃ c ∈ cands, busyEligible c = true ∧ c.weight < refWeight) ∨ st.found = some r)) := by
  induction cands with
  | nil =>
    intro st _ hs
    refine ⟨fun h => ⟨h, by simp⟩, fun r hr => ?_⟩
    simp only [List.foldl_nil] at hr
    obtain ⟨he, _, hlt⟩ := hs r hr
    exact ⟨he, hlt, Or.inr hr⟩
  | cons c rest ih =>
    intro st hn hs
    simp only [List.foldl_cons]
    by_cases hel : busyEligible c = true
    · by_cases h4 : c.weight > st.farthestWeight
      · -- filtered by weight
        rw [busyStep_keep_of_weight true st c h4]
        obtain ⟨ihn, ihs⟩ := ih st hn hs
        constructor
        · intro hnone
          obtain ⟨hfn, hrest⟩ := ihn hnone
          refine ⟨hfn, fun x hx hex => ?_⟩
          rcases List.mem_cons.mp hx with rfl | hx
          · rw [hn hfn] at h4; omega
          · exact hrest x hx hex
        · intro r hr
          obtain ⟨he, hlt, hmem⟩ := ihs r hr
          refine ⟨he, hlt, ?_⟩
          rcases hmem with ⟨x, hx, hh⟩ | h
          · exact Or.inl ⟨x, by simp [hx], hh⟩
          · exact Or.inr h
      · by_cases hb : busyBetter true st c = true
        · -- c selected; show c.weight < refWeight
          have hclt : c.weight < refWeight := by
            rw [busyBetter_true_iff] at hb
            rcases hb with h5 | ⟨hsome, _⟩
            · cases hfound : st.found with
              | none => rw [hn hfound] at h5; exact h5
              | some r0 =>
                have := (hs r0 hfound).2
                omega
            · cases hfound : st.found with
              | none => rw [hfound] at hsome; simp at hsome
              | some r0 =>
                have h0 := hs r0 hfound
                omega
          rw [busyStep_select_eq true st c hel h4 hb]
          obtain ⟨ihn, ihs⟩ := ih
            { farthestLocation := busyNextLoc c, farthestWeight := c.weight, found := some c }
            (by simp) (fun rr hrr => by
              simp only [Option.some.injEq] at hrr
              subst hrr
              exact ⟨hel, rfl, hclt⟩)
          constructor
          · intro hnone
            obtain ⟨hfn, _⟩ := ihn hnone
            simp at hfn
          · intro r hr
            obtain ⟨he, hlt, hmem⟩ := ihs r hr
            refine ⟨he, hlt, Or.inl ?_⟩
            rcases hmem with ⟨x, hx, hh⟩ | h
            · exact ⟨x, by simp [hx], hh⟩
            · simp only [Option.some.injEq] at h
              subst h
              exact ⟨c, by simp, he, hlt⟩
        · -- c rejected on the tie-break; its weight is not below refWeight when nothing found yet
          rw [busyStep_keep_of_not_better true st c hb]
          obtain ⟨ihn, ihs⟩ := ih st hn hs
          constructor
          · intro hnone
            obtain ⟨hfn, hrest⟩ := ihn hnone
            refine ⟨hfn, fun x hx hex => ?_⟩
            rcases List.mem_cons.mp hx with rfl | hx
            · intro hxlt
              apply hb
              rw [busyBetter_true_iff]
              exact Or.inl (by rw [hn hfn]; exact hxlt)
            · exact hrest x hx hex
          · intro r hr
            obtain ⟨he, hlt, hmem⟩ := ihs r hr
            refine ⟨he, hlt, ?_⟩
            rcases hmem with ⟨x, hx, hh⟩ | h
            · exact Or.inl ⟨x, by simp [hx], hh⟩
            · exact Or.inr h
    · -- not eligible
      rw [busyStep_skip_eq true st c hel]
      obtain ⟨ihn, ihs⟩ := ih st hn hs
      constructor
      · intro hnone
        obtain ⟨hfn, hrest⟩ := ihn hnone
        refine ⟨hfn, fun x hx hex => ?_⟩
        rcases List.mem_cons.mp hx with rfl | hx
        · exact absurd hex hel
        · exact hrest x hx hex
      · intro r hr
        obtain ⟨he, hlt, hmem⟩ := ihs r hr
        refine ⟨he, hlt, ?_⟩
        rcases hmem with ⟨x, hx, hh⟩ | h
        · exact Or.inl ⟨x, by simp [hx], hh⟩
        · exact Or.inr h

/-- The Interval-level state that `unassignPhysReg` and `spillInterval` read and
write when `allocateBusyReg` evicts an occupant (lsra.cpp 3760, 4215-4342,
4039-4080). -/
structure EvictIvl where
  /-- `assignedInterval->isActive` (lsra.cpp 4273). -/
  isActive : Bool
  /-- `spillRefPosition->nextRefPosition != nullptr` (lsra.cpp 4254-4258, 4273). -/
  hasNextRef : Bool
  /-- `fromRefPosition->lastUse` (lsra.cpp 4045). -/
  recentLastUse : Bool
  /-- `fromRefPosition->RegOptional()` (lsra.cpp 4049). -/
  recentRegOptional : Bool
  /-- `interval->isLocalVar` (lsra.cpp 4049). -/
  isLocalVar : Bool
  /-- `fromRefPosition->IsActualRef()` (lsra.cpp 4049). -/
  recentIsActualRef : Bool
  /-- `interval->isSpilled`. -/
  isSpilled : Bool
  /-- `fromRefPosition->spillAfter`. -/
  recentSpillAfter : Bool
  /-- `interval->physReg == REG_NA`. -/
  physRegNA : Bool
deriving DecidableEq, Repr

/-- `LinearScan::spillInterval` (lsra.cpp 4039-4080) on the embedded flags:
mark `spillAfter` on the RefPosition at which the Interval is evicted (unless
that was a last use, or a regOptional reference of a non-local), deactivate the
Interval and mark it spilled (`setIntervalAsSpilled`, lsra.cpp 3999-4024). -/
def spillIntervalMark (i : EvictIvl) : EvictIvl :=
  let i1 :=
    if !i.recentLastUse then
      if i.recentRegOptional && !(i.isLocalVar && i.recentIsActualRef) then i
      else { i with recentSpillAfter := true }
    else i
  { i1 with isActive := false, isSpilled := true }

/-- `LinearScan::unassignPhysReg` (lsra.cpp 4215-4342) on the embedded flags,
for an occupant genuinely assigned to the register: clear the Interval's
`physReg` (lsra.cpp 4271) and, when it is active and has a further RefPosition,
spill it (lsra.cpp 4273, 4334). -/
def unassignPhysRegMark (i : EvictIvl) : EvictIvl :=
  let i' := { i with physRegNA := true }
  if i.isActive && i.hasNextRef then spillIntervalMark i' else i'

/-- lsra.cpp 5472-5476: when the allocation loop reaches a use RefPosition of
an Interval that is not currently in a register, the RefPosition is marked
`reload`. -/
def reloadOnNextUse (physRegNA : Bool) (isUse : Bool) (reload : Bool) : Bool :=
  if physRegNA && isUse then true else reload

/-- C3: when no free register is available for a mandatory reference,
`allocateBusyReg` selects the register to evict by minimum usage weight of the
occupant's recent reference and, among candidates of equal weight, by the
farthest next reference location; the evicted occupant has its Interval marked
spilled (with `spillAfter` placed on its recent reference when that was not a
last use), loses its physical register, and its next RefPosition, being a use
of an Interval not in a register, is marked `reload` when processed. -/
theorem claim_C3_allocateBusyReg_evicts_min_weight_farthest
    (cands : List BusyCand) (refWeight : Nat)
    (hw : ∀ c ∈ cands, c.weight < BB_MAX_WEIGHT)
    (hex : ∃ c ∈ cands, busyEligible c = true) :
    (∃ r, allocateBusyRegSel false refWeight cands = some r ∧
      busyEligible r = true ∧ r ∈ cands ∧
      (∀ c ∈ cands, busyEligible c = true →
        r.weight ≤ c.weight ∧ (c.weight = r.weight → busyNextLoc c ≤ busyNextLoc r))) ∧
    (∀ i : EvictIvl, i.isActive = true → i.hasNextRef = true →
      (unassignPhysRegMark i).isSpilled = true ∧
      (unassignPhysRegMark i).physRegNA = true ∧
      (i.recentLastUse = false → i.recentRegOptional = false →
        (unassignPhysRegMark i).recentSpillAfter = true)) ∧
    (∀ reload : Bool, reloadOnNextUse true true reload = true) := by
  refine ⟨?_, ?_, ?_⟩
  · have hmand := busy_fold_mandatory cands hw
      { farthestLocation := 0, farthestWeight := BB_MAX_WEIGHT, found := none }
      (fun _ => rfl) (fun r0 h0 => by cases h0)
    cases hres : (cands.foldl (busyStep false)
        { farthestLocation := 0, farthestWeight := BB_MAX_WEIGHT, found := none }).found with
    | none =>
      obtain ⟨_, hall⟩ := hmand.1 hres
      obtain ⟨c, hc, hcel⟩ := hex
      rw [hall c hc] at hcel
      cases hcel
    | some r =>
      obtain ⟨he, _, _, hmem, hall, _⟩ := hmand.2 r hres
      refine ⟨r, ?_, he, ?_, fun c hc hcel => hall c hc hcel⟩
      · unfold allocateBusyRegSel
        exact hres
      · rcases hmem with h | h
        · exact h
        · cases h
  · intro i hact hnext
    unfold unassignPhysRegMark spillIntervalMark
    by_cases hlu : i.recentLastUse = true
    · simp [hact, hnext, hlu]
    · by_cases hro : i.recentRegOptional = true
      · by_cases hli : (i.isLocalVar && i.recentIsActualRef) = true
        · simp [hact, hnext, hlu, hro, hli]
        · simp [hact, hnext, hlu, hro, hli]
      · simp [hact, hnext, hlu, hro]
  · intro reload
    simp [reloadOnNextUse]

/-- The concrete scenario: three occupied candidate registers with equal
occupant weights and next uses at locations 20, 50 and 40; the one whose
occupant's next use is farthest (register 2) is selected for eviction. -/
def busyScenario : List BusyCand :=
  [{ regNum := 1, inCandidates := true, spillCand := true, refActive := false,
     weight := 10, intervalNextLoc := 20, physRegNextLoc := 30, reloadRegOptional := false },
   { regNum := 2, inCandidates := true, spillCand := true, refActive := false,
     weight := 10, intervalNextLoc := 50, physRegNextLoc := 60, reloadRegOptional := false },
   { regNum := 3, inCandidates := true, spillCand := true, refActive := false,
     weight := 10, intervalNextLoc := 40, physRegNextLoc := 45, reloadRegOptional := false }]

theorem claim_C3_witness :
    ((∃ r, allocateBusyRegSel false 6 busyScenario = some r ∧
      busyEligible r = true ∧ r ∈ busyScenario ∧
      (∀ c ∈ busyScenario, busyEligible c = true →
        r.weight ≤ c.weight ∧ (c.weight = r.weight → busyNextLoc c ≤ busyNextLoc r))) ∧
    (∀ i : EvictIvl, i.isActive = true → i.hasNextRef = true →
      (unassignPhysRegMark i).isSpilled = true ∧
      (unassignPhysRegMark i).physRegNA = true ∧
      (i.recentLastUse = false → i.recentRegOptional = false →
        (unassignPhysRegMark i).recentSpillAfter = true)) ∧
    (∀ reload : Bool, reloadOnNextUse true true reload = true)) ∧
    (allocateBusyRegSel false 6 busyScenario).map (fun c => c.regNum) = some 2 :=
  ⟨claim_C3_allocateBusyReg_evicts_min_weight_farthest busyScenario 6
      (by decide) (by decide),
   by decide⟩

/-- The outcome record of the no-free-register tail of `allocateRegisters`
(lsra.cpp 5722-5767). -/
structure NoRegOutcome where
  fatalNowayAssert : Bool
  registerAssignment : Option Nat
  reload : Bool
  intervalSpilled : Bool
deriving DecidableEq, Repr

/-- The no-free-register tail of `allocateRegisters` (lsra.cpp 5735-5767) for
an allocatable (actual) reference: when `allocateBusyReg` found no register,
`noway_assert(currentRefPosition->RegOptional())` (lsra.cpp 5752) makes the
mandatory case a fatal compiler-internal failure, while a regOptional reference
is declined locally: its register assignment is cleared, its `reload` flag is
cleared and the Interval is marked spilled (lsra.cpp 5754-5756). -/
def handleNoFreeRegOutcome (regOptional : Bool) (busyResult : Option Nat)
    (prevReload : Bool) (prevAssignment : Option Nat) : NoRegOutcome :=
  match busyResult with
  | some r =>
    { fatalNowayAssert := false, registerAssignment := some r,
      reload := prevReload, intervalSpilled := false }
  | none =>
    if regOptional then
      { fatalNowayAssert := false, registerAssignment := none,
        reload := false, intervalSpilled := true }
    else
      { fatalNowayAssert := true, registerAssignment := prevAssignment,
        reload := prevReload, intervalSpilled := false }

/-- A single occupied candidate register whose occupant weight equals
the requesting reference's weight. -/
def busyCandEqualWeight : BusyCand :=
  { regNum := 2, inCandidates := true, spillCand := true, refActive := false,
    weight := 5, intervalNextLoc := 9, physRegNextLoc := 9, reloadRegOptional := false }

/-- C5, counterexample: the claim reads "no profitable spill candidate" as "no
occupied register whose occupant's recent-reference weight would not exceed
(i.e. is at most) the requesting reference's own weight".  With one eligible
occupied register of weight exactly equal to the reference's weight (5),
`allocateBusyReg` nevertheless declines the allocation, so "declined iff no
candidate of weight at most the reference's" is false at this input. -/
theorem claim_C5_counterexample :
    ¬ ((allocateBusyRegSel true 5 [busyCandEqualWeight] = none) ↔
        ∀ c ∈ [busyCandEqualWeight], busyEligible c = true → ¬ c.weight ≤ 5) := by
  decide

/-- C5, amended: for a RefPosition that finds no free register, the outcome
depends only on regOptional-ness: a mandatory reference with no spill candidate
hits a fatal `noway_assert`, and a regOptional one is declined locally (its
register assignment cleared, its reload flag cleared, its Interval marked
spilled) — where, for a regOptional reference, "no profitable spill candidate"
means no eligible occupied register whose occupant's recent-reference weight is
strictly less than the requesting reference's own weight. -/
theorem claim_C5_amended_exhaustion_outcome (refWeight : Nat) (cands : List BusyCand)
    (prevReload : Bool) (prevAssignment : Option Nat) :
    ((allocateBusyRegSel true refWeight cands = none) ↔
      ∀ c ∈ cands, busyEligible c = true → ¬ c.weight < refWeight) ∧
    ((handleNoFreeRegOutcome false none prevReload prevAssignment).fatalNowayAssert = true) ∧
    ((handleNoFreeRegOutcome true none prevReload prevAssignment) =
      { fatalNowayAssert := false, registerAssignment := none,
        reload := false, intervalSpilled := true }) ∧
    (∀ r, (handleNoFreeRegOutcome true (some r) prevReload prevAssignment).fatalNowayAssert = false) := by
  refine ⟨?_, rfl, rfl, fun r => rfl⟩
  have hprof := busy_fold_profitable refWeight cands
    { farthestLocation := 0, farthestWeight := refWeight, found := none }
    (fun _ => rfl) (fun r0 h0 => by cases h0)
  constructor
  · intro hnone
    refine (hprof.1 ?_).2
    unfold allocateBusyRegSel at hnone
    exact hnone
  · intro hall
    cases hres : allocateBusyRegSel true refWeight cands with
    | none => rfl
    | some r =>
      have hres' : (cands.foldl (busyStep true)
          { farthestLocation := 0, farthestWeight := refWeight, found := none }).found = some r := by
        unfold allocateBusyRegSel at hres
        exact hres
      obtain ⟨he, hlt, hmem⟩ := hprof.2 r hres'
      rcases hmem with ⟨x, hx, hxel, hxlt⟩ | h
      · exact absurd hxlt (hall x hx hxel)
      · cases h

theorem claim_C5_witness :
    ((allocateBusyRegSel true 5 [busyCandEqualWeight] = none) ↔
      ∀ c ∈ [busyCandEqualWeight], busyEligible c = true → ¬ c.weight < 5) ∧
    ((handleNoFreeRegOutcome false none true (some 4)).fatalNowayAssert = true) ∧
    ((handleNoFreeRegOutcome true none true (some 4)) =
      { fatalNowayAssert := false, registerAssignment := none,
        reload := false, intervalSpilled := true }) ∧
    (∀ r, (handleNoFreeRegOutcome true (some r) true (some 4)).fatalNowayAssert = false) :=
  claim_C5_amended_exhaustion_outcome 5 [busyCandEqualWeight] true (some 4)

/-! ## Free-register selection: `tryAllocateFreeReg` (lsra.cpp 2672-3128)

We embed the Register Selection loop (lsra.cpp 2948-3096) over the register
order.  One candidate register is embedded by the data the loop reads for it;
the quantities computed before the loop (preference masks after the
related-interval chain walk, `rangeEndLocation`, `lastLocation`, the previous
physical assignment) form the environment. -/

structure FreeCand where
  regNum : Nat
  /-- `candidates & candidateBit` (lsra.cpp 2953). -/
  inCandidates : Bool
  /-- `physRegRecord->assignedInterval == currentInterval` (lsra.cpp 2967). -/
  assignedIsCurrent : Bool
  /-- `registerIsAvailable(...)` (lsra.cpp 2975). -/
  available : Bool
  /-- the `nextPhysRefLocation` out-parameter of `registerIsAvailable`
  (lsra.cpp 2963, 2975). -/
  nextPhysRefLocation : Nat
  /-- `physRegRecord->conflictingFixedRegReference(refPosition)` (lsra.cpp 2984). -/
  conflictingFixed : Bool
  /-- `isMatchingConstant(physRegRecord, refPosition)` (lsra.cpp 2991). -/
  matchingConstant : Bool
  /-- `rangeEndRefPosition->isFixedRefOfReg(regNum)` (lsra.cpp 3001). -/
  fixedRefAtRangeEnd : Bool
  /-- `physRegRecord->isCalleeSave` (lsra.cpp 3032). -/
  isCalleeSave : Bool
  /-- `isAssigned(physRegRecord, lastLocation)` (lsra.cpp 3039). -/
  assignedToLastLoc : Bool
deriving DecidableEq, Repr

structure FreeRegEnv where
  /-- `currentInterval->isConstant && RefTypeIsDef(refPosition->refType)` (lsra.cpp 2990). -/
  isConstantDef : Bool
  /-- the `preferences` mask after lsra.cpp 2732-2736. -/
  preferences : List Nat
  /-- the `relatedPreferences` mask after the related-interval chain walk
  (lsra.cpp 2753, 2771-2813). -/
  relatedPreferences : List Nat
  /-- `relatedInterval->lastRefPosition->nodeLocation` (lsra.cpp 3018). -/
  relatedLastLocation : Nat
  /-- `refPosition->registerAssignment` when it is a single register, for the
  overloaded RELATED_PREFERENCE test (lsra.cpp 3027). -/
  refAssignSingle : Option Nat
  /-- `preferCalleeSave` (lsra.cpp 2755, 2796, 2822). -/
  preferCalleeSave : Bool
  /-- `rangeEndLocation = rangeEndRefPosition->getRefEndLocation()` (lsra.cpp 2840). -/
  rangeEndLocation : Nat
  /-- `lastLocation = lastRefPosition->getRefEndLocation()` (lsra.cpp 2841). -/
  lastLocation : Nat
  /-- `prevReg`, the previous physical assignment (lsra.cpp 2842, 2854). -/
  prevReg : Option Nat
deriving DecidableEq, Repr

/-- lsra.cpp 2996-3005: when the register's next reference is a fixed reference
of the range-end RefPosition itself, the location is incremented so the
register still counts as covering the live range. -/
def adjNextLoc (env : FreeRegEnv) (c : FreeCand) : Nat :=
  if c.nextPhysRefLocation = env.rangeEndLocation && c.fixedRefAtRangeEnd then
    c.nextPhysRefLocation + 1
  else c.nextPhysRefLocation

/-- The register score, a bitwise sum of the `RegisterScore` criteria
(lsra.cpp 2904-2913, computed at 2989-3042):
`VALUE_AVAILABLE = 0x40`, `COVERS = 0x20`, `OWN_PREFERENCE = 0x10`,
`COVERS_RELATED = 0x08`, `RELATED_PREFERENCE = 0x04`, `CALLER_CALLEE = 0x02`,
`UNASSIGNED = 0x01`. -/
def candScore (env : FreeRegEnv) (c : FreeCand) : Nat :=
  let nextLoc := adjNextLoc env c
  (if env.isConstantDef && c.matchingConstant then 0x40 else 0) +
  (if c.regNum ∈ env.preferences then
      0x10 + (if nextLoc > env.rangeEndLocation then 0x20 else 0)
   else 0) +
  (if c.regNum ∈ env.relatedPreferences then
      0x04 + (if nextLoc > env.relatedLastLocation then 0x08 else 0)
   else if env.refAssignSingle = some c.regNum then 0x04 else 0) +
  (if env.preferCalleeSave = c.isCalleeSave then 2 else 0) +
  (if !c.assignedToLastLoc then 1 else 0)

/-- `bestPossibleScore` (lsra.cpp 2922-2926). -/
def bestPossibleScore (env : FreeRegEnv) : Nat :=
  if env.relatedPreferences.isEmpty then 0x33 else 0x3F

/-- A candidate surviving the availability and conflict checks of the loop
(lsra.cpp 2953, 2975, 2984). -/
def freeEligible (c : FreeCand) : Bool :=
  c.inCandidates && c.available && !c.conflictingFixed

/-- The running selection state (`bestScore`, `bestLocation`,
`availablePhysRegInterval`, lsra.cpp 2891, 2915, 2928). -/
structure FreeSel where
  bestScore : Nat
  bestLocation : Nat
  best : Option FreeCand
deriving DecidableEq, Repr

/-- The `foundBetterCandidate` decision (lsra.cpp 3044-3074): a higher score
wins; at equal scores, while the best so far does not cover the range, a
farther next reference wins; once it covers the range, a sooner-killed
covering register wins, with the previous assignment preferred at a tie. -/
def freeBetter (env : FreeRegEnv) (st : FreeSel) (score nextLoc : Nat) (c : FreeCand) : Bool :=
  if score > st.bestScore then true
  else if score = st.bestScore then
    if st.bestLocation ≤ env.lastLocation then
      (if nextLoc > st.bestLocation then true else false)
    else if nextLoc > env.lastLocation then
      (if nextLoc < st.bestLocation then true
       else if nextLoc = st.bestLocation ∧ env.prevReg = some c.regNum then true
       else false)
    else false
  else false

/-- The Register Selection loop of `tryAllocateFreeReg` (lsra.cpp 2948-3096),
release build (`reverseSelect = false`), including the break on a register
already holding the interval (lsra.cpp 2967-2972) and the early exit on a
perfect score (lsra.cpp 3091-3095). -/
def freeSelLoop (env : FreeRegEnv) : List FreeCand → FreeSel → FreeSel
  | [], st => st
  | c :: rest, st =>
    if !c.inCandidates then freeSelLoop env rest st
    else if c.assignedIsCurrent then { st with best := some c }
    else if !c.available then freeSelLoop env rest st
    else if c.conflictingFixed then freeSelLoop env rest st
    else
      let score := candScore env c
      let nextLoc := adjNextLoc env c
      let st' := if freeBetter env st score nextLoc c then
          { bestScore := score, bestLocation := nextLoc, best := some c } else st
      if score = bestPossibleScore env ∧ st'.bestLocation = env.rangeEndLocation + 1 then st'
      else freeSelLoop env rest st'

/-- `tryAllocateFreeReg`, reduced to its Register Selection over the register
order (`bestScore`, `bestLocation` start at 0 = `MinLocation`, lsra.cpp
2915, 2928). -/
def tryAllocateFreeRegSelect (env : FreeRegEnv) (cands : List FreeCand) : Option FreeCand :=
  (freeSelLoop env cands { bestScore := 0, bestLocation := 0, best := none }).best

/-- The claim-level preference order: `c` is strictly preferable to `r` exactly
when it has a higher score, or an equal score and a better location per the
cover-sensitive tie-break. -/
def freeStrictlyPreferred (env : FreeRegEnv) (c r : FreeCand) : Prop :=
  candScore env c > candScore env r ∨
    (candScore env c = candScore env r ∧
      ((adjNextLoc env r ≤ env.lastLocation ∧ adjNextLoc env c > adjNextLoc env r) ∨
       (¬ adjNextLoc env r ≤ env.lastLocation ∧ adjNextLoc env c > env.lastLocation ∧
        adjNextLoc env c < adjNextLoc env r)))

instance (env : FreeRegEnv) (c r : FreeCand) : Decidable (freeStrictlyPreferred env c r) := by
  unfold freeStrictlyPreferred
  infer_instance

theorem freeBetter_iff (env : FreeRegEnv) (bs bl score nextLoc : Nat) (b : Option FreeCand)
    (c : FreeCand) :
    freeBetter env ⟨bs, bl, b⟩ score nextLoc c = true ↔
      (score > bs ∨
        (score = bs ∧
          ((bl ≤ env.lastLocation ∧ nextLoc > bl) ∨
           (¬ bl ≤ env.lastLocation ∧ nextLoc > env.lastLocation ∧
             (nextLoc < bl ∨ (nextLoc = bl ∧ env.prevReg = some c.regNum)))))) := by
  unfold freeBetter
  by_cases h1 : score > bs
  · simp [h1]
  · by_cases h2 : score = bs
    · by_cases h3 : bl ≤ env.lastLocation
      · by_cases h4 : nextLoc > bl
        · simp [h1, h2, h3, h4]
        · simp [h1, h2, h3, h4]
      · by_cases h5 : nextLoc > env.lastLocation
        · by_cases h6 : nextLoc < bl
          · simp [h1, h2, h3, h5, h6]
          · by_cases h7 : nextLoc = bl ∧ env.prevReg = some c.regNum
            · simp [h1, h2, h3, h5, h6, h7]
            · simp [h1, h2, h3, h5, h6, h7]
        · simp [h1, h2, h3, h5]
    · simp [h1, h2]

theorem freeStrictlyPreferred_irrefl (env : FreeRegEnv) (c : FreeCand) :
    ¬ freeStrictlyPreferred env c c := by
  unfold freeStrictlyPreferred
  omega

/-- A candidate that was skipped while nothing was selected (score 0, adjusted
location 0) is never strictly preferable to anything. -/
theorem freeZero_not_preferred (env : FreeRegEnv) (x r : FreeCand)
    (hs : candScore env x = 0) (hl : adjNextLoc env x = 0) :
    ¬ freeStrictlyPreferred env x r := by
  unfold freeStrictlyPreferred
  omega

/-- If `c` replaces the best `r0`, then anything not strictly preferable to
`r0` is not strictly preferable to `c` either. -/
theorem freeNotPreferred_step (env : FreeRegEnv) (r0 c x : FreeCand)
    (hb : freeBetter env ⟨candScore env r0, adjNextLoc env r0, some r0⟩
        (candScore env c) (adjNextLoc env c) c = true)
    (hx : ¬ freeStrictlyPreferred env x r0) :
    ¬ freeStrictlyPreferred env x c := by
  rw [freeBetter_iff] at hb
  intro hsp
  apply hx
  unfold freeStrictlyPreferred at hsp ⊢
  rcases hb with hb | ⟨hbe, hb2⟩
  · omega
  · rcases hb2 with ⟨hble, hbgt⟩ | ⟨hbnle, hbgtL, hbrest⟩
    · omega
    · rcases hbrest with hlt | ⟨heq, _⟩
      · omega
      · omega

/-- If `c` fails to replace the best `r0`, then `c` is not strictly preferable
to `r0`. -/
theorem freeReject_not_preferred (env : FreeRegEnv) (r0 c : FreeCand)
    (hb : freeBetter env ⟨candScore env r0, adjNextLoc env r0, some r0⟩
        (candScore env c) (adjNextLoc env c) c = false) :
    ¬ freeStrictlyPreferred env c r0 := by
  intro hsp
  have : freeBetter env ⟨candScore env r0, adjNextLoc env r0, some r0⟩
      (candScore env c) (adjNextLoc env c) c = true := by
    rw [freeBetter_iff]
    unfold freeStrictlyPreferred at hsp
    rcases hsp with h | ⟨he, hl⟩
    · exact Or.inl h
    · rcases hl with ⟨h1, h2⟩ | ⟨h1, h2, h3⟩
      · exact Or.inr ⟨he, Or.inl ⟨h1, h2⟩⟩
      · exact Or.inr ⟨he, Or.inr ⟨h1, h2, Or.inl h3⟩⟩
  rw [this] at hb
  cases hb

/-- If nothing is selected yet, a candidate is skipped exactly when its score
and adjusted location are both zero. -/
theorem freeBetter_none_zero (env : FreeRegEnv) (s l : Nat) (b : Option FreeCand) (c : FreeCand)
    (hb : freeBetter env ⟨0, 0, b⟩ s l c = false) : s = 0 ∧ l = 0 := by
  have hnp : ¬ (s > 0 ∨
      (s = 0 ∧
        ((0 ≤ env.lastLocation ∧ l > 0) ∨
         (¬ (0:Nat) ≤ env.lastLocation ∧ l > env.lastLocation ∧
           (l < 0 ∨ (l = 0 ∧ env.prevReg = some c.regNum)))))) := by
    rw [← freeBetter_iff env 0 0 s l b c]
    simp [hb]
  have hs : s = 0 := by
    by_contra hs
    exact hnp (Or.inl (by omega))
  refine ⟨hs, ?_⟩
  by_contra hl
  exact hnp (Or.inr ⟨hs, Or.inl ⟨Nat.zero_le _, by omega⟩⟩)

/-- Main loop invariant of the Register Selection loop: when no register
already holds the interval and no candidate reaches the perfect score, the
selected register is maximal for the code's preference order. -/
theorem free_fold_inv (env : FreeRegEnv) :
    ∀ (cands : List FreeCand) (st : FreeSel),
    (∀ c ∈ cands, c.assignedIsCurrent = false) →
    (∀ c ∈ cands, freeEligible c = true → candScore env c ≠ bestPossibleScore env) →
    (st.best = none → st.bestScore = 0 ∧ st.bestLocation = 0) →
    (∀ r0, st.best = some r0 → freeEligible r0 = true ∧
      st.bestScore = candScore env r0 ∧ st.bestLocation = adjNextLoc env r0) →
    ∀ r, (freeSelLoop env cands st).best = some r →
      freeEligible r = true ∧
      (r ∈ cands ∨ st.best = some r) ∧
      (∀ c ∈ cands, freeEligible c = true → ¬ freeStrictlyPreferred env c r) ∧
      (∀ r0, st.best = some r0 →
        ∀ x, ¬ freeStrictlyPreferred env x r0 → ¬ freeStrictlyPreferred env x r) := by
  intro cands
  induction cands with
  | nil =>
    intro st _ _ _ hsome r hr
    simp only [freeSelLoop] at hr
    obtain ⟨he, _, _⟩ := hsome r hr
    exact ⟨he, Or.inr hr, by simp, fun r0 h0 x hx => by
      rw [hr] at h0
      cases h0
      exact hx⟩
  | cons c rest ih =>
    intro st hcur hnoexit hnone hsome r hr
    have hcurc : c.assignedIsCurrent = false := hcur c (by simp)
    have hcurrest : ∀ x ∈ rest, x.assignedIsCurrent = false := fun x hx => hcur x (by simp [hx])
    have hnoexitrest : ∀ x ∈ rest, freeEligible x = true → candScore env x ≠ bestPossibleScore env :=
      fun x hx => hnoexit x (by simp [hx])
    by_cases h1 : c.inCandidates = true
    · by_cases h2 : c.available = true
      · by_cases h3 : c.conflictingFixed = true
        · -- conflicting fixed reference: skipped, and c is not eligible
          have hstep : freeSelLoop env (c :: rest) st = freeSelLoop env rest st := by
            simp [freeSelLoop, h1, hcurc, h2, h3]
          rw [hstep] at hr
          obtain ⟨he, hmem, hall, hprop⟩ := ih st hcurrest hnoexitrest hnone hsome r hr
          refine ⟨he, ?_, ?_, hprop⟩
          · rcases hmem with h | h
            · exact Or.inl (by simp [h])
            · exact Or.inr h
          · intro x hx hex
            rcases List.mem_cons.mp hx with rfl | hx
            · rw [freeEligible] at hex
              simp [h3] at hex
            · exact hall x hx hex
        · -- eligible candidate
          have hel : freeEligible c = true := by
            simp [freeEligible, h1, h2, h3]
          have hnx : candScore env c ≠ bestPossibleScore env := hnoexit c (by simp) hel
          obtain ⟨bs, bl, bopt⟩ := st
          by_cases hb : freeBetter env ⟨bs, bl, bopt⟩ (candScore env c) (adjNextLoc env c) c = true
          · -- c becomes the new best
            have hstep : freeSelLoop env (c :: rest) ⟨bs, bl, bopt⟩ =
                freeSelLoop env rest
                  ⟨candScore env c, adjNextLoc env c, some c⟩ := by
              simp only [freeSelLoop, h1, hcurc, h2, h3, hb]
              simp [hnx]
            rw [hstep] at hr
            obtain ⟨he, hmem, hall, hprop⟩ := ih ⟨candScore env c, adjNextLoc env c, some c⟩
              hcurrest hnoexitrest (fun h => by cases h) (fun r0 h0 => by
                simp only [Option.some.injEq] at h0
                subst h0
                exact ⟨hel, rfl, rfl⟩) r hr
            have hpc : ∀ x, ¬ freeStrictlyPreferred env x c → ¬ freeStrictlyPreferred env x r :=
              hprop c rfl
            refine ⟨he, ?_, ?_, ?_⟩
            · rcases hmem with h | h
              · exact Or.inl (by simp [h])
              · simp only [Option.some.injEq] at h
                subst h
                exact Or.inl (by simp)
            · intro x hx hex
              rcases List.mem_cons.mp hx with rfl | hx
              · exact hpc x (freeStrictlyPreferred_irrefl env x)
              · exact hall x hx hex
            · intro r0 h0 x hx
              simp only at h0
              cases hbopt : bopt with
              | none => rw [hbopt] at h0; cases h0
              | some rr =>
                rw [hbopt] at h0
                cases h0
                obtain ⟨_, hbs, hbl⟩ := hsome r0 (by rw [hbopt])
                simp only at hbs hbl
                subst hbs
                subst hbl
                exact hpc x (freeNotPreferred_step env r0 c x hb hx)
          · -- c rejected
            have hbf : freeBetter env ⟨bs, bl, bopt⟩ (candScore env c) (adjNextLoc env c) c = false := by
              cases hfb : freeBetter env ⟨bs, bl, bopt⟩ (candScore env c) (adjNextLoc env c) c with
              | true => exact absurd hfb hb
              | false => rfl
            have hstep : freeSelLoop env (c :: rest) ⟨bs, bl, bopt⟩ =
                freeSelLoop env rest ⟨bs, bl, bopt⟩ := by
              simp only [freeSelLoop, h1, hcurc, h2, h3, hbf]
              simp [hnx]
            rw [hstep] at hr
            obtain ⟨he, hmem, hall, hprop⟩ := ih ⟨bs, bl, bopt⟩ hcurrest hnoexitrest hnone hsome r hr
            refine ⟨he, ?_, ?_, hprop⟩
            · rcases hmem with h | h
              · exact Or.inl (by simp [h])
              · exact Or.inr h
            · intro x hx hex
              rcases List.mem_cons.mp hx with rfl | hx
              · -- x = c was rejected against the current state
                cases hbopt : bopt with
                | none =>
                  obtain ⟨hbs, hbl⟩ := hnone (by rw [hbopt])
                  simp only at hbs hbl
                  subst hbs; subst hbl
                  obtain ⟨hs0, hl0⟩ := freeBetter_none_zero env _ _ _ x hbf
                  exact freeZero_not_preferred env x r hs0 hl0
                | some r0 =>
                  obtain ⟨_, hbs, hbl⟩ := hsome r0 (by rw [hbopt])
                  simp only at hbs hbl
                  subst hbs; subst hbl
                  have hrej : ¬ freeStrictlyPreferred env x r0 :=
                    freeReject_not_preferred env r0 x (by rw [hbopt] at hbf; exact hbf)
                  exact hprop r0 (by rw [hbopt]) x hrej
              · exact hall x hx hex
      · -- not available: skipped
        have hstep : freeSelLoop env (c :: rest) st = freeSelLoop env rest st := by
          simp [freeSelLoop, h1, hcurc, h2]
        rw [hstep] at hr
        obtain ⟨he, hmem, hall, hprop⟩ := ih st hcurrest hnoexitrest hnone hsome r hr
        refine ⟨he, ?_, ?_, hprop⟩
        · rcases hmem with h | h
          · exact Or.inl (by simp [h])
          · exact Or.inr h
        · intro x hx hex
          rcases List.mem_cons.mp hx with rfl | hx
          · rw [freeEligible] at hex
            simp [h2] at hex
          · exact hall x hx hex
    · -- not in the candidate set: skipped
      have hstep : freeSelLoop env (c :: rest) st = freeSelLoop env rest st := by
        simp [freeSelLoop, h1]
      rw [hstep] at hr
      obtain ⟨he, hmem, hall, hprop⟩ := ih st hcurrest hnoexitrest hnone hsome r hr
      refine ⟨he, ?_, ?_, hprop⟩
      · rcases hmem with h | h
        · exact Or.inl (by simp [h])
        · exact Or.inr h
      · intro x hx hex
        rcases List.mem_cons.mp hx with rfl | hx
        · rw [freeEligible] at hex
          simp [h1] at hex
        · exact hall x hx hex

/-- C4, counterexample inputs: two free candidate registers of equal score
where both cover the interval's remaining range (their next references, at
locations 20 and 15, lie beyond the last location 10). -/
def envC4 : FreeRegEnv :=
  { isConstantDef := false, preferences := [1, 2], relatedPreferences := [],
    relatedLastLocation := 0, refAssignSingle := none, preferCalleeSave := true,
    rangeEndLocation := 10, lastLocation := 10, prevReg := none }

def freeCandFar : FreeCand :=
  { regNum := 1, inCandidates := true, assignedIsCurrent := false, available := true,
    nextPhysRefLocation := 20, conflictingFixed := false, matchingConstant := false,
    fixedRefAtRangeEnd := false, isCalleeSave := false, assignedToLastLoc := false }

def freeCandNear : FreeCand :=
  { regNum := 2, inCandidates := true, assignedIsCurrent := false, available := true,
    nextPhysRefLocation := 15, conflictingFixed := false, matchingConstant := false,
    fixedRefAtRangeEnd := false, isCalleeSave := false, assignedToLastLoc := false }

/-- C4, counterexample: the claim says that among candidates with equal scores
the one whose next real use of the physical register is farthest away is
chosen.  With two equal-score candidates whose next references (20 and 15) both
lie beyond the interval's last location (10), the loop selects the SOONER
killed register 2 (lsra.cpp 3060-3068 prefers a covering register that is
killed sooner), so the farthest-wins tie-break is false at this input. -/
theorem claim_C4_counterexample :
    ¬ (∀ r, tryAllocateFreeRegSelect envC4 [freeCandFar, freeCandNear] = some r →
        ∀ c ∈ [freeCandFar, freeCandNear], freeEligible c = true →
          candScore envC4 c = candScore envC4 r →
          adjNextLoc envC4 c ≤ adjNextLoc envC4 r) := by
  decide

/-- C4, amended: `tryAllocateFreeReg` scores every free candidate register as a
bitwise sum of constant-value-already-resident (0x40), full-lifetime coverage
with the Interval's own preference (0x20), membership in the Interval's
preference set (0x10), full-lifetime coverage with a related Interval's
preference (0x08), membership in the related Interval's preference set (0x04),
caller/callee-save class match (0x02) and not-assigned-beyond-this-Interval's
range (0x01), and selects a candidate of maximal score; among candidates with
equal scores, while the best so far does not cover the Interval's remaining
range, the candidate whose next real use is farther away wins, but among
candidates that cover the range (next use beyond the Interval's last location)
the one killed sooner is preferred, the previous physical assignment being kept
only on an exact location tie.  (Stated for references where no register
already holds the Interval and no candidate reaches the perfect score that
short-circuits the loop.) -/
theorem claim_C4_amended_tryAllocateFreeReg_selection (env : FreeRegEnv)
    (cands : List FreeCand)
    (hcur : ∀ c ∈ cands, c.assignedIsCurrent = false)
    (hnoexit : ∀ c ∈ cands, freeEligible c = true →
      candScore env c ≠ bestPossibleScore env)
    (r : FreeCand) (hr : tryAllocateFreeRegSelect env cands = some r) :
    freeEligible r = true ∧ r ∈ cands ∧
    (∀ c ∈ cands, freeEligible c = true → candScore env c ≤ candScore env r) ∧
    (∀ c ∈ cands, freeEligible c = true → ¬ freeStrictlyPreferred env c r) := by
  obtain ⟨he, hmem, hall, _⟩ := free_fold_inv env cands
    { bestScore := 0, bestLocation := 0, best := none }
    hcur hnoexit (fun _ => ⟨rfl, rfl⟩) (fun r0 h0 => by cases h0) r
    (by unfold tryAllocateFreeRegSelect at hr; exact hr)
  refine ⟨he, ?_, ?_, hall⟩
  · rcases hmem with h | h
    · exact h
    · cases h
  · intro c hc hce
    by_contra hgt
    exact hall c hc hce (Or.inl (by omega))

theorem claim_C4_witness :
    freeEligible freeCandNear = true ∧ freeCandNear ∈ [freeCandFar, freeCandNear] ∧
    (∀ c ∈ [freeCandFar, freeCandNear], freeEligible c = true →
      candScore envC4 c ≤ candScore envC4 freeCandNear) ∧
    (∀ c ∈ [freeCandFar, freeCandNear], freeEligible c = true →
      ¬ freeStrictlyPreferred envC4 c freeCandNear) :=
  claim_C4_amended_tryAllocateFreeReg_selection envC4 [freeCandFar, freeCandNear]
    (by decide) (by decide) freeCandNear (by decide)

/-! ## Register freeing in `allocateRegisters` (lsra.cpp 5143-5261, 5801-5851)

The allocation loop defers freeing: registers of ordinary last uses are
collected in `regsToFree` and freed when the location advances past the use's
location; `delayRegFree` uses are collected in `delayRegsToFree`, which is
shifted into `regsToFree` at the next location and hence freed one location
later.  One RefPosition of the stream is embedded by its location, whether it
triggers block-boundary handling, and the registers it adds to (or removes
from) the two pending sets. -/

structure FreeEvent where
  location : Nat
  /-- this RefPosition triggers block-boundary handling (the first `RefTypeBB`
  or `RefTypeDummyDef` of a boundary, lsra.cpp 5257). -/
  blockBoundary : Bool
  /-- registers entering `regsToFree` while processing this RefPosition:
  ordinary `lastUse` frees (lsra.cpp 5657-5661, 5828-5833). -/
  lastUseRegs : List Nat
  /-- registers entering `delayRegsToFree`: `lastUse && delayRegFree`
  (lsra.cpp 5651-5656, 5822-5826). -/
  delayRegs : List Nat
  /-- registers assigned while processing this RefPosition and removed from
  `regsToFree` (lsra.cpp 5806). -/
  assignedRegs : List Nat
deriving DecidableEq, Repr

structure FreeMachine where
  prevLocation : Nat
  regsToFree : List Nat
  delayRegsToFree : List Nat
deriving DecidableEq, Repr

/-- One RefPosition of the allocation loop, restricted to the registers-to-free
bookkeeping (lsra.cpp 5201-5226 for the location-advance freeing, 5257-5261 for
the block-boundary flush, 5806 for the removal on assignment, and the
per-reference additions).  Returns the updated machine and the registers passed
to `freeRegisters` while handling this RefPosition. -/
def freeStep (st : FreeMachine) (e : FreeEvent) : FreeMachine × List Nat :=
  let adv :=
    if (st.regsToFree ≠ [] ∨ st.delayRegsToFree ≠ []) ∧ e.location > st.prevLocation then
      if e.location > st.prevLocation + 1 ∧ st.delayRegsToFree ≠ [] then
        (st.regsToFree ++ st.delayRegsToFree, ([] : List Nat), ([] : List Nat))
      else
        (st.regsToFree, st.delayRegsToFree, ([] : List Nat))
    else
      (([] : List Nat), st.regsToFree, st.delayRegsToFree)
  let bb :=
    if e.blockBoundary then (adv.2.1, ([] : List Nat)) else (([] : List Nat), adv.2.1)
  ({ prevLocation := e.location,
     regsToFree := (bb.2.filter (fun x => x ∉ e.assignedRegs)) ++ e.lastUseRegs,
     delayRegsToFree := adv.2.2 ++ e.delayRegs },
   adv.1 ++ bb.1)

/-- Run of the freeing machine over a RefPosition stream, collecting the
registers freed at each step. -/
def freeRun (st : FreeMachine) : List FreeEvent → FreeMachine × List (List Nat)
  | [] => (st, [])
  | e :: rest =>
    let s := freeStep st e
    let t := freeRun s.1 rest
    (t.1, s.2 :: t.2)

/-- Non-decreasing location sequence starting from `prev`. -/
def locMonoB : Nat → List FreeEvent → Bool
  | _, [] => true
  | prev, g :: rest => decide (prev ≤ g.location) && locMonoB g.location rest

theorem freeStep_no_advance (st : FreeMachine) (e : FreeEvent)
    (hloc : ¬ st.prevLocation < e.location) (hbb : e.blockBoundary = false) :
    freeStep st e =
      ({ prevLocation := e.location,
         regsToFree := (st.regsToFree.filter (fun x => x ∉ e.assignedRegs)) ++ e.lastUseRegs,
         delayRegsToFree := st.delayRegsToFree ++ e.delayRegs }, []) := by
  unfold freeStep
  have h1 : ¬ ((st.regsToFree ≠ [] ∨ st.delayRegsToFree ≠ []) ∧ e.location > st.prevLocation) := by
    intro h
    exact hloc h.2
  simp [h1, hbb]

/-- While the location does not advance past `L` (and no block boundary
occurs), a register pending in `regsToFree` stays pending and is not freed. -/
theorem freeRun_pending_same_location (r L : Nat) :
    ∀ (q : List FreeEvent) (st : FreeMachine),
    r ∈ st.regsToFree → st.prevLocation = L →
    (∀ g ∈ q, g.location = L ∧ g.blockBoundary = false ∧ r ∉ g.assignedRegs) →
    r ∈ (freeRun st q).1.regsToFree ∧ (freeRun st q).1.prevLocation = L ∧
      ∀ fr ∈ (freeRun st q).2, r ∉ fr := by
  intro q
  induction q with
  | nil =>
    intro st hr hp _
    exact ⟨hr, hp, by simp [freeRun]⟩
  | cons g rest ih =>
    intro st hr hp hq
    obtain ⟨hgl, hgb, hga⟩ := hq g (by simp)
    have hstep := freeStep_no_advance st g (by omega) hgb
    have hr1 : r ∈ (freeStep st g).1.regsToFree := by
      rw [hstep]
      simp only [List.mem_append, List.mem_filter]
      exact Or.inl ⟨hr, by simpa using hga⟩
    have hp1 : (freeStep st g).1.prevLocation = L := by rw [hstep]; exact hgl
    have hfr : (freeStep st g).2 = [] := by rw [hstep]
    obtain ⟨ha, hb, hc⟩ := ih (freeStep st g).1 hr1 hp1
      (fun x hx => hq x (by simp [hx]))
    refine ⟨by simpa [freeRun] using ha, by simpa [freeRun] using hb, ?_⟩
    intro fr hfr2
    simp only [freeRun, List.mem_cons] at hfr2
    rcases hfr2 with rfl | hfr2
    · rw [hfr]; simp
    · exact hc fr hfr2

/-- A pending register is freed as soon as the location advances
(lsra.cpp 5203-5225: any branch of the advance code frees `regsToFree`). -/
theorem freeStep_frees_pending (st : FreeMachine) (f : FreeEvent) (r : Nat)
    (hr : r ∈ st.regsToFree) (hadv : st.prevLocation < f.location) :
    r ∈ (freeStep st f).2 := by
  have hne : st.regsToFree ≠ [] := by intro h; rw [h] at hr; simp at hr
  by_cases hgap : st.prevLocation + 1 < f.location
  · by_cases hdne : st.delayRegsToFree = []
    · simp [freeStep, hne, hadv, hgap, hdne, hr]
    · simp [freeStep, hne, hadv, hgap, hdne, hr]
  · simp [freeStep, hne, hadv, hgap, hr]

/-- Advance without a gap (new location = previous + 1): `regsToFree` is freed
and `delayRegsToFree` is shifted into `regsToFree` (lsra.cpp 5220-5224). -/
theorem freeStep_advance_nogap (st : FreeMachine) (e : FreeEvent)
    (hadv : st.prevLocation < e.location) (hgap : ¬ st.prevLocation + 1 < e.location)
    (hbb : e.blockBoundary = false) (hne : st.delayRegsToFree ≠ []) :
    freeStep st e =
      ({ prevLocation := e.location,
         regsToFree := (st.delayRegsToFree.filter (fun x => x ∉ e.assignedRegs)) ++ e.lastUseRegs,
         delayRegsToFree := e.delayRegs },
       st.regsToFree) := by
  unfold freeStep
  simp [hne, hadv, hgap, hbb]

/-- Processing any RefPosition neither frees nor leaves pending a register that
was in neither pending set: afterwards it is pending exactly as the event adds
it. -/
theorem freeStep_state_facts (st : FreeMachine) (e : FreeEvent) (x : Nat)
    (h1 : x ∉ st.regsToFree) (h2 : x ∉ st.delayRegsToFree) :
    x ∉ (freeStep st e).2 ∧
    ((x ∈ (freeStep st e).1.regsToFree) ↔ x ∈ e.lastUseRegs) ∧
    ((x ∈ (freeStep st e).1.delayRegsToFree) ↔ x ∈ e.delayRegs) ∧
    (freeStep st e).1.prevLocation = e.location := by
  simp only [freeStep]
  split
  · split <;> cases hbb : e.blockBoundary <;> simp_all
  · cases hbb : e.blockBoundary <;> simp_all

/-- Phases of a delayed register: until the first location advance it is in
`delayRegsToFree`; once the location has advanced to `L+1` it is in
`regsToFree`. -/
def DelayPhase (rd L : Nat) (st : FreeMachine) : Prop :=
  (st.prevLocation = L ∧ rd ∈ st.delayRegsToFree ∧ rd ∉ st.regsToFree) ∨
  (st.prevLocation = L + 1 ∧ rd ∈ st.regsToFree)

/-- While locations stay at `L` or `L+1` (monotonically), a `delayRegFree`
register stays pending - in particular it is not freed at location `L+1`
itself, so it still appears occupied there. -/
theorem freeRun_delay_pending (rd L : Nat) :
    ∀ (p : List FreeEvent) (st : FreeMachine),
    DelayPhase rd L st →
    locMonoB st.prevLocation p = true →
    (∀ g ∈ p, (g.location = L ∨ g.location = L + 1) ∧ g.blockBoundary = false ∧
      rd ∉ g.assignedRegs ∧ rd ∉ g.lastUseRegs) →
    DelayPhase rd L (freeRun st p).1 ∧ ∀ fr ∈ (freeRun st p).2, rd ∉ fr := by
  intro p
  induction p with
  | nil => intro st hph _ _; exact ⟨hph, by simp [freeRun]⟩
  | cons g rest ih =>
    intro st hph hm hq
    obtain ⟨hm1, hm2⟩ : st.prevLocation ≤ g.location ∧ locMonoB g.location rest = true := by
      simpa [locMonoB, Bool.and_eq_true] using hm
    obtain ⟨hgl, hgb, hga, hgu⟩ := hq g (by simp)
    have hstep : DelayPhase rd L (freeStep st g).1 ∧ rd ∉ (freeStep st g).2 ∧
        (freeStep st g).1.prevLocation = g.location := by
      rcases hph with ⟨hp, hd, hnr⟩ | ⟨hp, hr⟩
      · rcases hgl with h | h
        · have hno := freeStep_no_advance st g (by omega) hgb
          rw [hno]
          refine ⟨Or.inl ⟨h, by simp [hd], ?_⟩, by simp, rfl⟩
          intro hx
          rcases List.mem_append.mp hx with hx | hx
          · exact hnr (List.mem_filter.mp hx).1
          · exact hgu hx
        · have hadv := freeStep_advance_nogap st g (by omega) (by omega) hgb
            (by intro hcon; rw [hcon] at hd; simp at hd)
          rw [hadv]
          refine ⟨Or.inr ⟨h, ?_⟩, hnr, rfl⟩
          exact List.mem_append.mpr (Or.inl (List.mem_filter.mpr ⟨hd, by simpa using hga⟩))
      · have h : g.location = L + 1 := by
          rcases hgl with h | h
          · exfalso; omega
          · exact h
        have hno := freeStep_no_advance st g (by omega) hgb
        rw [hno]
        refine ⟨Or.inr ⟨h, ?_⟩, by simp, rfl⟩
        exact List.mem_append.mpr (Or.inl (List.mem_filter.mpr ⟨hr, by simpa using hga⟩))
    obtain ⟨hph1, hfr1, hpl1⟩ := hstep
    have hm2a : locMonoB (freeStep st g).1.prevLocation rest = true := by rw [hpl1]; exact hm2
    obtain ⟨ha2, hb2⟩ := ih (freeStep st g).1 hph1 hm2a (fun x hx => hq x (by simp [hx]))
    refine ⟨by simpa [freeRun] using ha2, ?_⟩
    intro fr hfr
    simp only [freeRun, List.mem_cons] at hfr
    rcases hfr with rfl | hfr
    · exact hfr1
    · exact hb2 fr hfr

/-- A delayed register still pending is freed at the first RefPosition whose
location exceeds `L+1`: either it already sits in `regsToFree` (shifted at
`L+1`), or the location gap lets the advance code free `delayRegsToFree`
directly (lsra.cpp 5217-5219). -/
theorem freeStep_frees_delayed (st : FreeMachine) (g : FreeEvent) (rd L : Nat)
    (hph : DelayPhase rd L st) (hloc : L + 1 < g.location) :
    rd ∈ (freeStep st g).2 := by
  rcases hph with ⟨hp, hd, _⟩ | ⟨hp, hr⟩
  · have hne : st.delayRegsToFree ≠ [] := by intro h; rw [h] at hd; simp at hd
    have hadv : st.prevLocation < g.location := by omega
    have hgap : st.prevLocation + 1 < g.location := by omega
    simp [freeStep, hne, hadv, hgap, hd]
  · exact freeStep_frees_pending st g rd hr (by omega)

/-- **C9.** During `allocateRegisters`, a register released by a last use is
never freed while processing RefPositions at the use's own location `L`: an
ordinary last-use register stays pending through every further RefPosition at
location `L` and is freed at the first RefPosition whose location exceeds `L`;
a `delayRegFree` register stays pending through every RefPosition at locations
`L` and `L+1` (so it still appears occupied during the delayed location) and is
freed at the first RefPosition whose location exceeds `L+1`. -/
theorem claim_C9_lastUse_and_delayRegFree_timing
    (st0 : FreeMachine) (e : FreeEvent) (r rd : Nat)
    (hr : r ∈ e.lastUseRegs) (hrd : rd ∈ e.delayRegs)
    (hr0 : r ∉ st0.regsToFree) (hr0d : r ∉ st0.delayRegsToFree)
    (hrd0 : rd ∉ st0.regsToFree) (hrd0d : rd ∉ st0.delayRegsToFree)
    (hrdl : rd ∉ e.lastUseRegs) :
    (r ∉ (freeStep st0 e).2 ∧ rd ∉ (freeStep st0 e).2) ∧
    (∀ (q : List FreeEvent) (f : FreeEvent),
      (∀ g ∈ q, g.location = e.location ∧ g.blockBoundary = false ∧ r ∉ g.assignedRegs) →
      e.location < f.location →
      (∀ fr ∈ (freeRun (freeStep st0 e).1 q).2, r ∉ fr) ∧
      r ∈ (freeStep (freeRun (freeStep st0 e).1 q).1 f).2) ∧
    (∀ (p : List FreeEvent) (g : FreeEvent),
      locMonoB e.location p = true →
      (∀ x ∈ p, (x.location = e.location ∨ x.location = e.location + 1) ∧
        x.blockBoundary = false ∧ rd ∉ x.assignedRegs ∧ rd ∉ x.lastUseRegs) →
      e.location + 1 < g.location →
      (∀ fr ∈ (freeRun (freeStep st0 e).1 p).2, rd ∉ fr) ∧
      rd ∈ (freeStep (freeRun (freeStep st0 e).1 p).1 g).2) := by
  obtain ⟨hfree_r, hrtf_r, _, hprev1⟩ := freeStep_state_facts st0 e r hr0 hr0d
  obtain ⟨hfree_rd, hrtf_rd, hdel_rd, _⟩ := freeStep_state_facts st0 e rd hrd0 hrd0d
  refine ⟨⟨hfree_r, hfree_rd⟩, ?_, ?_⟩
  · intro q f hq hf
    obtain ⟨hpend, hpl, hnofree⟩ := freeRun_pending_same_location r e.location q
      (freeStep st0 e).1 (hrtf_r.mpr hr) hprev1 hq
    exact ⟨hnofree, freeStep_frees_pending _ f r hpend (by omega)⟩
  · intro p g hmono hp hg
    have hph0 : DelayPhase rd e.location (freeStep st0 e).1 :=
      Or.inl ⟨hprev1 ▸ rfl, hdel_rd.mpr hrd, fun hx => hrdl (hrtf_rd.mp hx)⟩
    obtain ⟨hph1, hnofree⟩ := freeRun_delay_pending rd e.location p
      (freeStep st0 e).1 hph0 (by rw [hprev1]; exact hmono) hp
    exact ⟨hnofree, freeStep_frees_delayed _ g rd e.location hph1 hg⟩

def evC9 : FreeEvent := ⟨10, false, [3], [7], []⟩

def evC9q : FreeEvent := ⟨10, false, [], [], []⟩

def evC9f : FreeEvent := ⟨11, false, [], [], []⟩

def evC9g : FreeEvent := ⟨12, false, [], [], []⟩

theorem claim_C9_witness :
    (3 ∉ (freeStep ⟨0, [], []⟩ evC9).2) ∧
    (∀ fr ∈ (freeRun (freeStep ⟨0, [], []⟩ evC9).1 [evC9q]).2, 3 ∉ fr) ∧
    3 ∈ (freeStep (freeRun (freeStep ⟨0, [], []⟩ evC9).1 [evC9q]).1 evC9f).2 ∧
    (∀ fr ∈ (freeRun (freeStep ⟨0, [], []⟩ evC9).1 [evC9q, evC9f]).2, 7 ∉ fr) ∧
    7 ∈ (freeStep (freeRun (freeStep ⟨0, [], []⟩ evC9).1 [evC9q, evC9f]).1 evC9g).2 := by
  have h := claim_C9_lastUse_and_delayRegFree_timing ⟨0, [], []⟩ evC9 3 7
    (by decide) (by decide) (by decide) (by decide) (by decide) (by decide) (by decide)
  have ho := h.2.1 [evC9q] evC9f (by decide) (by decide)
  have hd := h.2.2 [evC9q, evC9f] evC9g (by decide) (by decide) (by decide)
  exact ⟨h.1.1, ho.1, ho.2, hd.1, hd.2⟩

/-! ## Block sequencing (lsra.cpp 749-763, 780-967, 984-1014, 1046-1102)

`setBlockSequence` walks the flow graph from the entry block in pred-first
order (the default traversal): each sequenced block enqueues its unvisited,
not-yet-ready successors into an ordered worklist; the next block is popped
from the worklist; when the worklist runs dry the remaining blocks are swept
in layout order.  Blocks are embedded by number, execution weight, rarely-run
flag, and successor/predecessor number lists; a flow graph is the layout-order
block list, head = entry. -/

structure BB8 where
  num : Nat
  weight : Nat
  rarelyRun : Bool
  succs : List Nat
  preds : List Nat
deriving DecidableEq, Repr

structure CFG8 where
  blocks : List BB8
deriving DecidableEq, Repr

def CFG8.find (g : CFG8) (n : Nat) : Option BB8 :=
  g.blocks.find? (fun b => b.num == n)

/-- lsra.cpp 984-1014: -1 if `block1` is preferred, 1 if `block2` is. -/
def compareBlocksForSequencing (block1 block2 : BB8) (useBlockWeights : Bool) : Int :=
  if useBlockWeights = true ∧ block1.weight > block2.weight then -1
  else if useBlockWeights = true ∧ block1.weight < block2.weight then 1
  else if block1.num < block2.num then -1
  else if block1.num = block2.num then 0
  else 1

/-- Per-node comparison of the insertion scan (lsra.cpp 1065-1082): rarely-run
nodes always compare by weight; an unsequenced predecessor of the inserted
block always stays ahead; otherwise compare with the caller's
`useBlockWeight`. -/
def workListSeqResult (blk : BB8) (useBlockWeight : Bool) (node : BB8) : Int :=
  if node.rarelyRun = true then compareBlocksForSequencing node blk true
  else if node.num ∈ blk.preds then -1
  else compareBlocksForSequencing node blk useBlockWeight

/-- Insert before the first node whose comparison result is positive
(lsra.cpp 1084-1101). -/
def insertWorkList (blk : BB8) (useBlockWeight : Bool) : List BB8 → List BB8
  | [] => [blk]
  | node :: rest =>
    if workListSeqResult blk useBlockWeight node > 0 then blk :: node :: rest
    else node :: insertWorkList blk useBlockWeight rest

/-- lsra.cpp 1046-1102.  `sequencedBlockSet` is whatever set the caller passes;
both call sites (lsra.cpp 882, 924) pass the ready set - the blocks ever
enqueued - not the sequenced set.  `BlockSetOps::IsSubset` is not part of this
repository's sources and is modelled as the containment the function's own
comment describes: all predecessors of `blk` lie in the given set. -/
def addToBlockSequenceWorkList (sequencedBlockSet : List Nat) (blk : BB8)
    (wl : List BB8) : List BB8 :=
  insertWorkList blk
    (blk.rarelyRun || decide (∀ p ∈ blk.preds, p ∈ sequencedBlockSet)) wl

/-- lsra.cpp 749-763: pop nodes, discarding visited ones, until an unvisited
block is found; every scanned node is removed from the list. -/
def getNextCandidateFromWorkList (visited : List Nat) :
    List BB8 → List BB8 × Option BB8
  | [] => ([], none)
  | b :: rest =>
    if b.num ∈ visited then getNextCandidateFromWorkList visited rest
    else (rest, some b)

structure SeqState where
  seq : List Nat
  visited : List Nat
  ready : List Nat
  workList : List BB8
  verifiedAllBBs : Bool
  sweepAdded : List Nat
deriving DecidableEq, Repr

/-- One successor of the normal-successor scan (lsra.cpp 861-885): an
unvisited, not-yet-ready successor is enqueued, with the ready set passed as
the `sequencedBlockSet` argument, and added to the ready set. -/
def enqueueSucc (g : CFG8) (st : SeqState) (sn : Nat) : SeqState :=
  match g.find sn with
  | none => st
  | some s =>
    if sn ∈ st.visited then st
    else if sn ∈ st.ready then st
    else { st with workList := addToBlockSequenceWorkList st.ready s st.workList
                   ready := st.ready ++ [sn] }

def processSuccs (g : CFG8) (b : BB8) (st : SeqState) : SeqState :=
  b.succs.foldl (enqueueSucc g) st

/-- One block of the layout-order sweep (lsra.cpp 920-927): unvisited blocks
are enqueued. -/
def sweepOne (st : SeqState) (b : BB8) : SeqState :=
  if b.num ∈ st.visited then st
  else { st with workList := addToBlockSequenceWorkList st.ready b st.workList
                 ready := if b.num ∈ st.ready then st.ready else st.ready ++ [b.num]
                 sweepAdded := st.sweepAdded ++ [b.num] }

/-- Layout-order sweep (lsra.cpp 920-928).  The preceding fgAddCodeList loop
(lsra.cpp 911-918) tests the enclosing loop's variable `block` - already
visited - instead of the descriptor's block, and so adds nothing. -/
def sweepLayout (g : CFG8) (st : SeqState) : SeqState :=
  g.blocks.foldl sweepOne st

/-- Select the next block (lsra.cpp 894-934): take from the worklist; on
exhaustion, sweep once (setting `verifiedAllBBs`) and retry. -/
def pickNext (g : CFG8) (st : SeqState) : SeqState × Option BB8 :=
  let r := getNextCandidateFromWorkList st.visited st.workList
  match r.2 with
  | some b => ({ st with workList := r.1 }, some b)
  | none =>
    if st.verifiedAllBBs then ({ st with workList := r.1 }, none)
    else
      let st1 := { sweepLayout g { st with workList := r.1 } with verifiedAllBBs := true }
      let r2 := getNextCandidateFromWorkList st1.visited st1.workList
      ({ st1 with workList := r2.1 }, r2.2)

/-- One iteration of the sequencing loop body for the current block
(lsra.cpp 809-935): record and mark it, enqueue its successors, pick the
next block. -/
def seqStepBlock (g : CFG8) (st : SeqState) (b : BB8) : SeqState × Option BB8 :=
  pickNext g (processSuccs g b
    { st with seq := st.seq ++ [b.num], visited := st.visited ++ [b.num] })

def seqLoop (g : CFG8) : Nat → SeqState → Option BB8 → SeqState
  | 0, st, _ => st
  | _ + 1, st, none => st
  | fuel + 1, st, some b => seqLoop g fuel (seqStepBlock g st b).1 (seqStepBlock g st b).2

def initSeqState : SeqState := ⟨[], [], [], [], false, []⟩

def setBlockSequence (g : CFG8) : SeqState :=
  match g.blocks with
  | [] => initSeqState
  | b :: _ => seqLoop g (g.blocks.length + 1) initSeqState (some b)

def bbC8_1 : BB8 := ⟨1, 1, false, [2, 3], []⟩

def bbC8_2 : BB8 := ⟨2, 5, false, [], [1]⟩

def bbC8_3 : BB8 := ⟨3, 10, false, [], [1]⟩

def gC8 : CFG8 := ⟨[bbC8_1, bbC8_2, bbC8_3]⟩

/-- **C8, counterexample.**  Entry block 1 has successors 2 (weight 5) and 3
(weight 10), each with block 1 as unique predecessor.  When each is enqueued
its only predecessor is already sequenced, so the claim's ordering places
block 3 (heavier) first and predicts the sequence [1, 3, 2]; the code
sequences [1, 2, 3], because the weight comparison is gated on the ready set
(lsra.cpp 882, 1060), which never contains the entry block. -/
theorem claim_C8_counterexample :
    ¬ ((bbC8_2.weight < bbC8_3.weight ∧
        (∀ p ∈ bbC8_3.preds, p ∈ (setBlockSequence gC8).seq.take 1) ∧
        (∀ p ∈ bbC8_2.preds, p ∈ (setBlockSequence gC8).seq.take 1)) →
      (setBlockSequence gC8).seq = [1, 3, 2]) := by decide

theorem CFG8.find_mem (g : CFG8) (n : Nat) (b : BB8) (h : g.find n = some b) :
    b ∈ g.blocks ∧ b.num = n := by
  refine ⟨List.mem_of_find?_eq_some h, ?_⟩
  have := List.find?_some h
  simpa using this

/-- The insertion scan puts the new block exactly before the first node whose
comparison result is positive. -/
theorem insertWorkList_eq (blk : BB8) (u : Bool) (wl : List BB8) :
    insertWorkList blk u wl =
      wl.takeWhile (fun n => decide (workListSeqResult blk u n ≤ 0)) ++
        blk :: wl.dropWhile (fun n => decide (workListSeqResult blk u n ≤ 0)) := by
  induction wl with
  | nil => simp [insertWorkList]
  | cons node rest ih =>
    by_cases h : workListSeqResult blk u node > 0
    · have hd : decide (workListSeqResult blk u node ≤ 0) = false := by
        simp only [decide_eq_false_iff_not]; omega
      simp [insertWorkList, h, List.takeWhile_cons, List.dropWhile_cons, hd]
    · have hd : decide (workListSeqResult blk u node ≤ 0) = true := by
        simp only [decide_eq_true_eq]; omega
      simp [insertWorkList, h, List.takeWhile_cons, List.dropWhile_cons, hd, ih]

theorem mem_insertWorkList (blk : BB8) (u : Bool) (wl : List BB8) (x : BB8) :
    x ∈ insertWorkList blk u wl ↔ x = blk ∨ x ∈ wl := by
  induction wl with
  | nil => simp [insertWorkList]
  | cons node rest ih =>
    by_cases h : workListSeqResult blk u node > 0
    · simp [insertWorkList, h]
    · simp only [insertWorkList, if_neg h, List.mem_cons, ih]
      tauto

theorem mem_addToBlockSequenceWorkList (seqd : List Nat) (blk : BB8)
    (wl : List BB8) (x : BB8) :
    x ∈ addToBlockSequenceWorkList seqd blk wl ↔ x = blk ∨ x ∈ wl := by
  unfold addToBlockSequenceWorkList
  exact mem_insertWorkList _ _ _ _

theorem getNextCandidate_facts (visited : List Nat) :
    ∀ wl : List BB8,
    (∀ x ∈ (getNextCandidateFromWorkList visited wl).1, x ∈ wl) ∧
    (∀ b, (getNextCandidateFromWorkList visited wl).2 = some b →
      b ∈ wl ∧ b.num ∉ visited) ∧
    ((getNextCandidateFromWorkList visited wl).2 = none →
      (∀ x ∈ wl, x.num ∈ visited) ∧ (getNextCandidateFromWorkList visited wl).1 = []) ∧
    (∀ x ∈ wl, x.num ∈ visited ∨ x ∈ (getNextCandidateFromWorkList visited wl).1 ∨
      (getNextCandidateFromWorkList visited wl).2 = some x) := by
  intro wl
  induction wl with
  | nil => simp [getNextCandidateFromWorkList]
  | cons b rest ih =>
    obtain ⟨i1, i2, i3, i4⟩ := ih
    by_cases h : b.num ∈ visited
    · simp only [getNextCandidateFromWorkList, if_pos h]
      refine ⟨fun x hx => List.mem_cons_of_mem _ (i1 x hx), fun c hc => ?_,
        fun hn => ?_, fun x hx => ?_⟩
      · obtain ⟨hm, hv⟩ := i2 c hc
        exact ⟨List.mem_cons_of_mem _ hm, hv⟩
      · obtain ⟨ha, hb2⟩ := i3 hn
        refine ⟨fun x hx => ?_, hb2⟩
        rcases List.mem_cons.mp hx with rfl | hx
        · exact h
        · exact ha x hx
      · rcases List.mem_cons.mp hx with rfl | hx
        · exact Or.inl h
        · exact i4 x hx
    · simp only [getNextCandidateFromWorkList, if_neg h]
      refine ⟨fun x hx => List.mem_cons_of_mem _ hx, fun c hc => ?_,
        fun hn => by simp at hn, fun x hx => ?_⟩
      · simp only [Option.some.injEq] at hc
        subst hc
        exact ⟨List.mem_cons_self _ _, h⟩
      · rcases List.mem_cons.mp hx with rfl | hx
        · exact Or.inr (Or.inr rfl)
        · exact Or.inr (Or.inl hx)

/-- Some block already sequenced before `n` in `s` has `n` among its
successors (i.e. a predecessor of `n` was sequenced first). -/
def predBeforeInSeq (g : CFG8) (s : List Nat) (n : Nat) : Prop :=
  ∃ pb l1 l2, pb ∈ g.blocks ∧ s = l1 ++ n :: l2 ∧ pb.num ∈ l1 ∧ n ∈ pb.succs

theorem predBeforeInSeq_append (g : CFG8) (s t : List Nat) (n : Nat)
    (h : predBeforeInSeq g s n) : predBeforeInSeq g (s ++ t) n := by
  obtain ⟨pb, l1, l2, h1, h2, h3, h4⟩ := h
  exact ⟨pb, l1, l2 ++ t, h1, by rw [h2]; simp, h3, h4⟩

def SeqInv (g : CFG8) (b0 : BB8) (st : SeqState) : Prop :=
  st.visited = st.seq ∧
  st.seq.Nodup ∧
  (∀ n ∈ st.seq, ∃ b, b ∈ g.blocks ∧ b.num = n) ∧
  (st.seq = [] ∨ st.seq.head? = some b0.num) ∧
  (∀ n ∈ st.seq, n = b0.num ∨ n ∈ st.sweepAdded ∨ predBeforeInSeq g st.seq n) ∧
  (∀ b ∈ st.workList, b ∈ g.blocks) ∧
  (∀ b ∈ st.workList, b.num ∈ st.sweepAdded ∨
    ∃ pb, pb ∈ g.blocks ∧ pb.num ∈ st.seq ∧ b.num ∈ pb.succs) ∧
  (st.verifiedAllBBs = false → st.sweepAdded = []) ∧
  List.Sublist st.sweepAdded (g.blocks.map BB8.num)

def CandInv (g : CFG8) (b0 : BB8) (st : SeqState) (c : Option BB8) : Prop :=
  (∀ b, c = some b → b ∈ g.blocks ∧ b.num ∉ st.visited ∧
    ((st.seq = [] ∧ b = b0) ∨
      (st.seq ≠ [] ∧ (b.num ∈ st.sweepAdded ∨
        ∃ pb, pb ∈ g.blocks ∧ pb.num ∈ st.seq ∧ b.num ∈ pb.succs)))) ∧
  (c = none → ∀ b ∈ g.blocks, b.num ∈ st.seq) ∧
  (st.verifiedAllBBs = true → ∀ b ∈ g.blocks,
    b.num ∈ st.visited ∨ b ∈ st.workList ∨ c = some b)

theorem enqueueSucc_facts (g : CFG8) (st : SeqState) (sn : Nat) :
    (enqueueSucc g st sn).seq = st.seq ∧
    (enqueueSucc g st sn).visited = st.visited ∧
    (enqueueSucc g st sn).verifiedAllBBs = st.verifiedAllBBs ∧
    (enqueueSucc g st sn).sweepAdded = st.sweepAdded ∧
    (∀ x ∈ (enqueueSucc g st sn).workList,
      x ∈ st.workList ∨ (x ∈ g.blocks ∧ x.num = sn)) ∧
    (∀ x ∈ st.workList, x ∈ (enqueueSucc g st sn).workList) := by
  cases hfind : g.find sn with
  | none =>
    have hstep : enqueueSucc g st sn = st := by simp [enqueueSucc, hfind]
    rw [hstep]
    exact ⟨rfl, rfl, rfl, rfl, fun x hx => Or.inl hx, fun x hx => hx⟩
  | some s =>
    obtain ⟨hmem, hnum⟩ := CFG8.find_mem g sn s hfind
    by_cases h1 : sn ∈ st.visited
    · have hstep : enqueueSucc g st sn = st := by simp [enqueueSucc, hfind, h1]
      rw [hstep]
      exact ⟨rfl, rfl, rfl, rfl, fun x hx => Or.inl hx, fun x hx => hx⟩
    · by_cases h2 : sn ∈ st.ready
      · have hstep : enqueueSucc g st sn = st := by simp [enqueueSucc, hfind, h1, h2]
        rw [hstep]
        exact ⟨rfl, rfl, rfl, rfl, fun x hx => Or.inl hx, fun x hx => hx⟩
      · have hstep : enqueueSucc g st sn =
            { st with workList := addToBlockSequenceWorkList st.ready s st.workList
                      ready := st.ready ++ [sn] } := by
          simp [enqueueSucc, hfind, h1, h2]
        rw [hstep]
        refine ⟨rfl, rfl, rfl, rfl, fun x hx => ?_, fun x hx => ?_⟩
        · rcases (mem_addToBlockSequenceWorkList _ _ _ _).mp hx with rfl | hx
          · exact Or.inr ⟨hmem, hnum⟩
          · exact Or.inl hx
        · exact (mem_addToBlockSequenceWorkList _ _ _ _).mpr (Or.inr hx)

theorem enqueueFold_facts (g : CFG8) :
    ∀ (sns : List Nat) (st : SeqState),
    (sns.foldl (enqueueSucc g) st).seq = st.seq ∧
    (sns.foldl (enqueueSucc g) st).visited = st.visited ∧
    (sns.foldl (enqueueSucc g) st).verifiedAllBBs = st.verifiedAllBBs ∧
    (sns.foldl (enqueueSucc g) st).sweepAdded = st.sweepAdded ∧
    (∀ x ∈ (sns.foldl (enqueueSucc g) st).workList,
      x ∈ st.workList ∨ (x ∈ g.blocks ∧ x.num ∈ sns)) ∧
    (∀ x ∈ st.workList, x ∈ (sns.foldl (enqueueSucc g) st).workList) := by
  intro sns
  induction sns with
  | nil => intro st; simp
  | cons sn rest ih =>
    intro st
    obtain ⟨e1, e2, e3, e4, e5, e6⟩ := enqueueSucc_facts g st sn
    obtain ⟨f1, f2, f3, f4, f5, f6⟩ := ih (enqueueSucc g st sn)
    simp only [List.foldl_cons]
    refine ⟨f1.trans e1, f2.trans e2, f3.trans e3, f4.trans e4,
      fun x hx => ?_, fun x hx => f6 x (e6 x hx)⟩
    rcases f5 x hx with hx2 | ⟨hg2, hn2⟩
    · rcases e5 x hx2 with h | ⟨hg3, hn3⟩
      · exact Or.inl h
      · exact Or.inr ⟨hg3, by simp [hn3]⟩
    · exact Or.inr ⟨hg2, by simp [hn2]⟩

theorem sweepOne_visited (st : SeqState) (b : BB8) (h : b.num ∈ st.visited) :
    sweepOne st b = st := by
  simp [sweepOne, h]

theorem sweepOne_new (st : SeqState) (b : BB8) (h : b.num ∉ st.visited) :
    sweepOne st b =
      { st with workList := addToBlockSequenceWorkList st.ready b st.workList
                ready := if b.num ∈ st.ready then st.ready else st.ready ++ [b.num]
                sweepAdded := st.sweepAdded ++ [b.num] } := by
  simp [sweepOne, h]

theorem sweepFold_facts : ∀ (bs : List BB8) (st : SeqState),
    (bs.foldl sweepOne st).seq = st.seq ∧
    (bs.foldl sweepOne st).visited = st.visited ∧
    (bs.foldl sweepOne st).verifiedAllBBs = st.verifiedAllBBs ∧
    (∀ x ∈ (bs.foldl sweepOne st).workList, x ∈ st.workList ∨ x ∈ bs) ∧
    (∀ x ∈ st.workList, x ∈ (bs.foldl sweepOne st).workList) ∧
    (∀ n ∈ st.sweepAdded, n ∈ (bs.foldl sweepOne st).sweepAdded) ∧
    (∀ x ∈ (bs.foldl sweepOne st).workList,
      x ∈ st.workList ∨ x.num ∈ (bs.foldl sweepOne st).sweepAdded) ∧
    (∀ b ∈ bs, b.num ∈ st.visited ∨ b ∈ (bs.foldl sweepOne st).workList) := by
  intro bs
  induction bs with
  | nil =>
    intro st
    exact ⟨rfl, rfl, rfl, fun x hx => Or.inl hx, fun x hx => hx, fun n hn => hn,
      fun x hx => Or.inl hx, fun b hb => absurd hb (List.not_mem_nil b)⟩
  | cons b rest ih =>
    intro st
    simp only [List.foldl_cons]
    by_cases hb : b.num ∈ st.visited
    · rw [sweepOne_visited st b hb]
      obtain ⟨f1, f2, f3, f4, f5, f6, f7, f8⟩ := ih st
      refine ⟨f1, f2, f3, fun x hx => ?_, f5, f6, f7, fun x hx => ?_⟩
      · rcases f4 x hx with h | h
        · exact Or.inl h
        · exact Or.inr (by simp [h])
      · rcases List.mem_cons.mp hx with rfl | hx
        · exact Or.inl hb
        · exact f8 x hx
    · rw [sweepOne_new st b hb]
      obtain ⟨f1, f2, f3, f4, f5, f6, f7, f8⟩ := ih
        { st with workList := addToBlockSequenceWorkList st.ready b st.workList
                  ready := if b.num ∈ st.ready then st.ready else st.ready ++ [b.num]
                  sweepAdded := st.sweepAdded ++ [b.num] }
      refine ⟨f1, f2, f3, fun x hx => ?_, fun x hx => ?_, fun n hn => ?_, fun x hx => ?_,
        fun x hx => ?_⟩
      · rcases f4 x hx with h | h
        · rcases (mem_addToBlockSequenceWorkList _ _ _ _).mp h with rfl | h
          · exact Or.inr (by simp)
          · exact Or.inl h
        · exact Or.inr (by simp [h])
      · exact f5 x ((mem_addToBlockSequenceWorkList _ _ _ _).mpr (Or.inr hx))
      · exact f6 n (by simp [hn])
      · rcases f7 x hx with h | h
        · rcases (mem_addToBlockSequenceWorkList _ _ _ _).mp h with rfl | h
          · exact Or.inr (f6 x.num (by simp))
          · exact Or.inl h
        · exact Or.inr h
      · rcases List.mem_cons.mp hx with rfl | hx
        · exact Or.inr (f5 x ((mem_addToBlockSequenceWorkList _ _ _ _).mpr (Or.inl rfl)))
        · exact f8 x hx

theorem sweepFold_sweepAdded : ∀ (bs : List BB8) (st : SeqState),
    (bs.foldl sweepOne st).sweepAdded =
      st.sweepAdded ++ (bs.filter (fun b => decide (b.num ∉ st.visited))).map BB8.num := by
  intro bs
  induction bs with
  | nil => intro st; simp
  | cons b rest ih =>
    intro st
    simp only [List.foldl_cons]
    by_cases hb : b.num ∈ st.visited
    · rw [sweepOne_visited st b hb, ih st]
      simp [List.filter_cons, hb]
    · rw [sweepOne_new st b hb, ih]
      simp [List.filter_cons, hb]

theorem markBlock_inv (g : CFG8) (b0 : BB8) (st : SeqState) (b : BB8)
    (hI : SeqInv g b0 st)
    (hbg : b ∈ g.blocks) (hbv : b.num ∉ st.visited)
    (hbj : (st.seq = [] ∧ b = b0) ∨
      (st.seq ≠ [] ∧ (b.num ∈ st.sweepAdded ∨
        ∃ pb, pb ∈ g.blocks ∧ pb.num ∈ st.seq ∧ b.num ∈ pb.succs))) :
    SeqInv g b0 { st with seq := st.seq ++ [b.num], visited := st.visited ++ [b.num] } := by
  obtain ⟨i1, i2, i3, i4, i5, i6, i7, i8, i9⟩ := hI
  have hbs : b.num ∉ st.seq := by rw [← i1]; exact hbv
  refine ⟨by simp only [i1], ?_, ?_, ?_, ?_, i6, ?_, i8, i9⟩
  · refine List.Nodup.append i2 (List.nodup_singleton _) ?_
    intro a ha hb2
    rw [List.mem_singleton] at hb2
    subst hb2
    exact hbs ha
  · intro n hn
    rcases List.mem_append.mp hn with hn | hn
    · exact i3 n hn
    · rw [List.mem_singleton] at hn
      exact ⟨b, hbg, hn.symm⟩
  · right
    cases hseq : st.seq with
    | nil =>
      rcases hbj with ⟨_, rfl⟩ | ⟨hne, _⟩
      · simp [hseq]
      · exact absurd hseq hne
    | cons hh tt =>
      rcases i4 with h4 | h4
      · rw [h4] at hseq; cases hseq
      · rw [hseq] at h4
        show ((hh :: tt) ++ [b.num]).head? = some b0.num
        simpa using h4
  · intro n hn
    rcases List.mem_append.mp hn with hn | hn
    · rcases i5 n hn with h | h | h
      · exact Or.inl h
      · exact Or.inr (Or.inl h)
      · exact Or.inr (Or.inr (predBeforeInSeq_append g _ _ _ h))
    · rw [List.mem_singleton] at hn
      subst hn
      rcases hbj with ⟨hemp, rfl⟩ | ⟨_, hj⟩
      · exact Or.inl rfl
      · rcases hj with hj | ⟨pb, hp1, hp2, hp3⟩
        · exact Or.inr (Or.inl hj)
        · exact Or.inr (Or.inr ⟨pb, st.seq, [], hp1, rfl, hp2, hp3⟩)
  · intro x hx
    rcases i7 x hx with h | ⟨pb, hp1, hp2, hp3⟩
    · exact Or.inl h
    · exact Or.inr ⟨pb, hp1, List.mem_append_left _ hp2, hp3⟩

theorem processSuccs_inv (g : CFG8) (b0 : BB8) (b : BB8) (st : SeqState)
    (hI : SeqInv g b0 st) (hb : b.num ∈ st.seq) (hbg : b ∈ g.blocks) :
    SeqInv g b0 (processSuccs g b st) ∧
    (processSuccs g b st).seq = st.seq ∧
    (processSuccs g b st).visited = st.visited ∧
    (processSuccs g b st).verifiedAllBBs = st.verifiedAllBBs ∧
    (∀ x ∈ st.workList, x ∈ (processSuccs g b st).workList) := by
  obtain ⟨e1, e2, e3, e4, e5, e6⟩ := enqueueFold_facts g b.succs st
  obtain ⟨i1, i2, i3, i4, i5, i6, i7, i8, i9⟩ := hI
  simp only [processSuccs]
  refine ⟨⟨?_, ?_, ?_, ?_, ?_, ?_, ?_, ?_, ?_⟩, e1, e2, e3, e6⟩
  · rw [e1, e2, i1]
  · rw [e1]; exact i2
  · rw [e1]; exact i3
  · rw [e1]; exact i4
  · rw [e1, e4]; exact i5
  · intro x hx
    rcases e5 x hx with h | ⟨h, _⟩
    · exact i6 x h
    · exact h
  · intro x hx
    rw [e1, e4]
    rcases e5 x hx with h | ⟨_, h⟩
    · exact i7 x h
    · exact Or.inr ⟨b, hbg, hb, h⟩
  · rw [e3, e4]; exact i8
  · rw [e4]; exact i9

theorem afterSweep_inv (g : CFG8) (b0 : BB8) (A : SeqState)
    (hI : SeqInv g b0 A) (hvf : A.verifiedAllBBs = false) :
    SeqInv g b0 { sweepLayout g A with verifiedAllBBs := true } ∧
    ({ sweepLayout g A with verifiedAllBBs := true } : SeqState).visited = A.visited ∧
    ({ sweepLayout g A with verifiedAllBBs := true } : SeqState).seq = A.seq ∧
    (∀ x ∈ g.blocks, x.num ∈ A.visited ∨
      x ∈ ({ sweepLayout g A with verifiedAllBBs := true } : SeqState).workList) := by
  obtain ⟨f1, f2, f3, f4, f5, f6, f7, f8⟩ := sweepFold_facts g.blocks A
  obtain ⟨i1, i2, i3, i4, i5, i6, i7, i8, i9⟩ := hI
  have hsw0 : A.sweepAdded = [] := i8 hvf
  have hsw : (sweepLayout g A).sweepAdded =
      (g.blocks.filter (fun x => decide (x.num ∉ A.visited))).map BB8.num := by
    rw [sweepLayout, sweepFold_sweepAdded, hsw0]
    simp
  refine ⟨⟨?_, ?_, ?_, ?_, ?_, ?_, ?_, ?_, ?_⟩, f2, f1, ?_⟩
  · show (sweepLayout g A).visited = (sweepLayout g A).seq
    rw [sweepLayout] at *
    rw [f1, f2, i1]
  · show ((sweepLayout g A).seq).Nodup
    rw [sweepLayout] at *
    rw [f1]; exact i2
  · show ∀ n ∈ (sweepLayout g A).seq, _
    rw [sweepLayout] at *
    rw [f1]; exact i3
  · show (sweepLayout g A).seq = [] ∨ ((sweepLayout g A).seq).head? = some b0.num
    rw [sweepLayout] at *
    rw [f1]; exact i4
  · show ∀ n ∈ (sweepLayout g A).seq, _
    rw [sweepLayout] at *
    rw [f1]
    intro n hn
    rcases i5 n hn with h | h | h
    · exact Or.inl h
    · exact Or.inr (Or.inl (f6 n h))
    · exact Or.inr (Or.inr h)
  · show ∀ x ∈ (sweepLayout g A).workList, x ∈ g.blocks
    rw [sweepLayout] at *
    intro x hx
    rcases f4 x hx with h | h
    · exact i6 x h
    · exact h
  · show ∀ x ∈ (sweepLayout g A).workList, _
    rw [sweepLayout] at *
    rw [f1]
    intro x hx
    rcases f7 x hx with h | h
    · rcases i7 x h with h2 | h2
      · exact Or.inl (f6 _ h2)
      · exact Or.inr h2
    · exact Or.inl h
  · intro h
    cases h
  · show List.Sublist ((sweepLayout g A).sweepAdded) _
    rw [hsw]
    exact (List.filter_sublist _).map BB8.num
  · intro x hx
    rcases f8 x hx with h | h
    · exact Or.inl h
    · exact Or.inr h

theorem popFromCovered (g : CFG8) (b0 : BB8) (S : SeqState)
    (hS : SeqInv g b0 S) (hne : S.seq ≠ [])
    (hcov : ∀ x ∈ g.blocks, x.num ∈ S.visited ∨ x ∈ S.workList) :
    SeqInv g b0 { S with workList := (getNextCandidateFromWorkList S.visited S.workList).1 } ∧
    CandInv g b0 { S with workList := (getNextCandidateFromWorkList S.visited S.workList).1 }
      (getNextCandidateFromWorkList S.visited S.workList).2 := by
  obtain ⟨g1, g2, g3, g4⟩ := getNextCandidate_facts S.visited S.workList
  obtain ⟨i1, i2, i3, i4, i5, i6, i7, i8, i9⟩ := hS
  have hIshr : SeqInv g b0
      { S with workList := (getNextCandidateFromWorkList S.visited S.workList).1 } :=
    ⟨i1, i2, i3, i4, i5, fun x hx => i6 x (g1 x hx), fun x hx => i7 x (g1 x hx), i8, i9⟩
  refine ⟨hIshr, ?_, ?_, ?_⟩
  · intro c hc
    obtain ⟨hmem, hv⟩ := g2 c hc
    exact ⟨i6 c hmem, hv, Or.inr ⟨hne, i7 c hmem⟩⟩
  · intro hn
    obtain ⟨hall, _⟩ := g3 hn
    intro x hx
    rcases hcov x hx with h | h
    · rw [← i1]; exact h
    · rw [← i1]; exact hall x h
  · intro _ x hx
    rcases hcov x hx with h | h
    · exact Or.inl h
    · rcases g4 x h with h2 | h2 | h2
      · exact Or.inl h2
      · exact Or.inr (Or.inl h2)
      · exact Or.inr (Or.inr h2)

theorem pickNext_inv (g : CFG8) (b0 : BB8) (st : SeqState)
    (hI : SeqInv g b0 st) (hne : st.seq ≠ [])
    (hcov : st.verifiedAllBBs = true →
      ∀ x ∈ g.blocks, x.num ∈ st.visited ∨ x ∈ st.workList) :
    SeqInv g b0 (pickNext g st).1 ∧ CandInv g b0 (pickNext g st).1 (pickNext g st).2 ∧
    (pickNext g st).1.visited = st.visited := by
  obtain ⟨g1, g2, g3, g4⟩ := getNextCandidate_facts st.visited st.workList
  cases hr : (getNextCandidateFromWorkList st.visited st.workList).2 with
  | some b =>
    obtain ⟨i1, i2, i3, i4, i5, i6, i7, i8, i9⟩ := hI
    have hpick : pickNext g st =
        ({ st with workList := (getNextCandidateFromWorkList st.visited st.workList).1 },
          some b) := by
      simp [pickNext, hr]
    rw [hpick]
    obtain ⟨hmem, hv⟩ := g2 b hr
    refine ⟨⟨i1, i2, i3, i4, i5, fun x hx => i6 x (g1 x hx), fun x hx => i7 x (g1 x hx), i8, i9⟩,
      ⟨?_, ?_, ?_⟩, rfl⟩
    · intro c hc
      simp only [Option.some.injEq] at hc
      subst hc
      exact ⟨i6 b hmem, hv, Or.inr ⟨hne, i7 b hmem⟩⟩
    · intro h
      exact absurd h (by simp)
    · intro hver x hx
      rcases hcov hver x hx with h | h
      · exact Or.inl h
      · rcases g4 x h with h2 | h2 | h2
        · exact Or.inl h2
        · exact Or.inr (Or.inl h2)
        · rw [hr] at h2
          exact Or.inr (Or.inr h2)
  | none =>
    by_cases hv : st.verifiedAllBBs = true
    · have hpick : pickNext g st =
          ({ st with workList := (getNextCandidateFromWorkList st.visited st.workList).1 },
            (getNextCandidateFromWorkList st.visited st.workList).2) := by
        simp [pickNext, hr, hv]
      rw [hpick]
      obtain ⟨hP1, hP2⟩ := popFromCovered g b0 st hI hne (hcov hv)
      exact ⟨hP1, hP2, rfl⟩
    · have hvf : st.verifiedAllBBs = false := by
        cases hb : st.verifiedAllBBs
        · rfl
        · exact absurd hb hv
      have hA : SeqInv g b0
          { st with workList := (getNextCandidateFromWorkList st.visited st.workList).1 } := by
        obtain ⟨i1, i2, i3, i4, i5, i6, i7, i8, i9⟩ := hI
        exact ⟨i1, i2, i3, i4, i5, fun x hx => i6 x (g1 x hx), fun x hx => i7 x (g1 x hx), i8, i9⟩
      obtain ⟨hS, hSv, hSs, hScov⟩ := afterSweep_inv g b0
        { st with workList := (getNextCandidateFromWorkList st.visited st.workList).1 } hA hvf
      have hSne : ({ sweepLayout g
          { st with workList := (getNextCandidateFromWorkList st.visited st.workList).1 } with
            verifiedAllBBs := true } : SeqState).seq ≠ [] := by
        rw [hSs]; exact hne
      have hScov2 : ∀ x ∈ g.blocks,
          x.num ∈ ({ sweepLayout g
            { st with workList := (getNextCandidateFromWorkList st.visited st.workList).1 } with
              verifiedAllBBs := true } : SeqState).visited ∨
          x ∈ ({ sweepLayout g
            { st with workList := (getNextCandidateFromWorkList st.visited st.workList).1 } with
              verifiedAllBBs := true } : SeqState).workList := by
        intro x hx
        rcases hScov x hx with h | h
        · exact Or.inl (by rw [hSv]; exact h)
        · exact Or.inr h
      obtain ⟨hP1, hP2⟩ := popFromCovered g b0
        { sweepLayout g
          { st with workList := (getNextCandidateFromWorkList st.visited st.workList).1 } with
            verifiedAllBBs := true } hS hSne hScov2
      have hpick : pickNext g st =
          ({ { sweepLayout g
              { st with workList := (getNextCandidateFromWorkList st.visited st.workList).1 } with
                verifiedAllBBs := true } with
              workList := (getNextCandidateFromWorkList
                ({ sweepLayout g
                  { st with workList := (getNextCandidateFromWorkList st.visited st.workList).1 } with
                    verifiedAllBBs := true } : SeqState).visited
                ({ sweepLayout g
                  { st with workList := (getNextCandidateFromWorkList st.visited st.workList).1 } with
                    verifiedAllBBs := true } : SeqState).workList).1 },
            (getNextCandidateFromWorkList
              ({ sweepLayout g
                { st with workList := (getNextCandidateFromWorkList st.visited st.workList).1 } with
                  verifiedAllBBs := true } : SeqState).visited
              ({ sweepLayout g
                { st with workList := (getNextCandidateFromWorkList st.visited st.workList).1 } with
                  verifiedAllBBs := true } : SeqState).workList).2) := by
        simp [pickNext, hr, hv]
      rw [hpick]
      refine ⟨hP1, hP2, ?_⟩
      show ({ sweepLayout g
        { st with workList := (getNextCandidateFromWorkList st.visited st.workList).1 } with
          verifiedAllBBs := true } : SeqState).visited = st.visited
      rw [hSv]

def countUnvisited (g : CFG8) (st : SeqState) : Nat :=
  (g.blocks.filter (fun x => !decide (x.num ∈ st.visited))).length

theorem filter_notmem_append_le (vis : List Nat) (m : Nat) :
    ∀ l : List BB8,
    (l.filter (fun x => !decide (x.num ∈ vis ++ [m]))).length ≤
      (l.filter (fun x => !decide (x.num ∈ vis))).length := by
  intro l
  induction l with
  | nil => simp
  | cons a rest ih =>
    by_cases h2 : a.num ∈ vis
    · have h1 : a.num ∈ vis ++ [m] := List.mem_append_left _ h2
      rw [List.filter_cons_of_neg (by simp [h1]),
        List.filter_cons_of_neg (by simp [h2])]
      exact ih
    · by_cases h1 : a.num ∈ vis ++ [m]
      · rw [List.filter_cons_of_neg (by simp [h1]),
          List.filter_cons_of_pos (by simp [h2])]
        simp only [List.length_cons]
        omega
      · rw [List.filter_cons_of_pos (by simp [h1]),
          List.filter_cons_of_pos (by simp [h2])]
        simp only [List.length_cons]
        omega

theorem filter_mark_lt (vis : List Nat) (b : BB8) :
    ∀ l : List BB8, b ∈ l → b.num ∉ vis →
    (l.filter (fun x => !decide (x.num ∈ vis ++ [b.num]))).length <
      (l.filter (fun x => !decide (x.num ∈ vis))).length := by
  intro l
  induction l with
  | nil => intro hb; cases hb
  | cons a rest ih =>
    intro hb hbv
    rcases List.mem_cons.mp hb with rfl | hb2
    · have h1 : b.num ∈ vis ++ [b.num] := by simp
      rw [List.filter_cons_of_neg (by simp [h1]),
        List.filter_cons_of_pos (by simp [hbv])]
      simp only [List.length_cons]
      have := filter_notmem_append_le vis b.num rest
      omega
    · have hrec := ih hb2 hbv
      by_cases h1 : a.num ∈ vis ++ [b.num]
      · by_cases h2 : a.num ∈ vis
        · rw [List.filter_cons_of_neg (by simp [h1]),
            List.filter_cons_of_neg (by simp [h2])]
          exact hrec
        · rw [List.filter_cons_of_neg (by simp [h1]),
            List.filter_cons_of_pos (by simp [h2])]
          simp only [List.length_cons]
          omega
      · have h2 : a.num ∉ vis := fun hc => h1 (List.mem_append_left _ hc)
        rw [List.filter_cons_of_pos (by simp [h1]),
          List.filter_cons_of_pos (by simp [h2])]
        simp only [List.length_cons]
        omega

theorem seqStepBlock_inv (g : CFG8) (b0 : BB8) (st : SeqState) (b : BB8)
    (hI : SeqInv g b0 st) (hC : CandInv g b0 st (some b)) :
    SeqInv g b0 (seqStepBlock g st b).1 ∧
    CandInv g b0 (seqStepBlock g st b).1 (seqStepBlock g st b).2 ∧
    countUnvisited g (seqStepBlock g st b).1 < countUnvisited g st := by
  obtain ⟨hbg, hbv, hbj⟩ := hC.1 b rfl
  simp only [seqStepBlock]
  have hI1 : SeqInv g b0
      { st with seq := st.seq ++ [b.num], visited := st.visited ++ [b.num] } :=
    markBlock_inv g b0 st b hI hbg hbv hbj
  obtain ⟨hI2, hp1, hp2, hp3, hp4⟩ := processSuccs_inv g b0 b
    { st with seq := st.seq ++ [b.num], visited := st.visited ++ [b.num] } hI1 (by simp) hbg
  have hcov2 : (processSuccs g b
      { st with seq := st.seq ++ [b.num], visited := st.visited ++ [b.num] }).verifiedAllBBs =
        true →
      ∀ x ∈ g.blocks,
        x.num ∈ (processSuccs g b
          { st with seq := st.seq ++ [b.num], visited := st.visited ++ [b.num] }).visited ∨
        x ∈ (processSuccs g b
          { st with seq := st.seq ++ [b.num], visited := st.visited ++ [b.num] }).workList := by
    intro hv x hx
    have hv0 : st.verifiedAllBBs = true := by rw [hp3] at hv; exact hv
    rcases hC.2.2 hv0 x hx with h | h | h
    · left
      rw [hp2]
      exact List.mem_append_left _ h
    · right
      exact hp4 x h
    · left
      rw [hp2]
      simp only [Option.some.injEq] at h
      rw [← h]
      simp
  have hne1 : (processSuccs g b
      { st with seq := st.seq ++ [b.num], visited := st.visited ++ [b.num] }).seq ≠ [] := by
    rw [hp1]; simp
  obtain ⟨hP1, hP2, hP3⟩ := pickNext_inv g b0 _ hI2 hne1 hcov2
  refine ⟨hP1, hP2, ?_⟩
  show countUnvisited g (pickNext g _).1 < countUnvisited g st
  unfold countUnvisited
  rw [hP3, hp2]
  exact filter_mark_lt st.visited b g.blocks hbg hbv

theorem seqLoop_post (g : CFG8) (b0 : BB8) :
    ∀ (fuel : Nat) (st : SeqState) (c : Option BB8),
    SeqInv g b0 st → CandInv g b0 st c →
    countUnvisited g st + 1 ≤ fuel →
    SeqInv g b0 (seqLoop g fuel st c) ∧
    (∀ b ∈ g.blocks, b.num ∈ (seqLoop g fuel st c).seq) := by
  intro fuel
  induction fuel with
  | zero =>
    intro st c _ _ hf
    exact absurd hf (by omega)
  | succ n ih =>
    intro st c hI hC hf
    cases c with
    | none => exact ⟨hI, hC.2.1 rfl⟩
    | some b =>
      obtain ⟨h1, h2, h3⟩ := seqStepBlock_inv g b0 st b hI hC
      have heq : seqLoop g (n + 1) st (some b) =
          seqLoop g n (seqStepBlock g st b).1 (seqStepBlock g st b).2 := rfl
      rw [heq]
      exact ih _ _ h1 h2 (by omega)

theorem addToBlockSequenceWorkList_eq (seqd : List Nat) (blk : BB8) (wl : List BB8) :
    addToBlockSequenceWorkList seqd blk wl =
      wl.takeWhile (fun n => decide (workListSeqResult blk
          (blk.rarelyRun || decide (∀ p ∈ blk.preds, p ∈ seqd)) n ≤ 0)) ++
        blk :: wl.dropWhile (fun n => decide (workListSeqResult blk
          (blk.rarelyRun || decide (∀ p ∈ blk.preds, p ∈ seqd)) n ≤ 0)) := by
  unfold addToBlockSequenceWorkList
  exact insertWorkList_eq _ _ _

/-- When the gate holds (the inserted block is rarely run, or all its
predecessors lie in the set the caller passed), a non-rarely-run worklist node
that is not an unsequenced predecessor is passed exactly when it is strictly
lighter, or equally heavy with a larger block number. -/
theorem workListSeqResult_weight_gate (seqd : List Nat) (blk node : BB8)
    (hu : blk.rarelyRun = true ∨ ∀ p ∈ blk.preds, p ∈ seqd)
    (hnr : node.rarelyRun = false) (hnp : node.num ∉ blk.preds) :
    (workListSeqResult blk (blk.rarelyRun || decide (∀ p ∈ blk.preds, p ∈ seqd)) node > 0 ↔
      (node.weight < blk.weight ∨ (node.weight = blk.weight ∧ blk.num < node.num))) := by
  have hu2 : (blk.rarelyRun || decide (∀ p ∈ blk.preds, p ∈ seqd)) = true := by
    simp only [Bool.or_eq_true, decide_eq_true_eq]
    exact hu
  rw [hu2]
  unfold workListSeqResult compareBlocksForSequencing
  by_cases h1 : node.weight > blk.weight <;>
    by_cases h2 : node.weight < blk.weight <;>
      by_cases h3 : node.num < blk.num <;>
        by_cases h4 : node.num = blk.num <;>
          first
            | (simp [hnr, hnp, h1, h2, h3, h4] <;> omega)
            | (have hnp2 : blk.num ∉ blk.preds := h4 ▸ hnp
               simp [hnr, hnp, hnp2, h1, h2, h3, h4] <;> omega)

/-- **C8, amended.** `setBlockSequence` sequences every block of the flow graph
exactly once, starting at the entry block; every block other than the entry and
the sweep-enqueued ones is sequenced after some block of which it is a
successor (i.e. after a predecessor); the sweep enqueues the unreached blocks
in layout order; and the worklist insertion places a new block exactly before
the first node it beats, where - correcting the claim - the
descending-weight/ascending-number ordering applies not when all predecessors
are sequenced but when the inserted block is rarely run or all its
predecessors are in the ready set the caller passes (which never contains the
entry block); all other insertions compare by ascending block number alone,
and unsequenced-predecessor nodes are never passed. -/
theorem claim_C8_amended_setBlockSequence (g : CFG8) (b0 : BB8) (rest : List BB8)
    (hg : g.blocks = b0 :: rest) (hnd : (g.blocks.map BB8.num).Nodup) :
    ((setBlockSequence g).seq.head? = some b0.num ∧
      (setBlockSequence g).seq.Nodup ∧
      (∀ b ∈ g.blocks, b.num ∈ (setBlockSequence g).seq) ∧
      (∀ n ∈ (setBlockSequence g).seq, ∃ b, b ∈ g.blocks ∧ b.num = n) ∧
      (∀ n ∈ (setBlockSequence g).seq, n = b0.num ∨ n ∈ (setBlockSequence g).sweepAdded ∨
        predBeforeInSeq g (setBlockSequence g).seq n) ∧
      List.Sublist (setBlockSequence g).sweepAdded (g.blocks.map BB8.num)) ∧
    (∀ seqd blk wl, addToBlockSequenceWorkList seqd blk wl =
      wl.takeWhile (fun n => decide (workListSeqResult blk
          (blk.rarelyRun || decide (∀ p ∈ blk.preds, p ∈ seqd)) n ≤ 0)) ++
        blk :: wl.dropWhile (fun n => decide (workListSeqResult blk
          (blk.rarelyRun || decide (∀ p ∈ blk.preds, p ∈ seqd)) n ≤ 0))) ∧
    (∀ seqd : List Nat, ∀ blk node : BB8,
      (blk.rarelyRun = true ∨ ∀ p ∈ blk.preds, p ∈ seqd) →
      node.rarelyRun = false → node.num ∉ blk.preds →
      (workListSeqResult blk (blk.rarelyRun || decide (∀ p ∈ blk.preds, p ∈ seqd)) node > 0 ↔
        (node.weight < blk.weight ∨ (node.weight = blk.weight ∧ blk.num < node.num)))) := by
  have hb0 : b0 ∈ g.blocks := by rw [hg]; exact List.mem_cons_self _ _
  have hinit : SeqInv g b0 initSeqState :=
    ⟨rfl, List.nodup_nil, by simp [initSeqState], Or.inl rfl, by simp [initSeqState],
      by simp [initSeqState], by simp [initSeqState], fun _ => rfl, by simp [initSeqState]⟩
  have hcand : CandInv g b0 initSeqState (some b0) := by
    refine ⟨?_, ?_, ?_⟩
    · intro b hb
      simp only [Option.some.injEq] at hb
      subst hb
      exact ⟨hb0, by simp [initSeqState], Or.inl ⟨rfl, rfl⟩⟩
    · intro h
      cases h
    · intro h
      cases h
  have hfuel : countUnvisited g initSeqState + 1 ≤ g.blocks.length + 1 := by
    have := List.length_filter_le (fun x => !decide (x.num ∈ initSeqState.visited)) g.blocks
    unfold countUnvisited
    omega
  have hrun : setBlockSequence g =
      seqLoop g (g.blocks.length + 1) initSeqState (some b0) := by
    rw [setBlockSequence, hg]
  obtain ⟨hI, hcomp⟩ := seqLoop_post g b0 (g.blocks.length + 1) initSeqState (some b0)
    hinit hcand hfuel
  rw [← hrun] at hI hcomp
  obtain ⟨i1, i2, i3, i4, i5, i6, i7, i8, i9⟩ := hI
  refine ⟨⟨?_, i2, hcomp, i3, i5, i9⟩, addToBlockSequenceWorkList_eq,
    workListSeqResult_weight_gate⟩
  rcases i4 with h | h
  · have := hcomp b0 hb0
    rw [h] at this
    cases this
  · exact h

theorem claim_C8_witness :
    (setBlockSequence gC8).seq.head? = some bbC8_1.num ∧
    (setBlockSequence gC8).seq.Nodup ∧
    bbC8_3.num ∈ (setBlockSequence gC8).seq := by
  have h := claim_C8_amended_setBlockSequence gC8 bbC8_1 [bbC8_2, bbC8_3] rfl (by decide)
  exact ⟨h.1.1, h.1.2.1, h.1.2.2.1 bbC8_3 (by decide)⟩

/-! ## Edge resolution: `resolveEdge` (lsra.cpp 8248-8666)

The xarch release code path is embedded: registers are `Nat`; `REG_NA` and
`REG_STK` sentinels become the dedicated type `RegLoc`; the register masks
(`targetRegsToDo`, `targetRegsReady`, `targetRegsFromStack`) become sorted
duplicate-free lists whose head is `genFindLowestBit`; the `location`,
`source`, `sourceIntervals` and `stackToRegIntervals` arrays become functions.
On xarch there is no `tempRegInt` (int cycles use `xchg`), and the ARM-only
double-register blocks are absent. -/

inductive RegLoc where
  | na
  | stk
  | reg (r : Nat)
deriving DecidableEq, Repr

/-- One emitted resolution operation: `mv v dst src` is `addResolution`
(covering reg→reg, reg→stack, stack→reg; a stack location is the variable's
own spill slot), `swap` is `insertSwap`. -/
inductive RMove where
  | mv (v : Nat) (dst : VLoc) (src : VLoc)
  | swap (v1 : Nat) (r1 : Nat) (v2 : Nat) (r2 : Nat)
deriving DecidableEq, Repr

/-- Per-variable resolution data for one edge: the variable and its locations
in the `from` and `to` VarToRegMaps. -/
structure ResolvePair where
  varNum : Nat
  fromLoc : VLoc
  toLoc : VLoc
deriving DecidableEq, Repr

/-- Sorted insertion: `mask |= genRegMask r`. -/
def maskAdd (r : Nat) : List Nat → List Nat
  | [] => [r]
  | x :: xs => if r < x then r :: x :: xs else if r = x then x :: xs else x :: maskAdd r xs

/-- `mask &= ~genRegMask r`. -/
def maskRem (r : Nat) (l : List Nat) : List Nat := l.filter (fun x => x ≠ r)

def upd {α : Type} (f : Nat → α) (x : Nat) (v : α) : Nat → α :=
  fun y => if y = x then v else f y

structure EdgeSt where
  location : Nat → RegLoc
  source : Nat → Option Nat
  sourceIntervals : Nat → Option Nat
  stackToRegIntervals : Nat → Option Nat
  toDo : List Nat
  ready : List Nat
  fromStack : List Nat
  moves : List RMove

def emptyEdgeSt : EdgeSt :=
  { location := fun _ => RegLoc.na
    source := fun _ => none
    sourceIntervals := fun _ => none
    stackToRegIntervals := fun _ => none
    toDo := []
    ready := []
    fromStack := []
    moves := [] }

/-- First pass over the live set (lsra.cpp 8368-8412): reg→stack moves are
emitted immediately, reg→reg moves are recorded in `location`/`source`/
`sourceIntervals` and `targetRegsToDo`, stack→reg moves are recorded for the
final phase.  Pairs with equal locations are skipped. -/
def setupOne (st : EdgeSt) (p : ResolvePair) : EdgeSt :=
  if p.fromLoc = p.toLoc then st
  else
    match p.fromLoc, p.toLoc with
    | VLoc.stk, VLoc.reg t =>
      { st with stackToRegIntervals := upd st.stackToRegIntervals t (some p.varNum)
                fromStack := maskAdd t st.fromStack }
    | VLoc.reg f, VLoc.stk =>
      { st with moves := st.moves ++ [RMove.mv p.varNum VLoc.stk (VLoc.reg f)] }
    | VLoc.reg f, VLoc.reg t =>
      { st with location := upd st.location f (RegLoc.reg f)
                source := upd st.source t (some f)
                sourceIntervals := upd st.sourceIntervals f (some p.varNum)
                toDo := maskAdd t st.toDo }
    | VLoc.stk, VLoc.stk => st

/-- Initial ready scan (lsra.cpp 8417-8444): targets whose `location` is still
`REG_NA` are free to receive. -/
def initReady (st : EdgeSt) : EdgeSt :=
  { st with ready := st.toDo.filter (fun t => st.location t = RegLoc.na) }

/-- The scan for `otherTargetReg` (lsra.cpp 8560-8590): the register whose
pending value currently occupies `t`; checked first for `f`, then by scanning
`targetRegsToDo` from the lowest bit. -/
def findOtherTarget (st : EdgeSt) (t f : Nat) : Option Nat :=
  let cand1 : Bool :=
    match st.source f with
    | some sf => decide (st.location sf = RegLoc.reg t)
    | none => false
  if cand1 then some f
  else st.toDo.find? (fun n =>
    match st.source n with
    | some sn => decide (st.location sn = RegLoc.reg t)
    | none => false)

/-- Swap cycle break for integer registers (lsra.cpp 8592-8601, 8623):
exchange `t` and `f`; the variable headed to `t` and the one displaced out of
`t` (headed to `o`) are accounted; when `o = f` both moves are complete. -/
def swapBreak (st : EdgeSt) (t s f : Nat) : EdgeSt :=
  match findOtherTarget st t f with
  | none => st
  | some o =>
    match st.source o with
    | none => st
    | some so =>
      let toDo1 := if o = f then maskRem f st.toDo else st.toDo
      { st with
        moves := st.moves ++
          [RMove.swap ((st.sourceIntervals so).getD 0) t ((st.sourceIntervals s).getD 0) f]
        location := upd (upd st.location s RegLoc.na) so (RegLoc.reg f)
        toDo := maskRem t toDo1 }

/-- Stack cycle break when no float temp is available (lsra.cpp 8602-8622):
spill the occupant of `t` to its own stack slot, then move the incoming value
into `t` and mark the vacated `f` ready. -/
def spillBreak (st : EdgeSt) (t s f : Nat) : EdgeSt :=
  match findOtherTarget st t f with
  | none => st
  | some o =>
    match st.source o with
    | none => st
    | some so =>
      { st with
        moves := st.moves ++
          [RMove.mv ((st.sourceIntervals so).getD 0) VLoc.stk (VLoc.reg t),
           RMove.mv ((st.sourceIntervals s).getD 0) (VLoc.reg t) (VLoc.reg f)]
        location := upd (upd st.location so RegLoc.stk) s RegLoc.na
        ready := maskAdd f st.ready
        toDo := maskRem t st.toDo }

/-- One iteration of the register-to-register loop (lsra.cpp 8447-8650),
flattened: if any target is ready, process the lowest ready target
(8449-8513); otherwise process the lowest pending target (8514-8649):
already in place, or break the cycle by swap (int), float temp register, or
stack spill. -/
def edgeStep (isFloatReg : Nat → Bool) (tempRegFlt : Option Nat) (st : EdgeSt) : EdgeSt :=
  match st.ready with
  | t :: readyRest =>
    match st.source t with
    | none => st
    | some s =>
      match st.location s with
      | RegLoc.na => st
      | RegLoc.stk =>
        { st with
          toDo := maskRem t st.toDo
          ready := readyRest
          moves := st.moves ++ [RMove.mv ((st.sourceIntervals s).getD 0) (VLoc.reg t) VLoc.stk]
          sourceIntervals := upd st.sourceIntervals s none
          location := upd st.location s RegLoc.na }
      | RegLoc.reg f =>
        { st with
          toDo := maskRem t st.toDo
          ready := if f = s ∧ (st.source f).isSome then maskAdd f readyRest else readyRest
          moves := st.moves ++ [RMove.mv ((st.sourceIntervals s).getD 0) (VLoc.reg t) (VLoc.reg f)]
          sourceIntervals := upd st.sourceIntervals s none
          location := upd st.location s RegLoc.na }
  | [] =>
    match st.toDo with
    | [] => st
    | t :: _ =>
      match st.source t with
      | none => st
      | some s =>
        match st.location s with
        | RegLoc.na => st
        | RegLoc.stk => st
        | RegLoc.reg f =>
          if t = f then { st with toDo := maskRem t st.toDo }
          else if isFloatReg t then
            match tempRegFlt with
            | some tmp =>
              { st with
                moves := st.moves ++
                  [RMove.mv ((st.sourceIntervals t).getD 0) (VLoc.reg tmp) (VLoc.reg t)]
                location := upd st.location t (RegLoc.reg tmp)
                ready := maskAdd t st.ready }
            | none => spillBreak st t s f
          else swapBreak st t s f

def edgeLoop (isFloatReg : Nat → Bool) (tempRegFlt : Option Nat) :
    Nat → EdgeSt → EdgeSt
  | 0, st => st
  | fuel + 1, st =>
    if st.toDo = [] then st
    else edgeLoop isFloatReg tempRegFlt fuel (edgeStep isFloatReg tempRegFlt st)

/-- Final stack-to-reg phase (lsra.cpp 8654-8665), lowest target first. -/
def finishStack (st : EdgeSt) : EdgeSt :=
  { st with moves := st.moves ++
      st.fromStack.map (fun t => RMove.mv ((st.stackToRegIntervals t).getD 0) (VLoc.reg t) VLoc.stk) }

/-- The whole of `resolveEdge` restricted to move emission, as a function of
the per-variable location pairs. -/
def resolveEdgeRun (isFloatReg : Nat → Bool) (tempRegFlt : Option Nat)
    (pairs : List ResolvePair) : EdgeSt :=
  finishStack (edgeLoop isFloatReg tempRegFlt (2 * pairs.length + 1)
    (initReady (pairs.foldl setupOne emptyEdgeSt)))

/-! Machine semantics for the emitted moves: registers hold variable values,
and each variable has its own stack slot. -/

structure MachineSt where
  regs : Nat → Option Nat
  slot : Nat → Option Nat

def readLoc (M : MachineSt) (v : Nat) : VLoc → Option Nat
  | VLoc.reg r => M.regs r
  | VLoc.stk => M.slot v

def execMove (M : MachineSt) : RMove → MachineSt
  | RMove.mv v dst src =>
    let value := readLoc M v src
    match dst with
    | VLoc.reg r => { M with regs := upd M.regs r value }
    | VLoc.stk => { M with slot := upd M.slot v value }
  | RMove.swap _ r1 _ r2 =>
    { M with regs := fun r => if r = r1 then M.regs r2 else if r = r2 then M.regs r1 else M.regs r }

def execMoves (M : MachineSt) (ms : List RMove) : MachineSt := ms.foldl execMove M

/-- The machine at the edge's entry: every variable sits at its `from`
location. -/
def initMachine (pairs : List ResolvePair) : MachineSt :=
  { regs := fun r => (pairs.find? (fun p => p.fromLoc == VLoc.reg r)).map ResolvePair.varNum
    slot := fun v =>
      (pairs.find? (fun p => p.varNum == v && p.fromLoc == VLoc.stk)).map ResolvePair.varNum }

def isRR (p : ResolvePair) : Bool :=
  match p.fromLoc, p.toLoc with
  | VLoc.reg f, VLoc.reg t => decide (f ≠ t)
  | _, _ => false

def fromR (p : ResolvePair) : Nat :=
  match p.fromLoc with
  | VLoc.reg f => f
  | VLoc.stk => 0

def toR (p : ResolvePair) : Nat :=
  match p.toLoc with
  | VLoc.reg t => t
  | VLoc.stk => 0

/-- The register-to-register resolution pairs (distinct from/to registers). -/
def RP (pairs : List ResolvePair) : List ResolvePair := pairs.filter isRR

/-- The reg→stack moves emitted by the first pass, in pair order. -/
def stkMoves (pairs : List ResolvePair) : List RMove :=
  pairs.filterMap (fun p =>
    match p.fromLoc, p.toLoc with
    | VLoc.reg f, VLoc.stk => some (RMove.mv p.varNum VLoc.stk (VLoc.reg f))
    | _, _ => none)

/-- Shape of a move emitted by the register-to-register loop: a move between
registers, a swap, or a cycle-break spill/reload through a stack slot. -/
def LoopMove (m : RMove) : Prop :=
  (∃ v a b, m = RMove.mv v (VLoc.reg a) (VLoc.reg b)) ∨
  (∃ v1 a v2 b, m = RMove.swap v1 a v2 b) ∨
  (∃ v a, m = RMove.mv v VLoc.stk (VLoc.reg a)) ∨
  (∃ v a, m = RMove.mv v (VLoc.reg a) VLoc.stk)

/-- Registers written by one move. -/
def regWritesOf : RMove → List Nat
  | RMove.mv _ (VLoc.reg r) _ => [r]
  | RMove.mv _ VLoc.stk _ => []
  | RMove.swap _ r1 _ r2 => [r1, r2]

theorem upd_same {α : Type} (f : Nat → α) (x : Nat) (v : α) : upd f x v x = v := by
  simp [upd]

theorem upd_other {α : Type} (f : Nat → α) (x y : Nat) (v : α) (h : y ≠ x) :
    upd f x v y = f y := by
  simp [upd, h]

theorem mem_maskAdd (r x : Nat) : ∀ l : List Nat, x ∈ maskAdd r l ↔ x = r ∨ x ∈ l := by
  intro l
  induction l with
  | nil => simp [maskAdd]
  | cons a as ih =>
    by_cases h1 : r < a
    · simp [maskAdd, h1]
    · by_cases h2 : r = a
      · subst h2
        simp [maskAdd, h1]
      · simp only [maskAdd, if_neg h1, if_neg h2, List.mem_cons, ih]
        tauto

theorem sorted_maskAdd (r : Nat) : ∀ l : List Nat, List.Sorted (· < ·) l →
    List.Sorted (· < ·) (maskAdd r l) := by
  intro l
  induction l with
  | nil => intro _; simp [maskAdd]
  | cons a as ih =>
    intro hs
    rw [List.sorted_cons] at hs
    obtain ⟨ha, hs⟩ := hs
    by_cases h1 : r < a
    · simp only [maskAdd, if_pos h1]
      rw [List.sorted_cons]
      refine ⟨?_, ?_⟩
      · intro b hb
        rcases List.mem_cons.mp hb with rfl | hb
        · exact h1
        · exact lt_trans h1 (ha b hb)
      · rw [List.sorted_cons]; exact ⟨ha, hs⟩
    · by_cases h2 : r = a
      · subst h2
        have he : maskAdd r (r :: as) = r :: as := by simp [maskAdd, h1]
        rw [he, List.sorted_cons]
        exact ⟨ha, hs⟩
      · simp only [maskAdd, if_neg h1, if_neg h2]
        rw [List.sorted_cons]
        refine ⟨?_, ih hs⟩
        intro b hb
        rcases (mem_maskAdd r b as).mp hb with rfl | hb
        · omega
        · exact ha b hb

theorem mem_maskRem (r x : Nat) (l : List Nat) : x ∈ maskRem r l ↔ x ∈ l ∧ x ≠ r := by
  simp [maskRem]

theorem sorted_maskRem (r : Nat) (l : List Nat) (h : List.Sorted (· < ·) l) :
    List.Sorted (· < ·) (maskRem r l) := List.Sorted.filter _ h

theorem maskRem_cons_self (r : Nat) (as : List Nat) :
    maskRem r (r :: as) = maskRem r as := by
  simp [maskRem]

theorem maskRem_cons_ne (r a : Nat) (as : List Nat) (h : a ≠ r) :
    maskRem r (a :: as) = a :: maskRem r as := by
  simp [maskRem, h]

theorem maskRem_eq_self (r : Nat) (l : List Nat) (h : r ∉ l) : maskRem r l = l := by
  rw [maskRem, List.filter_eq_self.mpr]
  intro x hx
  have : x ≠ r := fun hc => h (hc ▸ hx)
  simpa using this

theorem length_maskRem_of_mem (r : Nat) : ∀ l : List Nat, l.Nodup → r ∈ l →
    (maskRem r l).length + 1 = l.length := by
  intro l
  induction l with
  | nil => intro _ h; cases h
  | cons a as ih =>
    intro hn h
    rw [List.nodup_cons] at hn
    rcases List.mem_cons.mp h with rfl | h2
    · rw [maskRem_cons_self, maskRem_eq_self r as hn.1]
      simp
    · have hne : a ≠ r := fun hc => hn.1 (hc ▸ h2)
      rw [maskRem_cons_ne r a as hne]
      have := ih hn.2 h2
      simp only [List.length_cons]
      omega

theorem length_maskAdd_of_not_mem (r : Nat) : ∀ l : List Nat, r ∉ l →
    (maskAdd r l).length = l.length + 1 := by
  intro l
  induction l with
  | nil => intro _; simp [maskAdd]
  | cons a as ih =>
    intro h
    have h1 : r ≠ a := fun hc => h (by simp [hc])
    have h2 : r ∉ as := fun hc => h (by simp [hc])
    by_cases hlt : r < a
    · simp [maskAdd, hlt]
    · simp only [maskAdd, if_neg hlt, if_neg h1, List.length_cons, ih h2]

theorem execMoves_append (M : MachineSt) (l1 l2 : List RMove) :
    execMoves M (l1 ++ l2) = execMoves (execMoves M l1) l2 := by
  simp [execMoves, List.foldl_append]

theorem RP_shape (pairs : List ResolvePair) (p : ResolvePair) (h : p ∈ RP pairs) :
    p ∈ pairs ∧ p.fromLoc = VLoc.reg (fromR p) ∧ p.toLoc = VLoc.reg (toR p) ∧
    fromR p ≠ toR p := by
  rw [RP, List.mem_filter] at h
  obtain ⟨hmem, hrr⟩ := h
  cases hf : p.fromLoc with
  | stk => exact absurd hrr (by simp [isRR, hf])
  | reg f =>
    cases ht : p.toLoc with
    | stk => exact absurd hrr (by simp [isRR, hf, ht])
    | reg t =>
      have hne : f ≠ t := by simpa [isRR, hf, ht] using hrr
      refine ⟨hmem, ?_, ?_, ?_⟩
      · simp [fromR, hf]
      · simp [toR, ht]
      · simp only [fromR, toR, hf, ht]
        exact hne

theorem mem_RP_of (pairs : List ResolvePair) (p : ResolvePair) (hp : p ∈ pairs)
    (f t : Nat) (hf : p.fromLoc = VLoc.reg f) (ht : p.toLoc = VLoc.reg t) (hne : f ≠ t) :
    p ∈ RP pairs ∧ fromR p = f ∧ toR p = t := by
  refine ⟨?_, by rw [fromR, hf], by rw [toR, ht]⟩
  rw [RP, List.mem_filter]
  refine ⟨hp, ?_⟩
  unfold isRR
  rw [hf, ht]
  simpa using hne

/-- Static well-formedness of the resolution input, together with the
path/cycle decomposition of the from→to functional graph (`cyc` marks the
pairs lying on a cycle; `rank` decreases along successor edges of paths). -/
structure EdgeHyps (isFloatReg : Nat → Bool) (tempRegFlt : Option Nat)
    (pairs : List ResolvePair) (cyc : ResolvePair → Bool) (rank : ResolvePair → Nat) :
    Prop where
  toinj : ∀ p ∈ pairs, ∀ q ∈ pairs, ∀ r, p.toLoc = VLoc.reg r → q.toLoc = VLoc.reg r → p = q
  frominj : ∀ p ∈ pairs, ∀ q ∈ pairs, ∀ r,
    p.fromLoc = VLoc.reg r → q.fromLoc = VLoc.reg r → p = q
  varinj : ∀ p ∈ pairs, ∀ q ∈ pairs, p.varNum = q.varNum → p = q
  tmpfresh : ∀ tmp, tempRegFlt = some tmp →
    ∀ p ∈ pairs, p.fromLoc ≠ VLoc.reg tmp ∧ p.toLoc ≠ VLoc.reg tmp
  classc : ∀ p ∈ pairs, ∀ f t, p.fromLoc = VLoc.reg f → p.toLoc = VLoc.reg t →
    isFloatReg f = isFloatReg t
  cycF : ∀ p ∈ RP pairs, cyc p = true → ∃ q ∈ RP pairs, fromR q = toR p ∧ cyc q = true
  cycBk : ∀ p ∈ RP pairs, cyc p = true → ∃ q ∈ RP pairs, toR q = fromR p ∧ cyc q = true
  pathR : ∀ p ∈ RP pairs, cyc p = false → ∀ q ∈ RP pairs, fromR q = toR p →
    cyc q = false ∧ rank q < rank p

/-- The register-to-register loop invariant, tying the resolver state to the
machine obtained by executing the moves emitted so far. -/
structure EdgeInv (isFloatReg : Nat → Bool) (tempRegFlt : Option Nat)
    (pairs : List ResolvePair) (cyc : ResolvePair → Bool)
    (st : EdgeSt) (M : MachineSt) : Prop where
  j1 : ∀ p ∈ RP pairs, st.source (toR p) = some (fromR p)
  j1b : ∀ r s, st.source r = some s → ∃ p ∈ RP pairs, toR p = r ∧ fromR p = s
  j2 : ∀ t ∈ st.toDo, ∃ p ∈ RP pairs, toR p = t
  j2s : List.Sorted (· < ·) st.toDo
  j2r : List.Sorted (· < ·) st.ready
  j2sub : ∀ t ∈ st.ready, t ∈ st.toDo
  j3 : ∀ p ∈ RP pairs, toR p ∈ st.toDo →
    st.sourceIntervals (fromR p) = some p.varNum ∧
    ((∃ r, st.location (fromR p) = RegLoc.reg r ∧ M.regs r = some p.varNum) ∨
     (st.location (fromR p) = RegLoc.stk ∧ M.slot p.varNum = some p.varNum))
  j4 : ∀ p ∈ RP pairs, toR p ∉ st.toDo → M.regs (toR p) = some p.varNum
  j5 : ∀ p ∈ RP pairs, ∀ q ∈ RP pairs, toR p ∈ st.toDo → toR q ∈ st.toDo →
    ∀ r, st.location (fromR p) = RegLoc.reg r → st.location (fromR q) = RegLoc.reg r → p = q
  j6 : ∀ p ∈ RP pairs, toR p ∈ st.toDo → ∀ r, st.location (fromR p) = RegLoc.reg r →
    (∀ q ∈ RP pairs, toR q = r → toR q ∈ st.toDo) ∧
    (∀ q ∈ pairs, q.fromLoc = q.toLoc → q.toLoc ≠ VLoc.reg r)
  j7a : ∀ t ∈ st.ready, ∀ p ∈ RP pairs, toR p ∈ st.toDo → st.location (fromR p) ≠ RegLoc.reg t
  j7c : ∀ t ∈ st.toDo, t ∉ st.ready →
    ∃ q ∈ RP pairs, toR q ∈ st.toDo ∧ st.location (fromR q) = RegLoc.reg t
  j8 : ∀ p ∈ RP pairs, toR p ∈ st.toDo →
    (isFloatReg (fromR p) = true →
      (st.location (fromR p) = RegLoc.reg (fromR p) ∨
       (∃ tmp, tempRegFlt = some tmp ∧ st.location (fromR p) = RegLoc.reg tmp) ∨
       (st.location (fromR p) = RegLoc.stk ∧ tempRegFlt = none))) ∧
    (isFloatReg (fromR p) = false →
      ∃ r, st.location (fromR p) = RegLoc.reg r ∧ isFloatReg r = false)
  jcycP : ∀ p ∈ RP pairs, toR p ∈ st.toDo → cyc p = false →
    st.location (fromR p) = RegLoc.reg (fromR p)
  jcycI : ∀ p ∈ RP pairs, toR p ∈ st.toDo → cyc p = true → isFloatReg (fromR p) = false →
    toR p ∉ st.ready
  jdisp : ∀ p ∈ RP pairs, toR p ∈ st.toDo → ∀ r, st.location (fromR p) = RegLoc.reg r →
    r ≠ fromR p →
    tempRegFlt = some r ∨
    (cyc p = true ∧ ∃ d ∈ RP pairs, cyc d = true ∧ fromR d = r ∧ toR d ∉ st.toDo)
  j9 : ∀ p ∈ pairs, p.fromLoc = VLoc.stk → ∀ t, p.toLoc = VLoc.reg t →
    M.slot p.varNum = some p.varNum ∧ st.stackToRegIntervals t = some p.varNum ∧
    t ∈ st.fromStack
  j10 : ∀ p ∈ pairs, ∀ r, p.fromLoc = VLoc.reg r → p.toLoc = VLoc.reg r →
    M.regs r = some p.varNum
  j11 : ∀ p ∈ pairs, ∀ r, p.fromLoc = VLoc.reg r → p.toLoc = VLoc.stk →
    M.slot p.varNum = some p.varNum
  j13 : ∀ p ∈ pairs, p.fromLoc = VLoc.stk → p.toLoc = VLoc.stk →
    M.slot p.varNum = some p.varNum
  j12 : ∀ t ∈ st.fromStack, ∃ p ∈ pairs, p.fromLoc = VLoc.stk ∧ p.toLoc = VLoc.reg t
  j12s : List.Sorted (· < ·) st.fromStack
  jmv : ∃ l2, st.moves = stkMoves pairs ++ l2 ∧ ∀ m ∈ l2, LoopMove m
  jwr : ∀ m ∈ st.moves, ∀ r ∈ regWritesOf m,
    (∃ p ∈ pairs, p.toLoc = VLoc.reg r) ∨ (∃ p ∈ pairs, p.fromLoc = VLoc.reg r) ∨
    tempRegFlt = some r
  jdone : ∀ w ∈ RP pairs, toR w ∉ st.toDo → ∀ r, st.location (fromR w) = RegLoc.reg r →
    r ∉ st.toDo

theorem setupOne_skip (st : EdgeSt) (p : ResolvePair) (h : p.fromLoc = p.toLoc) :
    setupOne st p = st := by
  simp [setupOne, h]

theorem setupOne_stkreg (st : EdgeSt) (p : ResolvePair) (t : Nat)
    (hf : p.fromLoc = VLoc.stk) (ht : p.toLoc = VLoc.reg t) :
    setupOne st p =
      { st with stackToRegIntervals := upd st.stackToRegIntervals t (some p.varNum)
                fromStack := maskAdd t st.fromStack } := by
  have hne : p.fromLoc ≠ p.toLoc := by rw [hf, ht]; intro h; cases h
  simp [setupOne, hne, hf, ht]

theorem setupOne_regstk (st : EdgeSt) (p : ResolvePair) (f : Nat)
    (hf : p.fromLoc = VLoc.reg f) (ht : p.toLoc = VLoc.stk) :
    setupOne st p =
      { st with moves := st.moves ++ [RMove.mv p.varNum VLoc.stk (VLoc.reg f)] } := by
  have hne : p.fromLoc ≠ p.toLoc := by rw [hf, ht]; intro h; cases h
  simp [setupOne, hne, hf, ht]

theorem setupOne_regreg (st : EdgeSt) (p : ResolvePair) (f t : Nat)
    (hf : p.fromLoc = VLoc.reg f) (ht : p.toLoc = VLoc.reg t) (hne : f ≠ t) :
    setupOne st p =
      { st with location := upd st.location f (RegLoc.reg f)
                source := upd st.source t (some f)
                sourceIntervals := upd st.sourceIntervals f (some p.varNum)
                toDo := maskAdd t st.toDo } := by
  have hne2 : p.fromLoc ≠ p.toLoc := by rw [hf, ht]; intro h; cases h; exact hne rfl
  simp [setupOne, hne2, hf, ht, hne]

theorem stkMoves_cons_skip (p : ResolvePair) (ps : List ResolvePair)
    (h : ¬(∃ f, p.fromLoc = VLoc.reg f ∧ p.toLoc = VLoc.stk)) :
    stkMoves (p :: ps) = stkMoves ps := by
  cases hf : p.fromLoc with
  | stk => cases ht : p.toLoc <;> simp [stkMoves, List.filterMap_cons, hf, ht]
  | reg f =>
    cases ht : p.toLoc with
    | stk => exact absurd ⟨f, hf, ht⟩ h
    | reg t => simp [stkMoves, List.filterMap_cons, hf, ht]

theorem stkMoves_cons_mv (p : ResolvePair) (ps : List ResolvePair) (f : Nat)
    (hf : p.fromLoc = VLoc.reg f) (ht : p.toLoc = VLoc.stk) :
    stkMoves (p :: ps) = RMove.mv p.varNum VLoc.stk (VLoc.reg f) :: stkMoves ps := by
  rw [stkMoves, List.filterMap_cons, hf, ht]
  rfl

theorem setup_frame : ∀ (ps : List ResolvePair) (st : EdgeSt),
    ((ps.foldl setupOne st).ready = st.ready) ∧
    ((ps.foldl setupOne st).moves = st.moves ++ stkMoves ps) ∧
    (∀ r, (ps.foldl setupOne st).source r = st.source r ∨
      ∃ p, p ∈ ps ∧ isRR p = true ∧ toR p = r ∧
        (ps.foldl setupOne st).source r = some (fromR p)) ∧
    (∀ r, (ps.foldl setupOne st).location r = st.location r ∨
      ∃ p, p ∈ ps ∧ isRR p = true ∧ fromR p = r ∧
        (ps.foldl setupOne st).location r = RegLoc.reg r) ∧
    (∀ r, (ps.foldl setupOne st).sourceIntervals r = st.sourceIntervals r ∨
      ∃ p, p ∈ ps ∧ isRR p = true ∧ fromR p = r ∧
        (ps.foldl setupOne st).sourceIntervals r = some p.varNum) ∧
    (∀ r, (ps.foldl setupOne st).stackToRegIntervals r = st.stackToRegIntervals r ∨
      ∃ p, p ∈ ps ∧ p.fromLoc = VLoc.stk ∧ p.toLoc = VLoc.reg r ∧
        (ps.foldl setupOne st).stackToRegIntervals r = some p.varNum) ∧
    (∀ t, t ∈ (ps.foldl setupOne st).toDo ↔
      t ∈ st.toDo ∨ ∃ p, p ∈ ps ∧ isRR p = true ∧ toR p = t) ∧
    (∀ t, t ∈ (ps.foldl setupOne st).fromStack ↔
      t ∈ st.fromStack ∨ ∃ p, p ∈ ps ∧ p.fromLoc = VLoc.stk ∧ p.toLoc = VLoc.reg t) ∧
    (List.Sorted (· < ·) st.toDo → List.Sorted (· < ·) (ps.foldl setupOne st).toDo) ∧
    (List.Sorted (· < ·) st.fromStack →
      List.Sorted (· < ·) (ps.foldl setupOne st).fromStack) := by
  intro ps
  induction ps with
  | nil =>
    intro st
    refine ⟨rfl, by simp [stkMoves], fun r => Or.inl rfl, fun r => Or.inl rfl,
      fun r => Or.inl rfl, fun r => Or.inl rfl, fun t => by simp, fun t => by simp,
      fun h => h, fun h => h⟩
  | cons p ps ih =>
    intro st
    simp only [List.foldl_cons]
    cases hf : p.fromLoc with
    | stk =>
      cases ht : p.toLoc with
      | stk =>
        rw [setupOne_skip st p (by rw [hf, ht])]
        obtain ⟨i1, i2, i3, i4, i5, i6, i7, i8, i9, i10⟩ := ih st
        rw [stkMoves_cons_skip p ps (by rw [hf]; rintro ⟨f, hc, _⟩; cases hc)]
        refine ⟨i1, i2, ?_, ?_, ?_, ?_, ?_, ?_, i9, i10⟩
        · intro r
          rcases i3 r with h | ⟨q, hq1, hq2, hq3, hq4⟩
          · exact Or.inl h
          · exact Or.inr ⟨q, by simp [hq1], hq2, hq3, hq4⟩
        · intro r
          rcases i4 r with h | ⟨q, hq1, hq2, hq3, hq4⟩
          · exact Or.inl h
          · exact Or.inr ⟨q, by simp [hq1], hq2, hq3, hq4⟩
        · intro r
          rcases i5 r with h | ⟨q, hq1, hq2, hq3, hq4⟩
          · exact Or.inl h
          · exact Or.inr ⟨q, by simp [hq1], hq2, hq3, hq4⟩
        · intro r
          rcases i6 r with h | ⟨q, hq1, hq2, hq3, hq4⟩
          · exact Or.inl h
          · exact Or.inr ⟨q, by simp [hq1], hq2, hq3, hq4⟩
        · intro t'
          rw [i7 t']
          constructor
          · rintro (h | ⟨q, hq1, hq2, hq3⟩)
            · exact Or.inl h
            · exact Or.inr ⟨q, by simp [hq1], hq2, hq3⟩
          · rintro (h | ⟨q, hq1, hq2, hq3⟩)
            · exact Or.inl h
            · rcases List.mem_cons.mp hq1 with rfl | hq1
              · exact absurd hq2 (by simp [isRR, hf])
              · exact Or.inr ⟨q, hq1, hq2, hq3⟩
        · intro t'
          rw [i8 t']
          constructor
          · rintro (h | ⟨q, hq1, hq2, hq3⟩)
            · exact Or.inl h
            · exact Or.inr ⟨q, by simp [hq1], hq2, hq3⟩
          · rintro (h | ⟨q, hq1, hq2, hq3⟩)
            · exact Or.inl h
            · rcases List.mem_cons.mp hq1 with rfl | hq1
              · rw [hq3] at ht; cases ht
              · exact Or.inr ⟨q, hq1, hq2, hq3⟩
      | reg t =>
        rw [setupOne_stkreg st p t hf ht]
        obtain ⟨i1, i2, i3, i4, i5, i6, i7, i8, i9, i10⟩ := ih
          { st with stackToRegIntervals := upd st.stackToRegIntervals t (some p.varNum)
                    fromStack := maskAdd t st.fromStack }
        rw [stkMoves_cons_skip p ps (by rw [hf]; rintro ⟨f, hc, _⟩; cases hc)]
        refine ⟨i1, i2, ?_, ?_, ?_, ?_, ?_, ?_, i9, ?_⟩
        · intro r
          rcases i3 r with h | ⟨q, hq1, hq2, hq3, hq4⟩
          · exact Or.inl h
          · exact Or.inr ⟨q, by simp [hq1], hq2, hq3, hq4⟩
        · intro r
          rcases i4 r with h | ⟨q, hq1, hq2, hq3, hq4⟩
          · exact Or.inl h
          · exact Or.inr ⟨q, by simp [hq1], hq2, hq3, hq4⟩
        · intro r
          rcases i5 r with h | ⟨q, hq1, hq2, hq3, hq4⟩
          · exact Or.inl h
          · exact Or.inr ⟨q, by simp [hq1], hq2, hq3, hq4⟩
        · intro r
          rcases i6 r with h | ⟨q, hq1, hq2, hq3, hq4⟩
          · by_cases hr : r = t
            · subst hr
              exact Or.inr ⟨p, by simp, hf, ht, by rw [h]; exact upd_same _ _ _⟩
            · exact Or.inl (by rw [h]; exact upd_other _ _ _ _ hr)
          · exact Or.inr ⟨q, by simp [hq1], hq2, hq3, hq4⟩
        · intro t'
          rw [i7 t']
          constructor
          · rintro (h | ⟨q, hq1, hq2, hq3⟩)
            · exact Or.inl h
            · exact Or.inr ⟨q, by simp [hq1], hq2, hq3⟩
          · rintro (h | ⟨q, hq1, hq2, hq3⟩)
            · exact Or.inl h
            · rcases List.mem_cons.mp hq1 with rfl | hq1
              · exact absurd hq2 (by simp [isRR, hf])
              · exact Or.inr ⟨q, hq1, hq2, hq3⟩
        · intro t'
          rw [i8 t']
          constructor
          · rintro (h | ⟨q, hq1, hq2, hq3⟩)
            · rcases (mem_maskAdd t t' st.fromStack).mp h with rfl | h
              · exact Or.inr ⟨p, by simp, hf, ht⟩
              · exact Or.inl h
            · exact Or.inr ⟨q, by simp [hq1], hq2, hq3⟩
          · rintro (h | ⟨q, hq1, hq2, hq3⟩)
            · exact Or.inl ((mem_maskAdd t t' st.fromStack).mpr (Or.inr h))
            · rcases List.mem_cons.mp hq1 with rfl | hq1
              · rw [ht] at hq3
                cases hq3
                exact Or.inl ((mem_maskAdd t t st.fromStack).mpr (Or.inl rfl))
              · exact Or.inr ⟨q, hq1, hq2, hq3⟩
        · intro hs
          exact i10 (sorted_maskAdd t st.fromStack hs)
    | reg f =>
      cases ht : p.toLoc with
      | stk =>
        rw [setupOne_regstk st p f hf ht]
        obtain ⟨i1, i2, i3, i4, i5, i6, i7, i8, i9, i10⟩ := ih
          { st with moves := st.moves ++ [RMove.mv p.varNum VLoc.stk (VLoc.reg f)] }
        rw [stkMoves_cons_mv p ps f hf ht]
        refine ⟨i1, by rw [i2]; simp, ?_, ?_, ?_, ?_, ?_, ?_, i9, i10⟩
        · intro r
          rcases i3 r with h | ⟨q, hq1, hq2, hq3, hq4⟩
          · exact Or.inl h
          · exact Or.inr ⟨q, by simp [hq1], hq2, hq3, hq4⟩
        · intro r
          rcases i4 r with h | ⟨q, hq1, hq2, hq3, hq4⟩
          · exact Or.inl h
          · exact Or.inr ⟨q, by simp [hq1], hq2, hq3, hq4⟩
        · intro r
          rcases i5 r with h | ⟨q, hq1, hq2, hq3, hq4⟩
          · exact Or.inl h
          · exact Or.inr ⟨q, by simp [hq1], hq2, hq3, hq4⟩
        · intro r
          rcases i6 r with h | ⟨q, hq1, hq2, hq3, hq4⟩
          · exact Or.inl h
          · exact Or.inr ⟨q, by simp [hq1], hq2, hq3, hq4⟩
        · intro t'
          rw [i7 t']
          constructor
          · rintro (h | ⟨q, hq1, hq2, hq3⟩)
            · exact Or.inl h
            · exact Or.inr ⟨q, by simp [hq1], hq2, hq3⟩
          · rintro (h | ⟨q, hq1, hq2, hq3⟩)
            · exact Or.inl h
            · rcases List.mem_cons.mp hq1 with rfl | hq1
              · exact absurd hq2 (by simp [isRR, hf, ht])
              · exact Or.inr ⟨q, hq1, hq2, hq3⟩
        · intro t'
          rw [i8 t']
          constructor
          · rintro (h | ⟨q, hq1, hq2, hq3⟩)
            · exact Or.inl h
            · exact Or.inr ⟨q, by simp [hq1], hq2, hq3⟩
          · rintro (h | ⟨q, hq1, hq2, hq3⟩)
            · exact Or.inl h
            · rcases List.mem_cons.mp hq1 with rfl | hq1
              · rw [hf] at hq2; cases hq2
              · exact Or.inr ⟨q, hq1, hq2, hq3⟩
      | reg t =>
        by_cases hft : f = t
        · subst hft
          rw [setupOne_skip st p (by rw [hf, ht])]
          obtain ⟨i1, i2, i3, i4, i5, i6, i7, i8, i9, i10⟩ := ih st
          rw [stkMoves_cons_skip p ps (by rw [ht]; rintro ⟨f2, _, hc⟩; cases hc)]
          refine ⟨i1, i2, ?_, ?_, ?_, ?_, ?_, ?_, i9, i10⟩
          · intro r
            rcases i3 r with h | ⟨q, hq1, hq2, hq3, hq4⟩
            · exact Or.inl h
            · exact Or.inr ⟨q, by simp [hq1], hq2, hq3, hq4⟩
          · intro r
            rcases i4 r with h | ⟨q, hq1, hq2, hq3, hq4⟩
            · exact Or.inl h
            · exact Or.inr ⟨q, by simp [hq1], hq2, hq3, hq4⟩
          · intro r
            rcases i5 r with h | ⟨q, hq1, hq2, hq3, hq4⟩
            · exact Or.inl h
            · exact Or.inr ⟨q, by simp [hq1], hq2, hq3, hq4⟩
          · intro r
            rcases i6 r with h | ⟨q, hq1, hq2, hq3, hq4⟩
            · exact Or.inl h
            · exact Or.inr ⟨q, by simp [hq1], hq2, hq3, hq4⟩
          · intro t'
            rw [i7 t']
            constructor
            · rintro (h | ⟨q, hq1, hq2, hq3⟩)
              · exact Or.inl h
              · exact Or.inr ⟨q, by simp [hq1], hq2, hq3⟩
            · rintro (h | ⟨q, hq1, hq2, hq3⟩)
              · exact Or.inl h
              · rcases List.mem_cons.mp hq1 with rfl | hq1
                · exact absurd hq2 (by simp [isRR, hf, ht])
                · exact Or.inr ⟨q, hq1, hq2, hq3⟩
          · intro t'
            rw [i8 t']
            constructor
            · rintro (h | ⟨q, hq1, hq2, hq3⟩)
              · exact Or.inl h
              · exact Or.inr ⟨q, by simp [hq1], hq2, hq3⟩
            · rintro (h | ⟨q, hq1, hq2, hq3⟩)
              · exact Or.inl h
              · rcases List.mem_cons.mp hq1 with rfl | hq1
                · rw [hf] at hq2; cases hq2
                · exact Or.inr ⟨q, hq1, hq2, hq3⟩
        · rw [setupOne_regreg st p f t hf ht hft]
          obtain ⟨i1, i2, i3, i4, i5, i6, i7, i8, i9, i10⟩ := ih
            { st with location := upd st.location f (RegLoc.reg f)
                      source := upd st.source t (some f)
                      sourceIntervals := upd st.sourceIntervals f (some p.varNum)
                      toDo := maskAdd t st.toDo }
          rw [stkMoves_cons_skip p ps (by rw [ht]; rintro ⟨f2, _, hc⟩; cases hc)]
          have hpRR : isRR p = true := by simp [isRR, hf, ht, hft]
          have hpF : fromR p = f := by simp [fromR, hf]
          have hpT : toR p = t := by simp [toR, ht]
          refine ⟨i1, i2, ?_, ?_, ?_, ?_, ?_, ?_, ?_, i10⟩
          · intro r
            rcases i3 r with h | ⟨q, hq1, hq2, hq3, hq4⟩
            · by_cases hr : r = t
              · subst hr
                exact Or.inr ⟨p, by simp, hpRR, hpT, by rw [h, hpF]; exact upd_same _ _ _⟩
              · exact Or.inl (by rw [h]; exact upd_other _ _ _ _ hr)
            · exact Or.inr ⟨q, by simp [hq1], hq2, hq3, hq4⟩
          · intro r
            rcases i4 r with h | ⟨q, hq1, hq2, hq3, hq4⟩
            · by_cases hr : r = f
              · subst hr
                exact Or.inr ⟨p, by simp, hpRR, hpF, by rw [h]; exact upd_same _ _ _⟩
              · exact Or.inl (by rw [h]; exact upd_other _ _ _ _ hr)
            · exact Or.inr ⟨q, by simp [hq1], hq2, hq3, hq4⟩
          · intro r
            rcases i5 r with h | ⟨q, hq1, hq2, hq3, hq4⟩
            · by_cases hr : r = f
              · subst hr
                exact Or.inr ⟨p, by simp, hpRR, hpF, by rw [h]; exact upd_same _ _ _⟩
              · exact Or.inl (by rw [h]; exact upd_other _ _ _ _ hr)
            · exact Or.inr ⟨q, by simp [hq1], hq2, hq3, hq4⟩
          · intro r
            rcases i6 r with h | ⟨q, hq1, hq2, hq3, hq4⟩
            · exact Or.inl h
            · exact Or.inr ⟨q, by simp [hq1], hq2, hq3, hq4⟩
          · intro t'
            rw [i7 t']
            constructor
            · rintro (h | ⟨q, hq1, hq2, hq3⟩)
              · rcases (mem_maskAdd t t' st.toDo).mp h with rfl | h
                · exact Or.inr ⟨p, by simp, hpRR, hpT⟩
                · exact Or.inl h
              · exact Or.inr ⟨q, by simp [hq1], hq2, hq3⟩
            · rintro (h | ⟨q, hq1, hq2, hq3⟩)
              · exact Or.inl ((mem_maskAdd t t' st.toDo).mpr (Or.inr h))
              · rcases List.mem_cons.mp hq1 with rfl | hq1
                · exact Or.inl (show t' ∈ maskAdd t st.toDo from
                    (mem_maskAdd t t' st.toDo).mpr (Or.inl (by rw [← hq3, hpT])))
                · exact Or.inr ⟨q, hq1, hq2, hq3⟩
          · intro t'
            rw [i8 t']
            constructor
            · rintro (h | ⟨q, hq1, hq2, hq3⟩)
              · exact Or.inl h
              · exact Or.inr ⟨q, by simp [hq1], hq2, hq3⟩
            · rintro (h | ⟨q, hq1, hq2, hq3⟩)
              · exact Or.inl h
              · rcases List.mem_cons.mp hq1 with rfl | hq1
                · rw [hf] at hq2; cases hq2
                · exact Or.inr ⟨q, hq1, hq2, hq3⟩
          · intro hs
            exact i9 (sorted_maskAdd t st.toDo hs)

theorem setup_covers : ∀ (ps : List ResolvePair) (st : EdgeSt),
    (∀ p ∈ ps, isRR p = true →
      ∃ q, (q ∈ ps ∧ isRR q = true ∧ toR q = toR p) ∧
        (ps.foldl setupOne st).source (toR p) = some (fromR q)) ∧
    (∀ p ∈ ps, isRR p = true →
      (ps.foldl setupOne st).location (fromR p) = RegLoc.reg (fromR p)) ∧
    (∀ p ∈ ps, isRR p = true →
      ∃ q, (q ∈ ps ∧ isRR q = true ∧ fromR q = fromR p) ∧
        (ps.foldl setupOne st).sourceIntervals (fromR p) = some q.varNum) ∧
    (∀ p ∈ ps, p.fromLoc = VLoc.stk → ∀ t, p.toLoc = VLoc.reg t →
      ∃ q, (q ∈ ps ∧ q.fromLoc = VLoc.stk ∧ q.toLoc = VLoc.reg t) ∧
        (ps.foldl setupOne st).stackToRegIntervals t = some q.varNum) := by
  intro ps
  induction ps with
  | nil =>
    intro st
    exact ⟨fun p hp => absurd hp (List.not_mem_nil p),
      fun p hp => absurd hp (List.not_mem_nil p),
      fun p hp => absurd hp (List.not_mem_nil p),
      fun p hp => absurd hp (List.not_mem_nil p)⟩
  | cons p0 ps ih =>
    intro st
    simp only [List.foldl_cons]
    cases hf : p0.fromLoc with
    | stk =>
      cases ht : p0.toLoc with
      | stk =>
        rw [setupOne_skip st p0 (by rw [hf, ht])]
        obtain ⟨k1, k2, k3, k4⟩ := ih st
        refine ⟨?_, ?_, ?_, ?_⟩
        · intro p hp hrr
          rcases List.mem_cons.mp hp with rfl | hp
          · exact absurd hrr (by simp [isRR, hf])
          · obtain ⟨q, ⟨hq1, hq2, hq3⟩, hq4⟩ := k1 p hp hrr
            exact ⟨q, ⟨by simp [hq1], hq2, hq3⟩, hq4⟩
        · intro p hp hrr
          rcases List.mem_cons.mp hp with rfl | hp
          · exact absurd hrr (by simp [isRR, hf])
          · exact k2 p hp hrr
        · intro p hp hrr
          rcases List.mem_cons.mp hp with rfl | hp
          · exact absurd hrr (by simp [isRR, hf])
          · obtain ⟨q, ⟨hq1, hq2, hq3⟩, hq4⟩ := k3 p hp hrr
            exact ⟨q, ⟨by simp [hq1], hq2, hq3⟩, hq4⟩
        · intro p hp hpf t hpt
          rcases List.mem_cons.mp hp with rfl | hp
          · rw [hpt] at ht; cases ht
          · obtain ⟨q, ⟨hq1, hq2, hq3⟩, hq4⟩ := k4 p hp hpf t hpt
            exact ⟨q, ⟨by simp [hq1], hq2, hq3⟩, hq4⟩
      | reg t0 =>
        rw [setupOne_stkreg st p0 t0 hf ht]
        obtain ⟨k1, k2, k3, k4⟩ := ih
          { st with stackToRegIntervals := upd st.stackToRegIntervals t0 (some p0.varNum)
                    fromStack := maskAdd t0 st.fromStack }
        obtain ⟨_, _, _, _, _, f6, _, _, _, _⟩ := setup_frame ps
          { st with stackToRegIntervals := upd st.stackToRegIntervals t0 (some p0.varNum)
                    fromStack := maskAdd t0 st.fromStack }
        refine ⟨?_, ?_, ?_, ?_⟩
        · intro p hp hrr
          rcases List.mem_cons.mp hp with rfl | hp
          · exact absurd hrr (by simp [isRR, hf])
          · obtain ⟨q, ⟨hq1, hq2, hq3⟩, hq4⟩ := k1 p hp hrr
            exact ⟨q, ⟨by simp [hq1], hq2, hq3⟩, hq4⟩
        · intro p hp hrr
          rcases List.mem_cons.mp hp with rfl | hp
          · exact absurd hrr (by simp [isRR, hf])
          · exact k2 p hp hrr
        · intro p hp hrr
          rcases List.mem_cons.mp hp with rfl | hp
          · exact absurd hrr (by simp [isRR, hf])
          · obtain ⟨q, ⟨hq1, hq2, hq3⟩, hq4⟩ := k3 p hp hrr
            exact ⟨q, ⟨by simp [hq1], hq2, hq3⟩, hq4⟩
        · intro p hp hpf t hpt
          rcases List.mem_cons.mp hp with rfl | hp
          · rw [hpt] at ht
            cases ht
            rcases f6 t0 with h | ⟨q, hq1, hq2, hq3, hq4⟩
            · exact ⟨p, ⟨by simp, hpf, hpt⟩, by rw [h]; exact upd_same _ _ _⟩
            · exact ⟨q, ⟨by simp [hq1], hq2, hq3⟩, hq4⟩
          · obtain ⟨q, ⟨hq1, hq2, hq3⟩, hq4⟩ := k4 p hp hpf t hpt
            exact ⟨q, ⟨by simp [hq1], hq2, hq3⟩, hq4⟩
    | reg f0 =>
      cases ht : p0.toLoc with
      | stk =>
        rw [setupOne_regstk st p0 f0 hf ht]
        obtain ⟨k1, k2, k3, k4⟩ := ih
          { st with moves := st.moves ++ [RMove.mv p0.varNum VLoc.stk (VLoc.reg f0)] }
        refine ⟨?_, ?_, ?_, ?_⟩
        · intro p hp hrr
          rcases List.mem_cons.mp hp with rfl | hp
          · exact absurd hrr (by simp [isRR, hf, ht])
          · obtain ⟨q, ⟨hq1, hq2, hq3⟩, hq4⟩ := k1 p hp hrr
            exact ⟨q, ⟨by simp [hq1], hq2, hq3⟩, hq4⟩
        · intro p hp hrr
          rcases List.mem_cons.mp hp with rfl | hp
          · exact absurd hrr (by simp [isRR, hf, ht])
          · exact k2 p hp hrr
        · intro p hp hrr
          rcases List.mem_cons.mp hp with rfl | hp
          · exact absurd hrr (by simp [isRR, hf, ht])
          · obtain ⟨q, ⟨hq1, hq2, hq3⟩, hq4⟩ := k3 p hp hrr
            exact ⟨q, ⟨by simp [hq1], hq2, hq3⟩, hq4⟩
        · intro p hp hpf t hpt
          rcases List.mem_cons.mp hp with rfl | hp
          · rw [hpf] at hf; cases hf
          · obtain ⟨q, ⟨hq1, hq2, hq3⟩, hq4⟩ := k4 p hp hpf t hpt
            exact ⟨q, ⟨by simp [hq1], hq2, hq3⟩, hq4⟩
      | reg t0 =>
        by_cases hft : f0 = t0
        · subst hft
          rw [setupOne_skip st p0 (by rw [hf, ht])]
          obtain ⟨k1, k2, k3, k4⟩ := ih st
          refine ⟨?_, ?_, ?_, ?_⟩
          · intro p hp hrr
            rcases List.mem_cons.mp hp with rfl | hp
            · exact absurd hrr (by simp [isRR, hf, ht])
            · obtain ⟨q, ⟨hq1, hq2, hq3⟩, hq4⟩ := k1 p hp hrr
              exact ⟨q, ⟨by simp [hq1], hq2, hq3⟩, hq4⟩
          · intro p hp hrr
            rcases List.mem_cons.mp hp with rfl | hp
            · exact absurd hrr (by simp [isRR, hf, ht])
            · exact k2 p hp hrr
          · intro p hp hrr
            rcases List.mem_cons.mp hp with rfl | hp
            · exact absurd hrr (by simp [isRR, hf, ht])
            · obtain ⟨q, ⟨hq1, hq2, hq3⟩, hq4⟩ := k3 p hp hrr
              exact ⟨q, ⟨by simp [hq1], hq2, hq3⟩, hq4⟩
          · intro p hp hpf t hpt
            rcases List.mem_cons.mp hp with rfl | hp
            · rw [hpf] at hf; cases hf
            · obtain ⟨q, ⟨hq1, hq2, hq3⟩, hq4⟩ := k4 p hp hpf t hpt
              exact ⟨q, ⟨by simp [hq1], hq2, hq3⟩, hq4⟩
        · rw [setupOne_regreg st p0 f0 t0 hf ht hft]
          obtain ⟨k1, k2, k3, k4⟩ := ih
            { st with location := upd st.location f0 (RegLoc.reg f0)
                      source := upd st.source t0 (some f0)
                      sourceIntervals := upd st.sourceIntervals f0 (some p0.varNum)
                      toDo := maskAdd t0 st.toDo }
          obtain ⟨_, _, f3, f4, f5, _, _, _, _, _⟩ := setup_frame ps
            { st with location := upd st.location f0 (RegLoc.reg f0)
                      source := upd st.source t0 (some f0)
                      sourceIntervals := upd st.sourceIntervals f0 (some p0.varNum)
                      toDo := maskAdd t0 st.toDo }
          have hpF : fromR p0 = f0 := by simp [fromR, hf]
          have hpT : toR p0 = t0 := by simp [toR, ht]
          have hpRR : isRR p0 = true := by simp [isRR, hf, ht, hft]
          refine ⟨?_, ?_, ?_, ?_⟩
          · intro p hp hrr
            rcases List.mem_cons.mp hp with rfl | hp
            · rw [hpT]
              rcases f3 t0 with h | ⟨q, hq1, hq2, hq3, hq4⟩
              · refine ⟨p, ⟨by simp, hrr, hpT⟩, ?_⟩
                rw [h, hpF]
                exact upd_same _ _ _
              · exact ⟨q, ⟨by simp [hq1], hq2, hq3⟩, hq4⟩
            · obtain ⟨q, ⟨hq1, hq2, hq3⟩, hq4⟩ := k1 p hp hrr
              exact ⟨q, ⟨by simp [hq1], hq2, hq3⟩, hq4⟩
          · intro p hp hrr
            rcases List.mem_cons.mp hp with rfl | hp
            · rw [hpF]
              rcases f4 f0 with h | ⟨q, hq1, hq2, hq3, hq4⟩
              · rw [h]; exact upd_same _ _ _
              · exact hq4
            · exact k2 p hp hrr
          · intro p hp hrr
            rcases List.mem_cons.mp hp with rfl | hp
            · rw [hpF]
              rcases f5 f0 with h | ⟨q, hq1, hq2, hq3, hq4⟩
              · exact ⟨p, ⟨by simp, hrr, hpF⟩, by rw [h]; exact upd_same _ _ _⟩
              · exact ⟨q, ⟨by simp [hq1], hq2, hq3⟩, hq4⟩
            · obtain ⟨q, ⟨hq1, hq2, hq3⟩, hq4⟩ := k3 p hp hrr
              exact ⟨q, ⟨by simp [hq1], hq2, hq3⟩, hq4⟩
          · intro p hp hpf t hpt
            rcases List.mem_cons.mp hp with rfl | hp
            · rw [hpf] at hf; cases hf
            · obtain ⟨q, ⟨hq1, hq2, hq3⟩, hq4⟩ := k4 p hp hpf t hpt
              exact ⟨q, ⟨by simp [hq1], hq2, hq3⟩, hq4⟩

theorem initMachine_regs (pairs : List ResolvePair)
    (frominj : ∀ p ∈ pairs, ∀ q ∈ pairs, ∀ r,
      p.fromLoc = VLoc.reg r → q.fromLoc = VLoc.reg r → p = q)
    (p : ResolvePair) (hp : p ∈ pairs) (f : Nat) (hf : p.fromLoc = VLoc.reg f) :
    (initMachine pairs).regs f = some p.varNum := by
  cases hq : pairs.find? (fun q => q.fromLoc == VLoc.reg f) with
  | none =>
    have := List.find?_eq_none.mp hq p hp
    simp [hf] at this
  | some q =>
    have hqmem : q ∈ pairs := List.mem_of_find?_eq_some hq
    have hqf : q.fromLoc = VLoc.reg f := by
      have := List.find?_some hq
      simpa using this
    have hqp : q = p := frominj q hqmem p hp f hqf hf
    subst hqp
    simp [initMachine, hq]

theorem initMachine_slot (pairs : List ResolvePair)
    (varinj : ∀ p ∈ pairs, ∀ q ∈ pairs, p.varNum = q.varNum → p = q)
    (p : ResolvePair) (hp : p ∈ pairs) (hf : p.fromLoc = VLoc.stk) :
    (initMachine pairs).slot p.varNum = some p.varNum := by
  cases hq : pairs.find? (fun q => q.varNum == p.varNum && q.fromLoc == VLoc.stk) with
  | none =>
    have := List.find?_eq_none.mp hq p hp
    simp [hf] at this
  | some q =>
    have hqmem : q ∈ pairs := List.mem_of_find?_eq_some hq
    have hqf : q.varNum = p.varNum ∧ q.fromLoc = VLoc.stk := by
      have := List.find?_some hq
      simpa using this
    have hqp : q = p := varinj q hqmem p hp hqf.1
    subst hqp
    simp [initMachine, hq]

theorem mem_stkMoves (pairs : List ResolvePair) (m : RMove) :
    m ∈ stkMoves pairs ↔ ∃ p ∈ pairs, ∃ f, p.fromLoc = VLoc.reg f ∧ p.toLoc = VLoc.stk ∧
      m = RMove.mv p.varNum VLoc.stk (VLoc.reg f) := by
  rw [stkMoves, List.mem_filterMap]
  constructor
  · rintro ⟨p, hp, hm⟩
    cases hf : p.fromLoc with
    | stk => rw [hf] at hm; cases hm
    | reg f =>
      cases ht : p.toLoc with
      | stk =>
        rw [hf, ht] at hm
        exact ⟨p, hp, f, hf, ht, by cases hm; rfl⟩
      | reg t => rw [hf, ht] at hm; cases hm
  · rintro ⟨p, hp, f, hf, ht, rfl⟩
    exact ⟨p, hp, by rw [hf, ht]⟩

theorem execStk : ∀ (ms : List RMove) (M : MachineSt),
    (∀ m ∈ ms, ∃ v f, m = RMove.mv v VLoc.stk (VLoc.reg f) ∧ M.regs f = some v) →
    ((execMoves M ms).regs = M.regs) ∧
    (∀ v, (∃ m ∈ ms, ∃ f, m = RMove.mv v VLoc.stk (VLoc.reg f)) →
      (execMoves M ms).slot v = some v) ∧
    (∀ v, (∀ m ∈ ms, ∀ f, m ≠ RMove.mv v VLoc.stk (VLoc.reg f)) →
      (execMoves M ms).slot v = M.slot v) := by
  intro ms
  induction ms with
  | nil =>
    intro M _
    refine ⟨rfl, ?_, ?_⟩
    · rintro v ⟨m, hm, _⟩
      exact absurd hm (List.not_mem_nil m)
    · intro v _
      rfl
  | cons m ms ih =>
    intro M hall
    obtain ⟨v0, f0, rfl, hreg⟩ := hall m (List.mem_cons_self m ms)
    have hstep : execMove M (RMove.mv v0 VLoc.stk (VLoc.reg f0)) =
        { M with slot := upd M.slot v0 (some v0) } := by
      simp [execMove, readLoc, hreg]
    have hfold : execMoves M (RMove.mv v0 VLoc.stk (VLoc.reg f0) :: ms) =
        execMoves { M with slot := upd M.slot v0 (some v0) } ms := by
      simp only [execMoves, List.foldl_cons, ← hstep]
    obtain ⟨r1, r2, r3⟩ := ih { M with slot := upd M.slot v0 (some v0) }
      (fun m' hm' => by
        obtain ⟨v, f, hshape, hr⟩ := hall m' (by simp [hm'])
        exact ⟨v, f, hshape, hr⟩)
    rw [hfold]
    refine ⟨r1, ?_, ?_⟩
    · intro v hv
      rcases hv with ⟨m', hm', f, hshape⟩
      rcases List.mem_cons.mp hm' with rfl | hm'
      · cases hshape
        by_cases hin : ∃ m2 ∈ ms, ∃ f2, m2 = RMove.mv v0 VLoc.stk (VLoc.reg f2)
        · exact r2 v0 hin
        · push_neg at hin
          rw [r3 v0 (fun m2 hm2 f2 => hin m2 hm2 f2)]
          exact upd_same _ _ _
      · exact r2 v ⟨m', hm', f, hshape⟩
    · intro v hv
      have hvne : v ≠ v0 := by
        intro hc
        subst hc
        exact hv _ (by simp) f0 rfl
      rw [r3 v (fun m2 hm2 f2 => hv m2 (by simp [hm2]) f2)]
      exact upd_other _ _ _ _ hvne

theorem edgeInv_init (isFloatReg : Nat → Bool) (tempRegFlt : Option Nat)
    (pairs : List ResolvePair) (cyc : ResolvePair → Bool) (rank : ResolvePair → Nat)
    (H : EdgeHyps isFloatReg tempRegFlt pairs cyc rank) :
    EdgeInv isFloatReg tempRegFlt pairs cyc
      (initReady (pairs.foldl setupOne emptyEdgeSt))
      (execMoves (initMachine pairs) (stkMoves pairs)) := by
  obtain ⟨f1, f2, f3, f4, f5, f6, f7, f8, f9, f10⟩ := setup_frame pairs emptyEdgeSt
  obtain ⟨c1, c2, c3, c4⟩ := setup_covers pairs emptyEdgeSt
  have hRPm : ∀ p, p ∈ RP pairs → p ∈ pairs ∧ isRR p = true := by
    intro p hp
    rw [RP, List.mem_filter] at hp
    exact hp
  have hRPi : ∀ p, p ∈ pairs → isRR p = true → p ∈ RP pairs := by
    intro p h1 h2
    rw [RP, List.mem_filter]
    exact ⟨h1, h2⟩
  have htd : ∀ t, t ∈ (pairs.foldl setupOne emptyEdgeSt).toDo ↔
      ∃ p ∈ pairs, isRR p = true ∧ toR p = t := by
    intro t
    rw [f7 t]
    simp [emptyEdgeSt]
  have hfs : ∀ t, t ∈ (pairs.foldl setupOne emptyEdgeSt).fromStack ↔
      ∃ p ∈ pairs, p.fromLoc = VLoc.stk ∧ p.toLoc = VLoc.reg t := by
    intro t
    rw [f8 t]
    simp [emptyEdgeSt]
  have htds : List.Sorted (· < ·) (pairs.foldl setupOne emptyEdgeSt).toDo :=
    f9 (by simp [emptyEdgeSt])
  have hfss : List.Sorted (· < ·) (pairs.foldl setupOne emptyEdgeSt).fromStack :=
    f10 (by simp [emptyEdgeSt])
  have hsrc : ∀ p ∈ RP pairs,
      (pairs.foldl setupOne emptyEdgeSt).source (toR p) = some (fromR p) := by
    intro p hp
    obtain ⟨hpm, hprr⟩ := hRPm p hp
    obtain ⟨_, hpf, hpt, hpne⟩ := RP_shape pairs p hp
    obtain ⟨q, ⟨hq1, hq2, hq3⟩, hq4⟩ := c1 p hpm hprr
    obtain ⟨_, hqf, hqt, _⟩ := RP_shape pairs q (hRPi q hq1 hq2)
    have hqp : q = p := H.toinj q hq1 p hpm (toR p) (by rw [hqt, hq3]) hpt
    rw [hq4, hqp]
  have hloc : ∀ p ∈ RP pairs,
      (pairs.foldl setupOne emptyEdgeSt).location (fromR p) = RegLoc.reg (fromR p) := by
    intro p hp
    obtain ⟨hpm, hprr⟩ := hRPm p hp
    exact c2 p hpm hprr
  have hsi : ∀ p ∈ RP pairs,
      (pairs.foldl setupOne emptyEdgeSt).sourceIntervals (fromR p) = some p.varNum := by
    intro p hp
    obtain ⟨hpm, hprr⟩ := hRPm p hp
    obtain ⟨_, hpf, hpt, hpne⟩ := RP_shape pairs p hp
    obtain ⟨q, ⟨hq1, hq2, hq3⟩, hq4⟩ := c3 p hpm hprr
    obtain ⟨_, hqf, hqt, _⟩ := RP_shape pairs q (hRPi q hq1 hq2)
    have hqp : q = p := H.frominj q hq1 p hpm (fromR p) (by rw [hqf, hq3]) hpf
    rw [hq4, hqp]
  have hlocr : ∀ r x, (pairs.foldl setupOne emptyEdgeSt).location r = RegLoc.reg x →
      x = r ∧ ∃ q ∈ RP pairs, fromR q = r := by
    intro r x h
    rcases f4 r with h0 | ⟨q, hq1, hq2, hq3, hq4⟩
    · rw [h0] at h
      simp [emptyEdgeSt] at h
    · rw [hq4] at h
      cases h
      exact ⟨rfl, q, hRPi q hq1 hq2, hq3⟩
  have hreadymem : ∀ t, t ∈ (initReady (pairs.foldl setupOne emptyEdgeSt)).ready ↔
      t ∈ (pairs.foldl setupOne emptyEdgeSt).toDo ∧
        (pairs.foldl setupOne emptyEdgeSt).location t = RegLoc.na := by
    intro t
    simp [initReady]
  have hreadysort : List.Sorted (· < ·) (initReady (pairs.foldl setupOne emptyEdgeSt)).ready :=
    List.Sorted.filter _ htds
  have hprem : ∀ m ∈ stkMoves pairs, ∃ v f, m = RMove.mv v VLoc.stk (VLoc.reg f) ∧
      (initMachine pairs).regs f = some v := by
    intro m hm
    obtain ⟨p, hp, f, hf, ht, hmm⟩ := (mem_stkMoves pairs m).mp hm
    exact ⟨p.varNum, f, hmm, initMachine_regs pairs H.frominj p hp f hf⟩
  obtain ⟨M1regs, M1slotPos, M1slotKeep⟩ := execStk (stkMoves pairs) (initMachine pairs) hprem
  have hMregs : ∀ p ∈ pairs, ∀ f, p.fromLoc = VLoc.reg f →
      (execMoves (initMachine pairs) (stkMoves pairs)).regs f = some p.varNum := by
    intro p hp f hf
    rw [M1regs]
    exact initMachine_regs pairs H.frominj p hp f hf
  have hMslotStk : ∀ p ∈ pairs, p.fromLoc = VLoc.stk →
      (execMoves (initMachine pairs) (stkMoves pairs)).slot p.varNum = some p.varNum := by
    intro p hp hf
    rw [M1slotKeep p.varNum ?_]
    · exact initMachine_slot pairs H.varinj p hp hf
    · intro m hm g hc
      subst hc
      obtain ⟨q, hq, g3, hqf, hqt, heq⟩ := (mem_stkMoves pairs _).mp hm
      injection heq with hv1 hv2 hv3
      have hqp : q = p := H.varinj q hq p hp hv1.symm
      rw [hqp, hf] at hqf
      cases hqf
  refine ⟨?_, ?_, ?_, ?_, ?_, ?_, ?_, ?_, ?_, ?_, ?_, ?_, ?_, ?_, ?_, ?_, ?_, ?_, ?_, ?_,
    ?_, ?_, ?_, ?_, ?_⟩
  · intro p hp
    exact hsrc p hp
  · intro r s h
    have h' : (pairs.foldl setupOne emptyEdgeSt).source r = some s := h
    rcases f3 r with h0 | ⟨q, hq1, hq2, hq3, hq4⟩
    · rw [h0] at h'
      simp [emptyEdgeSt] at h'
    · rw [hq4] at h'
      cases h'
      exact ⟨q, hRPi q hq1 hq2, hq3, rfl⟩
  · intro t ht
    obtain ⟨p, hp, hrr, hto⟩ := (htd t).mp ht
    exact ⟨p, hRPi p hp hrr, hto⟩
  · exact htds
  · exact hreadysort
  · intro t ht
    exact ((hreadymem t).mp ht).1
  · intro p hp _
    refine ⟨hsi p hp, Or.inl ⟨fromR p, hloc p hp, ?_⟩⟩
    obtain ⟨hpm, hpf, _, _⟩ := RP_shape pairs p hp
    exact hMregs p hpm (fromR p) hpf
  · intro p hp htodo
    obtain ⟨hpm, hprr⟩ := hRPm p hp
    exact absurd ((htd (toR p)).mpr ⟨p, hpm, hprr, rfl⟩) htodo
  · intro p hp q hq _ _ r hlp hlq
    have h1 : r = fromR p := (hlocr (fromR p) r hlp).1
    have h2 : r = fromR q := (hlocr (fromR q) r hlq).1
    have hfeq : fromR q = fromR p := by rw [← h2, h1]
    obtain ⟨hpm, hpf, _, _⟩ := RP_shape pairs p hp
    obtain ⟨hqm, hqf, _, _⟩ := RP_shape pairs q hq
    exact H.frominj p hpm q hqm (fromR p) hpf (by rw [hqf, hfeq])
  · intro p hp htodo r hl
    have hr : r = fromR p := (hlocr (fromR p) r hl).1
    subst hr
    constructor
    · intro q hq _
      obtain ⟨hqm, hqrr⟩ := hRPm q hq
      exact (htd (toR q)).mpr ⟨q, hqm, hqrr, rfl⟩
    · intro q hq hqe hqt
      obtain ⟨hpm, hpf, hpt, hpne⟩ := RP_shape pairs p hp
      have hqf : q.fromLoc = VLoc.reg (fromR p) := by rw [hqe, hqt]
      have hqp : q = p := H.frominj q hq p hpm (fromR p) hqf hpf
      have hfr : p.fromLoc = p.toLoc := hqp ▸ hqe
      rw [hpf, hpt] at hfr
      injection hfr with h2
      exact hpne h2
  · intro t ht p hp _ hl
    have h1 : t = fromR p := (hlocr (fromR p) t hl).1
    have ht2 := ((hreadymem t).mp ht).2
    rw [h1, hloc p hp] at ht2
    cases ht2
  · intro t ht hnr
    have hna : (pairs.foldl setupOne emptyEdgeSt).location t ≠ RegLoc.na := by
      intro h
      exact hnr ((hreadymem t).mpr ⟨ht, h⟩)
    rcases f4 t with h0 | ⟨q, hq1, hq2, hq3, hq4⟩
    · exact absurd (h0.trans rfl) hna
    · refine ⟨q, hRPi q hq1 hq2, (htd (toR q)).mpr ⟨q, hq1, hq2, rfl⟩, ?_⟩
      rw [hq3]
      exact hq4
  · intro p hp _
    exact ⟨fun _ => Or.inl (hloc p hp), fun hint => ⟨fromR p, hloc p hp, hint⟩⟩
  · intro p hp _ _
    exact hloc p hp
  · intro p hp _ hcyc _ hr
    obtain ⟨q, hq, hqf, _⟩ := H.cycF p hp hcyc
    have h2 := ((hreadymem (toR p)).mp hr).2
    rw [← hqf, hloc q hq] at h2
    cases h2
  · intro p hp _ r hl hrne
    exact absurd (hlocr (fromR p) r hl).1 hrne
  · intro p hp hpf t hpt
    refine ⟨hMslotStk p hp hpf, ?_, (hfs t).mpr ⟨p, hp, hpf, hpt⟩⟩
    obtain ⟨q, ⟨hq1, hq2, hq3⟩, hq4⟩ := c4 p hp hpf t hpt
    have hqp : q = p := H.toinj q hq1 p hp t hq3 hpt
    exact hq4.trans (by rw [hqp])
  · intro p hp r hpf _
    exact hMregs p hp r hpf
  · intro p hp r hpf hpt
    exact M1slotPos p.varNum ⟨RMove.mv p.varNum VLoc.stk (VLoc.reg r),
      (mem_stkMoves pairs _).mpr ⟨p, hp, r, hpf, hpt, rfl⟩, r, rfl⟩
  · intro p hp hpf _
    exact hMslotStk p hp hpf
  · intro t ht
    exact (hfs t).mp ht
  · exact hfss
  · refine ⟨[], ?_, ?_⟩
    · have hmv : (pairs.foldl setupOne emptyEdgeSt).moves = stkMoves pairs := by
        rw [f2]
        simp [emptyEdgeSt]
      simp only [List.append_nil]
      exact hmv
    · intro m hm
      exact absurd hm (List.not_mem_nil m)
  · intro m hm r hr
    have hm' : m ∈ (pairs.foldl setupOne emptyEdgeSt).moves := hm
    rw [f2] at hm'
    have hms : m ∈ stkMoves pairs := by
      simpa [emptyEdgeSt] using hm'
    obtain ⟨p2, hp2, g2, hg2, hgt2, hmm⟩ := (mem_stkMoves pairs m).mp hms
    subst hmm
    exact absurd hr (by simp [regWritesOf])
  · intro w hw hnd r _
    obtain ⟨hwm, hwrr⟩ := hRPm w hw
    exact absurd ((htd (toR w)).mpr ⟨w, hwm, hwrr, rfl⟩) hnd

theorem find?_unique {l : List Nat} {p : Nat → Bool} {a : Nat}
    (ha : a ∈ l) (hpa : p a = true) (huniq : ∀ x ∈ l, p x = true → x = a) :
    l.find? p = some a := by
  cases hfind : l.find? p with
  | none => exact absurd hpa (by simpa using List.find?_eq_none.mp hfind a ha)
  | some b =>
    have hb := List.find?_some hfind
    have hbm := List.mem_of_find?_eq_some hfind
    rw [huniq b hbm hb]

theorem edgeStep_ready_stk (i : Nat → Bool) (tr : Option Nat) (st : EdgeSt)
    (t : Nat) (rest : List Nat) (s : Nat)
    (h1 : st.ready = t :: rest) (h2 : st.source t = some s)
    (h3 : st.location s = RegLoc.stk) :
    edgeStep i tr st =
      { st with
        toDo := maskRem t st.toDo
        ready := rest
        moves := st.moves ++ [RMove.mv ((st.sourceIntervals s).getD 0) (VLoc.reg t) VLoc.stk]
        sourceIntervals := upd st.sourceIntervals s none
        location := upd st.location s RegLoc.na } := by
  simp [edgeStep, h1, h2, h3]

theorem edgeStep_ready_reg (i : Nat → Bool) (tr : Option Nat) (st : EdgeSt)
    (t : Nat) (rest : List Nat) (s f : Nat)
    (h1 : st.ready = t :: rest) (h2 : st.source t = some s)
    (h3 : st.location s = RegLoc.reg f) :
    edgeStep i tr st =
      { st with
        toDo := maskRem t st.toDo
        ready := if f = s ∧ (st.source f).isSome then maskAdd f rest else rest
        moves := st.moves ++
          [RMove.mv ((st.sourceIntervals s).getD 0) (VLoc.reg t) (VLoc.reg f)]
        sourceIntervals := upd st.sourceIntervals s none
        location := upd st.location s RegLoc.na } := by
  simp [edgeStep, h1, h2, h3]

theorem edgeStep_busy_inplace (i : Nat → Bool) (tr : Option Nat) (st : EdgeSt)
    (t : Nat) (dd : List Nat) (s : Nat)
    (h1 : st.ready = []) (h2 : st.toDo = t :: dd) (h3 : st.source t = some s)
    (h4 : st.location s = RegLoc.reg t) :
    edgeStep i tr st = { st with toDo := maskRem t st.toDo } := by
  simp [edgeStep, h1, h2, h3, h4]

theorem edgeStep_busy_tmp (i : Nat → Bool) (tr : Option Nat) (st : EdgeSt)
    (t : Nat) (dd : List Nat) (s f tmp : Nat)
    (h1 : st.ready = []) (h2 : st.toDo = t :: dd) (h3 : st.source t = some s)
    (h4 : st.location s = RegLoc.reg f) (h5 : t ≠ f) (h6 : i t = true)
    (h7 : tr = some tmp) :
    edgeStep i tr st =
      { st with
        moves := st.moves ++
          [RMove.mv ((st.sourceIntervals t).getD 0) (VLoc.reg tmp) (VLoc.reg t)]
        location := upd st.location t (RegLoc.reg tmp)
        ready := maskAdd t st.ready } := by
  simp [edgeStep, h1, h2, h3, h4, h5, h6, h7]

theorem edgeStep_busy_spill (i : Nat → Bool) (tr : Option Nat) (st : EdgeSt)
    (t : Nat) (dd : List Nat) (s f : Nat)
    (h1 : st.ready = []) (h2 : st.toDo = t :: dd) (h3 : st.source t = some s)
    (h4 : st.location s = RegLoc.reg f) (h5 : t ≠ f) (h6 : i t = true)
    (h7 : tr = none) :
    edgeStep i tr st = spillBreak st t s f := by
  simp [edgeStep, h1, h2, h3, h4, h5, h6, h7]

theorem edgeStep_busy_swap (i : Nat → Bool) (tr : Option Nat) (st : EdgeSt)
    (t : Nat) (dd : List Nat) (s f : Nat)
    (h1 : st.ready = []) (h2 : st.toDo = t :: dd) (h3 : st.source t = some s)
    (h4 : st.location s = RegLoc.reg f) (h5 : t ≠ f) (h6 : i t = false) :
    edgeStep i tr st = swapBreak st t s f := by
  simp [edgeStep, h1, h2, h3, h4, h5, h6]

theorem swapBreak_eq (st : EdgeSt) (t s f o so : Nat)
    (h1 : findOtherTarget st t f = some o) (h2 : st.source o = some so) :
    swapBreak st t s f =
      { st with
        moves := st.moves ++
          [RMove.swap ((st.sourceIntervals so).getD 0) t ((st.sourceIntervals s).getD 0) f]
        location := upd (upd st.location s RegLoc.na) so (RegLoc.reg f)
        toDo := maskRem t (if o = f then maskRem f st.toDo else st.toDo) } := by
  simp [swapBreak, h1, h2]

theorem spillBreak_eq (st : EdgeSt) (t s f o so : Nat)
    (h1 : findOtherTarget st t f = some o) (h2 : st.source o = some so) :
    spillBreak st t s f =
      { st with
        moves := st.moves ++
          [RMove.mv ((st.sourceIntervals so).getD 0) VLoc.stk (VLoc.reg t),
           RMove.mv ((st.sourceIntervals s).getD 0) (VLoc.reg t) (VLoc.reg f)]
        location := upd (upd st.location so RegLoc.stk) s RegLoc.na
        ready := maskAdd f st.ready
        toDo := maskRem t st.toDo } := by
  simp [spillBreak, h1, h2]

theorem blocker_unique (isFloatReg : Nat → Bool) (tempRegFlt : Option Nat)
    (pairs : List ResolvePair) (cyc : ResolvePair → Bool)
    (st : EdgeSt) (M : MachineSt)
    (Inv : EdgeInv isFloatReg tempRegFlt pairs cyc st M)
    (H5 : ∀ p ∈ RP pairs, ∀ q ∈ RP pairs, toR p ∈ st.toDo → toR q ∈ st.toDo →
      ∀ r, st.location (fromR p) = RegLoc.reg r → st.location (fromR q) = RegLoc.reg r → p = q)
    (t : Nat) (ht : t ∈ st.toDo)
    (q : ResolvePair) (hqRP : q ∈ RP pairs) (hqt : toR q ∈ st.toDo)
    (hqloc : st.location (fromR q) = RegLoc.reg t)
    (n sn : Nat) (hsn : st.source n = some sn)
    (hlocn : st.location sn = RegLoc.reg t) : n = toR q := by
  obtain ⟨w, hwRP, hwto, hwfrom⟩ := Inv.j1b n sn hsn
  by_cases hwt : toR w ∈ st.toDo
  · have hww : w = q := H5 w hwRP q hqRP hwt hqt t (by rw [hwfrom]; exact hlocn) hqloc
    rw [← hwto, hww]
  · exact absurd ht (Inv.jdone w hwRP hwt t (by rw [hwfrom]; exact hlocn))

theorem busy_facts (isFloatReg : Nat → Bool) (tempRegFlt : Option Nat)
    (pairs : List ResolvePair) (cyc : ResolvePair → Bool) (rank : ResolvePair → Nat)
    (H : EdgeHyps isFloatReg tempRegFlt pairs cyc rank)
    (st : EdgeSt) (M : MachineSt)
    (Inv : EdgeInv isFloatReg tempRegFlt pairs cyc st M)
    (hready : st.ready = []) :
    ∀ q ∈ RP pairs, toR q ∈ st.toDo →
      (∃ t ∈ st.toDo, st.location (fromR q) = RegLoc.reg t) ∧ cyc q = true := by
  classical
  have hblk : ∀ t ∈ st.toDo, ∃ q, (q ∈ RP pairs ∧ toR q ∈ st.toDo) ∧
      st.location (fromR q) = RegLoc.reg t := by
    intro t ht
    obtain ⟨q, hq1, hq2, hq3⟩ := Inv.j7c t ht (by rw [hready]; exact List.not_mem_nil t)
    exact ⟨q, ⟨hq1, hq2⟩, hq3⟩
  have hmemP : ∀ q, q ∈ (RP pairs).toFinset.filter (fun q => toR q ∈ st.toDo) ↔
      q ∈ RP pairs ∧ toR q ∈ st.toDo := by
    intro q
    simp [List.mem_toFinset]
  have hmemT : ∀ t, t ∈ st.toDo.toFinset ↔ t ∈ st.toDo := by
    intro t
    simp [List.mem_toFinset]
  have htoinjRP : ∀ p ∈ RP pairs, ∀ q ∈ RP pairs, toR p = toR q → p = q := by
    intro p hp q hq hpq
    obtain ⟨hpm, hpf, hpt, _⟩ := RP_shape pairs p hp
    obtain ⟨hqm, hqf, hqt, _⟩ := RP_shape pairs q hq
    exact H.toinj p hpm q hqm (toR p) hpt (by rw [hqt, hpq])
  have hcard1 : ((RP pairs).toFinset.filter (fun q => toR q ∈ st.toDo)).card ≤
      st.toDo.toFinset.card := by
    apply Finset.card_le_card_of_injOn toR
    · intro q hq
      exact (hmemT (toR q)).mpr ((hmemP q).mp hq).2
    · intro q1 h1 q2 h2 he
      exact htoinjRP q1 ((hmemP q1).mp (Finset.mem_coe.mp h1)).1
        q2 ((hmemP q2).mp (Finset.mem_coe.mp h2)).1 he
  have hbfun : ∀ t, ∃ q, t ∈ st.toDo → (q ∈ RP pairs ∧ toR q ∈ st.toDo) ∧
      st.location (fromR q) = RegLoc.reg t := by
    intro t
    by_cases ht : t ∈ st.toDo
    · obtain ⟨q, hq⟩ := hblk t ht
      exact ⟨q, fun _ => hq⟩
    · exact ⟨⟨0, VLoc.stk, VLoc.stk⟩, fun hc => absurd hc ht⟩
  choose b hb using hbfun
  have hbinj : Set.InjOn b st.toDo.toFinset := by
    intro t1 h1 t2 h2 he
    have hb1 := (hb t1 ((hmemT t1).mp (Finset.mem_coe.mp h1))).2
    have hb2 := (hb t2 ((hmemT t2).mp (Finset.mem_coe.mp h2))).2
    rw [he] at hb1
    rw [hb1] at hb2
    injection hb2 with h3
  have hmaps : ∀ t ∈ st.toDo.toFinset, b t ∈
      (RP pairs).toFinset.filter (fun q => toR q ∈ st.toDo) := by
    intro t ht
    exact (hmemP (b t)).mpr (hb t ((hmemT t).mp ht)).1
  have hcard2 : st.toDo.toFinset.card ≤
      ((RP pairs).toFinset.filter (fun q => toR q ∈ st.toDo)).card :=
    Finset.card_le_card_of_injOn b hmaps hbinj
  have himg : st.toDo.toFinset.image b =
      (RP pairs).toFinset.filter (fun q => toR q ∈ st.toDo) := by
    apply Finset.eq_of_subset_of_card_le
    · intro q hq
      obtain ⟨t, ht, rfl⟩ := Finset.mem_image.mp hq
      exact hmaps t ht
    · rw [Finset.card_image_of_injOn hbinj]
      exact hcard1
  have hsurj : ∀ q ∈ RP pairs, toR q ∈ st.toDo →
      ∃ t ∈ st.toDo, st.location (fromR q) = RegLoc.reg t := by
    intro q hq hqt
    have hqP : q ∈ st.toDo.toFinset.image b := by
      rw [himg]
      exact (hmemP q).mpr ⟨hq, hqt⟩
    obtain ⟨t, ht, rfl⟩ := Finset.mem_image.mp hqP
    exact ⟨t, (hmemT t).mp ht, (hb t ((hmemT t).mp ht)).2⟩
  have hallcyc : ∀ q ∈ RP pairs, toR q ∈ st.toDo → cyc q = true := by
    by_contra hc
    push_neg at hc
    obtain ⟨q0, hq0, hq0t, hq0c⟩ := hc
    have hq0c2 : cyc q0 = false := by
      cases hcc : cyc q0
      · rfl
      · exact absurd hcc hq0c
    obtain ⟨qm, hqm, hqmmin⟩ := Finset.exists_min_image
      (((RP pairs).toFinset.filter (fun q => toR q ∈ st.toDo)).filter
        (fun q => cyc q = false)) rank
      ⟨q0, Finset.mem_filter.mpr ⟨(hmemP q0).mpr ⟨hq0, hq0t⟩, by simp [hq0c2]⟩⟩
    obtain ⟨hqmP, hqmc⟩ := Finset.mem_filter.mp hqm
    have hqmc2 : cyc qm = false := by simpa using hqmc
    obtain ⟨hqmRP, hqmt⟩ := (hmemP qm).mp hqmP
    obtain ⟨q1, ⟨hq1RP, hq1t⟩, hq1loc⟩ := hblk (toR qm) hqmt
    by_cases hdisp : fromR q1 = toR qm
    · have hpr := H.pathR qm hqmRP hqmc2 q1 hq1RP hdisp
      have hq1Q : q1 ∈ (((RP pairs).toFinset.filter (fun q => toR q ∈ st.toDo)).filter
          (fun q => cyc q = false)) :=
        Finset.mem_filter.mpr ⟨(hmemP q1).mpr ⟨hq1RP, hq1t⟩, by simp [hpr.1]⟩
      have hmin := hqmmin q1 hq1Q
      have := hpr.2
      omega
    · rcases Inv.jdisp q1 hq1RP hq1t (toR qm) hq1loc (fun h => hdisp h.symm) with
        htmp | ⟨_, d, hdRP, hdc, hdf, _⟩
      · obtain ⟨_, hto⟩ := H.tmpfresh (toR qm) htmp qm (RP_shape pairs qm hqmRP).1
        exact hto (RP_shape pairs qm hqmRP).2.2.1
      · obtain ⟨w, hwRP, hwto, hwc⟩ := H.cycBk d hdRP hdc
        have hw : w = qm := htoinjRP w hwRP qm hqmRP (by rw [hwto, hdf])
        rw [hw] at hwc
        rw [hwc] at hqmc2
        cases hqmc2
  intro q hq hqt
  exact ⟨hsurj q hq hqt, hallcyc q hq hqt⟩

theorem preserve_ready_stk (i : Nat → Bool) (tr : Option Nat)
    (pairs : List ResolvePair) (cyc : ResolvePair → Bool) (rank : ResolvePair → Nat)
    (H : EdgeHyps i tr pairs cyc rank)
    (st : EdgeSt) (M : MachineSt)
    (Inv : EdgeInv i tr pairs cyc st M)
    (t : Nat) (rest : List Nat) (s : Nat)
    (h1 : st.ready = t :: rest) (h2 : st.source t = some s)
    (h3 : st.location s = RegLoc.stk) :
    EdgeInv i tr pairs cyc
      { st with
        toDo := maskRem t st.toDo
        ready := rest
        moves := st.moves ++ [RMove.mv ((st.sourceIntervals s).getD 0) (VLoc.reg t) VLoc.stk]
        sourceIntervals := upd st.sourceIntervals s none
        location := upd st.location s RegLoc.na }
      (execMoves M [RMove.mv ((st.sourceIntervals s).getD 0) (VLoc.reg t) VLoc.stk]) ∧
    (maskRem t st.toDo).length + 1 = st.toDo.length := by
  have httd : t ∈ st.toDo := Inv.j2sub t (by rw [h1]; exact List.mem_cons_self t rest)
  obtain ⟨p, hpRP, hpt, hps⟩ := Inv.j1b t s h2
  have htoinjRP : ∀ a ∈ RP pairs, ∀ c ∈ RP pairs, toR a = toR c → a = c := by
    intro a ha c hc hac
    obtain ⟨ham, _, hat, _⟩ := RP_shape pairs a ha
    obtain ⟨hcm, _, hct, _⟩ := RP_shape pairs c hc
    exact H.toinj a ham c hcm (toR a) hat (by rw [hct, hac])
  have hpt2 : p.toLoc = VLoc.reg t := by
    have := (RP_shape pairs p hpRP).2.2.1
    rwa [hpt] at this
  have hsi := (Inv.j3 p hpRP (by rw [hpt]; exact httd)).1
  rw [hps] at hsi
  have hdisj := (Inv.j3 p hpRP (by rw [hpt]; exact httd)).2
  rw [hps] at hdisj
  have hslot : M.slot p.varNum = some p.varNum := by
    rcases hdisj with ⟨r, hr, _⟩ | ⟨_, hsl⟩
    · rw [h3] at hr
      cases hr
    · exact hsl
  have hv : (st.sourceIntervals s).getD 0 = p.varNum := by rw [hsi]; rfl
  have hM2 : execMoves M [RMove.mv ((st.sourceIntervals s).getD 0) (VLoc.reg t) VLoc.stk] =
      { M with regs := upd M.regs t (some p.varNum) } := by
    rw [hv]
    simp [execMoves, execMove, readLoc, hslot]
  rw [hM2]
  have hsort : List.Sorted (· < ·) (t :: rest) := by rw [← h1]; exact Inv.j2r
  have htrest : t ∉ rest := by
    intro hc
    have := (List.sorted_cons.mp hsort).1 t hc
    omega
  have hnd : st.toDo.Nodup := Inv.j2s.nodup
  have hpend : ∀ q, q ∈ RP pairs → toR q ∈ maskRem t st.toDo →
      toR q ∈ st.toDo ∧ toR q ≠ t ∧ q ≠ p ∧ fromR q ≠ s := by
    intro q hq hqt
    obtain ⟨hmem, hne⟩ := (mem_maskRem t (toR q) st.toDo).mp hqt
    refine ⟨hmem, hne, ?_, ?_⟩
    · intro hc
      rw [hc, hpt] at hne
      exact hne rfl
    · intro hc
      have hqp2 : q = p := by
        obtain ⟨hqm, hqf, _, _⟩ := RP_shape pairs q hq
        obtain ⟨hpm, hpf, _, _⟩ := RP_shape pairs p hpRP
        exact H.frominj q hqm p hpm s (by rw [← hc]; exact hqf) (by rw [← hps]; exact hpf)
      rw [hqp2, hpt] at hne
      exact hne rfl
  have hlocpres : ∀ q : ResolvePair, fromR q ≠ s → ∀ v, st.location (fromR q) = v →
      upd st.location s RegLoc.na (fromR q) = v := by
    intro q hqs v hv
    rw [upd_other _ _ _ _ hqs]
    exact hv
  refine ⟨⟨?_, ?_, ?_, ?_, ?_, ?_, ?_, ?_, ?_, ?_, ?_, ?_, ?_, ?_, ?_, ?_, ?_, ?_, ?_, ?_,
    ?_, ?_, ?_, ?_, ?_⟩, length_maskRem_of_mem t st.toDo hnd httd⟩
  · intro q hq
    exact Inv.j1 q hq
  · intro r s2 h
    exact Inv.j1b r s2 h
  · intro t' ht'
    exact Inv.j2 t' ((mem_maskRem t t' st.toDo).mp ht').1
  · exact sorted_maskRem t st.toDo Inv.j2s
  · exact (List.sorted_cons.mp hsort).2
  · intro x hx
    refine (mem_maskRem t x st.toDo).mpr
      ⟨Inv.j2sub x (by rw [h1]; exact List.mem_cons_of_mem t hx), ?_⟩
    intro hc
    rw [hc] at hx
    exact htrest hx
  · intro q hq hqt
    obtain ⟨hmem, hne, hqp, hqs⟩ := hpend q hq hqt
    have h3q := Inv.j3 q hq hmem
    refine ⟨?_, ?_⟩
    · show upd st.sourceIntervals s none (fromR q) = some q.varNum
      rw [upd_other _ _ _ _ hqs]
      exact h3q.1
    · rcases h3q.2 with ⟨r, hr1, hr2⟩ | ⟨hl, hsl⟩
      · refine Or.inl ⟨r, hlocpres q hqs _ hr1, ?_⟩
        show upd M.regs t (some p.varNum) r = some q.varNum
        have hrt : r ≠ t := by
          intro hc
          exact Inv.j7a t (by rw [h1]; exact List.mem_cons_self t rest) q hq hmem
            (by rw [hc] at hr1; exact hr1)
        rw [upd_other _ _ _ _ hrt]
        exact hr2
      · exact Or.inr ⟨hlocpres q hqs _ hl, hsl⟩
  · intro q hq hqnt
    by_cases hqt : toR q = t
    · have hqp : q = p := htoinjRP q hq p hpRP (by rw [hqt, hpt])
      show upd M.regs t (some p.varNum) (toR q) = some q.varNum
      rw [hqt, upd_same, hqp]
    · have hold : toR q ∉ st.toDo := by
        intro hc
        exact hqnt ((mem_maskRem t (toR q) st.toDo).mpr ⟨hc, hqt⟩)
      show upd M.regs t (some p.varNum) (toR q) = some q.varNum
      rw [upd_other _ _ _ _ hqt]
      exact Inv.j4 q hq hold
  · intro a ha c hc hat hct r hla hlc
    obtain ⟨hamem, _, _, has⟩ := hpend a ha hat
    obtain ⟨hcmem, _, _, hcs⟩ := hpend c hc hct
    have hla2 : st.location (fromR a) = RegLoc.reg r := by
      have h0 : upd st.location s RegLoc.na (fromR a) = RegLoc.reg r := hla
      rwa [upd_other _ _ _ _ has] at h0
    have hlc2 : st.location (fromR c) = RegLoc.reg r := by
      have h0 : upd st.location s RegLoc.na (fromR c) = RegLoc.reg r := hlc
      rwa [upd_other _ _ _ _ hcs] at h0
    exact Inv.j5 a ha c hc hamem hcmem r hla2 hlc2
  · intro q hq hqt r hl
    obtain ⟨hmem, hne, hqp, hqs⟩ := hpend q hq hqt
    have hl2 : st.location (fromR q) = RegLoc.reg r := by
      have h0 : upd st.location s RegLoc.na (fromR q) = RegLoc.reg r := hl
      rwa [upd_other _ _ _ _ hqs] at h0
    obtain ⟨h6a, h6b⟩ := Inv.j6 q hq hmem r hl2
    refine ⟨?_, h6b⟩
    intro w hw hwr
    have hwin := h6a w hw hwr
    refine (mem_maskRem t (toR w) st.toDo).mpr ⟨hwin, ?_⟩
    intro hc
    have hrt : r = t := by rw [← hwr]; exact hc
    rw [hrt] at hl2
    exact Inv.j7a t (by rw [h1]; exact List.mem_cons_self t rest) q hq hmem hl2
  · intro t' ht' q hq hqt
    obtain ⟨hmem, _, _, hqs⟩ := hpend q hq hqt
    intro hl
    have hl2 : st.location (fromR q) = RegLoc.reg t' := by
      have h0 : upd st.location s RegLoc.na (fromR q) = RegLoc.reg t' := hl
      rwa [upd_other _ _ _ _ hqs] at h0
    exact Inv.j7a t' (by rw [h1]; exact List.mem_cons_of_mem t ht') q hq hmem hl2
  · intro t' ht' hnr
    obtain ⟨hmem, hnt⟩ := (mem_maskRem t t' st.toDo).mp ht'
    have hnr2 : t' ∉ st.ready := by
      rw [h1]
      intro hc
      rcases List.mem_cons.mp hc with hc2 | hc2
      · exact hnt hc2
      · exact hnr hc2
    obtain ⟨q, hq1, hq2, hq3⟩ := Inv.j7c t' hmem hnr2
    have hqs : fromR q ≠ s := by
      intro hc
      rw [hc, h3] at hq3
      cases hq3
    have hq2b : toR q ∈ maskRem t st.toDo := by
      refine (mem_maskRem t (toR q) st.toDo).mpr ⟨hq2, ?_⟩
      intro hc
      have hqp2 : q = p := htoinjRP q hq1 p hpRP (by rw [hc, hpt])
      rw [hqp2, hps, h3] at hq3
      cases hq3
    exact ⟨q, hq1, hq2b, hlocpres q hqs _ hq3⟩
  · intro q hq hqt
    obtain ⟨hmem, _, _, hqs⟩ := hpend q hq hqt
    obtain ⟨h8f, h8i⟩ := Inv.j8 q hq hmem
    constructor
    · intro hfl
      rcases h8f hfl with hx | ⟨tmp, htmp, hx⟩ | ⟨hx, hn⟩
      · exact Or.inl (hlocpres q hqs _ hx)
      · exact Or.inr (Or.inl ⟨tmp, htmp, hlocpres q hqs _ hx⟩)
      · exact Or.inr (Or.inr ⟨hlocpres q hqs _ hx, hn⟩)
    · intro hint
      obtain ⟨r, hr1, hr2⟩ := h8i hint
      exact ⟨r, hlocpres q hqs _ hr1, hr2⟩
  · intro q hq hqt hqc
    obtain ⟨hmem, _, _, hqs⟩ := hpend q hq hqt
    exact hlocpres q hqs _ (Inv.jcycP q hq hmem hqc)
  · intro q hq hqt hqc hqi
    obtain ⟨hmem, _, _, _⟩ := hpend q hq hqt
    intro hc
    exact Inv.jcycI q hq hmem hqc hqi (by rw [h1]; exact List.mem_cons_of_mem t hc)
  · intro q hq hqt r hl hrq
    obtain ⟨hmem, _, _, hqs⟩ := hpend q hq hqt
    have hl2 : st.location (fromR q) = RegLoc.reg r := by
      have h0 : upd st.location s RegLoc.na (fromR q) = RegLoc.reg r := hl
      rwa [upd_other _ _ _ _ hqs] at h0
    rcases Inv.jdisp q hq hmem r hl2 hrq with h | ⟨hc, d, hd1, hd2, hd3, hd4⟩
    · exact Or.inl h
    · refine Or.inr ⟨hc, d, hd1, hd2, hd3, ?_⟩
      intro hcm
      exact hd4 ((mem_maskRem t (toR d) st.toDo).mp hcm).1
  · intro q hq hqf t' hqt'
    exact Inv.j9 q hq hqf t' hqt'
  · intro q hq r hqf hqt'
    show upd M.regs t (some p.varNum) r = some q.varNum
    have hrt : r ≠ t := by
      intro hc
      have hq2 : q = p := H.toinj q hq p (RP_shape pairs p hpRP).1 t
        (by rw [← hc]; exact hqt') hpt2
      have hfr : p.fromLoc = p.toLoc := by rw [← hq2, hqf, hqt']
      rw [(RP_shape pairs p hpRP).2.1, (RP_shape pairs p hpRP).2.2.1] at hfr
      injection hfr with h5
      exact (RP_shape pairs p hpRP).2.2.2 h5
    rw [upd_other _ _ _ _ hrt]
    exact Inv.j10 q hq r hqf hqt'
  · intro q hq r hqf hqt'
    exact Inv.j11 q hq r hqf hqt'
  · intro q hq hqf hqt'
    exact Inv.j13 q hq hqf hqt'
  · intro t' ht'
    exact Inv.j12 t' ht'
  · exact Inv.j12s
  · obtain ⟨l2, hl2, hlm⟩ := Inv.jmv
    refine ⟨l2 ++ [RMove.mv ((st.sourceIntervals s).getD 0) (VLoc.reg t) VLoc.stk], ?_, ?_⟩
    · show st.moves ++ [RMove.mv ((st.sourceIntervals s).getD 0) (VLoc.reg t) VLoc.stk] =
        stkMoves pairs ++ (l2 ++ [RMove.mv ((st.sourceIntervals s).getD 0) (VLoc.reg t) VLoc.stk])
      rw [hl2, List.append_assoc]
    · intro m hm
      rcases List.mem_append.mp hm with hm | hm
      · exact hlm m hm
      · have hmeq := List.mem_singleton.mp hm
        subst hmeq
        exact Or.inr (Or.inr (Or.inr ⟨(st.sourceIntervals s).getD 0, t, rfl⟩))
  · intro m hm r hr
    rcases List.mem_append.mp hm with hm | hm
    · exact Inv.jwr m hm r hr
    · have hmeq := List.mem_singleton.mp hm
      subst hmeq
      have hrt : r = t := by simpa [regWritesOf] using hr
      subst hrt
      exact Or.inl ⟨p, (RP_shape pairs p hpRP).1, hpt2⟩
  · intro w hw hnd2 r hl
    by_cases hws : fromR w = s
    · have hl2 : upd st.location s RegLoc.na (fromR w) = RegLoc.reg r := hl
      rw [hws, upd_same] at hl2
      cases hl2
    · have hl2 : upd st.location s RegLoc.na (fromR w) = RegLoc.reg r := hl
      rw [upd_other _ _ _ _ hws] at hl2
      by_cases hwt : toR w ∈ st.toDo
      · have hwp : w = p := by
          have hwteq : toR w = t := by
            by_contra hc
            exact hnd2 ((mem_maskRem t (toR w) st.toDo).mpr ⟨hwt, hc⟩)
          exact htoinjRP w hw p hpRP (by rw [hwteq, hpt])
        exact absurd hps (hwp ▸ hws)
      · intro hcr
        exact Inv.jdone w hw hwt r hl2 ((mem_maskRem t r st.toDo).mp hcr).1

theorem length_maskAdd_le (r : Nat) : ∀ l : List Nat, (maskAdd r l).length ≤ l.length + 1 := by
  intro l
  induction l with
  | nil => simp [maskAdd]
  | cons a as ih =>
    rw [maskAdd]
    by_cases h1 : r < a
    · simp [h1]
    · by_cases h2 : r = a
      · simp [h1, h2]
      · simp only [if_neg h1, if_neg h2, List.length_cons]
        omega

theorem length_maskAdd_ge (r : Nat) : ∀ l : List Nat, l.length ≤ (maskAdd r l).length := by
  intro l
  induction l with
  | nil => simp [maskAdd]
  | cons a as ih =>
    rw [maskAdd]
    by_cases h1 : r < a
    · simp [h1]
    · by_cases h2 : r = a
      · simp [h1, h2]
      · simp only [if_neg h1, if_neg h2, List.length_cons]
        omega

theorem preserve_ready_reg (i : Nat → Bool) (tr : Option Nat)
    (pairs : List ResolvePair) (cyc : ResolvePair → Bool) (rank : ResolvePair → Nat)
    (H : EdgeHyps i tr pairs cyc rank)
    (st : EdgeSt) (M : MachineSt)
    (Inv : EdgeInv i tr pairs cyc st M)
    (t : Nat) (rest : List Nat) (s f : Nat)
    (h1 : st.ready = t :: rest) (h2 : st.source t = some s)
    (h3 : st.location s = RegLoc.reg f) :
    EdgeInv i tr pairs cyc
      { st with
        toDo := maskRem t st.toDo
        ready := if f = s ∧ (st.source f).isSome then maskAdd f rest else rest
        moves := st.moves ++
          [RMove.mv ((st.sourceIntervals s).getD 0) (VLoc.reg t) (VLoc.reg f)]
        sourceIntervals := upd st.sourceIntervals s none
        location := upd st.location s RegLoc.na }
      (execMoves M [RMove.mv ((st.sourceIntervals s).getD 0) (VLoc.reg t) (VLoc.reg f)]) ∧
    (maskRem t st.toDo).length + 1 = st.toDo.length := by
  have httd : t ∈ st.toDo := Inv.j2sub t (by rw [h1]; exact List.mem_cons_self t rest)
  obtain ⟨p, hpRP, hpt, hps⟩ := Inv.j1b t s h2
  have htoinjRP : ∀ a ∈ RP pairs, ∀ c ∈ RP pairs, toR a = toR c → a = c := by
    intro a ha c hc hac
    obtain ⟨ham, _, hat, _⟩ := RP_shape pairs a ha
    obtain ⟨hcm, _, hct, _⟩ := RP_shape pairs c hc
    exact H.toinj a ham c hcm (toR a) hat (by rw [hct, hac])
  have hfrominjRP : ∀ a ∈ RP pairs, ∀ c ∈ RP pairs, fromR a = fromR c → a = c := by
    intro a ha c hc hac
    obtain ⟨ham, haf, _, _⟩ := RP_shape pairs a ha
    obtain ⟨hcm, hcf, _, _⟩ := RP_shape pairs c hc
    exact H.frominj a ham c hcm (fromR a) haf (by rw [hcf, hac])
  have hpt2 : p.toLoc = VLoc.reg t := by
    have := (RP_shape pairs p hpRP).2.2.1
    rwa [hpt] at this
  have hptodo : toR p ∈ st.toDo := by rw [hpt]; exact httd
  have hsi := (Inv.j3 p hpRP hptodo).1
  rw [hps] at hsi
  have hdisj := (Inv.j3 p hpRP hptodo).2
  rw [hps] at hdisj
  have hregsf : M.regs f = some p.varNum := by
    rcases hdisj with ⟨r, hr, hm⟩ | ⟨hl, _⟩
    · rw [h3] at hr
      injection hr with hrf
      rw [hrf]
      exact hm
    · rw [h3] at hl
      cases hl
  have hv : (st.sourceIntervals s).getD 0 = p.varNum := by rw [hsi]; rfl
  have hM2 : execMoves M [RMove.mv ((st.sourceIntervals s).getD 0) (VLoc.reg t) (VLoc.reg f)] =
      { M with regs := upd M.regs t (some p.varNum) } := by
    rw [hv]
    simp [execMoves, execMove, readLoc, hregsf]
  rw [hM2]
  have hsort : List.Sorted (· < ·) (t :: rest) := by rw [← h1]; exact Inv.j2r
  have htrest : t ∉ rest := by
    intro hc
    have := (List.sorted_cons.mp hsort).1 t hc
    omega
  have hnd : st.toDo.Nodup := Inv.j2s.nodup
  have hft : f ≠ t := by
    intro hc
    refine Inv.j7a t (by rw [h1]; exact List.mem_cons_self t rest) p hpRP hptodo ?_
    rw [hps, h3, hc]
  have hpend : ∀ q, q ∈ RP pairs → toR q ∈ maskRem t st.toDo →
      toR q ∈ st.toDo ∧ toR q ≠ t ∧ q ≠ p ∧ fromR q ≠ s := by
    intro q hq hqt
    obtain ⟨hmem, hne⟩ := (mem_maskRem t (toR q) st.toDo).mp hqt
    refine ⟨hmem, hne, ?_, ?_⟩
    · intro hc
      rw [hc, hpt] at hne
      exact hne rfl
    · intro hc
      have hqp2 : q = p := hfrominjRP q hq p hpRP (by rw [hc, hps])
      rw [hqp2, hpt] at hne
      exact hne rfl
  have hlocpres : ∀ q : ResolvePair, fromR q ≠ s → ∀ v, st.location (fromR q) = v →
      upd st.location s RegLoc.na (fromR q) = v := by
    intro q hqs v hv2
    rw [upd_other _ _ _ _ hqs]
    exact hv2
  have hreadymem : ∀ x, x ∈ (if f = s ∧ (st.source f).isSome then maskAdd f rest else rest) →
      x = f ∨ x ∈ rest := by
    intro x hx
    by_cases hcond : f = s ∧ (st.source f).isSome
    · rw [if_pos hcond] at hx
      exact (mem_maskAdd f x rest).mp hx
    · rw [if_neg hcond] at hx
      exact Or.inr hx
  have hfin : (st.source f).isSome = true → f ∈ st.toDo := by
    intro hsome
    cases hsf : st.source f with
    | none => rw [hsf] at hsome; cases hsome
    | some sf =>
      obtain ⟨w, hwRP, hwto, _⟩ := Inv.j1b f sf hsf
      have h6 := (Inv.j6 p hpRP hptodo f (by rw [hps]; exact h3)).1
      rw [← hwto]
      exact h6 w hwRP hwto
  refine ⟨⟨?_, ?_, ?_, ?_, ?_, ?_, ?_, ?_, ?_, ?_, ?_, ?_, ?_, ?_, ?_, ?_, ?_, ?_, ?_, ?_,
    ?_, ?_, ?_, ?_, ?_⟩, length_maskRem_of_mem t st.toDo hnd httd⟩
  · intro q hq
    exact Inv.j1 q hq
  · intro r s2 h
    exact Inv.j1b r s2 h
  · intro t' ht'
    exact Inv.j2 t' ((mem_maskRem t t' st.toDo).mp ht').1
  · exact sorted_maskRem t st.toDo Inv.j2s
  · show List.Sorted (· < ·) (if f = s ∧ (st.source f).isSome then maskAdd f rest else rest)
    by_cases hcond : f = s ∧ (st.source f).isSome
    · rw [if_pos hcond]
      exact sorted_maskAdd f rest (List.sorted_cons.mp hsort).2
    · rw [if_neg hcond]
      exact (List.sorted_cons.mp hsort).2
  · intro x hx
    have hx0 : x ∈ (if f = s ∧ (st.source f).isSome then maskAdd f rest else rest) := hx
    by_cases hcond : f = s ∧ (st.source f).isSome
    · rw [if_pos hcond] at hx0
      rcases (mem_maskAdd f x rest).mp hx0 with rfl | hx2
      · exact (mem_maskRem t x st.toDo).mpr ⟨hfin hcond.2, hft⟩
      · refine (mem_maskRem t x st.toDo).mpr
          ⟨Inv.j2sub x (by rw [h1]; exact List.mem_cons_of_mem t hx2), ?_⟩
        intro hc
        rw [hc] at hx2
        exact htrest hx2
    · rw [if_neg hcond] at hx0
      refine (mem_maskRem t x st.toDo).mpr
        ⟨Inv.j2sub x (by rw [h1]; exact List.mem_cons_of_mem t hx0), ?_⟩
      intro hc
      rw [hc] at hx0
      exact htrest hx0
  · intro q hq hqt
    obtain ⟨hmem, hne, hqp, hqs⟩ := hpend q hq hqt
    have h3q := Inv.j3 q hq hmem
    refine ⟨?_, ?_⟩
    · show upd st.sourceIntervals s none (fromR q) = some q.varNum
      rw [upd_other _ _ _ _ hqs]
      exact h3q.1
    · rcases h3q.2 with ⟨r, hr1, hr2⟩ | ⟨hl, hsl⟩
      · refine Or.inl ⟨r, hlocpres q hqs _ hr1, ?_⟩
        show upd M.regs t (some p.varNum) r = some q.varNum
        have hrt : r ≠ t := by
          intro hc
          exact Inv.j7a t (by rw [h1]; exact List.mem_cons_self t rest) q hq hmem
            (by rw [hc] at hr1; exact hr1)
        rw [upd_other _ _ _ _ hrt]
        exact hr2
      · exact Or.inr ⟨hlocpres q hqs _ hl, hsl⟩
  · intro q hq hqnt
    by_cases hqt : toR q = t
    · have hqp : q = p := htoinjRP q hq p hpRP (by rw [hqt, hpt])
      show upd M.regs t (some p.varNum) (toR q) = some q.varNum
      rw [hqt, upd_same, hqp]
    · have hold : toR q ∉ st.toDo := by
        intro hc
        exact hqnt ((mem_maskRem t (toR q) st.toDo).mpr ⟨hc, hqt⟩)
      show upd M.regs t (some p.varNum) (toR q) = some q.varNum
      rw [upd_other _ _ _ _ hqt]
      exact Inv.j4 q hq hold
  · intro a ha c hc hat hct r hla hlc
    obtain ⟨hamem, _, _, has⟩ := hpend a ha hat
    obtain ⟨hcmem, _, _, hcs⟩ := hpend c hc hct
    have hla2 : st.location (fromR a) = RegLoc.reg r := by
      have h0 : upd st.location s RegLoc.na (fromR a) = RegLoc.reg r := hla
      rwa [upd_other _ _ _ _ has] at h0
    have hlc2 : st.location (fromR c) = RegLoc.reg r := by
      have h0 : upd st.location s RegLoc.na (fromR c) = RegLoc.reg r := hlc
      rwa [upd_other _ _ _ _ hcs] at h0
    exact Inv.j5 a ha c hc hamem hcmem r hla2 hlc2
  · intro q hq hqt r hl
    obtain ⟨hmem, hne, hqp, hqs⟩ := hpend q hq hqt
    have hl2 : st.location (fromR q) = RegLoc.reg r := by
      have h0 : upd st.location s RegLoc.na (fromR q) = RegLoc.reg r := hl
      rwa [upd_other _ _ _ _ hqs] at h0
    obtain ⟨h6a, h6b⟩ := Inv.j6 q hq hmem r hl2
    refine ⟨?_, h6b⟩
    intro w hw hwr
    have hwin := h6a w hw hwr
    refine (mem_maskRem t (toR w) st.toDo).mpr ⟨hwin, ?_⟩
    intro hc
    have hrt : r = t := by rw [← hwr]; exact hc
    rw [hrt] at hl2
    exact Inv.j7a t (by rw [h1]; exact List.mem_cons_self t rest) q hq hmem hl2
  · intro t' ht' q hq hqt
    obtain ⟨hmem, _, hqp, hqs⟩ := hpend q hq hqt
    intro hl
    have hl2 : st.location (fromR q) = RegLoc.reg t' := by
      have h0 : upd st.location s RegLoc.na (fromR q) = RegLoc.reg t' := hl
      rwa [upd_other _ _ _ _ hqs] at h0
    have ht2 : t' ∈ (if f = s ∧ (st.source f).isSome then maskAdd f rest else rest) := ht'
    rcases hreadymem t' ht2 with rfl | hrest
    · exact hqp (Inv.j5 q hq p hpRP hmem hptodo t' hl2 (by rw [hps]; exact h3))
    · exact Inv.j7a t' (by rw [h1]; exact List.mem_cons_of_mem t hrest) q hq hmem hl2
  · intro t' ht' hnr
    obtain ⟨hmem, hnt⟩ := (mem_maskRem t t' st.toDo).mp ht'
    have hnr2 : t' ∉ st.ready := by
      rw [h1]
      intro hcm
      rcases List.mem_cons.mp hcm with hc2 | hc2
      · exact hnt hc2
      · refine hnr ?_
        show t' ∈ (if f = s ∧ (st.source f).isSome then maskAdd f rest else rest)
        by_cases hcond : f = s ∧ (st.source f).isSome
        · rw [if_pos hcond]
          exact (mem_maskAdd f t' rest).mpr (Or.inr hc2)
        · rw [if_neg hcond]
          exact hc2
    obtain ⟨q, hq1, hq2, hq3⟩ := Inv.j7c t' hmem hnr2
    by_cases hqp : q = p
    · have htf : t' = f := by
        rw [hqp, hps, h3] at hq3
        injection hq3 with h5
        exact h5.symm
      have hmemf : f ∈ st.toDo := htf ▸ hmem
      have hfs2 : f = s := by
        by_contra hfs
        rcases Inv.jdisp p hpRP hptodo f (by rw [hps]; exact h3)
            (fun hc => hfs (by rw [hc, hps])) with htmp | ⟨hpc, d, hd1, hd2, hd3, hd4⟩
        · obtain ⟨w, hwRP, hwf⟩ := Inv.j2 f hmemf
          obtain ⟨_, hto⟩ := H.tmpfresh f htmp w (RP_shape pairs w hwRP).1
          refine hto ?_
          rw [← hwf]
          exact (RP_shape pairs w hwRP).2.2.1
        · have h8 := (Inv.j8 p hpRP hptodo).1
          cases hifl : i (fromR p) with
          | true =>
            rcases h8 hifl with hx | ⟨tmp, htmp2, hx⟩ | ⟨hx, _⟩
            · rw [hps, h3] at hx
              injection hx with h5
              exact hfs h5
            · rw [hps, h3] at hx
              injection hx with h5
              obtain ⟨w, hwRP, hwf⟩ := Inv.j2 f hmemf
              obtain ⟨_, hto⟩ := H.tmpfresh tmp htmp2 w (RP_shape pairs w hwRP).1
              refine hto ?_
              rw [← h5, ← hwf]
              exact (RP_shape pairs w hwRP).2.2.1
            · rw [hps, h3] at hx
              cases hx
          | false =>
            exact Inv.jcycI p hpRP hptodo hpc hifl
              (by rw [hpt, h1]; exact List.mem_cons_self t rest)
      have hsome : (st.source f).isSome = true := by
        obtain ⟨w, hwRP, hwf⟩ := Inv.j2 f hmemf
        rw [← hwf, Inv.j1 w hwRP]
        rfl
      refine absurd ?_ hnr
      show t' ∈ (if f = s ∧ (st.source f).isSome then maskAdd f rest else rest)
      rw [if_pos ⟨hfs2, hsome⟩, htf]
      exact (mem_maskAdd f f rest).mpr (Or.inl rfl)
    · have hqts : toR q ≠ t := by
        intro hc
        exact hqp (htoinjRP q hq1 p hpRP (by rw [hc, hpt]))
      have hqs : fromR q ≠ s := by
        intro hc
        exact hqp (hfrominjRP q hq1 p hpRP (by rw [hc, hps]))
      exact ⟨q, hq1, (mem_maskRem t (toR q) st.toDo).mpr ⟨hq2, hqts⟩, hlocpres q hqs _ hq3⟩
  · intro q hq hqt
    obtain ⟨hmem, _, _, hqs⟩ := hpend q hq hqt
    obtain ⟨h8f, h8i⟩ := Inv.j8 q hq hmem
    constructor
    · intro hfl
      rcases h8f hfl with hx | ⟨tmp, htmp, hx⟩ | ⟨hx, hn⟩
      · exact Or.inl (hlocpres q hqs _ hx)
      · exact Or.inr (Or.inl ⟨tmp, htmp, hlocpres q hqs _ hx⟩)
      · exact Or.inr (Or.inr ⟨hlocpres q hqs _ hx, hn⟩)
    · intro hint
      obtain ⟨r, hr1, hr2⟩ := h8i hint
      exact ⟨r, hlocpres q hqs _ hr1, hr2⟩
  · intro q hq hqt hqc
    obtain ⟨hmem, _, _, hqs⟩ := hpend q hq hqt
    exact hlocpres q hqs _ (Inv.jcycP q hq hmem hqc)
  · intro q hq hqt hqc hqi
    intro hcr
    by_cases hcond : f = s ∧ (st.source f).isSome
    · have hcr2 : toR q ∈ maskAdd f rest := by
        have h0 : toR q ∈ (if f = s ∧ (st.source f).isSome then maskAdd f rest else rest) := hcr
        rwa [if_pos hcond] at h0
      rcases (mem_maskAdd f (toR q) rest).mp hcr2 with htf | hrest
      · obtain ⟨hmem, hne, hqp, hqs⟩ := hpend q hq hqt
        obtain ⟨w2, hw2RP, hw2f, hw2c⟩ := H.cycF q hq hqc
        have hw2p : w2 = p := hfrominjRP w2 hw2RP p hpRP (by rw [hw2f, htf, hcond.1, ← hps])
        have hpc : cyc p = true := by rw [← hw2p]; exact hw2c
        have hpfl : i (fromR p) = true := by
          cases hifl : i (fromR p) with
          | false =>
            refine absurd ?_ (Inv.jcycI p hpRP hptodo hpc hifl)
            rw [hpt, h1]
            exact List.mem_cons_self t rest
          | true => rfl
        obtain ⟨hqm, hqf2, hqt2, _⟩ := RP_shape pairs q hq
        have hclq : i (fromR q) = i (toR q) := H.classc q hqm (fromR q) (toR q) hqf2 hqt2
        rw [hqi] at hclq
        rw [htf, hcond.1, ← hps] at hclq
        rw [hpfl] at hclq
        cases hclq
      · obtain ⟨hmem, _, _, _⟩ := hpend q hq hqt
        exact Inv.jcycI q hq hmem hqc hqi (by rw [h1]; exact List.mem_cons_of_mem t hrest)
    · have hcr2 : toR q ∈ rest := by
        have h0 : toR q ∈ (if f = s ∧ (st.source f).isSome then maskAdd f rest else rest) := hcr
        rwa [if_neg hcond] at h0
      obtain ⟨hmem, _, _, _⟩ := hpend q hq hqt
      exact Inv.jcycI q hq hmem hqc hqi (by rw [h1]; exact List.mem_cons_of_mem t hcr2)
  · intro q hq hqt r hl hrq
    obtain ⟨hmem, _, _, hqs⟩ := hpend q hq hqt
    have hl2 : st.location (fromR q) = RegLoc.reg r := by
      have h0 : upd st.location s RegLoc.na (fromR q) = RegLoc.reg r := hl
      rwa [upd_other _ _ _ _ hqs] at h0
    rcases Inv.jdisp q hq hmem r hl2 hrq with h | ⟨hc, d, hd1, hd2, hd3, hd4⟩
    · exact Or.inl h
    · refine Or.inr ⟨hc, d, hd1, hd2, hd3, ?_⟩
      intro hcm
      exact hd4 ((mem_maskRem t (toR d) st.toDo).mp hcm).1
  · intro q hq hqf t' hqt'
    exact Inv.j9 q hq hqf t' hqt'
  · intro q hq r hqf hqt'
    show upd M.regs t (some p.varNum) r = some q.varNum
    have hrt : r ≠ t := by
      intro hc
      have hq2 : q = p := H.toinj q hq p (RP_shape pairs p hpRP).1 t
        (by rw [← hc]; exact hqt') hpt2
      have hfr : p.fromLoc = p.toLoc := by rw [← hq2, hqf, hqt']
      rw [(RP_shape pairs p hpRP).2.1, (RP_shape pairs p hpRP).2.2.1] at hfr
      injection hfr with h5
      exact (RP_shape pairs p hpRP).2.2.2 h5
    rw [upd_other _ _ _ _ hrt]
    exact Inv.j10 q hq r hqf hqt'
  · intro q hq r hqf hqt'
    exact Inv.j11 q hq r hqf hqt'
  · intro q hq hqf hqt'
    exact Inv.j13 q hq hqf hqt'
  · intro t' ht'
    exact Inv.j12 t' ht'
  · exact Inv.j12s
  · obtain ⟨l2, hl2, hlm⟩ := Inv.jmv
    refine ⟨l2 ++ [RMove.mv ((st.sourceIntervals s).getD 0) (VLoc.reg t) (VLoc.reg f)], ?_, ?_⟩
    · show st.moves ++ [RMove.mv ((st.sourceIntervals s).getD 0) (VLoc.reg t) (VLoc.reg f)] =
        stkMoves pairs ++ (l2 ++ [RMove.mv ((st.sourceIntervals s).getD 0) (VLoc.reg t) (VLoc.reg f)])
      rw [hl2, List.append_assoc]
    · intro m hm
      rcases List.mem_append.mp hm with hm | hm
      · exact hlm m hm
      · have hmeq := List.mem_singleton.mp hm
        subst hmeq
        exact Or.inl ⟨(st.sourceIntervals s).getD 0, t, f, rfl⟩
  · intro m hm r hr
    rcases List.mem_append.mp hm with hm | hm
    · exact Inv.jwr m hm r hr
    · have hmeq := List.mem_singleton.mp hm
      subst hmeq
      have hrt : r = t := by simpa [regWritesOf] using hr
      subst hrt
      exact Or.inl ⟨p, (RP_shape pairs p hpRP).1, hpt2⟩
  · intro w hw hnd2 r hl
    by_cases hws : fromR w = s
    · have hl2 : upd st.location s RegLoc.na (fromR w) = RegLoc.reg r := hl
      rw [hws, upd_same] at hl2
      cases hl2
    · have hl2 : upd st.location s RegLoc.na (fromR w) = RegLoc.reg r := hl
      rw [upd_other _ _ _ _ hws] at hl2
      by_cases hwt : toR w ∈ st.toDo
      · have hwp : w = p := by
          have hwteq : toR w = t := by
            by_contra hc
            exact hnd2 ((mem_maskRem t (toR w) st.toDo).mpr ⟨hwt, hc⟩)
          exact htoinjRP w hw p hpRP (by rw [hwteq, hpt])
        exact absurd hps (hwp ▸ hws)
      · intro hcr
        exact Inv.jdone w hw hwt r hl2 ((mem_maskRem t r st.toDo).mp hcr).1

theorem preserve_busy_inplace (i : Nat → Bool) (tr : Option Nat)
    (pairs : List ResolvePair) (cyc : ResolvePair → Bool) (rank : ResolvePair → Nat)
    (H : EdgeHyps i tr pairs cyc rank)
    (st : EdgeSt) (M : MachineSt)
    (Inv : EdgeInv i tr pairs cyc st M)
    (t : Nat) (dd : List Nat) (s : Nat)
    (h1 : st.ready = []) (h2 : st.toDo = t :: dd) (h3 : st.source t = some s)
    (h4 : st.location s = RegLoc.reg t) :
    EdgeInv i tr pairs cyc { st with toDo := maskRem t st.toDo } M ∧
    (maskRem t st.toDo).length + 1 = st.toDo.length := by
  have httd : t ∈ st.toDo := by rw [h2]; exact List.mem_cons_self t dd
  obtain ⟨p, hpRP, hpt, hps⟩ := Inv.j1b t s h3
  have htoinjRP : ∀ a ∈ RP pairs, ∀ c ∈ RP pairs, toR a = toR c → a = c := by
    intro a ha c hc hac
    obtain ⟨ham, _, hat, _⟩ := RP_shape pairs a ha
    obtain ⟨hcm, _, hct, _⟩ := RP_shape pairs c hc
    exact H.toinj a ham c hcm (toR a) hat (by rw [hct, hac])
  have hptodo : toR p ∈ st.toDo := by rw [hpt]; exact httd
  have hlocp : st.location (fromR p) = RegLoc.reg t := by rw [hps]; exact h4
  have hnd : st.toDo.Nodup := Inv.j2s.nodup
  have hpend : ∀ q, q ∈ RP pairs → toR q ∈ maskRem t st.toDo →
      toR q ∈ st.toDo ∧ toR q ≠ t ∧ q ≠ p := by
    intro q hq hqt
    obtain ⟨hmem, hne⟩ := (mem_maskRem t (toR q) st.toDo).mp hqt
    refine ⟨hmem, hne, ?_⟩
    intro hc
    rw [hc, hpt] at hne
    exact hne rfl
  have hpendloc : ∀ q, q ∈ RP pairs → toR q ∈ maskRem t st.toDo →
      st.location (fromR q) ≠ RegLoc.reg t := by
    intro q hq hqt hl
    obtain ⟨hmem, hne, hqp⟩ := hpend q hq hqt
    exact hqp (Inv.j5 q hq p hpRP hmem hptodo t hl hlocp)
  refine ⟨⟨?_, ?_, ?_, ?_, ?_, ?_, ?_, ?_, ?_, ?_, ?_, ?_, ?_, ?_, ?_, ?_, ?_, ?_, ?_, ?_,
    ?_, ?_, ?_, ?_, ?_⟩, length_maskRem_of_mem t st.toDo hnd httd⟩
  · intro q hq
    exact Inv.j1 q hq
  · intro r s2 h
    exact Inv.j1b r s2 h
  · intro t' ht'
    exact Inv.j2 t' ((mem_maskRem t t' st.toDo).mp ht').1
  · exact sorted_maskRem t st.toDo Inv.j2s
  · exact Inv.j2r
  · intro x hx
    have hx2 : x ∈ st.ready := hx
    rw [h1] at hx2
    cases hx2
  · intro q hq hqt
    obtain ⟨hmem, _, _⟩ := hpend q hq hqt
    exact Inv.j3 q hq hmem
  · intro q hq hqnt
    by_cases hqt : toR q = t
    · have hqp : q = p := htoinjRP q hq p hpRP (by rw [hqt, hpt])
      have h3p := (Inv.j3 p hpRP hptodo).2
      rcases h3p with ⟨r, hr1, hr2⟩ | ⟨hl, _⟩
      · rw [hlocp] at hr1
        injection hr1 with hr3
        rw [hqt, hqp, hr3]
        exact hr2
      · rw [hlocp] at hl
        cases hl
    · have hold : toR q ∉ st.toDo := by
        intro hc
        exact hqnt ((mem_maskRem t (toR q) st.toDo).mpr ⟨hc, hqt⟩)
      exact Inv.j4 q hq hold
  · intro a ha c hc hat hct r hla hlc
    obtain ⟨hamem, _, _⟩ := hpend a ha hat
    obtain ⟨hcmem, _, _⟩ := hpend c hc hct
    exact Inv.j5 a ha c hc hamem hcmem r hla hlc
  · intro q hq hqt r hl
    obtain ⟨hmem, hne, hqp⟩ := hpend q hq hqt
    obtain ⟨h6a, h6b⟩ := Inv.j6 q hq hmem r hl
    refine ⟨?_, h6b⟩
    intro w hw hwr
    have hwin := h6a w hw hwr
    refine (mem_maskRem t (toR w) st.toDo).mpr ⟨hwin, ?_⟩
    intro hc
    have hrt : r = t := by rw [← hwr]; exact hc
    rw [hrt] at hl
    exact hpendloc q hq hqt hl
  · intro t' ht' q hq hqt
    have ht2 : t' ∈ st.ready := ht'
    rw [h1] at ht2
    cases ht2
  · intro t' ht' hnr
    obtain ⟨hmem, hnt⟩ := (mem_maskRem t t' st.toDo).mp ht'
    obtain ⟨q, hq1, hq2, hq3⟩ := Inv.j7c t' hmem (by rw [h1]; exact List.not_mem_nil t')
    have hqp : q ≠ p := by
      intro hc
      rw [hc, hps, h4] at hq3
      injection hq3 with h5
      exact hnt h5.symm
    have hq2b : toR q ∈ maskRem t st.toDo := by
      refine (mem_maskRem t (toR q) st.toDo).mpr ⟨hq2, ?_⟩
      intro hc
      exact hqp (htoinjRP q hq1 p hpRP (by rw [hc, hpt]))
    exact ⟨q, hq1, hq2b, hq3⟩
  · intro q hq hqt
    obtain ⟨hmem, _, _⟩ := hpend q hq hqt
    exact Inv.j8 q hq hmem
  · intro q hq hqt hqc
    obtain ⟨hmem, _, _⟩ := hpend q hq hqt
    exact Inv.jcycP q hq hmem hqc
  · intro q hq hqt hqc hqi hcr
    have hcr2 : toR q ∈ st.ready := hcr
    rw [h1] at hcr2
    cases hcr2
  · intro q hq hqt r hl hrq
    obtain ⟨hmem, _, _⟩ := hpend q hq hqt
    rcases Inv.jdisp q hq hmem r hl hrq with h | ⟨hc, d, hd1, hd2, hd3, hd4⟩
    · exact Or.inl h
    · refine Or.inr ⟨hc, d, hd1, hd2, hd3, ?_⟩
      intro hcm
      exact hd4 ((mem_maskRem t (toR d) st.toDo).mp hcm).1
  · intro q hq hqf t' hqt'
    exact Inv.j9 q hq hqf t' hqt'
  · intro q hq r hqf hqt'
    exact Inv.j10 q hq r hqf hqt'
  · intro q hq r hqf hqt'
    exact Inv.j11 q hq r hqf hqt'
  · intro q hq hqf hqt'
    exact Inv.j13 q hq hqf hqt'
  · intro t' ht'
    exact Inv.j12 t' ht'
  · exact Inv.j12s
  · exact Inv.jmv
  · intro m hm r hr
    exact Inv.jwr m hm r hr
  · intro w hw hnd2 r hl
    by_cases hwt : toR w ∈ st.toDo
    · have hwp : w = p := by
        have hwteq : toR w = t := by
          by_contra hc
          exact hnd2 ((mem_maskRem t (toR w) st.toDo).mpr ⟨hwt, hc⟩)
        exact htoinjRP w hw p hpRP (by rw [hwteq, hpt])
      have hreq : r = t := by
        rw [hwp] at hl
        rw [hlocp] at hl
        injection hl with h5
        exact h5.symm
      rw [hreq]
      intro hcm
      exact ((mem_maskRem t t st.toDo).mp hcm).2 rfl
    · intro hcr
      exact Inv.jdone w hw hwt r hl ((mem_maskRem t r st.toDo).mp hcr).1

theorem preserve_busy_tmp (i : Nat → Bool) (tr : Option Nat)
    (pairs : List ResolvePair) (cyc : ResolvePair → Bool) (rank : ResolvePair → Nat)
    (H : EdgeHyps i tr pairs cyc rank)
    (st : EdgeSt) (M : MachineSt)
    (Inv : EdgeInv i tr pairs cyc st M)
    (t : Nat) (dd : List Nat) (s f tmp : Nat)
    (h1 : st.ready = []) (h2 : st.toDo = t :: dd) (h3 : st.source t = some s)
    (h4 : st.location s = RegLoc.reg f) (h5 : t ≠ f) (h6 : i t = true)
    (h7 : tr = some tmp) :
    EdgeInv i tr pairs cyc
      { st with
        moves := st.moves ++
          [RMove.mv ((st.sourceIntervals t).getD 0) (VLoc.reg tmp) (VLoc.reg t)]
        location := upd st.location t (RegLoc.reg tmp)
        ready := maskAdd t st.ready }
      (execMoves M [RMove.mv ((st.sourceIntervals t).getD 0) (VLoc.reg tmp) (VLoc.reg t)]) := by
  have httd : t ∈ st.toDo := by rw [h2]; exact List.mem_cons_self t dd
  obtain ⟨p, hpRP, hpt, hps⟩ := Inv.j1b t s h3
  have htoinjRP : ∀ a ∈ RP pairs, ∀ c ∈ RP pairs, toR a = toR c → a = c := by
    intro a ha c hc hac
    obtain ⟨ham, _, hat, _⟩ := RP_shape pairs a ha
    obtain ⟨hcm, _, hct, _⟩ := RP_shape pairs c hc
    exact H.toinj a ham c hcm (toR a) hat (by rw [hct, hac])
  have hfrominjRP : ∀ a ∈ RP pairs, ∀ c ∈ RP pairs, fromR a = fromR c → a = c := by
    intro a ha c hc hac
    obtain ⟨ham, haf, _, _⟩ := RP_shape pairs a ha
    obtain ⟨hcm, hcf, _, _⟩ := RP_shape pairs c hc
    exact H.frominj a ham c hcm (fromR a) haf (by rw [hcf, hac])
  have hptodo : toR p ∈ st.toDo := by rw [hpt]; exact httd
  have hbf := busy_facts i tr pairs cyc rank H st M Inv h1
  have httmp : t ≠ tmp := by
    intro hc
    obtain ⟨_, hto⟩ := H.tmpfresh tmp h7 p (RP_shape pairs p hpRP).1
    refine hto ?_
    rw [← hc, ← hpt]
    exact (RP_shape pairs p hpRP).2.2.1
  have htmptodo : tmp ∉ st.toDo := by
    intro hc
    obtain ⟨w, hwRP, hwt⟩ := Inv.j2 tmp hc
    obtain ⟨_, hto⟩ := H.tmpfresh tmp h7 w (RP_shape pairs w hwRP).1
    refine hto ?_
    rw [← hwt]
    exact (RP_shape pairs w hwRP).2.2.1
  have hnotmp : ∀ w, w ∈ RP pairs → toR w ∈ st.toDo →
      st.location (fromR w) ≠ RegLoc.reg tmp := by
    intro w hw hwt hl
    obtain ⟨⟨t2, ht2, hl2⟩, _⟩ := hbf w hw hwt
    rw [hl] at hl2
    injection hl2 with h8
    rw [← h8] at ht2
    exact htmptodo ht2
  obtain ⟨q, hqRP, hqt, hqloc⟩ := Inv.j7c t httd (by rw [h1]; exact List.not_mem_nil t)
  have hqfl : i (fromR q) = true := by
    cases hifl : i (fromR q) with
    | true => rfl
    | false =>
      obtain ⟨r, hr1, hr2⟩ := (Inv.j8 q hqRP hqt).2 hifl
      rw [hqloc] at hr1
      injection hr1 with h8
      rw [← h8] at hr2
      rw [h6] at hr2
      cases hr2
  have hqfrom : fromR q = t := by
    rcases (Inv.j8 q hqRP hqt).1 hqfl with hx | ⟨tmp2, htmp2, hx⟩ | ⟨hx, _⟩
    · rw [hqloc] at hx
      injection hx with h8
      exact h8.symm
    · rw [h7] at htmp2
      injection htmp2 with h9
      rw [hqloc] at hx
      injection hx with h8
      exact absurd (by rw [h8, ← h9]) httmp
    · rw [hqloc] at hx
      cases hx
  have hsiq : st.sourceIntervals t = some q.varNum := by
    have := (Inv.j3 q hqRP hqt).1
    rwa [hqfrom] at this
  have hregst : M.regs t = some q.varNum := by
    rcases (Inv.j3 q hqRP hqt).2 with ⟨r, hr1, hr2⟩ | ⟨hl, _⟩
    · rw [hqloc] at hr1
      injection hr1 with h8
      rw [h8]
      exact hr2
    · rw [hqloc] at hl
      cases hl
  have hv : (st.sourceIntervals t).getD 0 = q.varNum := by rw [hsiq]; rfl
  have hM2 : execMoves M [RMove.mv ((st.sourceIntervals t).getD 0) (VLoc.reg tmp) (VLoc.reg t)] =
      { M with regs := upd M.regs tmp (some q.varNum) } := by
    rw [hv]
    simp [execMoves, execMove, readLoc, hregst]
  rw [hM2]
  have hqother : ∀ w, w ∈ RP pairs → toR w ∈ st.toDo → w ≠ q → fromR w ≠ t := by
    intro w hw hwt hwq hc
    exact hwq (hfrominjRP w hw q hqRP (by rw [hc, hqfrom]))
  have hlocpres : ∀ w : ResolvePair, fromR w ≠ t → ∀ v, st.location (fromR w) = v →
      upd st.location t (RegLoc.reg tmp) (fromR w) = v := by
    intro w hwt v hv2
    rw [upd_other _ _ _ _ hwt]
    exact hv2
  refine ⟨?_, ?_, ?_, ?_, ?_, ?_, ?_, ?_, ?_, ?_, ?_, ?_, ?_, ?_, ?_, ?_, ?_, ?_, ?_, ?_,
    ?_, ?_, ?_, ?_, ?_⟩
  · intro w hw
    exact Inv.j1 w hw
  · intro r s2 h
    exact Inv.j1b r s2 h
  · intro t' ht'
    exact Inv.j2 t' ht'
  · exact Inv.j2s
  · show List.Sorted (· < ·) (maskAdd t st.ready)
    rw [h1]
    simp [maskAdd]
  · intro x hx
    have hx2 : x ∈ maskAdd t st.ready := hx
    rw [h1] at hx2
    rcases (mem_maskAdd t x []).mp hx2 with rfl | hx3
    · exact httd
    · cases hx3
  · intro w hw hwt
    by_cases hwq : w = q
    · subst hwq
      refine ⟨?_, Or.inl ⟨tmp, ?_, ?_⟩⟩
      · show st.sourceIntervals (fromR w) = some w.varNum
        rw [hqfrom]
        exact hsiq
      · show upd st.location t (RegLoc.reg tmp) (fromR w) = RegLoc.reg tmp
        rw [hqfrom]
        exact upd_same _ _ _
      · show upd M.regs tmp (some w.varNum) tmp = some w.varNum
        exact upd_same _ _ _
    · have hwf : fromR w ≠ t := hqother w hw hwt hwq
      have h3w := Inv.j3 w hw hwt
      refine ⟨h3w.1, ?_⟩
      rcases h3w.2 with ⟨r, hr1, hr2⟩ | ⟨hl, hsl⟩
      · refine Or.inl ⟨r, hlocpres w hwf _ hr1, ?_⟩
        have hrtmp : r ≠ tmp := by
          intro hc
          rw [hc] at hr1
          exact hnotmp w hw hwt hr1
        show upd M.regs tmp (some q.varNum) r = some w.varNum
        rw [upd_other _ _ _ _ hrtmp]
        exact hr2
      · exact Or.inr ⟨hlocpres w hwf _ hl, hsl⟩
  · intro w hw hwnt
    have hwtmp : toR w ≠ tmp := by
      intro hc
      obtain ⟨_, hto⟩ := H.tmpfresh tmp h7 w (RP_shape pairs w hw).1
      refine hto ?_
      rw [← hc]
      exact (RP_shape pairs w hw).2.2.1
    show upd M.regs tmp (some q.varNum) (toR w) = some w.varNum
    rw [upd_other _ _ _ _ hwtmp]
    exact Inv.j4 w hw hwnt
  · intro a ha c hc hat hct r hla hlc
    by_cases haq : a = q
    · by_cases hcq : c = q
      · rw [haq, hcq]
      · exfalso
        have hcf : fromR c ≠ t := hqother c hc hct hcq
        have hlc2 : st.location (fromR c) = RegLoc.reg r := by
          have h0 : upd st.location t (RegLoc.reg tmp) (fromR c) = RegLoc.reg r := hlc
          rwa [upd_other _ _ _ _ hcf] at h0
        have hla2 : upd st.location t (RegLoc.reg tmp) (fromR a) = RegLoc.reg r := hla
        rw [haq, hqfrom, upd_same] at hla2
        injection hla2 with h8
        rw [← h8] at hlc2
        exact hnotmp c hc hct hlc2
    · by_cases hcq : c = q
      · exfalso
        have haf : fromR a ≠ t := hqother a ha hat haq
        have hla2 : st.location (fromR a) = RegLoc.reg r := by
          have h0 : upd st.location t (RegLoc.reg tmp) (fromR a) = RegLoc.reg r := hla
          rwa [upd_other _ _ _ _ haf] at h0
        have hlc2 : upd st.location t (RegLoc.reg tmp) (fromR c) = RegLoc.reg r := hlc
        rw [hcq, hqfrom, upd_same] at hlc2
        injection hlc2 with h8
        rw [← h8] at hla2
        exact hnotmp a ha hat hla2
      · have haf : fromR a ≠ t := hqother a ha hat haq
        have hcf : fromR c ≠ t := hqother c hc hct hcq
        have hla2 : st.location (fromR a) = RegLoc.reg r := by
          have h0 : upd st.location t (RegLoc.reg tmp) (fromR a) = RegLoc.reg r := hla
          rwa [upd_other _ _ _ _ haf] at h0
        have hlc2 : st.location (fromR c) = RegLoc.reg r := by
          have h0 : upd st.location t (RegLoc.reg tmp) (fromR c) = RegLoc.reg r := hlc
          rwa [upd_other _ _ _ _ hcf] at h0
        exact Inv.j5 a ha c hc hat hct r hla2 hlc2
  · intro w hw hwt r hl
    by_cases hwq : w = q
    · have hl2 : upd st.location t (RegLoc.reg tmp) (fromR w) = RegLoc.reg r := hl
      rw [hwq, hqfrom, upd_same] at hl2
      injection hl2 with h8
      constructor
      · intro w2 hw2 hw2r
        exfalso
        obtain ⟨_, hto⟩ := H.tmpfresh tmp h7 w2 (RP_shape pairs w2 hw2).1
        refine hto ?_
        have hsh : w2.toLoc = VLoc.reg (toR w2) := (RP_shape pairs w2 hw2).2.2.1
        rw [hw2r, ← h8] at hsh
        exact hsh
      · intro w2 hw2 hw2e hw2t
        obtain ⟨hf2, ht2⟩ := H.tmpfresh tmp h7 w2 hw2
        refine ht2 ?_
        rw [hw2t, ← h8]
    · have hwf : fromR w ≠ t := hqother w hw hwt hwq
      have hl2 : st.location (fromR w) = RegLoc.reg r := by
        have h0 : upd st.location t (RegLoc.reg tmp) (fromR w) = RegLoc.reg r := hl
        rwa [upd_other _ _ _ _ hwf] at h0
      exact Inv.j6 w hw hwt r hl2
  · intro t' ht' w hw hwt
    have ht2 : t' ∈ maskAdd t st.ready := ht'
    rw [h1] at ht2
    rcases (mem_maskAdd t t' []).mp ht2 with rfl | hx3
    · by_cases hwq : w = q
      · intro hl
        have hl2 : upd st.location t' (RegLoc.reg tmp) (fromR w) = RegLoc.reg t' := hl
        rw [hwq, hqfrom, upd_same] at hl2
        injection hl2 with h8
        exact httmp h8.symm
      · intro hl
        have hwf : fromR w ≠ t' := hqother w hw hwt hwq
        have hl2 : st.location (fromR w) = RegLoc.reg t' := by
          have h0 : upd st.location t' (RegLoc.reg tmp) (fromR w) = RegLoc.reg t' := hl
          rwa [upd_other _ _ _ _ hwf] at h0
        exact hwq (Inv.j5 w hw q hqRP hwt hqt t' hl2 hqloc)
    · cases hx3
  · intro t' ht' hnr
    by_cases htt : t' = t
    · exfalso
      refine hnr ?_
      show t' ∈ maskAdd t st.ready
      rw [h1, htt]
      exact (mem_maskAdd t t []).mpr (Or.inl rfl)
    · obtain ⟨w, hw1, hw2, hw3⟩ := Inv.j7c t' ht' (by rw [h1]; exact List.not_mem_nil t')
      have hwq : w ≠ q := by
        intro hc
        rw [hc, hqloc] at hw3
        injection hw3 with h8
        exact htt h8.symm
      have hwf : fromR w ≠ t := hqother w hw1 hw2 hwq
      exact ⟨w, hw1, hw2, hlocpres w hwf _ hw3⟩
  · intro w hw hwt
    by_cases hwq : w = q
    · constructor
      · intro _
        refine Or.inr (Or.inl ⟨tmp, h7, ?_⟩)
        show upd st.location t (RegLoc.reg tmp) (fromR w) = RegLoc.reg tmp
        rw [hwq, hqfrom]
        exact upd_same _ _ _
      · intro hint
        rw [hwq, hqfl] at hint
        cases hint
    · have hwf : fromR w ≠ t := hqother w hw hwt hwq
      obtain ⟨h8f, h8i⟩ := Inv.j8 w hw hwt
      constructor
      · intro hfl
        rcases h8f hfl with hx | ⟨tmp2, htmp2, hx⟩ | ⟨hx, hn⟩
        · exact Or.inl (hlocpres w hwf _ hx)
        · exact Or.inr (Or.inl ⟨tmp2, htmp2, hlocpres w hwf _ hx⟩)
        · exact Or.inr (Or.inr ⟨hlocpres w hwf _ hx, hn⟩)
      · intro hint
        obtain ⟨r, hr1, hr2⟩ := h8i hint
        exact ⟨r, hlocpres w hwf _ hr1, hr2⟩
  · intro w hw hwt hwc
    exfalso
    have := (hbf w hw hwt).2
    rw [hwc] at this
    cases this
  · intro w hw hwt hwc hwi hcr
    have hcr2 : toR w ∈ maskAdd t st.ready := hcr
    rw [h1] at hcr2
    rcases (mem_maskAdd t (toR w) []).mp hcr2 with hwt2 | hx3
    · have hwp : w = p := htoinjRP w hw p hpRP (by rw [hwt2, hpt])
      obtain ⟨hpm, hpf, hpt3, _⟩ := RP_shape pairs p hpRP
      have hclp : i (fromR p) = i (toR p) := H.classc p hpm (fromR p) (toR p) hpf hpt3
      rw [hpt, h6] at hclp
      rw [hwp, hclp] at hwi
      cases hwi
    · cases hx3
  · intro w hw hwt r hl hrw
    by_cases hwq : w = q
    · have hl2 : upd st.location t (RegLoc.reg tmp) (fromR w) = RegLoc.reg r := hl
      rw [hwq, hqfrom, upd_same] at hl2
      injection hl2 with h8
      rw [← h8]
      exact Or.inl h7
    · have hwf : fromR w ≠ t := hqother w hw hwt hwq
      have hl2 : st.location (fromR w) = RegLoc.reg r := by
        have h0 : upd st.location t (RegLoc.reg tmp) (fromR w) = RegLoc.reg r := hl
        rwa [upd_other _ _ _ _ hwf] at h0
      exact Inv.jdisp w hw hwt r hl2 hrw
  · intro w hw hwf t' hwt'
    exact Inv.j9 w hw hwf t' hwt'
  · intro w hw r hwf hwt'
    have hrtmp : r ≠ tmp := by
      intro hc
      obtain ⟨hf2, _⟩ := H.tmpfresh tmp h7 w hw
      refine hf2 ?_
      rw [hwf, hc]
    show upd M.regs tmp (some q.varNum) r = some w.varNum
    rw [upd_other _ _ _ _ hrtmp]
    exact Inv.j10 w hw r hwf hwt'
  · intro w hw r hwf hwt'
    exact Inv.j11 w hw r hwf hwt'
  · intro w hw hwf hwt'
    exact Inv.j13 w hw hwf hwt'
  · intro t' ht'
    exact Inv.j12 t' ht'
  · exact Inv.j12s
  · obtain ⟨l2, hl2, hlm⟩ := Inv.jmv
    refine ⟨l2 ++ [RMove.mv ((st.sourceIntervals t).getD 0) (VLoc.reg tmp) (VLoc.reg t)], ?_, ?_⟩
    · show st.moves ++ [RMove.mv ((st.sourceIntervals t).getD 0) (VLoc.reg tmp) (VLoc.reg t)] =
        stkMoves pairs ++ (l2 ++ [RMove.mv ((st.sourceIntervals t).getD 0) (VLoc.reg tmp) (VLoc.reg t)])
      rw [hl2, List.append_assoc]
    · intro m hm
      rcases List.mem_append.mp hm with hm | hm
      · exact hlm m hm
      · have hmeq := List.mem_singleton.mp hm
        subst hmeq
        exact Or.inl ⟨(st.sourceIntervals t).getD 0, tmp, t, rfl⟩
  · intro m hm r hr
    rcases List.mem_append.mp hm with hm | hm
    · exact Inv.jwr m hm r hr
    · have hmeq := List.mem_singleton.mp hm
      subst hmeq
      have hrt : r = tmp := by simpa [regWritesOf] using hr
      subst hrt
      exact Or.inr (Or.inr h7)
  · intro w hw hnd2 r hl
    have hwf : fromR w ≠ t := by
      intro hc
      have hwq : w = q := hfrominjRP w hw q hqRP (by rw [hc, hqfrom])
      rw [hwq] at hnd2
      exact hnd2 hqt
    have hl2 : st.location (fromR w) = RegLoc.reg r := by
      have h0 : upd st.location t (RegLoc.reg tmp) (fromR w) = RegLoc.reg r := hl
      rwa [upd_other _ _ _ _ hwf] at h0
    exact Inv.jdone w hw hnd2 r hl2

theorem findOtherTarget_spec (st : EdgeSt) (t f : Nat)
    (q : ResolvePair) (hto : st.source (toR q) = some (fromR q))
    (hqt : toR q ∈ st.toDo)
    (hqloc : st.location (fromR q) = RegLoc.reg t)
    (huniq : ∀ n sn, st.source n = some sn → st.location sn = RegLoc.reg t → n = toR q) :
    findOtherTarget st t f = some (toR q) := by
  have hfind : st.toDo.find? (fun n =>
      match st.source n with
      | some sn => decide (st.location sn = RegLoc.reg t)
      | none => false) = some (toR q) := by
    refine find?_unique hqt ?_ ?_
    · show (match st.source (toR q) with
        | some sn => decide (st.location sn = RegLoc.reg t)
        | none => false) = true
      rw [hto]
      simp [hqloc]
    · intro x hx hpx
      cases hsx : st.source x with
      | none => rw [hsx] at hpx; cases hpx
      | some sx =>
        rw [hsx] at hpx
        simp only [decide_eq_true_eq] at hpx
        exact huniq x sx hsx hpx
  rw [findOtherTarget]
  cases hsf : st.source f with
  | none =>
    simp only [hsf]
    simpa using hfind
  | some sf =>
    by_cases hlf : st.location sf = RegLoc.reg t
    · have hfq : f = toR q := huniq f sf hsf hlf
      simp [hsf, hlf, hfq]
    · simp only [hsf]
      simp only [hlf]
      simpa [hlf] using hfind

theorem preserve_busy_swap (i : Nat → Bool) (tr : Option Nat)
    (pairs : List ResolvePair) (cyc : ResolvePair → Bool) (rank : ResolvePair → Nat)
    (H : EdgeHyps i tr pairs cyc rank)
    (st : EdgeSt) (M : MachineSt)
    (Inv : EdgeInv i tr pairs cyc st M)
    (t : Nat) (dd : List Nat) (s f : Nat)
    (h1 : st.ready = []) (h2 : st.toDo = t :: dd) (h3 : st.source t = some s)
    (h4 : st.location s = RegLoc.reg f) (h5 : t ≠ f) (h6 : i t = false) :
    ∃ d2, (swapBreak st t s f).moves = st.moves ++ d2 ∧
      (∀ m ∈ d2, LoopMove m) ∧
      (∀ m ∈ d2, ∀ r ∈ regWritesOf m,
        (∃ w ∈ pairs, w.toLoc = VLoc.reg r) ∨ (∃ w ∈ pairs, w.fromLoc = VLoc.reg r) ∨
        tr = some r) ∧
      EdgeInv i tr pairs cyc (swapBreak st t s f) (execMoves M d2) ∧
      (swapBreak st t s f).toDo.length < st.toDo.length ∧
      (swapBreak st t s f).ready = st.ready := by
  have httd : t ∈ st.toDo := by rw [h2]; exact List.mem_cons_self t dd
  obtain ⟨p, hpRP, hpt, hps⟩ := Inv.j1b t s h3
  have htoinjRP : ∀ a ∈ RP pairs, ∀ c ∈ RP pairs, toR a = toR c → a = c := by
    intro a ha c hc hac
    obtain ⟨ham, _, hat, _⟩ := RP_shape pairs a ha
    obtain ⟨hcm, _, hct, _⟩ := RP_shape pairs c hc
    exact H.toinj a ham c hcm (toR a) hat (by rw [hct, hac])
  have hfrominjRP : ∀ a ∈ RP pairs, ∀ c ∈ RP pairs, fromR a = fromR c → a = c := by
    intro a ha c hc hac
    obtain ⟨ham, haf, _, _⟩ := RP_shape pairs a ha
    obtain ⟨hcm, hcf, _, _⟩ := RP_shape pairs c hc
    exact H.frominj a ham c hcm (fromR a) haf (by rw [hcf, hac])
  have hptodo : toR p ∈ st.toDo := by rw [hpt]; exact httd
  have hlocp : st.location (fromR p) = RegLoc.reg f := by rw [hps]; exact h4
  have hbf := busy_facts i tr pairs cyc rank H st M Inv h1
  have hallcyc : ∀ w, w ∈ RP pairs → toR w ∈ st.toDo → cyc w = true :=
    fun w hw hwt => (hbf w hw hwt).2
  have hfin : f ∈ st.toDo := by
    obtain ⟨⟨t2, ht2, hl2⟩, _⟩ := hbf p hpRP hptodo
    rw [hlocp] at hl2
    injection hl2 with h8
    rw [h8]
    exact ht2
  obtain ⟨q, hqRP, hqt, hqloc⟩ := Inv.j7c t httd (by rw [h1]; exact List.not_mem_nil t)
  have hqp : q ≠ p := by
    intro hc
    rw [hc, hlocp] at hqloc
    injection hqloc with h8
    exact h5 h8.symm
  have hqfroms : fromR q ≠ s := by
    intro hc
    exact hqp (hfrominjRP q hqRP p hpRP (by rw [hc, hps]))
  have hregsf : M.regs f = some p.varNum := by
    rcases (Inv.j3 p hpRP hptodo).2 with ⟨r, hr1, hr2⟩ | ⟨hl, _⟩
    · rw [hlocp] at hr1
      injection hr1 with h8
      rw [h8]
      exact hr2
    · rw [hlocp] at hl
      cases hl
  have hregst : M.regs t = some q.varNum := by
    rcases (Inv.j3 q hqRP hqt).2 with ⟨r, hr1, hr2⟩ | ⟨hl, _⟩
    · rw [hqloc] at hr1
      injection hr1 with h8
      rw [h8]
      exact hr2
    · rw [hqloc] at hl
      cases hl
  have huniq : ∀ n sn, st.source n = some sn → st.location sn = RegLoc.reg t → n = toR q :=
    fun n sn hsn hlocn =>
      blocker_unique i tr pairs cyc st M Inv Inv.j5 t httd q hqRP hqt hqloc n sn hsn hlocn
  have hfot : findOtherTarget st t f = some (toR q) :=
    findOtherTarget_spec st t f q (Inv.j1 q hqRP) hqt hqloc huniq
  have heq := swapBreak_eq st t s f (toR q) (fromR q) hfot (Inv.j1 q hqRP)
  rw [heq]
  have hft : f ≠ t := fun hc => h5 hc.symm
  have hmem2 : ∀ x, x ∈ maskRem t (if toR q = f then maskRem f st.toDo else st.toDo) ↔
      x ∈ st.toDo ∧ x ≠ t ∧ (toR q = f → x ≠ f) := by
    intro x
    by_cases hof : toR q = f
    · rw [if_pos hof]
      constructor
      · intro hx
        obtain ⟨hx1, hx2⟩ := (mem_maskRem t x _).mp hx
        obtain ⟨hx3, hx4⟩ := (mem_maskRem f x _).mp hx1
        exact ⟨hx3, hx2, fun _ => hx4⟩
      · rintro ⟨hx1, hx2, hx3⟩
        exact (mem_maskRem t x _).mpr ⟨(mem_maskRem f x _).mpr ⟨hx1, hx3 hof⟩, hx2⟩
    · rw [if_neg hof]
      constructor
      · intro hx
        obtain ⟨hx1, hx2⟩ := (mem_maskRem t x _).mp hx
        exact ⟨hx1, hx2, fun hc => absurd hc hof⟩
      · rintro ⟨hx1, hx2, _⟩
        exact (mem_maskRem t x _).mpr ⟨hx1, hx2⟩
  have hpend : ∀ w, w ∈ RP pairs →
      toR w ∈ maskRem t (if toR q = f then maskRem f st.toDo else st.toDo) →
      toR w ∈ st.toDo ∧ toR w ≠ t ∧ w ≠ p ∧ fromR w ≠ s ∧ (toR q = f → w ≠ q) := by
    intro w hw hwt
    obtain ⟨hmem, hne, hof⟩ := (hmem2 (toR w)).mp hwt
    refine ⟨hmem, hne, ?_, ?_, ?_⟩
    · intro hc
      rw [hc, hpt] at hne
      exact hne rfl
    · intro hc
      have : w = p := hfrominjRP w hw p hpRP (by rw [hc, hps])
      rw [this, hpt] at hne
      exact hne rfl
    · intro hc hc2
      rw [hc2] at hof
      exact hof hc hc
  have hLs : upd (upd st.location s RegLoc.na) (fromR q) (RegLoc.reg f) s = RegLoc.na := by
    rw [upd_other _ _ _ _ (fun hc => hqfroms hc.symm), upd_same]
  have hLq : upd (upd st.location s RegLoc.na) (fromR q) (RegLoc.reg f) (fromR q) =
      RegLoc.reg f := upd_same _ _ _
  have hLother : ∀ x, x ≠ s → x ≠ fromR q →
      upd (upd st.location s RegLoc.na) (fromR q) (RegLoc.reg f) x = st.location x := by
    intro x hx1 hx2
    rw [upd_other _ _ _ _ hx2, upd_other _ _ _ _ hx1]
  have hM2 : execMoves M [RMove.swap ((st.sourceIntervals (fromR q)).getD 0) t
        ((st.sourceIntervals s).getD 0) f] =
      { M with regs := upd (upd M.regs t (some p.varNum)) f (some q.varNum) } := by
    simp only [execMoves, List.foldl_cons, List.foldl_nil, execMove]
    have hfe : (fun r => if r = t then M.regs f else if r = f then M.regs t else M.regs r) =
        upd (upd M.regs t (some p.varNum)) f (some q.varNum) := by
      funext r
      by_cases hr1 : r = t
      · subst hr1
        rw [if_pos rfl, hregsf, upd_other _ _ _ _ h5, upd_same]
      · by_cases hr2 : r = f
        · subst hr2
          rw [if_neg hr1, if_pos rfl, hregst, upd_same]
        · rw [if_neg hr1, if_neg hr2, upd_other _ _ _ _ hr2, upd_other _ _ _ _ hr1]
    rw [hfe]
  have hqint : i (fromR q) = false := by
    cases hifl : i (fromR q) with
    | false => rfl
    | true =>
      rcases (Inv.j8 q hqRP hqt).1 hifl with hx | ⟨tmp2, htmp2, hx⟩ | ⟨hx, _⟩
      · rw [hqloc] at hx
        injection hx with h8
        rw [← h8] at hifl
        rw [h6] at hifl
        cases hifl
      · rw [hqloc] at hx
        injection hx with h8
        obtain ⟨_, hto⟩ := H.tmpfresh tmp2 htmp2 p (RP_shape pairs p hpRP).1
        have hsh : p.toLoc = VLoc.reg (toR p) := (RP_shape pairs p hpRP).2.2.1
        rw [hpt, h8] at hsh
        exact absurd hsh hto
      · rw [hqloc] at hx
        cases hx
  have hif : i f = false := by
    have hpint : i (fromR p) = false := by
      obtain ⟨hpm, hpf2, hpt3, _⟩ := RP_shape pairs p hpRP
      have := H.classc p hpm (fromR p) (toR p) hpf2 hpt3
      rw [hpt, h6] at this
      exact this
    obtain ⟨r, hr1, hr2⟩ := (Inv.j8 p hpRP hptodo).2 hpint
    rw [hlocp] at hr1
    injection hr1 with h8
    rw [h8]
    exact hr2
  refine ⟨[RMove.swap ((st.sourceIntervals (fromR q)).getD 0) t
      ((st.sourceIntervals s).getD 0) f], rfl, ?_, ?_, ?_, ?_, rfl⟩
  · intro m hm
    have hmeq := List.mem_singleton.mp hm
    subst hmeq
    exact Or.inr (Or.inl ⟨_, t, _, f, rfl⟩)
  · intro m hm r hr
    have hmeq := List.mem_singleton.mp hm
    subst hmeq
    have hr2 : r = t ∨ r = f := by
      simpa [regWritesOf] using hr
    rcases hr2 with hreq | hreq
    · rw [hreq]
      refine Or.inl ⟨p, (RP_shape pairs p hpRP).1, ?_⟩
      have := (RP_shape pairs p hpRP).2.2.1
      rwa [hpt] at this
    · rw [hreq]
      by_cases hfs2 : f = s
      · refine Or.inr (Or.inl ⟨p, (RP_shape pairs p hpRP).1, ?_⟩)
        rw [(RP_shape pairs p hpRP).2.1, hps, hfs2]
      · rcases Inv.jdisp p hpRP hptodo f hlocp (fun hc => hfs2 (by rw [hc, hps])) with
          htmp | ⟨_, d, hd1, hd2, hd3, _⟩
        · exact Or.inr (Or.inr htmp)
        · refine Or.inr (Or.inl ⟨d, (RP_shape pairs d hd1).1, ?_⟩)
          rw [(RP_shape pairs d hd1).2.1, hd3]
  · rw [hM2]
    refine ⟨?_, ?_, ?_, ?_, ?_, ?_, ?_, ?_, ?_, ?_, ?_, ?_, ?_, ?_, ?_, ?_, ?_, ?_, ?_, ?_,
      ?_, ?_, ?_, ?_, ?_⟩
    · intro w hw
      exact Inv.j1 w hw
    · intro r s2 h
      exact Inv.j1b r s2 h
    · intro t' ht'
      exact Inv.j2 t' ((hmem2 t').mp ht').1
    · show List.Sorted (· < ·) (maskRem t (if toR q = f then maskRem f st.toDo else st.toDo))
      by_cases hof : toR q = f
      · rw [if_pos hof]
        exact sorted_maskRem t _ (sorted_maskRem f _ Inv.j2s)
      · rw [if_neg hof]
        exact sorted_maskRem t _ Inv.j2s
    · exact Inv.j2r
    · intro x hx
      have hx2 : x ∈ st.ready := hx
      rw [h1] at hx2
      cases hx2
    · intro w hw hwt
      obtain ⟨hmem, hne, hwp, hws, hwq⟩ := hpend w hw hwt
      refine ⟨(Inv.j3 w hw hmem).1, ?_⟩
      by_cases hweq : w = q
      · refine Or.inl ⟨f, ?_, ?_⟩
        · show upd (upd st.location s RegLoc.na) (fromR q) (RegLoc.reg f) (fromR w) =
            RegLoc.reg f
          rw [hweq]
          exact hLq
        · show upd (upd M.regs t (some p.varNum)) f (some q.varNum) f = some w.varNum
          rw [upd_same, hweq]
      · have hwfq : fromR w ≠ fromR q := by
          intro hc
          exact hweq (hfrominjRP w hw q hqRP hc)
        rcases (Inv.j3 w hw hmem).2 with ⟨r, hr1, hr2⟩ | ⟨hl, hsl⟩
        · have hrt : r ≠ t := by
            intro hc
            rw [hc] at hr1
            exact hweq (Inv.j5 w hw q hqRP hmem hqt t hr1 hqloc)
          have hrf : r ≠ f := by
            intro hc
            rw [hc] at hr1
            exact hwp (Inv.j5 w hw p hpRP hmem hptodo f hr1 hlocp)
          refine Or.inl ⟨r, ?_, ?_⟩
          · show upd (upd st.location s RegLoc.na) (fromR q) (RegLoc.reg f) (fromR w) =
              RegLoc.reg r
            rw [hLother (fromR w) hws hwfq]
            exact hr1
          · show upd (upd M.regs t (some p.varNum)) f (some q.varNum) r = some w.varNum
            rw [upd_other _ _ _ _ hrf, upd_other _ _ _ _ hrt]
            exact hr2
        · refine Or.inr ⟨?_, hsl⟩
          show upd (upd st.location s RegLoc.na) (fromR q) (RegLoc.reg f) (fromR w) =
            RegLoc.stk
          rw [hLother (fromR w) hws hwfq]
          exact hl
    · intro w hw hwnt
      show upd (upd M.regs t (some p.varNum)) f (some q.varNum) (toR w) = some w.varNum
      by_cases hwt2 : toR w = t
      · have hwp : w = p := htoinjRP w hw p hpRP (by rw [hwt2, hpt])
        rw [hwt2, upd_other _ _ _ _ h5, upd_same, hwp]
      · by_cases hwf2 : toR w = f
        · by_cases hof : toR q = f
          · have hwq : w = q := htoinjRP w hw q hqRP (by rw [hwf2, hof])
            rw [hwf2, upd_same, hwq]
          · exfalso
            refine hwnt ((hmem2 (toR w)).mpr ⟨?_, hwt2, fun hc => absurd hc hof⟩)
            rw [hwf2]
            exact hfin
        · rw [upd_other _ _ _ _ hwf2, upd_other _ _ _ _ hwt2]
          refine Inv.j4 w hw ?_
          intro hc
          by_cases hctodo : toR w ∈ st.toDo
          · exact hwnt ((hmem2 (toR w)).mpr ⟨hctodo, hwt2, fun _ => hwf2⟩)
          · exact hctodo hc
    · intro a ha c hc hat hct r hla hlc
      obtain ⟨hamem, _, hap, has, _⟩ := hpend a ha hat
      obtain ⟨hcmem, _, hcp, hcs, _⟩ := hpend c hc hct
      by_cases haq : a = q
      · by_cases hcq : c = q
        · rw [haq, hcq]
        · exfalso
          have hcfq : fromR c ≠ fromR q := fun hc2 => hcq (hfrominjRP c hc q hqRP hc2)
          have hla2 : upd (upd st.location s RegLoc.na) (fromR q) (RegLoc.reg f) (fromR a) =
              RegLoc.reg r := hla
          rw [haq, hLq] at hla2
          injection hla2 with h8
          have hlc2 : st.location (fromR c) = RegLoc.reg r := by
            have h0 : upd (upd st.location s RegLoc.na) (fromR q) (RegLoc.reg f) (fromR c) =
                RegLoc.reg r := hlc
            rwa [hLother (fromR c) hcs hcfq] at h0
          rw [← h8] at hlc2
          exact hcp (Inv.j5 c hc p hpRP hcmem hptodo f hlc2 hlocp)
      · by_cases hcq : c = q
        · exfalso
          have hafq : fromR a ≠ fromR q := fun hc2 => haq (hfrominjRP a ha q hqRP hc2)
          have hlc2 : upd (upd st.location s RegLoc.na) (fromR q) (RegLoc.reg f) (fromR c) =
              RegLoc.reg r := hlc
          rw [hcq, hLq] at hlc2
          injection hlc2 with h8
          have hla2 : st.location (fromR a) = RegLoc.reg r := by
            have h0 : upd (upd st.location s RegLoc.na) (fromR q) (RegLoc.reg f) (fromR a) =
                RegLoc.reg r := hla
            rwa [hLother (fromR a) has hafq] at h0
          rw [← h8] at hla2
          exact hap (Inv.j5 a ha p hpRP hamem hptodo f hla2 hlocp)
        · have hafq : fromR a ≠ fromR q := fun hc2 => haq (hfrominjRP a ha q hqRP hc2)
          have hcfq : fromR c ≠ fromR q := fun hc2 => hcq (hfrominjRP c hc q hqRP hc2)
          have hla2 : st.location (fromR a) = RegLoc.reg r := by
            have h0 : upd (upd st.location s RegLoc.na) (fromR q) (RegLoc.reg f) (fromR a) =
                RegLoc.reg r := hla
            rwa [hLother (fromR a) has hafq] at h0
          have hlc2 : st.location (fromR c) = RegLoc.reg r := by
            have h0 : upd (upd st.location s RegLoc.na) (fromR q) (RegLoc.reg f) (fromR c) =
                RegLoc.reg r := hlc
            rwa [hLother (fromR c) hcs hcfq] at h0
          exact Inv.j5 a ha c hc hamem hcmem r hla2 hlc2
    · intro w hw hwt r hl
      obtain ⟨hmem, hne, hwp, hws, hwq2⟩ := hpend w hw hwt
      by_cases hweq : w = q
      · have hl2 : upd (upd st.location s RegLoc.na) (fromR q) (RegLoc.reg f) (fromR w) =
            RegLoc.reg r := hl
        rw [hweq, hLq] at hl2
        injection hl2 with h8
        subst h8
        constructor
        · intro w2 hw2 hw2r
          refine (hmem2 (toR w2)).mpr ⟨by rw [hw2r]; exact hfin, ?_, ?_⟩
          · rw [hw2r]
            exact hft
          · intro hof
            exact absurd hweq (hwq2 hof)
        · intro w2 hw2 hw2e hw2t
          obtain ⟨w3, hw3RP, hw3t⟩ := Inv.j2 f hfin
          have hw23 : w2 = w3 := H.toinj w2 hw2 w3 (RP_shape pairs w3 hw3RP).1 f hw2t
            (by rw [← hw3t]; exact (RP_shape pairs w3 hw3RP).2.2.1)
          have hsh : w3.fromLoc = VLoc.reg (fromR w3) := (RP_shape pairs w3 hw3RP).2.1
          have hne3 : fromR w3 ≠ toR w3 := (RP_shape pairs w3 hw3RP).2.2.2
          rw [← hw23] at hsh
          rw [hw2e, hw2t] at hsh
          injection hsh with h9
          rw [← hw23] at hw3t
          rw [← hw23] at hne3
          exact hne3 (by rw [hw3t, ← h9])
      · have hwfq : fromR w ≠ fromR q := fun hc2 => hweq (hfrominjRP w hw q hqRP hc2)
        have hl2 : st.location (fromR w) = RegLoc.reg r := by
          have h0 : upd (upd st.location s RegLoc.na) (fromR q) (RegLoc.reg f) (fromR w) =
              RegLoc.reg r := hl
          rwa [hLother (fromR w) hws hwfq] at h0
        have hrt : r ≠ t := by
          intro hc
          rw [hc] at hl2
          exact hweq (Inv.j5 w hw q hqRP hmem hqt t hl2 hqloc)
        obtain ⟨h6a, h6b⟩ := Inv.j6 w hw hmem r hl2
        refine ⟨?_, h6b⟩
        intro w2 hw2 hw2r
        refine (hmem2 (toR w2)).mpr ⟨h6a w2 hw2 hw2r, by rw [hw2r]; exact hrt, ?_⟩
        intro hof
        rw [hw2r]
        intro hc
        rw [hc] at hl2
        exact hwp (Inv.j5 w hw p hpRP hmem hptodo f hl2 hlocp)
    · intro t' ht' w hw hwt
      have ht2 : t' ∈ st.ready := ht'
      rw [h1] at ht2
      cases ht2
    · intro t' ht' hnr
      obtain ⟨hmem, hne, hof3⟩ := (hmem2 t').mp ht'
      obtain ⟨w, hw1, hw2, hw3⟩ := Inv.j7c t' hmem (by rw [h1]; exact List.not_mem_nil t')
      by_cases hwp : w = p
      · have htf : t' = f := by
          rw [hwp, hlocp] at hw3
          injection hw3 with h8
          exact h8.symm
        by_cases hof : toR q = f
        · exact absurd htf (hof3 hof)
        · refine ⟨q, hqRP, (hmem2 (toR q)).mpr ⟨hqt, ?_, fun hc => absurd hc hof⟩, ?_⟩
          · intro hc
            exact hqp (htoinjRP q hqRP p hpRP (by rw [hc, hpt]))
          · show upd (upd st.location s RegLoc.na) (fromR q) (RegLoc.reg f) (fromR q) =
              RegLoc.reg t'
            rw [hLq, htf]
      · have hwq : w ≠ q := by
          intro hc
          rw [hc, hqloc] at hw3
          injection hw3 with h8
          exact hne h8.symm
        have hwfq : fromR w ≠ fromR q := fun hc2 => hwq (hfrominjRP w hw1 q hqRP hc2)
        have hws : fromR w ≠ s := by
          intro hc
          exact hwp (hfrominjRP w hw1 p hpRP (by rw [hc, hps]))
        refine ⟨w, hw1, (hmem2 (toR w)).mpr ⟨hw2, ?_, ?_⟩, ?_⟩
        · intro hc
          exact hwp (htoinjRP w hw1 p hpRP (by rw [hc, hpt]))
        · intro hof
          intro hc
          have : w = q := htoinjRP w hw1 q hqRP (by rw [hc, hof])
          exact hwq this
        · show upd (upd st.location s RegLoc.na) (fromR q) (RegLoc.reg f) (fromR w) =
            RegLoc.reg t'
          rw [hLother (fromR w) hws hwfq]
          exact hw3
    · intro w hw hwt
      obtain ⟨hmem, hne, hwp, hws, _⟩ := hpend w hw hwt
      by_cases hweq : w = q
      · constructor
        · intro hfl
          rw [hweq, hqint] at hfl
          cases hfl
        · intro _
          refine ⟨f, ?_, hif⟩
          show upd (upd st.location s RegLoc.na) (fromR q) (RegLoc.reg f) (fromR w) =
            RegLoc.reg f
          rw [hweq]
          exact hLq
      · have hwfq : fromR w ≠ fromR q := fun hc2 => hweq (hfrominjRP w hw q hqRP hc2)
        obtain ⟨h8f, h8i⟩ := Inv.j8 w hw hmem
        constructor
        · intro hfl
          rcases h8f hfl with hx | ⟨tmp2, htmp2, hx⟩ | ⟨hx, hn⟩
          · refine Or.inl ?_
            show upd (upd st.location s RegLoc.na) (fromR q) (RegLoc.reg f) (fromR w) = _
            rw [hLother (fromR w) hws hwfq]
            exact hx
          · refine Or.inr (Or.inl ⟨tmp2, htmp2, ?_⟩)
            show upd (upd st.location s RegLoc.na) (fromR q) (RegLoc.reg f) (fromR w) = _
            rw [hLother (fromR w) hws hwfq]
            exact hx
          · refine Or.inr (Or.inr ⟨?_, hn⟩)
            show upd (upd st.location s RegLoc.na) (fromR q) (RegLoc.reg f) (fromR w) = _
            rw [hLother (fromR w) hws hwfq]
            exact hx
        · intro hint
          obtain ⟨r, hr1, hr2⟩ := h8i hint
          refine ⟨r, ?_, hr2⟩
          show upd (upd st.location s RegLoc.na) (fromR q) (RegLoc.reg f) (fromR w) = _
          rw [hLother (fromR w) hws hwfq]
          exact hr1
    · intro w hw hwt hwc
      exfalso
      have := hallcyc w hw ((hmem2 (toR w)).mp hwt).1
      rw [hwc] at this
      cases this
    · intro w hw hwt hwc hwi hcr
      have hcr2 : toR w ∈ st.ready := hcr
      rw [h1] at hcr2
      cases hcr2
    · intro w hw hwt r hl hrw
      obtain ⟨hmem, hne, hwp, hws, _⟩ := hpend w hw hwt
      by_cases hweq : w = q
      · have hl2 : upd (upd st.location s RegLoc.na) (fromR q) (RegLoc.reg f) (fromR w) =
            RegLoc.reg r := hl
        rw [hweq, hLq] at hl2
        injection hl2 with h8
        subst h8
        by_cases hfs2 : f = s
        · refine Or.inr ⟨hallcyc w hw hmem, p, hpRP, hallcyc p hpRP hptodo,
            by rw [hps, hfs2], ?_⟩
          rw [hpt]
          intro hc
          exact ((hmem2 t).mp hc).2.1 rfl
        · rcases Inv.jdisp p hpRP hptodo f hlocp (fun hc => hfs2 (by rw [hc, hps])) with
            htmp | ⟨_, d, hd1, hd2, hd3, hd4⟩
          · exact Or.inl htmp
          · refine Or.inr ⟨hallcyc w hw hmem, d, hd1, hd2, hd3, ?_⟩
            intro hc
            exact hd4 ((hmem2 (toR d)).mp hc).1
      · have hwfq : fromR w ≠ fromR q := fun hc2 => hweq (hfrominjRP w hw q hqRP hc2)
        have hl2 : st.location (fromR w) = RegLoc.reg r := by
          have h0 : upd (upd st.location s RegLoc.na) (fromR q) (RegLoc.reg f) (fromR w) =
              RegLoc.reg r := hl
          rwa [hLother (fromR w) hws hwfq] at h0
        rcases Inv.jdisp w hw hmem r hl2 hrw with h | ⟨hc, d, hd1, hd2, hd3, hd4⟩
        · exact Or.inl h
        · refine Or.inr ⟨hc, d, hd1, hd2, hd3, ?_⟩
          intro hcm
          exact hd4 ((hmem2 (toR d)).mp hcm).1
    · intro w hw hwf t' hwt'
      exact Inv.j9 w hw hwf t' hwt'
    · intro w hw r hwf hwt'
      show upd (upd M.regs t (some p.varNum)) f (some q.varNum) r = some w.varNum
      have hrt : r ≠ t := by
        intro hc
        have hw2 : w = p := H.toinj w hw p (RP_shape pairs p hpRP).1 t
          (by rw [← hc]; exact hwt') (by
            have := (RP_shape pairs p hpRP).2.2.1
            rwa [hpt] at this)
        have hfr : p.fromLoc = p.toLoc := by rw [← hw2, hwf, hwt']
        rw [(RP_shape pairs p hpRP).2.1, (RP_shape pairs p hpRP).2.2.1] at hfr
        injection hfr with h8
        exact (RP_shape pairs p hpRP).2.2.2 h8
      have hrf : r ≠ f := by
        intro hc
        obtain ⟨w3, hw3RP, hw3t⟩ := Inv.j2 f hfin
        have hww3 : w = w3 := H.toinj w hw w3 (RP_shape pairs w3 hw3RP).1 r
          hwt' (by rw [hc, ← hw3t]; exact (RP_shape pairs w3 hw3RP).2.2.1)
        have hfr : w3.fromLoc = w3.toLoc := by rw [← hww3, hwf, hwt']
        rw [(RP_shape pairs w3 hw3RP).2.1, (RP_shape pairs w3 hw3RP).2.2.1] at hfr
        injection hfr with h8
        exact (RP_shape pairs w3 hw3RP).2.2.2 h8
      rw [upd_other _ _ _ _ hrf, upd_other _ _ _ _ hrt]
      exact Inv.j10 w hw r hwf hwt'
    · intro w hw r hwf hwt'
      exact Inv.j11 w hw r hwf hwt'
    · intro w hw hwf hwt'
      exact Inv.j13 w hw hwf hwt'
    · intro t' ht'
      exact Inv.j12 t' ht'
    · exact Inv.j12s
    · obtain ⟨l2, hl2, hlm⟩ := Inv.jmv
      refine ⟨l2 ++ [RMove.swap ((st.sourceIntervals (fromR q)).getD 0) t
          ((st.sourceIntervals s).getD 0) f], ?_, ?_⟩
      · show st.moves ++ [RMove.swap ((st.sourceIntervals (fromR q)).getD 0) t
            ((st.sourceIntervals s).getD 0) f] = stkMoves pairs ++ _
        rw [hl2, List.append_assoc]
      · intro m hm
        rcases List.mem_append.mp hm with hm | hm
        · exact hlm m hm
        · have hmeq := List.mem_singleton.mp hm
          subst hmeq
          exact Or.inr (Or.inl ⟨_, t, _, f, rfl⟩)
    · intro m hm r hr
      rcases List.mem_append.mp hm with hm | hm
      · exact Inv.jwr m hm r hr
      · have hmeq := List.mem_singleton.mp hm
        subst hmeq
        have hr2 : r = t ∨ r = f := by
          simpa [regWritesOf] using hr
        rcases hr2 with hreq | hreq
        · rw [hreq]
          refine Or.inl ⟨p, (RP_shape pairs p hpRP).1, ?_⟩
          have := (RP_shape pairs p hpRP).2.2.1
          rwa [hpt] at this
        · rw [hreq]
          by_cases hfs2 : f = s
          · refine Or.inr (Or.inl ⟨p, (RP_shape pairs p hpRP).1, ?_⟩)
            rw [(RP_shape pairs p hpRP).2.1, hps, hfs2]
          · rcases Inv.jdisp p hpRP hptodo f hlocp (fun hc => hfs2 (by rw [hc, hps])) with
              htmp | ⟨_, d, hd1, hd2, hd3, _⟩
            · exact Or.inr (Or.inr htmp)
            · refine Or.inr (Or.inl ⟨d, (RP_shape pairs d hd1).1, ?_⟩)
              rw [(RP_shape pairs d hd1).2.1, hd3]
    · intro w hw hnd2 r hl
      by_cases hws2 : fromR w = s
      · have hl2 : upd (upd st.location s RegLoc.na) (fromR q) (RegLoc.reg f) (fromR w) =
            RegLoc.reg r := hl
        rw [hws2, hLs] at hl2
        cases hl2
      · by_cases hwfq : fromR w = fromR q
        · have hwq : w = q := hfrominjRP w hw q hqRP hwfq
          have hl2 : upd (upd st.location s RegLoc.na) (fromR q) (RegLoc.reg f) (fromR w) =
              RegLoc.reg r := hl
          rw [hwfq, hLq] at hl2
          injection hl2 with h8
          subst h8
          by_cases hof : toR q = f
          · intro hcr
            obtain ⟨_, _, hcf⟩ := (hmem2 f).mp hcr
            exact hcf hof rfl
          · exfalso
            refine hnd2 ((hmem2 (toR w)).mpr ⟨by rw [hwq]; exact hqt, ?_, ?_⟩)
            · rw [hwq]
              intro hc
              exact hqp (htoinjRP q hqRP p hpRP (by rw [hc, hpt]))
            · intro hc
              exact absurd hc hof
        · have hl2 : st.location (fromR w) = RegLoc.reg r := by
            have h0 : upd (upd st.location s RegLoc.na) (fromR q) (RegLoc.reg f) (fromR w) =
                RegLoc.reg r := hl
            rwa [hLother (fromR w) hws2 hwfq] at h0
          have hwt2 : toR w ∉ st.toDo := by
            intro hc
            by_cases hwteq : toR w = t
            · have : w = p := htoinjRP w hw p hpRP (by rw [hwteq, hpt])
              exact hws2 (by rw [this, hps])
            · by_cases hof : toR q = f
              · by_cases hwf2 : toR w = f
                · have : w = q := htoinjRP w hw q hqRP (by rw [hwf2, hof])
                  exact hwfq (by rw [this])
                · exact hnd2 ((hmem2 (toR w)).mpr ⟨hc, hwteq, fun _ => hwf2⟩)
              · exact hnd2 ((hmem2 (toR w)).mpr ⟨hc, hwteq, fun hc2 => absurd hc2 hof⟩)
          intro hcr
          exact Inv.jdone w hw hwt2 r hl2 ((hmem2 r).mp hcr).1
  · have httd2 : t ∈ (if toR q = f then maskRem f st.toDo else st.toDo) := by
      by_cases hof : toR q = f
      · rw [if_pos hof]
        exact (mem_maskRem f t st.toDo).mpr ⟨httd, h5⟩
      · rw [if_neg hof]
        exact httd
    have hnd3 : (if toR q = f then maskRem f st.toDo else st.toDo).Nodup := by
      by_cases hof : toR q = f
      · rw [if_pos hof]
        exact (sorted_maskRem f st.toDo Inv.j2s).nodup
      · rw [if_neg hof]
        exact Inv.j2s.nodup
    have hlen1 := length_maskRem_of_mem t _ hnd3 httd2
    have hlen2 : (if toR q = f then maskRem f st.toDo else st.toDo).length ≤
        st.toDo.length := by
      by_cases hof : toR q = f
      · rw [if_pos hof, maskRem]
        exact List.length_filter_le _ _
      · rw [if_neg hof]
    show (maskRem t (if toR q = f then maskRem f st.toDo else st.toDo)).length <
      st.toDo.length
    omega

theorem preserve_busy_spill (i : Nat → Bool) (tr : Option Nat)
    (pairs : List ResolvePair) (cyc : ResolvePair → Bool) (rank : ResolvePair → Nat)
    (H : EdgeHyps i tr pairs cyc rank)
    (st : EdgeSt) (M : MachineSt)
    (Inv : EdgeInv i tr pairs cyc st M)
    (t : Nat) (dd : List Nat) (s f : Nat)
    (h1 : st.ready = []) (h2 : st.toDo = t :: dd) (h3 : st.source t = some s)
    (h4 : st.location s = RegLoc.reg f) (h5 : t ≠ f) (h6 : i t = true)
    (h7 : tr = none) :
    ∃ d2, (spillBreak st t s f).moves = st.moves ++ d2 ∧
      EdgeInv i tr pairs cyc (spillBreak st t s f) (execMoves M d2) ∧
      (spillBreak st t s f).toDo.length < st.toDo.length ∧
      (spillBreak st t s f).ready = maskAdd f st.ready := by
  have httd : t ∈ st.toDo := by rw [h2]; exact List.mem_cons_self t dd
  obtain ⟨p, hpRP, hpt, hps⟩ := Inv.j1b t s h3
  have htoinjRP : ∀ a ∈ RP pairs, ∀ c ∈ RP pairs, toR a = toR c → a = c := by
    intro a ha c hc hac
    obtain ⟨ham, _, hat, _⟩ := RP_shape pairs a ha
    obtain ⟨hcm, _, hct, _⟩ := RP_shape pairs c hc
    exact H.toinj a ham c hcm (toR a) hat (by rw [hct, hac])
  have hfrominjRP : ∀ a ∈ RP pairs, ∀ c ∈ RP pairs, fromR a = fromR c → a = c := by
    intro a ha c hc hac
    obtain ⟨ham, haf, _, _⟩ := RP_shape pairs a ha
    obtain ⟨hcm, hcf, _, _⟩ := RP_shape pairs c hc
    exact H.frominj a ham c hcm (fromR a) haf (by rw [hcf, hac])
  have hvarinjRP : ∀ a ∈ RP pairs, ∀ c ∈ pairs, a.varNum = c.varNum → a = c := by
    intro a ha c hc hac
    exact H.varinj a (RP_shape pairs a ha).1 c hc hac
  have hptodo : toR p ∈ st.toDo := by rw [hpt]; exact httd
  have hlocp : st.location (fromR p) = RegLoc.reg f := by rw [hps]; exact h4
  have hbf := busy_facts i tr pairs cyc rank H st M Inv h1
  have hallcyc : ∀ w, w ∈ RP pairs → toR w ∈ st.toDo → cyc w = true :=
    fun w hw hwt => (hbf w hw hwt).2
  have hfin : f ∈ st.toDo := by
    obtain ⟨⟨t2, ht2, hl2⟩, _⟩ := hbf p hpRP hptodo
    rw [hlocp] at hl2
    injection hl2 with h8
    rw [h8]
    exact ht2
  have hpfl : i (fromR p) = true := by
    obtain ⟨hpm, hpf2, hpt3, _⟩ := RP_shape pairs p hpRP
    have := H.classc p hpm (fromR p) (toR p) hpf2 hpt3
    rw [hpt, h6] at this
    exact this
  have hfs : f = fromR p := by
    rcases (Inv.j8 p hpRP hptodo).1 hpfl with hx | ⟨tmp2, htmp2, hx⟩ | ⟨hx, _⟩
    · rw [hlocp] at hx
      injection hx with h8
    · rw [h7] at htmp2
      cases htmp2
    · rw [hlocp] at hx
      cases hx
  obtain ⟨q, hqRP, hqt, hqloc⟩ := Inv.j7c t httd (by rw [h1]; exact List.not_mem_nil t)
  have hqfl : i (fromR q) = true := by
    cases hifl : i (fromR q) with
    | true => rfl
    | false =>
      obtain ⟨r, hr1, hr2⟩ := (Inv.j8 q hqRP hqt).2 hifl
      rw [hqloc] at hr1
      injection hr1 with h8
      rw [← h8] at hr2
      rw [h6] at hr2
      cases hr2
  have hqfrom : fromR q = t := by
    rcases (Inv.j8 q hqRP hqt).1 hqfl with hx | ⟨tmp2, htmp2, hx⟩ | ⟨hx, _⟩
    · rw [hqloc] at hx
      injection hx with h8
      exact h8.symm
    · rw [h7] at htmp2
      cases htmp2
    · rw [hqloc] at hx
      cases hx
  have hqp : q ≠ p := by
    intro hc
    rw [hc, hps] at hqfrom
    exact h5 (((hfs.trans hps).trans hqfrom).symm)
  have hqfroms : fromR q ≠ s := by
    intro hc
    exact hqp (hfrominjRP q hqRP p hpRP (by rw [hc, hps]))
  have hregsf : M.regs f = some p.varNum := by
    rcases (Inv.j3 p hpRP hptodo).2 with ⟨r, hr1, hr2⟩ | ⟨hl, _⟩
    · rw [hlocp] at hr1
      injection hr1 with h8
      rw [h8]
      exact hr2
    · rw [hlocp] at hl
      cases hl
  have hregst : M.regs t = some q.varNum := by
    rcases (Inv.j3 q hqRP hqt).2 with ⟨r, hr1, hr2⟩ | ⟨hl, _⟩
    · rw [hqloc] at hr1
      injection hr1 with h8
      rw [h8]
      exact hr2
    · rw [hqloc] at hl
      cases hl
  have hvq : (st.sourceIntervals (fromR q)).getD 0 = q.varNum := by
    rw [(Inv.j3 q hqRP hqt).1]
    rfl
  have hvs : (st.sourceIntervals s).getD 0 = p.varNum := by
    have := (Inv.j3 p hpRP hptodo).1
    rw [hps] at this
    rw [this]
    rfl
  have huniq : ∀ n sn, st.source n = some sn → st.location sn = RegLoc.reg t → n = toR q :=
    fun n sn hsn hlocn =>
      blocker_unique i tr pairs cyc st M Inv Inv.j5 t httd q hqRP hqt hqloc n sn hsn hlocn
  have hfot : findOtherTarget st t f = some (toR q) :=
    findOtherTarget_spec st t f q (Inv.j1 q hqRP) hqt hqloc huniq
  have heq := spillBreak_eq st t s f (toR q) (fromR q) hfot (Inv.j1 q hqRP)
  rw [heq]
  have hft : f ≠ t := fun hc => h5 hc.symm
  have hnd : st.toDo.Nodup := Inv.j2s.nodup
  have hqtne : toR q ≠ t := by
    intro hc
    exact hqp (htoinjRP q hqRP p hpRP (by rw [hc, hpt]))
  have hpend : ∀ w, w ∈ RP pairs → toR w ∈ maskRem t st.toDo →
      toR w ∈ st.toDo ∧ toR w ≠ t ∧ w ≠ p ∧ fromR w ≠ s := by
    intro w hw hwt
    obtain ⟨hmem, hne⟩ := (mem_maskRem t (toR w) st.toDo).mp hwt
    refine ⟨hmem, hne, ?_, ?_⟩
    · intro hc
      rw [hc, hpt] at hne
      exact hne rfl
    · intro hc
      have : w = p := hfrominjRP w hw p hpRP (by rw [hc, hps])
      rw [this, hpt] at hne
      exact hne rfl
  have hLs : upd (upd st.location (fromR q) RegLoc.stk) s RegLoc.na s = RegLoc.na :=
    upd_same _ _ _
  have hLq : upd (upd st.location (fromR q) RegLoc.stk) s RegLoc.na (fromR q) =
      RegLoc.stk := by
    rw [upd_other _ _ _ _ hqfroms, upd_same]
  have hLother : ∀ x, x ≠ s → x ≠ fromR q →
      upd (upd st.location (fromR q) RegLoc.stk) s RegLoc.na x = st.location x := by
    intro x hx1 hx2
    rw [upd_other _ _ _ _ hx1, upd_other _ _ _ _ hx2]
  have hM2 : execMoves M
      [RMove.mv ((st.sourceIntervals (fromR q)).getD 0) VLoc.stk (VLoc.reg t),
       RMove.mv ((st.sourceIntervals s).getD 0) (VLoc.reg t) (VLoc.reg f)] =
      { regs := upd M.regs t (some p.varNum)
        slot := upd M.slot q.varNum (some q.varNum) } := by
    rw [hvq, hvs]
    have e1 : execMove M (RMove.mv q.varNum VLoc.stk (VLoc.reg t)) =
        { M with slot := upd M.slot q.varNum (some q.varNum) } := by
      simp [execMove, readLoc, hregst]
    have e2 : execMove { M with slot := upd M.slot q.varNum (some q.varNum) }
        (RMove.mv p.varNum (VLoc.reg t) (VLoc.reg f)) =
        { regs := upd M.regs t (some p.varNum)
          slot := upd M.slot q.varNum (some q.varNum) } := by
      simp [execMove, readLoc, hregsf]
    simp only [execMoves, List.foldl_cons, List.foldl_nil]
    rw [e1, e2]
  have hvarq : ∀ w : ResolvePair, w ∈ pairs → w ≠ q → w.varNum ≠ q.varNum := by
    intro w hw hwq hc
    exact hwq (H.varinj w hw q (RP_shape pairs q hqRP).1 hc)
  refine ⟨[RMove.mv ((st.sourceIntervals (fromR q)).getD 0) VLoc.stk (VLoc.reg t),
      RMove.mv ((st.sourceIntervals s).getD 0) (VLoc.reg t) (VLoc.reg f)], rfl, ?_, ?_, rfl⟩
  · rw [hM2]
    refine ⟨?_, ?_, ?_, ?_, ?_, ?_, ?_, ?_, ?_, ?_, ?_, ?_, ?_, ?_, ?_, ?_, ?_, ?_, ?_, ?_,
      ?_, ?_, ?_, ?_, ?_⟩
    · intro w hw
      exact Inv.j1 w hw
    · intro r s2 h
      exact Inv.j1b r s2 h
    · intro t' ht'
      exact Inv.j2 t' ((mem_maskRem t t' st.toDo).mp ht').1
    · exact sorted_maskRem t st.toDo Inv.j2s
    · show List.Sorted (· < ·) (maskAdd f st.ready)
      rw [h1]
      simp [maskAdd]
    · intro x hx
      have hx2 : x ∈ maskAdd f st.ready := hx
      rw [h1] at hx2
      rcases (mem_maskAdd f x []).mp hx2 with rfl | hx3
      · exact (mem_maskRem t x st.toDo).mpr ⟨hfin, hft⟩
      · cases hx3
    · intro w hw hwt
      obtain ⟨hmem, hne, hwp, hws⟩ := hpend w hw hwt
      by_cases hweq : w = q
      · refine ⟨(Inv.j3 w hw hmem).1, Or.inr ⟨?_, ?_⟩⟩
        · show upd (upd st.location (fromR q) RegLoc.stk) s RegLoc.na (fromR w) = RegLoc.stk
          rw [hweq]
          exact hLq
        · show upd M.slot q.varNum (some q.varNum) w.varNum = some w.varNum
          rw [hweq, upd_same]
      · have hwfq : fromR w ≠ fromR q := fun hc2 => hweq (hfrominjRP w hw q hqRP hc2)
        refine ⟨(Inv.j3 w hw hmem).1, ?_⟩
        rcases (Inv.j3 w hw hmem).2 with ⟨r, hr1, hr2⟩ | ⟨hl, hsl⟩
        · have hrt : r ≠ t := by
            intro hc
            rw [hc] at hr1
            exact hweq (Inv.j5 w hw q hqRP hmem hqt t hr1 hqloc)
          refine Or.inl ⟨r, ?_, ?_⟩
          · show upd (upd st.location (fromR q) RegLoc.stk) s RegLoc.na (fromR w) =
              RegLoc.reg r
            rw [hLother (fromR w) hws hwfq]
            exact hr1
          · show upd M.regs t (some p.varNum) r = some w.varNum
            rw [upd_other _ _ _ _ hrt]
            exact hr2
        · refine Or.inr ⟨?_, ?_⟩
          · show upd (upd st.location (fromR q) RegLoc.stk) s RegLoc.na (fromR w) =
              RegLoc.stk
            rw [hLother (fromR w) hws hwfq]
            exact hl
          · show upd M.slot q.varNum (some q.varNum) w.varNum = some w.varNum
            rw [upd_other _ _ _ _ (hvarq w (RP_shape pairs w hw).1 hweq)]
            exact hsl
    · intro w hw hwnt
      show upd M.regs t (some p.varNum) (toR w) = some w.varNum
      by_cases hwt2 : toR w = t
      · have hwp : w = p := htoinjRP w hw p hpRP (by rw [hwt2, hpt])
        rw [hwt2, upd_same, hwp]
      · rw [upd_other _ _ _ _ hwt2]
        refine Inv.j4 w hw ?_
        intro hc
        exact hwnt ((mem_maskRem t (toR w) st.toDo).mpr ⟨hc, hwt2⟩)
    · intro a ha c hc hat hct r hla hlc
      obtain ⟨hamem, _, hap, has⟩ := hpend a ha hat
      obtain ⟨hcmem, _, hcp, hcs⟩ := hpend c hc hct
      have haq : a ≠ q := by
        intro hc2
        have hla2 : upd (upd st.location (fromR q) RegLoc.stk) s RegLoc.na (fromR a) =
            RegLoc.reg r := hla
        rw [hc2, hLq] at hla2
        cases hla2
      have hcq : c ≠ q := by
        intro hc2
        have hlc2 : upd (upd st.location (fromR q) RegLoc.stk) s RegLoc.na (fromR c) =
            RegLoc.reg r := hlc
        rw [hc2, hLq] at hlc2
        cases hlc2
      have hafq : fromR a ≠ fromR q := fun hc2 => haq (hfrominjRP a ha q hqRP hc2)
      have hcfq : fromR c ≠ fromR q := fun hc2 => hcq (hfrominjRP c hc q hqRP hc2)
      have hla2 : st.location (fromR a) = RegLoc.reg r := by
        have h0 : upd (upd st.location (fromR q) RegLoc.stk) s RegLoc.na (fromR a) =
            RegLoc.reg r := hla
        rwa [hLother (fromR a) has hafq] at h0
      have hlc2 : st.location (fromR c) = RegLoc.reg r := by
        have h0 : upd (upd st.location (fromR q) RegLoc.stk) s RegLoc.na (fromR c) =
            RegLoc.reg r := hlc
        rwa [hLother (fromR c) hcs hcfq] at h0
      exact Inv.j5 a ha c hc hamem hcmem r hla2 hlc2
    · intro w hw hwt r hl
      obtain ⟨hmem, hne, hwp, hws⟩ := hpend w hw hwt
      have hwq : w ≠ q := by
        intro hc2
        have hl2 : upd (upd st.location (fromR q) RegLoc.stk) s RegLoc.na (fromR w) =
            RegLoc.reg r := hl
        rw [hc2, hLq] at hl2
        cases hl2
      have hwfq : fromR w ≠ fromR q := fun hc2 => hwq (hfrominjRP w hw q hqRP hc2)
      have hl2 : st.location (fromR w) = RegLoc.reg r := by
        have h0 : upd (upd st.location (fromR q) RegLoc.stk) s RegLoc.na (fromR w) =
            RegLoc.reg r := hl
        rwa [hLother (fromR w) hws hwfq] at h0
      have hrt : r ≠ t := by
        intro hc
        rw [hc] at hl2
        exact hwq (Inv.j5 w hw q hqRP hmem hqt t hl2 hqloc)
      obtain ⟨h6a, h6b⟩ := Inv.j6 w hw hmem r hl2
      refine ⟨?_, h6b⟩
      intro w2 hw2 hw2r
      refine (mem_maskRem t (toR w2)
        st.toDo).mpr ⟨h6a w2 hw2 hw2r, by rw [hw2r]; exact hrt⟩
    · intro t' ht' w hw hwt
      obtain ⟨hmem, hne, hwp, hws⟩ := hpend w hw hwt
      have ht2 : t' ∈ maskAdd f st.ready := ht'
      rw [h1] at ht2
      rcases (mem_maskAdd f t' []).mp ht2 with rfl | hx3
      · intro hl
        have hwq : w ≠ q := by
          intro hc2
          have hl2 : upd (upd st.location (fromR q) RegLoc.stk) s RegLoc.na (fromR w) =
              RegLoc.reg t' := hl
          rw [hc2, hLq] at hl2
          cases hl2
        have hwfq : fromR w ≠ fromR q := fun hc2 => hwq (hfrominjRP w hw q hqRP hc2)
        have hl2 : st.location (fromR w) = RegLoc.reg t' := by
          have h0 : upd (upd st.location (fromR q) RegLoc.stk) s RegLoc.na (fromR w) =
              RegLoc.reg t' := hl
          rwa [hLother (fromR w) hws hwfq] at h0
        exact hwp (Inv.j5 w hw p hpRP hmem hptodo t' hl2 hlocp)
      · cases hx3
    · intro t' ht' hnr
      obtain ⟨hmem, hne⟩ := (mem_maskRem t t' st.toDo).mp ht'
      have htf : t' ≠ f := by
        intro hc
        refine hnr ?_
        show t' ∈ maskAdd f st.ready
        rw [h1, hc]
        exact (mem_maskAdd f f []).mpr (Or.inl rfl)
      obtain ⟨w, hw1, hw2, hw3⟩ := Inv.j7c t' hmem (by rw [h1]; exact List.not_mem_nil t')
      have hwp : w ≠ p := by
        intro hc
        rw [hc, hlocp] at hw3
        injection hw3 with h8
        exact htf h8.symm
      have hwq : w ≠ q := by
        intro hc
        rw [hc, hqloc] at hw3
        injection hw3 with h8
        exact hne h8.symm
      have hws : fromR w ≠ s := by
        intro hc
        exact hwp (hfrominjRP w hw1 p hpRP (by rw [hc, hps]))
      have hwfq : fromR w ≠ fromR q := fun hc2 => hwq (hfrominjRP w hw1 q hqRP hc2)
      refine ⟨w, hw1, (mem_maskRem t (toR w) st.toDo).mpr ⟨hw2, ?_⟩, ?_⟩
      · intro hc
        exact hwp (htoinjRP w hw1 p hpRP (by rw [hc, hpt]))
      · show upd (upd st.location (fromR q) RegLoc.stk) s RegLoc.na (fromR w) =
          RegLoc.reg t'
        rw [hLother (fromR w) hws hwfq]
        exact hw3
    · intro w hw hwt
      obtain ⟨hmem, hne, hwp, hws⟩ := hpend w hw hwt
      by_cases hweq : w = q
      · constructor
        · intro _
          refine Or.inr (Or.inr ⟨?_, h7⟩)
          show upd (upd st.location (fromR q) RegLoc.stk) s RegLoc.na (fromR w) = RegLoc.stk
          rw [hweq]
          exact hLq
        · intro hint
          rw [hweq, hqfl] at hint
          cases hint
      · have hwfq : fromR w ≠ fromR q := fun hc2 => hweq (hfrominjRP w hw q hqRP hc2)
        obtain ⟨h8f, h8i⟩ := Inv.j8 w hw hmem
        constructor
        · intro hfl
          rcases h8f hfl with hx | ⟨tmp2, htmp2, hx⟩ | ⟨hx, hn⟩
          · refine Or.inl ?_
            show upd (upd st.location (fromR q) RegLoc.stk) s RegLoc.na (fromR w) = _
            rw [hLother (fromR w) hws hwfq]
            exact hx
          · rw [h7] at htmp2
            cases htmp2
          · refine Or.inr (Or.inr ⟨?_, hn⟩)
            show upd (upd st.location (fromR q) RegLoc.stk) s RegLoc.na (fromR w) = _
            rw [hLother (fromR w) hws hwfq]
            exact hx
        · intro hint
          obtain ⟨r, hr1, hr2⟩ := h8i hint
          refine ⟨r, ?_, hr2⟩
          show upd (upd st.location (fromR q) RegLoc.stk) s RegLoc.na (fromR w) = _
          rw [hLother (fromR w) hws hwfq]
          exact hr1
    · intro w hw hwt hwc
      exfalso
      have := hallcyc w hw ((mem_maskRem t (toR w) st.toDo).mp hwt).1
      rw [hwc] at this
      cases this
    · intro w hw hwt hwc hwi hcr
      have hcr2 : toR w ∈ maskAdd f st.ready := hcr
      rw [h1] at hcr2
      rcases (mem_maskAdd f (toR w) []).mp hcr2 with hwf2 | hx3
      · obtain ⟨hwm, hwf3, hwt3, _⟩ := RP_shape pairs w hw
        have hclw : i (fromR w) = i (toR w) := H.classc w hwm (fromR w) (toR w) hwf3 hwt3
        rw [hwi, hwf2, hfs] at hclw
        rw [hpfl] at hclw
        cases hclw
      · cases hx3
    · intro w hw hwt r hl hrw
      obtain ⟨hmem, hne, hwp, hws⟩ := hpend w hw hwt
      have hwq : w ≠ q := by
        intro hc2
        have hl2 : upd (upd st.location (fromR q) RegLoc.stk) s RegLoc.na (fromR w) =
            RegLoc.reg r := hl
        rw [hc2, hLq] at hl2
        cases hl2
      have hwfq : fromR w ≠ fromR q := fun hc2 => hwq (hfrominjRP w hw q hqRP hc2)
      have hl2 : st.location (fromR w) = RegLoc.reg r := by
        have h0 : upd (upd st.location (fromR q) RegLoc.stk) s RegLoc.na (fromR w) =
            RegLoc.reg r := hl
        rwa [hLother (fromR w) hws hwfq] at h0
      rcases Inv.jdisp w hw hmem r hl2 hrw with h | ⟨hc, d, hd1, hd2, hd3, hd4⟩
      · exact Or.inl h
      · refine Or.inr ⟨hc, d, hd1, hd2, hd3, ?_⟩
        intro hcm
        exact hd4 ((mem_maskRem t (toR d) st.toDo).mp hcm).1
    · intro w hw hwf t' hwt'
      obtain ⟨hsl, hstr, hfs2⟩ := Inv.j9 w hw hwf t' hwt'
      refine ⟨?_, hstr, hfs2⟩
      show upd M.slot q.varNum (some q.varNum) w.varNum = some w.varNum
      rw [upd_other _ _ _ _ ?_]
      · exact hsl
      · intro hc
        have : q = w := hvarinjRP q hqRP w hw hc.symm
        rw [← this] at hwf
        rw [(RP_shape pairs q hqRP).2.1] at hwf
        cases hwf
    · intro w hw r hwf hwt'
      show upd M.regs t (some p.varNum) r = some w.varNum
      have hrt : r ≠ t := by
        intro hc
        have hw2 : w = p := H.toinj w hw p (RP_shape pairs p hpRP).1 t
          (by rw [← hc]; exact hwt') (by
            have := (RP_shape pairs p hpRP).2.2.1
            rwa [hpt] at this)
        have hfr : p.fromLoc = p.toLoc := by rw [← hw2, hwf, hwt']
        rw [(RP_shape pairs p hpRP).2.1, (RP_shape pairs p hpRP).2.2.1] at hfr
        injection hfr with h8
        exact (RP_shape pairs p hpRP).2.2.2 h8
      rw [upd_other _ _ _ _ hrt]
      exact Inv.j10 w hw r hwf hwt'
    · intro w hw r hwf hwt'
      show upd M.slot q.varNum (some q.varNum) w.varNum = some w.varNum
      rw [upd_other _ _ _ _ ?_]
      · exact Inv.j11 w hw r hwf hwt'
      · intro hc
        have : q = w := hvarinjRP q hqRP w hw hc.symm
        rw [← this] at hwt'
        rw [(RP_shape pairs q hqRP).2.2.1] at hwt'
        cases hwt'
    · intro w hw hwf hwt'
      show upd M.slot q.varNum (some q.varNum) w.varNum = some w.varNum
      rw [upd_other _ _ _ _ ?_]
      · exact Inv.j13 w hw hwf hwt'
      · intro hc
        have : q = w := hvarinjRP q hqRP w hw hc.symm
        rw [← this] at hwf
        rw [(RP_shape pairs q hqRP).2.1] at hwf
        cases hwf
    · intro t' ht'
      exact Inv.j12 t' ht'
    · exact Inv.j12s
    · obtain ⟨l2, hl2, hlm⟩ := Inv.jmv
      refine ⟨l2 ++ [RMove.mv ((st.sourceIntervals (fromR q)).getD 0) VLoc.stk (VLoc.reg t),
        RMove.mv ((st.sourceIntervals s).getD 0) (VLoc.reg t) (VLoc.reg f)], ?_, ?_⟩
      · show st.moves ++ _ = stkMoves pairs ++ _
        rw [hl2, List.append_assoc]
      · intro m hm
        rcases List.mem_append.mp hm with hm | hm
        · exact hlm m hm
        · rcases List.mem_cons.mp hm with rfl | hm2
          · exact Or.inr (Or.inr (Or.inl ⟨_, t, rfl⟩))
          · have hmeq := List.mem_singleton.mp hm2
            subst hmeq
            exact Or.inl ⟨_, t, f, rfl⟩
    · intro m hm r hr
      rcases List.mem_append.mp hm with hm | hm
      · exact Inv.jwr m hm r hr
      · rcases List.mem_cons.mp hm with rfl | hm2
        · exact absurd hr (by simp [regWritesOf])
        · have hmeq := List.mem_singleton.mp hm2
          subst hmeq
          have hrt : r = t := by simpa [regWritesOf] using hr
          subst hrt
          refine Or.inl ⟨p, (RP_shape pairs p hpRP).1, ?_⟩
          have := (RP_shape pairs p hpRP).2.2.1
          rwa [hpt] at this
    · intro w hw hnd2 r hl
      by_cases hws2 : fromR w = s
      · have hl2 : upd (upd st.location (fromR q) RegLoc.stk) s RegLoc.na (fromR w) =
            RegLoc.reg r := hl
        rw [hws2, hLs] at hl2
        cases hl2
      · by_cases hwfq : fromR w = fromR q
        · have hl2 : upd (upd st.location (fromR q) RegLoc.stk) s RegLoc.na (fromR w) =
              RegLoc.reg r := hl
          rw [hwfq, hLq] at hl2
          cases hl2
        · have hl2 : st.location (fromR w) = RegLoc.reg r := by
            have h0 : upd (upd st.location (fromR q) RegLoc.stk) s RegLoc.na (fromR w) =
                RegLoc.reg r := hl
            rwa [hLother (fromR w) hws2 hwfq] at h0
          have hwt2 : toR w ∉ st.toDo := by
            intro hc
            by_cases hwteq : toR w = t
            · have : w = p := htoinjRP w hw p hpRP (by rw [hwteq, hpt])
              exact hws2 (by rw [this, hps])
            · exact hnd2 ((mem_maskRem t (toR w) st.toDo).mpr ⟨hc, hwteq⟩)
          intro hcr
          exact Inv.jdone w hw hwt2 r hl2 ((mem_maskRem t r st.toDo).mp hcr).1
  · show (maskRem t st.toDo).length < st.toDo.length
    have := length_maskRem_of_mem t st.toDo hnd httd
    omega

theorem edgeInv_exec_bridge (i : Nat → Bool) (tr : Option Nat)
    (pairs : List ResolvePair) (cyc : ResolvePair → Bool)
    (st2 : EdgeSt) (M0 : MachineSt) (ms d2 : List RMove)
    (hmv : st2.moves = ms ++ d2)
    (hInv : EdgeInv i tr pairs cyc st2 (execMoves (execMoves M0 ms) d2)) :
    EdgeInv i tr pairs cyc st2 (execMoves M0 st2.moves) := by
  rw [hmv, execMoves_append]
  exact hInv

theorem edgeStep_preserves (i : Nat → Bool) (tr : Option Nat)
    (pairs : List ResolvePair) (cyc : ResolvePair → Bool) (rank : ResolvePair → Nat)
    (H : EdgeHyps i tr pairs cyc rank)
    (st : EdgeSt) (M0 : MachineSt)
    (Inv : EdgeInv i tr pairs cyc st (execMoves M0 st.moves))
    (hne : st.toDo ≠ []) :
    EdgeInv i tr pairs cyc (edgeStep i tr st) (execMoves M0 (edgeStep i tr st).moves) ∧
    2 * (edgeStep i tr st).toDo.length + st.ready.length <
      2 * st.toDo.length + (edgeStep i tr st).ready.length := by
  cases hr : st.ready with
  | cons t rest =>
    have httd : t ∈ st.toDo := Inv.j2sub t (by rw [hr]; exact List.mem_cons_self t rest)
    obtain ⟨w, hwRP, hwt⟩ := Inv.j2 t httd
    have hsrc : st.source t = some (fromR w) := by
      rw [← hwt]
      exact Inv.j1 w hwRP
    rcases (Inv.j3 w hwRP (by rw [hwt]; exact httd)).2 with ⟨g, hg1, _⟩ | ⟨hstk, _⟩
    · have heq := edgeStep_ready_reg i tr st t rest (fromR w) g hr hsrc hg1
      rw [heq]
      obtain ⟨Inv2, hlen⟩ := preserve_ready_reg i tr pairs cyc rank H st
        (execMoves M0 st.moves) Inv t rest (fromR w) g hr hsrc hg1
      refine ⟨edgeInv_exec_bridge i tr pairs cyc _ M0 st.moves _ rfl Inv2, ?_⟩
      show 2 * (maskRem t st.toDo).length + (t :: rest).length < 2 * st.toDo.length +
        (if g = fromR w ∧ (st.source g).isSome then maskAdd g rest else rest).length
      have hge : rest.length ≤
          (if g = fromR w ∧ (st.source g).isSome then maskAdd g rest else rest).length := by
        by_cases hcond : g = fromR w ∧ (st.source g).isSome
        · rw [if_pos hcond]
          exact length_maskAdd_ge g rest
        · rw [if_neg hcond]
      simp only [List.length_cons]
      omega
    · have heq := edgeStep_ready_stk i tr st t rest (fromR w) hr hsrc hstk
      rw [heq]
      obtain ⟨Inv2, hlen⟩ := preserve_ready_stk i tr pairs cyc rank H st
        (execMoves M0 st.moves) Inv t rest (fromR w) hr hsrc hstk
      refine ⟨edgeInv_exec_bridge i tr pairs cyc _ M0 st.moves _ rfl Inv2, ?_⟩
      show 2 * (maskRem t st.toDo).length + (t :: rest).length <
        2 * st.toDo.length + rest.length
      simp only [List.length_cons]
      omega
  | nil =>
    cases h2 : st.toDo with
    | nil => exact absurd h2 hne
    | cons t dd =>
      have httd : t ∈ st.toDo := by rw [h2]; exact List.mem_cons_self t dd
      obtain ⟨w, hwRP, hwt⟩ := Inv.j2 t httd
      have hsrc : st.source t = some (fromR w) := by
        rw [← hwt]
        exact Inv.j1 w hwRP
      obtain ⟨⟨g, hgmem, hlocw⟩, _⟩ := busy_facts i tr pairs cyc rank H st
        (execMoves M0 st.moves) Inv hr w hwRP (by rw [hwt]; exact httd)
      by_cases htg : t = g
      · have hlocw2 : st.location (fromR w) = RegLoc.reg t := by
          rw [← htg] at hlocw
          exact hlocw
        have heq := edgeStep_busy_inplace i tr st t dd (fromR w) hr h2 hsrc hlocw2
        rw [heq]
        obtain ⟨Inv2, hlen⟩ := preserve_busy_inplace i tr pairs cyc rank H st
          (execMoves M0 st.moves) Inv t dd (fromR w) hr h2 hsrc hlocw2
        refine ⟨Inv2, ?_⟩
        show 2 * (maskRem t st.toDo).length + ([] : List Nat).length <
          2 * (t :: dd).length + st.ready.length
        rw [hr, ← h2]
        simp only [List.length_nil]
        omega
      · by_cases hflt : i t = true
        · cases htr : tr with
          | some tmp =>
            have heq := edgeStep_busy_tmp i tr st t dd (fromR w) g tmp hr h2 hsrc hlocw
              htg hflt htr
            rw [← htr, heq]
            have Inv2 := preserve_busy_tmp i tr pairs cyc rank H st
              (execMoves M0 st.moves) Inv t dd (fromR w) g tmp hr h2 hsrc hlocw htg hflt htr
            refine ⟨edgeInv_exec_bridge i tr pairs cyc _ M0 st.moves _ rfl Inv2, ?_⟩
            show 2 * st.toDo.length + ([] : List Nat).length <
              2 * (t :: dd).length + (maskAdd t st.ready).length
            rw [hr, ← h2]
            simp only [maskAdd, List.length_nil, List.length_cons]
            omega
          | none =>
            have heq := edgeStep_busy_spill i tr st t dd (fromR w) g hr h2 hsrc hlocw
              htg hflt htr
            rw [← htr, heq]
            obtain ⟨d2, hmv, Inv2, hlt, hrd⟩ := preserve_busy_spill i tr pairs cyc rank H st
              (execMoves M0 st.moves) Inv t dd (fromR w) g hr h2 hsrc hlocw htg hflt htr
            refine ⟨edgeInv_exec_bridge i tr pairs cyc _ M0 st.moves d2 hmv Inv2, ?_⟩
            show 2 * (spillBreak st t (fromR w) g).toDo.length + ([] : List Nat).length <
              2 * (t :: dd).length + (spillBreak st t (fromR w) g).ready.length
            rw [hrd, hr, ← h2]
            have hmg : (maskAdd g ([] : List Nat)).length = 1 := by simp [maskAdd]
            rw [hmg]
            simp only [List.length_nil]
            omega
        · have hfi : i t = false := by
            cases hh : i t
            · rfl
            · exact absurd hh hflt
          have heq := edgeStep_busy_swap i tr st t dd (fromR w) g hr h2 hsrc hlocw htg hfi
          rw [heq]
          obtain ⟨d2, hmv, _, _, Inv2, hlt, hrd⟩ := preserve_busy_swap i tr pairs cyc rank
            H st (execMoves M0 st.moves) Inv t dd (fromR w) g hr h2 hsrc hlocw htg hfi
          refine ⟨edgeInv_exec_bridge i tr pairs cyc _ M0 st.moves d2 hmv Inv2, ?_⟩
          show 2 * (swapBreak st t (fromR w) g).toDo.length + ([] : List Nat).length <
            2 * (t :: dd).length + (swapBreak st t (fromR w) g).ready.length
          rw [hrd, hr, ← h2]
          simp only [List.length_nil]
          omega

theorem ready_le_toDo (i : Nat → Bool) (tr : Option Nat)
    (pairs : List ResolvePair) (cyc : ResolvePair → Bool)
    (st : EdgeSt) (M : MachineSt) (Inv : EdgeInv i tr pairs cyc st M) :
    st.ready.length ≤ st.toDo.length := by
  have hnd : st.ready.Nodup := Inv.j2r.nodup
  have hsub : st.ready ⊆ st.toDo := fun x hx => Inv.j2sub x hx
  exact List.Subperm.length_le (List.Nodup.subperm hnd hsub)

theorem toDo_le_pairs (i : Nat → Bool) (tr : Option Nat)
    (pairs : List ResolvePair) (cyc : ResolvePair → Bool) (rank : ResolvePair → Nat)
    (H : EdgeHyps i tr pairs cyc rank)
    (st : EdgeSt) (M : MachineSt) (Inv : EdgeInv i tr pairs cyc st M) :
    st.toDo.length ≤ pairs.length := by
  classical
  have hbfun : ∀ t, ∃ q, t ∈ st.toDo → q ∈ RP pairs ∧ toR q = t := by
    intro t
    by_cases ht : t ∈ st.toDo
    · obtain ⟨q, hq1, hq2⟩ := Inv.j2 t ht
      exact ⟨q, fun _ => ⟨hq1, hq2⟩⟩
    · exact ⟨⟨0, VLoc.stk, VLoc.stk⟩, fun hc => absurd hc ht⟩
  choose b hb using hbfun
  have hnd : st.toDo.Nodup := Inv.j2s.nodup
  have h1 : st.toDo.toFinset.card = st.toDo.length := List.toFinset_card_of_nodup hnd
  have h2 : st.toDo.toFinset.card ≤ pairs.toFinset.card := by
    apply Finset.card_le_card_of_injOn b
    · intro t ht
      have ht2 : t ∈ st.toDo := by
        rw [← List.mem_toFinset]
        exact ht
      have := (hb t ht2).1
      rw [List.mem_toFinset]
      exact (RP_shape pairs (b t) this).1
    · intro t1 ht1 t2 ht2 he
      have hm1 : t1 ∈ st.toDo := by
        rw [← List.mem_toFinset]
        exact Finset.mem_coe.mp ht1
      have hm2 : t2 ∈ st.toDo := by
        rw [← List.mem_toFinset]
        exact Finset.mem_coe.mp ht2
      have e1 := (hb t1 hm1).2
      have e2 := (hb t2 hm2).2
      rw [← e1, ← e2, he]
  have h3 : pairs.toFinset.card ≤ pairs.length := pairs.toFinset_card_le
  omega

theorem edgeLoop_succ (i : Nat → Bool) (tr : Option Nat) (fuel : Nat) (st : EdgeSt) :
    edgeLoop i tr (fuel + 1) st =
      if st.toDo = [] then st else edgeLoop i tr fuel (edgeStep i tr st) := rfl

theorem edgeLoop_post (i : Nat → Bool) (tr : Option Nat)
    (pairs : List ResolvePair) (cyc : ResolvePair → Bool) (rank : ResolvePair → Nat)
    (H : EdgeHyps i tr pairs cyc rank) (M0 : MachineSt) :
    ∀ (fuel : Nat) (st : EdgeSt),
      EdgeInv i tr pairs cyc st (execMoves M0 st.moves) →
      2 * st.toDo.length - st.ready.length < fuel →
      (edgeLoop i tr fuel st).toDo = [] ∧
      EdgeInv i tr pairs cyc (edgeLoop i tr fuel st)
        (execMoves M0 (edgeLoop i tr fuel st).moves) := by
  intro fuel
  induction fuel with
  | zero =>
    intro st hInv hm
    omega
  | succ fuel ih =>
    intro st hInv hm
    rw [edgeLoop_succ]
    by_cases hne : st.toDo = []
    · rw [if_pos hne]
      exact ⟨hne, hInv⟩
    · rw [if_neg hne]
      obtain ⟨hInv2, hdec⟩ := edgeStep_preserves i tr pairs cyc rank H st M0 hInv hne
      refine ih (edgeStep i tr st) hInv2 ?_
      have hk : st.ready.length ≤ st.toDo.length :=
        ready_le_toDo i tr pairs cyc st _ hInv
      have hk2 : (edgeStep i tr st).ready.length ≤ (edgeStep i tr st).toDo.length :=
        ready_le_toDo i tr pairs cyc _ _ hInv2
      omega

theorem execLoads (SI : Nat → Option Nat) :
    ∀ (ts : List Nat) (M : MachineSt),
      (execMoves M (ts.map (fun t => RMove.mv ((SI t).getD 0) (VLoc.reg t) VLoc.stk))).slot
        = M.slot ∧
      (∀ r, r ∉ ts →
        (execMoves M (ts.map (fun t => RMove.mv ((SI t).getD 0) (VLoc.reg t) VLoc.stk))).regs r
          = M.regs r) ∧
      (ts.Nodup → ∀ t ∈ ts,
        (execMoves M (ts.map (fun t => RMove.mv ((SI t).getD 0) (VLoc.reg t) VLoc.stk))).regs t
          = M.slot ((SI t).getD 0)) := by
  intro ts
  induction ts with
  | nil =>
    intro M
    exact ⟨rfl, fun r _ => rfl, fun _ t ht => absurd ht (List.not_mem_nil t)⟩
  | cons t rest ih =>
    intro M
    have hstep : execMoves M
        ((t :: rest).map (fun x => RMove.mv ((SI x).getD 0) (VLoc.reg x) VLoc.stk)) =
        execMoves { M with regs := upd M.regs t (M.slot ((SI t).getD 0)) }
          (rest.map (fun x => RMove.mv ((SI x).getD 0) (VLoc.reg x) VLoc.stk)) := by
      simp only [List.map_cons, execMoves, List.foldl_cons]
      rfl
    obtain ⟨ih1, ih2, ih3⟩ := ih { M with regs := upd M.regs t (M.slot ((SI t).getD 0)) }
    refine ⟨?_, ?_, ?_⟩
    · rw [hstep, ih1]
    · intro r hr
      have hr1 : r ≠ t := fun h => hr (h ▸ List.mem_cons_self t rest)
      have hr2 : r ∉ rest := fun h => hr (List.mem_cons_of_mem t h)
      rw [hstep, ih2 r hr2]
      exact upd_other _ _ _ _ hr1
    · intro hnd x hx
      have hnd2 := List.nodup_cons.mp hnd
      rcases List.mem_cons.mp hx with hxt | hxr
      · subst hxt
        rw [hstep, ih2 x hnd2.1]
        exact upd_same _ _ _
      · rw [hstep, ih3 hnd2.2 x hxr]

theorem resolveEdge_main (i : Nat → Bool) (tr : Option Nat)
    (pairs : List ResolvePair) (cyc : ResolvePair → Bool) (rank : ResolvePair → Nat)
    (H : EdgeHyps i tr pairs cyc rank) :
    (∃ l2 loads,
      (resolveEdgeRun i tr pairs).moves = stkMoves pairs ++ l2 ++ loads ∧
      (∀ m ∈ l2, LoopMove m) ∧
      (∀ m ∈ loads, ∃ v t, m = RMove.mv v (VLoc.reg t) VLoc.stk)) ∧
    (∀ p ∈ pairs,
      readLoc (execMoves (initMachine pairs) (resolveEdgeRun i tr pairs).moves)
        p.varNum p.toLoc = some p.varNum) ∧
    (∀ m ∈ (resolveEdgeRun i tr pairs).moves, ∀ r ∈ regWritesOf m,
      (∃ p ∈ pairs, p.toLoc = VLoc.reg r) ∨ (∃ p ∈ pairs, p.fromLoc = VLoc.reg r) ∨
      tr = some r) := by
  classical
  set S := pairs.foldl setupOne emptyEdgeSt with hS
  set st0 := initReady S with hst0
  set M0 := initMachine pairs with hM0
  have hmv0 : st0.moves = stkMoves pairs := by
    have hf := (setup_frame pairs emptyEdgeSt).2.1
    rw [hst0, initReady]
    rw [hS]
    rw [hf]
    rfl
  have hInv0 : EdgeInv i tr pairs cyc st0 (execMoves M0 st0.moves) := by
    rw [hmv0]
    exact edgeInv_init i tr pairs cyc rank H
  have hlen : st0.toDo.length ≤ pairs.length :=
    toDo_le_pairs i tr pairs cyc rank H st0 _ hInv0
  have hfuel : 2 * st0.toDo.length - st0.ready.length < 2 * pairs.length + 1 := by omega
  obtain ⟨hdone, hInvL⟩ :=
    edgeLoop_post i tr pairs cyc rank H M0 (2 * pairs.length + 1) st0 hInv0 hfuel
  set L := edgeLoop i tr (2 * pairs.length + 1) st0 with hL
  have hrun : resolveEdgeRun i tr pairs = finishStack L := rfl
  set loads := L.fromStack.map
    (fun t => RMove.mv ((L.stackToRegIntervals t).getD 0) (VLoc.reg t) VLoc.stk) with hloads
  have hfmv : (finishStack L).moves = L.moves ++ loads := rfl
  have hndfs : L.fromStack.Nodup := hInvL.j12s.nodup
  obtain ⟨e1, e2, e3⟩ := execLoads L.stackToRegIntervals L.fromStack (execMoves M0 L.moves)
  have hexec : execMoves M0 (finishStack L).moves =
      execMoves (execMoves M0 L.moves) loads := by
    rw [hfmv, execMoves_append]
  have hnotfs : ∀ p ∈ pairs, ∀ f t, p.fromLoc = VLoc.reg f → p.toLoc = VLoc.reg t →
      t ∉ L.fromStack := by
    intro p hp f t hf ht hc
    obtain ⟨w, hw, hw1, hw2⟩ := hInvL.j12 t hc
    have := H.toinj w hw p hp t hw2 ht
    rw [this] at hw1
    rw [hf] at hw1
    cases hw1
  refine ⟨?_, ?_, ?_⟩
  · obtain ⟨l2, hl2, hl2m⟩ := hInvL.jmv
    refine ⟨l2, loads, ?_, hl2m, ?_⟩
    · rw [hrun, hfmv, hl2, List.append_assoc]
    · intro m hm
      rw [hloads, List.mem_map] at hm
      obtain ⟨t, _, hmeq⟩ := hm
      exact ⟨(L.stackToRegIntervals t).getD 0, t, hmeq.symm⟩
  · intro p hp
    rw [hrun, hexec]
    cases hfl : p.fromLoc with
    | stk =>
      cases htl : p.toLoc with
      | stk =>
        show (execMoves (execMoves M0 L.moves) loads).slot p.varNum = some p.varNum
        rw [hloads, e1]
        exact hInvL.j13 p hp hfl htl
      | reg t =>
        show (execMoves (execMoves M0 L.moves) loads).regs t = some p.varNum
        obtain ⟨h9a, h9b, h9c⟩ := hInvL.j9 p hp hfl t htl
        rw [hloads, e3 hndfs t h9c, h9b]
        exact h9a
    | reg f =>
      cases htl : p.toLoc with
      | stk =>
        show (execMoves (execMoves M0 L.moves) loads).slot p.varNum = some p.varNum
        rw [hloads, e1]
        exact hInvL.j11 p hp f hfl htl
      | reg t =>
        show (execMoves (execMoves M0 L.moves) loads).regs t = some p.varNum
        have hfs : t ∉ L.fromStack := hnotfs p hp f t hfl htl
        rw [hloads, e2 t hfs]
        by_cases hft : f = t
        · exact hInvL.j10 p hp t (hft ▸ hfl) htl
        · obtain ⟨hRP, hfr, htr2⟩ := mem_RP_of pairs p hp f t hfl htl hft
          have h4 := hInvL.j4 p hRP (by rw [hdone]; exact List.not_mem_nil _)
          rw [htr2] at h4
          exact h4
  · intro m hm r hr
    rw [hrun, hfmv] at hm
    rcases List.mem_append.mp hm with hm1 | hm2
    · exact hInvL.jwr m hm1 r hr
    · rw [hloads, List.mem_map] at hm2
      obtain ⟨t, htfs, hmeq⟩ := hm2
      rw [← hmeq] at hr
      have hrt : r = t := by
        simpa [regWritesOf] using hr
      subst hrt
      obtain ⟨w, hw, _, hw2⟩ := hInvL.j12 r htfs
      exact Or.inl ⟨w, hw, hw2⟩

/-- C2: resolveEdge emits the register-to-stack moves of the edge first, then
the register-to-register loop moves — plain reg→reg copies ordered so each
target is already vacated, with cycles broken by an atomic swap, the single
float temporary register, or a spill through a stack slot — and the
stack-to-register loads last; the whole sequence is value-preserving
(starting from the machine where every variable sits at its `from` location,
every variable ends at its `to` location holding its own value), and every
register written is a target or source register of the edge except for the
one temporary register `tempRegFlt`. -/
theorem claim_C2_resolveEdge_order_value_scratch (i : Nat → Bool) (tr : Option Nat)
    (pairs : List ResolvePair) (cyc : ResolvePair → Bool) (rank : ResolvePair → Nat)
    (H : EdgeHyps i tr pairs cyc rank) :
    (∃ l2 loads,
      (resolveEdgeRun i tr pairs).moves = stkMoves pairs ++ l2 ++ loads ∧
      (∀ m ∈ l2, LoopMove m) ∧
      (∀ m ∈ loads, ∃ v t, m = RMove.mv v (VLoc.reg t) VLoc.stk)) ∧
    (∀ p ∈ pairs,
      readLoc (execMoves (initMachine pairs) (resolveEdgeRun i tr pairs).moves)
        p.varNum p.toLoc = some p.varNum) ∧
    (∀ m ∈ (resolveEdgeRun i tr pairs).moves, ∀ r ∈ regWritesOf m,
      (∃ p ∈ pairs, p.toLoc = VLoc.reg r) ∨ (∃ p ∈ pairs, p.fromLoc = VLoc.reg r) ∨
      tr = some r) :=
  resolveEdge_main i tr pairs cyc rank H

/-- A concrete edge: a three-register integer cycle, one register-to-stack
move and one stack-to-register move. -/
def c2pairs : List ResolvePair :=
  [⟨101, VLoc.reg 1, VLoc.reg 2⟩, ⟨102, VLoc.reg 2, VLoc.reg 3⟩,
   ⟨103, VLoc.reg 3, VLoc.reg 1⟩, ⟨104, VLoc.reg 4, VLoc.stk⟩,
   ⟨105, VLoc.stk, VLoc.reg 5⟩]

theorem claim_C2_witness :
    (∃ l2 loads,
      (resolveEdgeRun (fun _ => false) none c2pairs).moves =
        stkMoves c2pairs ++ l2 ++ loads ∧
      (∀ m ∈ l2, LoopMove m) ∧
      (∀ m ∈ loads, ∃ v t, m = RMove.mv v (VLoc.reg t) VLoc.stk)) ∧
    (∀ p ∈ c2pairs,
      readLoc (execMoves (initMachine c2pairs)
          (resolveEdgeRun (fun _ => false) none c2pairs).moves)
        p.varNum p.toLoc = some p.varNum) ∧
    (∀ m ∈ (resolveEdgeRun (fun _ => false) none c2pairs).moves,
      ∀ r ∈ regWritesOf m,
      (∃ p ∈ c2pairs, p.toLoc = VLoc.reg r) ∨
      (∃ p ∈ c2pairs, p.fromLoc = VLoc.reg r) ∨
      (none : Option Nat) = some r) :=
  claim_C2_resolveEdge_order_value_scratch (fun _ => false) none c2pairs
    (fun _ => true) (fun _ => 0)
    (by
      refine ⟨?_, ?_, ?_, ?_, ?_, ?_, ?_, ?_⟩
      · intro p hp q hq r h1 h2
        have hd : ∀ p ∈ c2pairs, ∀ q ∈ c2pairs,
            p.toLoc = q.toLoc → p.toLoc ≠ VLoc.stk → p = q := by decide
        refine hd p hp q hq (h1.trans h2.symm) ?_
        rw [h1]
        intro hc
        cases hc
      · intro p hp q hq r h1 h2
        have hd : ∀ p ∈ c2pairs, ∀ q ∈ c2pairs,
            p.fromLoc = q.fromLoc → p.fromLoc ≠ VLoc.stk → p = q := by decide
        refine hd p hp q hq (h1.trans h2.symm) ?_
        rw [h1]
        intro hc
        cases hc
      · decide
      · intro tmp h
        exact Option.noConfusion h
      · intro p hp f t h1 h2
        rfl
      · decide
      · decide
      · decide)

/-! ### C1: resolveEdges edge consistency (lsra.cpp 8031-8223, 7764-8010)

The driver is modelled on an abstract flow graph: a block is its number, its
successor and predecessor block numbers, and its live-in/live-out variable
index lists; the per-block in/out VarToRegMaps are functions from block
number and variable index to a register value (`regSTK` standing for
REG_STK).  Only `resolveEdge`'s effect on the maps (lsra.cpp 8381-8388) is
modelled here - the emitted moves are the subject of C2.  The in-scan
disqualifications of `handleOutgoingCriticalEdges` that can only force a
variable from the "same" to the "diff" set (live-out register conflicts,
switch-table registers, split-edge-only liveness, lsra.cpp 8167-8186) are
modelled as an arbitrary predicate `disq`; the consistency theorem holds for
every value of it.  An edge resolved with `ResolveCritical` is split by
`fgSplitEdge`; the inserted block's maps alias the from-block's out map and
the to-block's in map (getInVarToRegMap/getOutVarToRegMap, lsra.cpp
1938-1985), which `splitBlockInMap`/`splitBlockOutMap` record.  The
unique-predecessor walk at lsra.cpp 8096-8100 ends at the original
predecessor of a split non-critical edge, so the split pass is modelled on
the original graph. -/

structure RBlock where
  num : Nat
  succs : List Nat
  preds : List Nat
  liveIn : List Nat
  liveOut : List Nat
deriving DecidableEq, Repr

structure RMaps where
  inM : Nat → Nat → Nat
  outM : Nat → Nat → Nat

/-- REG_STK as a register value. -/
def regSTK : Nat := 1000

def upd2 (m : Nat → Nat → Nat) (b v r : Nat) : Nat → Nat → Nat :=
  fun b1 v1 => if b1 = b ∧ v1 = v then r else m b1 v1

def blkOf (g : List RBlock) (n : Nat) : Option RBlock := g.find? (fun b => b.num == n)

def liveInOf (g : List RBlock) (n : Nat) : List Nat := ((blkOf g n).map RBlock.liveIn).getD []

def predsOf (g : List RBlock) (n : Nat) : List Nat := ((blkOf g n).map RBlock.preds).getD []

/-- The sameToReg scan of handleOutgoingCriticalEdges (lsra.cpp 8139-8165):
`none` is REG_NA; a successor where the variable is not live is skipped, the
first live successor seeds the accumulator, a disagreeing successor breaks
with REG_NA. -/
def scanSame (inMf : Nat → Nat → Nat) (g : List RBlock) (v : Nat) :
    Option Nat → List Nat → Option Nat
  | acc, [] => acc
  | none, s :: rest =>
    if v ∈ liveInOf g s then scanSame inMf g v (some (inMf s v)) rest
    else scanSame inMf g v none rest
  | some r, s :: rest =>
    if v ∈ liveInOf g s then
      (if inMf s v = r then scanSame inMf g v (some r) rest else none)
    else scanSame inMf g v (some r) rest

/-- sameToReg after the disqualification checks (lsra.cpp 8167-8186), which
can only reset it to REG_NA. -/
def effSame (inMf : Nat → Nat → Nat) (g : List RBlock) (disq : Nat → Bool)
    (b : RBlock) (v : Nat) : Option Nat :=
  match scanSame inMf g v none b.succs with
  | none => none
  | some r => if disq v then none else some r

/-- The sameResolutionSet with the sharedCriticalVarToRegMap entries recorded
for it (lsra.cpp 8188-8201): variables whose surviving sameToReg differs from
the out-map location. -/
def sameListOf (M : RMaps) (g : List RBlock) (cands : Nat → Bool) (disq : Nat → Bool)
    (b : RBlock) : List (Nat × Nat) :=
  (b.liveOut.filter cands).filterMap (fun v =>
    match effSame M.inM g disq b v with
    | none => none
    | some r => if r = M.outM b.num v then none else some (v, r))

/-- The diffResolutionSet (lsra.cpp 8188-8194). -/
def diffListOf (M : RMaps) (g : List RBlock) (cands : Nat → Bool) (disq : Nat → Bool)
    (b : RBlock) : List Nat :=
  (b.liveOut.filter cands).filter (fun v => (effSame M.inM g disq b v).isNone)

/-- `(sameWriteRegs & diffReadRegs) != RBM_NONE` (lsra.cpp 8203-8214). -/
def batchConflict (M : RMaps) (g : List RBlock) (cands : Nat → Bool) (disq : Nat → Bool)
    (b : RBlock) : Bool :=
  (sameListOf M g cands disq b).any (fun pr =>
    (!(pr.2 == regSTK)) && (diffListOf M g cands disq b).any (fun w =>
      M.outM b.num w == pr.2))

/-- resolveEdge with ResolveSharedCritical (lsra.cpp 8385-8388): the
from-block's out map is rewritten to the common target location. -/
def applyShared (b : Nat) (l : List (Nat × Nat)) (M : RMaps) : RMaps :=
  l.foldl (fun M pr => { M with outM := upd2 M.outM b pr.1 pr.2 }) M

/-- The per-successor diff resolution (lsra.cpp 7976-8008): a successor with
a unique predecessor (other than the first block) is left to the split pass;
otherwise, if some diff variable live into the successor still mismatches,
the edge is resolved with ResolveCritical, i.e. split. -/
def diffSplits (M : RMaps) (g : List RBlock) (entry : Nat) (dl : List Nat)
    (b : RBlock) : List (Nat × Nat) :=
  b.succs.filterMap (fun s =>
    if (predsOf g s).length = 1 ∧ s ≠ entry then none
    else if (dl.filter (fun v =>
        decide (v ∈ liveInOf g s) && !(M.outM b.num v == M.inM s v))) = [] then none
    else some (b.num, s))

/-- handleOutgoingCriticalEdges (lsra.cpp 7764-8010), restricted to its
effect on the maps and to which edges get split. -/
def handleOutgoingCriticalEdges (g : List RBlock) (entry : Nat) (cands : Nat → Bool)
    (disq : Nat → Nat → Bool) (st : RMaps × List (Nat × Nat)) (b : RBlock) :
    RMaps × List (Nat × Nat) :=
  if (b.liveOut.filter cands) = [] then st
  else
    let M := st.1
    let sl := sameListOf M g cands (disq b.num) b
    let dl := diffListOf M g cands (disq b.num) b
    if batchConflict M g cands (disq b.num) b then
      (M, st.2 ++ diffSplits M g entry (dl ++ sl.map Prod.fst) b)
    else
      let M2 := applyShared b.num sl M
      (M2, st.2 ++ diffSplits M2 g entry dl b)

/-- blockInfo[...].hasCriticalOutEdge (lsra.cpp 858-867). -/
def hasCriticalOutEdge (g : List RBlock) (b : RBlock) : Bool :=
  decide (2 ≤ b.succs.length) &&
    b.succs.any (fun s => decide ((predsOf g s).length ≠ 1))

def criticalStep (g : List RBlock) (entry : Nat) (cands : Nat → Bool)
    (disq : Nat → Nat → Bool) (st : RMaps × List (Nat × Nat)) (b : RBlock) :
    RMaps × List (Nat × Nat) :=
  if hasCriticalOutEdge g b then handleOutgoingCriticalEdges g entry cands disq st b
  else st

/-- resolveEdge with ResolveSplit (lsra.cpp 8381-8383): the to-block's in map
is rewritten to the predecessor's out-map location for each mismatch. -/
def applySplit (p bnum : Nat) (vs : List Nat) (M : RMaps) : RMaps :=
  vs.foldl (fun M v =>
    if M.outM p v = M.inM bnum v then M
    else { M with inM := upd2 M.inM bnum v (M.outM p v) }) M

/-- resolveEdge with ResolveJoin (lsra.cpp 8385-8388): the from-block's out
map is rewritten to the successor's in-map location for each mismatch. -/
def applyJoin (bnum s : Nat) (vs : List Nat) (M : RMaps) : RMaps :=
  vs.foldl (fun M v =>
    if M.outM bnum v = M.inM s v then M
    else { M with outM := upd2 M.outM bnum v (M.inM s v) }) M

/-- The split resolution at the top of a unique-predecessor block
(lsra.cpp 8087-8103). -/
def splitPart (g : List RBlock) (cands : Nat → Bool) (M : RMaps) (b : RBlock) : RMaps :=
  match predsOf g b.num with
  | [p] =>
    if (b.liveIn.filter cands) = [] then M
    else applySplit p b.num (b.liveIn.filter cands) M
  | _ => M

/-- The join resolution at the bottom of a single-successor block whose
successor has other predecessors (lsra.cpp 8105-8124). -/
def joinPart (g : List RBlock) (cands : Nat → Bool) (M : RMaps) (b : RBlock) : RMaps :=
  match b.succs with
  | [s] =>
    if (predsOf g s).length = 1 then M
    else if ((liveInOf g s).filter cands) = [] then M
    else applyJoin b.num s ((liveInOf g s).filter cands) M
  | _ => M

def mainStep (g : List RBlock) (cands : Nat → Bool) (M : RMaps) (b : RBlock) : RMaps :=
  joinPart g cands (splitPart g cands M b) b

/-- resolveEdges (lsra.cpp 8031-8223): the critical-edge pass over all
original blocks, then the split/join pass; the returned list records the
edges that were split with ResolveCritical. -/
def resolveEdges (g : List RBlock) (entry : Nat) (cands : Nat → Bool)
    (disq : Nat → Nat → Bool) (M0 : RMaps) : RMaps × List (Nat × Nat) :=
  let c := g.foldl (criticalStep g entry cands disq) (M0, [])
  (g.foldl (mainStep g cands) c.1, c.2)

/-- getInVarToRegMap for a block inserted on a split edge (lsra.cpp
1938-1959): it aliases the from-block's out map. -/
def splitBlockInMap (M : RMaps) (fromNum toNum : Nat) : Nat → Nat := M.outM fromNum

/-- getOutVarToRegMap for a block inserted on a split edge (lsra.cpp
1962-1985): it aliases the to-block's in map. -/
def splitBlockOutMap (M : RMaps) (fromNum toNum : Nat) : Nat → Nat := M.inM toNum

theorem blkOf_eq : ∀ (g : List RBlock),
    (∀ b1 ∈ g, ∀ b2 ∈ g, b1.num = b2.num → b1 = b2) →
    ∀ b ∈ g, blkOf g b.num = some b := by
  intro g
  induction g with
  | nil =>
    intro _ b hb
    exact absurd hb (List.not_mem_nil b)
  | cons h t ih =>
    intro hnum b hb
    rw [blkOf, List.find?]
    by_cases he : h.num == b.num
    · have hnb : h.num = b.num := by simpa using he
      have : h = b := hnum h (List.mem_cons_self h t) b hb hnb
      rw [he]
      rw [this]
    · rcases List.mem_cons.mp hb with rfl | hbt
      · exact absurd (by simp) he
      · rw [Bool.not_eq_true] at he
        rw [he]
        exact ih (fun b1 h1 b2 h2 => hnum b1 (List.mem_cons_of_mem h h1)
          b2 (List.mem_cons_of_mem h h2)) b hbt

theorem liveInOf_eq (g : List RBlock)
    (hnum : ∀ b1 ∈ g, ∀ b2 ∈ g, b1.num = b2.num → b1 = b2)
    (b : RBlock) (hb : b ∈ g) : liveInOf g b.num = b.liveIn := by
  rw [liveInOf, blkOf_eq g hnum b hb]
  rfl

theorem predsOf_eq (g : List RBlock)
    (hnum : ∀ b1 ∈ g, ∀ b2 ∈ g, b1.num = b2.num → b1 = b2)
    (b : RBlock) (hb : b ∈ g) : predsOf g b.num = b.preds := by
  rw [predsOf, blkOf_eq g hnum b hb]
  rfl

theorem upd2_same (m : Nat → Nat → Nat) (b v r : Nat) : upd2 m b v r b v = r := by
  simp [upd2]

theorem upd2_other (m : Nat → Nat → Nat) (b v r b1 v1 : Nat) (h : ¬(b1 = b ∧ v1 = v)) :
    upd2 m b v r b1 v1 = m b1 v1 := by
  simp only [upd2, if_neg h]

theorem applyShared_inM : ∀ (l : List (Nat × Nat)) (b : Nat) (M : RMaps),
    (applyShared b l M).inM = M.inM := by
  intro l
  induction l with
  | nil => intro b M; rfl
  | cons pr t ih =>
    intro b M
    rw [applyShared, List.foldl_cons]
    exact ih b { M with outM := upd2 M.outM b pr.1 pr.2 }

theorem applyShared_outM_frame : ∀ (l : List (Nat × Nat)) (b : Nat) (M : RMaps)
    (n v : Nat), (¬(n = b) ∨ ∀ pr ∈ l, pr.1 ≠ v) →
    (applyShared b l M).outM n v = M.outM n v := by
  intro l
  induction l with
  | nil => intro b M n v _; rfl
  | cons pr t ih =>
    intro b M n v h
    rw [applyShared, List.foldl_cons]
    have hstep : upd2 M.outM b pr.1 pr.2 n v = M.outM n v := by
      refine upd2_other _ _ _ _ _ _ ?_
      rintro ⟨rfl, rfl⟩
      rcases h with h | h
      · exact h rfl
      · exact h pr (List.mem_cons_self pr t) rfl
    have ht : (applyShared b t { M with outM := upd2 M.outM b pr.1 pr.2 }).outM n v =
        upd2 M.outM b pr.1 pr.2 n v := by
      refine ih b _ n v ?_
      rcases h with h | h
      · exact Or.inl h
      · exact Or.inr (fun q hq => h q (List.mem_cons_of_mem pr hq))
    rw [applyShared] at ht
    rw [ht, hstep]

theorem applyShared_outM_val : ∀ (l : List (Nat × Nat)) (b : Nat) (M : RMaps)
    (v r : Nat), (∀ pr ∈ l, pr.1 = v → pr.2 = r) →
    ((v, r) ∈ l ∨ M.outM b v = r) →
    (applyShared b l M).outM b v = r := by
  intro l
  induction l with
  | nil =>
    intro b M v r _ h
    rcases h with h | h
    · exact absurd h (List.not_mem_nil _)
    · exact h
  | cons pr t ih =>
    intro b M v r hconst h
    rw [applyShared, List.foldl_cons]
    have hconst2 : ∀ q ∈ t, q.1 = v → q.2 = r :=
      fun q hq => hconst q (List.mem_cons_of_mem pr hq)
    by_cases hv : pr.1 = v
    · have hr : pr.2 = r := hconst pr (List.mem_cons_self pr t) hv
      refine ih b _ v r hconst2 (Or.inr ?_)
      rw [← hv, ← hr]
      exact upd2_same _ _ _ _
    · refine ih b _ v r hconst2 ?_
      rcases h with h | h
      · rcases List.mem_cons.mp h with h1 | h1
        · exact absurd (by rw [← h1]) hv
        · exact Or.inl h1
      · refine Or.inr ?_
        show upd2 M.outM b pr.1 pr.2 b v = r
        have heq : upd2 M.outM b pr.1 pr.2 b v = M.outM b v := by
          refine upd2_other _ _ _ _ _ _ ?_
          rintro ⟨_, rfl⟩
          exact hv rfl
        rw [heq]
        exact h

theorem applySplit_cons (p bn w : Nat) (t : List Nat) (M : RMaps) :
    applySplit p bn (w :: t) M =
      applySplit p bn t
        (if M.outM p w = M.inM bn w then M
         else { M with inM := upd2 M.inM bn w (M.outM p w) }) := rfl

theorem applySplit_outM : ∀ (vs : List Nat) (p bn : Nat) (M : RMaps),
    (applySplit p bn vs M).outM = M.outM := by
  intro vs
  induction vs with
  | nil => intro p bn M; rfl
  | cons w t ih =>
    intro p bn M
    rw [applySplit_cons]
    by_cases h : M.outM p w = M.inM bn w
    · rw [if_pos h]
      exact ih p bn M
    · rw [if_neg h]
      exact ih p bn _

theorem applySplit_inM_frame : ∀ (vs : List Nat) (p bn : Nat) (M : RMaps) (n v : Nat),
    (¬(n = bn) ∨ v ∉ vs) → (applySplit p bn vs M).inM n v = M.inM n v := by
  intro vs
  induction vs with
  | nil => intro p bn M n v _; rfl
  | cons w t ih =>
    intro p bn M n v h
    rw [applySplit_cons]
    have h2 : ¬(n = bn) ∨ v ∉ t := by
      rcases h with h | h
      · exact Or.inl h
      · exact Or.inr (fun hc => h (List.mem_cons_of_mem w hc))
    by_cases hc : M.outM p w = M.inM bn w
    · rw [if_pos hc]
      exact ih p bn M n v h2
    · rw [if_neg hc]
      rw [ih p bn _ n v h2]
      show upd2 M.inM bn w (M.outM p w) n v = M.inM n v
      refine upd2_other _ _ _ _ _ _ ?_
      rintro ⟨rfl, rfl⟩
      rcases h with h | h
      · exact h rfl
      · exact h (List.mem_cons_self v t)

theorem applySplit_eq : ∀ (vs : List Nat) (p bn : Nat) (M : RMaps) (v : Nat),
    v ∈ vs → (applySplit p bn vs M).inM bn v = M.outM p v := by
  intro vs
  induction vs with
  | nil =>
    intro p bn M v hv
    exact absurd hv (List.not_mem_nil v)
  | cons w t ih =>
    intro p bn M v hv
    rw [applySplit_cons]
    by_cases hvt : v ∈ t
    · by_cases hc : M.outM p w = M.inM bn w
      · rw [if_pos hc]
        exact ih p bn M v hvt
      · rw [if_neg hc]
        rw [ih p bn _ v hvt]
    · have hvw : v = w := by
        rcases List.mem_cons.mp hv with h | h
        · exact h
        · exact absurd h hvt
      subst hvw
      by_cases hc : M.outM p v = M.inM bn v
      · rw [if_pos hc]
        rw [applySplit_inM_frame t p bn M bn v (Or.inr hvt)]
        exact hc.symm
      · rw [if_neg hc]
        rw [applySplit_inM_frame t p bn _ bn v (Or.inr hvt)]
        exact upd2_same _ _ _ _

theorem applyJoin_cons (bn s w : Nat) (t : List Nat) (M : RMaps) :
    applyJoin bn s (w :: t) M =
      applyJoin bn s t
        (if M.outM bn w = M.inM s w then M
         else { M with outM := upd2 M.outM bn w (M.inM s w) }) := rfl

theorem applyJoin_inM : ∀ (vs : List Nat) (bn s : Nat) (M : RMaps),
    (applyJoin bn s vs M).inM = M.inM := by
  intro vs
  induction vs with
  | nil => intro bn s M; rfl
  | cons w t ih =>
    intro bn s M
    rw [applyJoin_cons]
    by_cases h : M.outM bn w = M.inM s w
    · rw [if_pos h]
      exact ih bn s M
    · rw [if_neg h]
      exact ih bn s _

theorem applyJoin_outM_frame : ∀ (vs : List Nat) (bn s : Nat) (M : RMaps) (n v : Nat),
    (¬(n = bn) ∨ v ∉ vs) → (applyJoin bn s vs M).outM n v = M.outM n v := by
  intro vs
  induction vs with
  | nil => intro bn s M n v _; rfl
  | cons w t ih =>
    intro bn s M n v h
    rw [applyJoin_cons]
    have h2 : ¬(n = bn) ∨ v ∉ t := by
      rcases h with h | h
      · exact Or.inl h
      · exact Or.inr (fun hc => h (List.mem_cons_of_mem w hc))
    by_cases hc : M.outM bn w = M.inM s w
    · rw [if_pos hc]
      exact ih bn s M n v h2
    · rw [if_neg hc]
      rw [ih bn s _ n v h2]
      show upd2 M.outM bn w (M.inM s w) n v = M.outM n v
      refine upd2_other _ _ _ _ _ _ ?_
      rintro ⟨rfl, rfl⟩
      rcases h with h | h
      · exact h rfl
      · exact h (List.mem_cons_self v t)

theorem applyJoin_eq : ∀ (vs : List Nat) (bn s : Nat) (M : RMaps) (v : Nat),
    v ∈ vs → (applyJoin bn s vs M).outM bn v = M.inM s v := by
  intro vs
  induction vs with
  | nil =>
    intro bn s M v hv
    exact absurd hv (List.not_mem_nil v)
  | cons w t ih =>
    intro bn s M v hv
    rw [applyJoin_cons]
    by_cases hvt : v ∈ t
    · by_cases hc : M.outM bn w = M.inM s w
      · rw [if_pos hc]
        exact ih bn s M v hvt
      · rw [if_neg hc]
        rw [ih bn s _ v hvt]
    · have hvw : v = w := by
        rcases List.mem_cons.mp hv with h | h
        · exact h
        · exact absurd h hvt
      subst hvw
      by_cases hc : M.outM bn v = M.inM s v
      · rw [if_pos hc]
        rw [applyJoin_outM_frame t bn s M bn v (Or.inr hvt)]
        exact hc
      · rw [if_neg hc]
        rw [applyJoin_outM_frame t bn s _ bn v (Or.inr hvt)]
        show upd2 M.outM bn v (M.inM s v) bn v = M.inM s v
        exact upd2_same _ _ _ _

theorem scanSame_some (inMf : Nat → Nat → Nat) (g : List RBlock) (v : Nat) :
    ∀ (l : List Nat) (acc : Option Nat) (r : Nat),
      scanSame inMf g v acc l = some r →
      (acc = none ∨ acc = some r) ∧
      ∀ s ∈ l, v ∈ liveInOf g s → inMf s v = r := by
  intro l
  induction l with
  | nil =>
    intro acc r h
    rw [scanSame] at h
    exact ⟨Or.inr h, fun s hs => absurd hs (List.not_mem_nil s)⟩
  | cons s t ih =>
    intro acc r h
    cases acc with
    | none =>
      rw [scanSame] at h
      by_cases hl : v ∈ liveInOf g s
      · rw [if_pos hl] at h
        obtain ⟨hacc, hall⟩ := ih (some (inMf s v)) r h
        have hval : inMf s v = r := by
          rcases hacc with hacc | hacc
          · cases hacc
          · injection hacc
        refine ⟨Or.inl rfl, fun s2 hs2 hl2 => ?_⟩
        rcases List.mem_cons.mp hs2 with rfl | hs2
        · exact hval
        · exact hall s2 hs2 hl2
      · rw [if_neg hl] at h
        obtain ⟨_, hall⟩ := ih none r h
        refine ⟨Or.inl rfl, fun s2 hs2 hl2 => ?_⟩
        rcases List.mem_cons.mp hs2 with rfl | hs2
        · exact absurd hl2 hl
        · exact hall s2 hs2 hl2
    | some a =>
      rw [scanSame] at h
      by_cases hl : v ∈ liveInOf g s
      · rw [if_pos hl] at h
        by_cases hv : inMf s v = a
        · rw [if_pos hv] at h
          obtain ⟨hacc, hall⟩ := ih (some a) r h
          have har : a = r := by
            rcases hacc with hacc | hacc
            · cases hacc
            · injection hacc
          refine ⟨Or.inr (by rw [har]), fun s2 hs2 hl2 => ?_⟩
          rcases List.mem_cons.mp hs2 with rfl | hs2
          · rw [hv, har]
          · exact hall s2 hs2 hl2
        · rw [if_neg hv] at h
          cases h
      · rw [if_neg hl] at h
        obtain ⟨hacc, hall⟩ := ih (some a) r h
        have har : a = r := by
          rcases hacc with hacc | hacc
          · cases hacc
          · injection hacc
        refine ⟨Or.inr (by rw [har]), fun s2 hs2 hl2 => ?_⟩
        rcases List.mem_cons.mp hs2 with rfl | hs2
        · exact absurd hl2 hl
        · exact hall s2 hs2 hl2

theorem effSame_agree (inMf : Nat → Nat → Nat) (g : List RBlock) (disq : Nat → Bool)
    (b : RBlock) (v r : Nat) (h : effSame inMf g disq b v = some r) :
    ∀ s ∈ b.succs, v ∈ liveInOf g s → inMf s v = r := by
  rw [effSame] at h
  cases hsc : scanSame inMf g v none b.succs with
  | none =>
    simp only [hsc] at h
    cases h
  | some a =>
    simp only [hsc] at h
    by_cases hd : disq v
    · rw [if_pos hd] at h
      cases h
    · rw [if_neg hd] at h
      have har : a = r := by injection h
      subst har
      exact (scanSame_some inMf g v b.succs none a hsc).2

theorem sameListOf_mem_key (M : RMaps) (g : List RBlock) (cands : Nat → Bool)
    (disq : Nat → Bool) (b : RBlock) (pr : Nat × Nat)
    (h : pr ∈ sameListOf M g cands disq b) :
    pr.1 ∈ b.liveOut.filter cands ∧ effSame M.inM g disq b pr.1 = some pr.2 ∧
      pr.2 ≠ M.outM b.num pr.1 := by
  rw [sameListOf, List.mem_filterMap] at h
  obtain ⟨w, hw, hmatch⟩ := h
  cases he : effSame M.inM g disq b w with
  | none =>
    simp only [he] at hmatch
    cases hmatch
  | some r =>
    simp only [he] at hmatch
    by_cases hr : r = M.outM b.num w
    · rw [if_pos hr] at hmatch
      cases hmatch
    · rw [if_neg hr] at hmatch
      have h1 : w = pr.1 ∧ r = pr.2 := by
        have := hmatch
        injection this with h2
        exact ⟨congrArg Prod.fst h2, congrArg Prod.snd h2⟩
      obtain ⟨rfl, rfl⟩ := h1
      exact ⟨hw, he, hr⟩

theorem sameListOf_mem_of (M : RMaps) (g : List RBlock) (cands : Nat → Bool)
    (disq : Nat → Bool) (b : RBlock) (v r : Nat)
    (hv : v ∈ b.liveOut.filter cands) (he : effSame M.inM g disq b v = some r)
    (hne : r ≠ M.outM b.num v) : (v, r) ∈ sameListOf M g cands disq b := by
  rw [sameListOf, List.mem_filterMap]
  refine ⟨v, hv, ?_⟩
  simp only [he]
  rw [if_neg hne]

theorem diffListOf_mem_of (M : RMaps) (g : List RBlock) (cands : Nat → Bool)
    (disq : Nat → Bool) (b : RBlock) (v : Nat)
    (hv : v ∈ b.liveOut.filter cands) (he : effSame M.inM g disq b v = none) :
    v ∈ diffListOf M g cands disq b := by
  rw [diffListOf, List.mem_filter]
  exact ⟨hv, by simp only [he]; rfl⟩

theorem diffSplits_mem_of (M : RMaps) (g : List RBlock) (entry : Nat) (dl : List Nat)
    (b : RBlock) (s : Nat) (hs : s ∈ b.succs)
    (hgate : ¬((predsOf g s).length = 1 ∧ s ≠ entry))
    (v : Nat) (hvd : v ∈ dl) (hvl : v ∈ liveInOf g s)
    (hne : M.outM b.num v ≠ M.inM s v) : (b.num, s) ∈ diffSplits M g entry dl b := by
  rw [diffSplits, List.mem_filterMap]
  refine ⟨s, hs, ?_⟩
  rw [if_neg hgate]
  have hfne : dl.filter (fun v =>
      decide (v ∈ liveInOf g s) && !(M.outM b.num v == M.inM s v)) ≠ [] := by
    intro hc
    have : v ∈ dl.filter (fun v =>
        decide (v ∈ liveInOf g s) && !(M.outM b.num v == M.inM s v)) := by
      rw [List.mem_filter]
      refine ⟨hvd, ?_⟩
      rw [Bool.and_eq_true, decide_eq_true_eq, Bool.not_eq_true', beq_eq_false_iff_ne]
      exact ⟨hvl, hne⟩
    rw [hc] at this
    exact absurd this (List.not_mem_nil v)
  rw [if_neg hfne]

theorem splitPart_nil (g : List RBlock) (cands : Nat → Bool) (M : RMaps) (b : RBlock)
    (h : predsOf g b.num = []) : splitPart g cands M b = M := by
  unfold splitPart
  rw [h]

theorem splitPart_single (g : List RBlock) (cands : Nat → Bool) (M : RMaps) (b : RBlock)
    (p : Nat) (h : predsOf g b.num = [p]) :
    splitPart g cands M b =
      if (b.liveIn.filter cands) = [] then M
      else applySplit p b.num (b.liveIn.filter cands) M := by
  unfold splitPart
  rw [h]

theorem splitPart_multi (g : List RBlock) (cands : Nat → Bool) (M : RMaps) (b : RBlock)
    (p q : Nat) (t : List Nat) (h : predsOf g b.num = p :: q :: t) :
    splitPart g cands M b = M := by
  unfold splitPart
  rw [h]

theorem joinPart_nil (g : List RBlock) (cands : Nat → Bool) (M : RMaps) (b : RBlock)
    (h : b.succs = []) : joinPart g cands M b = M := by
  unfold joinPart
  rw [h]

theorem joinPart_single (g : List RBlock) (cands : Nat → Bool) (M : RMaps) (b : RBlock)
    (s : Nat) (h : b.succs = [s]) :
    joinPart g cands M b =
      if (predsOf g s).length = 1 then M
      else if ((liveInOf g s).filter cands) = [] then M
      else applyJoin b.num s ((liveInOf g s).filter cands) M := by
  unfold joinPart
  rw [h]

theorem joinPart_multi (g : List RBlock) (cands : Nat → Bool) (M : RMaps) (b : RBlock)
    (s q : Nat) (t : List Nat) (h : b.succs = s :: q :: t) :
    joinPart g cands M b = M := by
  unfold joinPart
  rw [h]

theorem splitPart_outM (g : List RBlock) (cands : Nat → Bool) (M : RMaps) (b : RBlock) :
    (splitPart g cands M b).outM = M.outM := by
  cases hp : predsOf g b.num with
  | nil => rw [splitPart_nil g cands M b hp]
  | cons p t =>
    cases t with
    | nil =>
      rw [splitPart_single g cands M b p hp]
      by_cases h : (b.liveIn.filter cands) = []
      · rw [if_pos h]
      · rw [if_neg h]
        exact applySplit_outM _ _ _ _
    | cons q t2 => rw [splitPart_multi g cands M b p q t2 hp]

theorem splitPart_inM_frame (g : List RBlock) (cands : Nat → Bool) (M : RMaps)
    (b : RBlock) (n v : Nat)
    (h : ¬(n = b.num) ∨ cands v = false ∨ (∀ p, predsOf g b.num ≠ [p])) :
    (splitPart g cands M b).inM n v = M.inM n v := by
  cases hp : predsOf g b.num with
  | nil => rw [splitPart_nil g cands M b hp]
  | cons p t =>
    cases t with
    | nil =>
      rw [splitPart_single g cands M b p hp]
      by_cases he : (b.liveIn.filter cands) = []
      · rw [if_pos he]
      · rw [if_neg he]
        refine applySplit_inM_frame _ _ _ _ _ _ ?_
        rcases h with h | h | h
        · exact Or.inl h
        · refine Or.inr (fun hc => ?_)
          rw [List.mem_filter] at hc
          rw [h] at hc
          cases hc.2
        · exact absurd hp (h p)
    | cons q t2 => rw [splitPart_multi g cands M b p q t2 hp]

theorem joinPart_inM (g : List RBlock) (cands : Nat → Bool) (M : RMaps) (b : RBlock) :
    (joinPart g cands M b).inM = M.inM := by
  cases hs : b.succs with
  | nil => rw [joinPart_nil g cands M b hs]
  | cons s t =>
    cases t with
    | nil =>
      rw [joinPart_single g cands M b s hs]
      by_cases h1 : (predsOf g s).length = 1
      · rw [if_pos h1]
      · rw [if_neg h1]
        by_cases h2 : ((liveInOf g s).filter cands) = []
        · rw [if_pos h2]
        · rw [if_neg h2]
          exact applyJoin_inM _ _ _ _
    | cons q t2 => rw [joinPart_multi g cands M b s q t2 hs]

theorem joinPart_outM_frame (g : List RBlock) (cands : Nat → Bool) (M : RMaps)
    (b : RBlock) (n v : Nat)
    (h : ¬(n = b.num) ∨ cands v = false ∨
      (∀ s, b.succs = [s] → (predsOf g s).length = 1)) :
    (joinPart g cands M b).outM n v = M.outM n v := by
  cases hs : b.succs with
  | nil => rw [joinPart_nil g cands M b hs]
  | cons s t =>
    cases t with
    | nil =>
      rw [joinPart_single g cands M b s hs]
      by_cases h1 : (predsOf g s).length = 1
      · rw [if_pos h1]
      · rw [if_neg h1]
        by_cases h2 : ((liveInOf g s).filter cands) = []
        · rw [if_pos h2]
        · rw [if_neg h2]
          refine applyJoin_outM_frame _ _ _ _ _ _ ?_
          rcases h with h | h | h
          · exact Or.inl h
          · refine Or.inr (fun hc => ?_)
            rw [List.mem_filter] at hc
            rw [h] at hc
            cases hc.2
          · exact absurd (h s hs) h1
    | cons q t2 => rw [joinPart_multi g cands M b s q t2 hs]

theorem mainStep_inM_frame (g : List RBlock) (cands : Nat → Bool) (M : RMaps)
    (b : RBlock) (n v : Nat)
    (h : ¬(n = b.num) ∨ cands v = false ∨ (∀ p, predsOf g b.num ≠ [p])) :
    (mainStep g cands M b).inM n v = M.inM n v := by
  show (joinPart g cands (splitPart g cands M b) b).inM n v = M.inM n v
  rw [joinPart_inM g cands (splitPart g cands M b) b]
  exact splitPart_inM_frame g cands M b n v h

theorem mainStep_outM_frame (g : List RBlock) (cands : Nat → Bool) (M : RMaps)
    (b : RBlock) (n v : Nat)
    (h : ¬(n = b.num) ∨ cands v = false ∨
      (∀ s, b.succs = [s] → (predsOf g s).length = 1)) :
    (mainStep g cands M b).outM n v = M.outM n v := by
  show (joinPart g cands (splitPart g cands M b) b).outM n v = M.outM n v
  rw [joinPart_outM_frame g cands (splitPart g cands M b) b n v h]
  rw [splitPart_outM g cands M b]

theorem mainfold_inM_frame (g : List RBlock) (cands : Nat → Bool) :
    ∀ (l : List RBlock) (M : RMaps) (n v : Nat),
      (∀ bl ∈ l, ¬(bl.num = n) ∨ cands v = false ∨ (∀ p, predsOf g bl.num ≠ [p])) →
      (l.foldl (mainStep g cands) M).inM n v = M.inM n v := by
  intro l
  induction l with
  | nil => intro M n v _; rfl
  | cons b t ih =>
    intro M n v h
    rw [List.foldl_cons]
    rw [ih (mainStep g cands M b) n v (fun bl hbl => h bl (List.mem_cons_of_mem b hbl))]
    refine mainStep_inM_frame g cands M b n v ?_
    rcases h b (List.mem_cons_self b t) with h1 | h1 | h1
    · exact Or.inl (fun hc => h1 hc.symm)
    · exact Or.inr (Or.inl h1)
    · exact Or.inr (Or.inr h1)

theorem mainfold_outM_frame (g : List RBlock) (cands : Nat → Bool) :
    ∀ (l : List RBlock) (M : RMaps) (n v : Nat),
      (∀ bl ∈ l, ¬(bl.num = n) ∨ cands v = false ∨
        (∀ s, bl.succs = [s] → (predsOf g s).length = 1)) →
      (l.foldl (mainStep g cands) M).outM n v = M.outM n v := by
  intro l
  induction l with
  | nil => intro M n v _; rfl
  | cons b t ih =>
    intro M n v h
    rw [List.foldl_cons]
    rw [ih (mainStep g cands M b) n v (fun bl hbl => h bl (List.mem_cons_of_mem b hbl))]
    refine mainStep_outM_frame g cands M b n v ?_
    rcases h b (List.mem_cons_self b t) with h1 | h1 | h1
    · exact Or.inl (fun hc => h1 hc.symm)
    · exact Or.inr (Or.inl h1)
    · exact Or.inr (Or.inr h1)

theorem handleOut_empty (g : List RBlock) (entry : Nat) (cands : Nat → Bool)
    (disq : Nat → Nat → Bool) (st : RMaps × List (Nat × Nat)) (b : RBlock)
    (h : (b.liveOut.filter cands) = []) :
    handleOutgoingCriticalEdges g entry cands disq st b = st := by
  unfold handleOutgoingCriticalEdges
  rw [if_pos h]

theorem handleOut_conflict (g : List RBlock) (entry : Nat) (cands : Nat → Bool)
    (disq : Nat → Nat → Bool) (st : RMaps × List (Nat × Nat)) (b : RBlock)
    (hne : ¬(b.liveOut.filter cands) = [])
    (hc : batchConflict st.1 g cands (disq b.num) b = true) :
    handleOutgoingCriticalEdges g entry cands disq st b =
      (st.1, st.2 ++ diffSplits st.1 g entry
        (diffListOf st.1 g cands (disq b.num) b ++
          (sameListOf st.1 g cands (disq b.num) b).map Prod.fst) b) := by
  unfold handleOutgoingCriticalEdges
  rw [if_neg hne]
  simp only [hc, if_true]

theorem handleOut_noconflict (g : List RBlock) (entry : Nat) (cands : Nat → Bool)
    (disq : Nat → Nat → Bool) (st : RMaps × List (Nat × Nat)) (b : RBlock)
    (hne : ¬(b.liveOut.filter cands) = [])
    (hc : batchConflict st.1 g cands (disq b.num) b = false) :
    handleOutgoingCriticalEdges g entry cands disq st b =
      (applyShared b.num (sameListOf st.1 g cands (disq b.num) b) st.1,
       st.2 ++ diffSplits
         (applyShared b.num (sameListOf st.1 g cands (disq b.num) b) st.1)
         g entry (diffListOf st.1 g cands (disq b.num) b) b) := by
  unfold handleOutgoingCriticalEdges
  rw [if_neg hne]
  simp only [hc]
  rfl

theorem criticalStep_gate_false (g : List RBlock) (entry : Nat) (cands : Nat → Bool)
    (disq : Nat → Nat → Bool) (st : RMaps × List (Nat × Nat)) (b : RBlock)
    (h : ¬ hasCriticalOutEdge g b = true) :
    criticalStep g entry cands disq st b = st := by
  unfold criticalStep
  rw [if_neg h]

theorem criticalStep_gate_true (g : List RBlock) (entry : Nat) (cands : Nat → Bool)
    (disq : Nat → Nat → Bool) (st : RMaps × List (Nat × Nat)) (b : RBlock)
    (h : hasCriticalOutEdge g b = true) :
    criticalStep g entry cands disq st b =
      handleOutgoingCriticalEdges g entry cands disq st b := by
  unfold criticalStep
  rw [if_pos h]

theorem criticalStep_inM (g : List RBlock) (entry : Nat) (cands : Nat → Bool)
    (disq : Nat → Nat → Bool) (st : RMaps × List (Nat × Nat)) (b : RBlock) :
    (criticalStep g entry cands disq st b).1.inM = st.1.inM := by
  by_cases hg : hasCriticalOutEdge g b = true
  · rw [criticalStep_gate_true g entry cands disq st b hg]
    by_cases he : (b.liveOut.filter cands) = []
    · rw [handleOut_empty g entry cands disq st b he]
    · by_cases hc : batchConflict st.1 g cands (disq b.num) b = true
      · rw [handleOut_conflict g entry cands disq st b he hc]
      · rw [handleOut_noconflict g entry cands disq st b he
          (Bool.not_eq_true _ ▸ hc)]
        exact applyShared_inM _ _ _
  · rw [criticalStep_gate_false g entry cands disq st b hg]

theorem criticalStep_outM_frame (g : List RBlock) (entry : Nat) (cands : Nat → Bool)
    (disq : Nat → Nat → Bool) (st : RMaps × List (Nat × Nat)) (b : RBlock) (n v : Nat)
    (h : ¬(n = b.num) ∨ cands v = false) :
    (criticalStep g entry cands disq st b).1.outM n v = st.1.outM n v := by
  by_cases hg : hasCriticalOutEdge g b = true
  · rw [criticalStep_gate_true g entry cands disq st b hg]
    by_cases he : (b.liveOut.filter cands) = []
    · rw [handleOut_empty g entry cands disq st b he]
    · by_cases hc : batchConflict st.1 g cands (disq b.num) b = true
      · rw [handleOut_conflict g entry cands disq st b he hc]
      · rw [handleOut_noconflict g entry cands disq st b he
          (Bool.not_eq_true _ ▸ hc)]
        refine applyShared_outM_frame _ _ _ _ _ ?_
        rcases h with h | h
        · exact Or.inl h
        · refine Or.inr (fun pr hpr hprv => ?_)
          have hk := (sameListOf_mem_key st.1 g cands (disq b.num) b pr hpr).1
          rw [List.mem_filter, hprv] at hk
          rw [h] at hk
          cases hk.2
  · rw [criticalStep_gate_false g entry cands disq st b hg]

theorem criticalStep_spl_mono (g : List RBlock) (entry : Nat) (cands : Nat → Bool)
    (disq : Nat → Nat → Bool) (st : RMaps × List (Nat × Nat)) (b : RBlock) :
    ∀ x ∈ st.2, x ∈ (criticalStep g entry cands disq st b).2 := by
  intro x hx
  by_cases hg : hasCriticalOutEdge g b = true
  · rw [criticalStep_gate_true g entry cands disq st b hg]
    by_cases he : (b.liveOut.filter cands) = []
    · rw [handleOut_empty g entry cands disq st b he]
      exact hx
    · by_cases hc : batchConflict st.1 g cands (disq b.num) b = true
      · rw [handleOut_conflict g entry cands disq st b he hc]
        exact List.mem_append_left _ hx
      · rw [handleOut_noconflict g entry cands disq st b he
          (Bool.not_eq_true _ ▸ hc)]
        exact List.mem_append_left _ hx
  · rw [criticalStep_gate_false g entry cands disq st b hg]
    exact hx

theorem critfold_inM (g : List RBlock) (entry : Nat) (cands : Nat → Bool)
    (disq : Nat → Nat → Bool) :
    ∀ (l : List RBlock) (st : RMaps × List (Nat × Nat)),
      (l.foldl (criticalStep g entry cands disq) st).1.inM = st.1.inM := by
  intro l
  induction l with
  | nil => intro st; rfl
  | cons b t ih =>
    intro st
    rw [List.foldl_cons]
    rw [ih (criticalStep g entry cands disq st b)]
    exact criticalStep_inM g entry cands disq st b

theorem critfold_outM_frame (g : List RBlock) (entry : Nat) (cands : Nat → Bool)
    (disq : Nat → Nat → Bool) :
    ∀ (l : List RBlock) (st : RMaps × List (Nat × Nat)) (n v : Nat),
      (∀ bl ∈ l, ¬(bl.num = n) ∨ cands v = false) →
      (l.foldl (criticalStep g entry cands disq) st).1.outM n v = st.1.outM n v := by
  intro l
  induction l with
  | nil => intro st n v _; rfl
  | cons b t ih =>
    intro st n v h
    rw [List.foldl_cons]
    rw [ih (criticalStep g entry cands disq st b) n v
      (fun bl hbl => h bl (List.mem_cons_of_mem b hbl))]
    refine criticalStep_outM_frame g entry cands disq st b n v ?_
    rcases h b (List.mem_cons_self b t) with h1 | h1
    · exact Or.inl (fun hc => h1 hc.symm)
    · exact Or.inr h1

theorem critfold_spl_mono (g : List RBlock) (entry : Nat) (cands : Nat → Bool)
    (disq : Nat → Nat → Bool) :
    ∀ (l : List RBlock) (st : RMaps × List (Nat × Nat)),
      ∀ x ∈ st.2, x ∈ (l.foldl (criticalStep g entry cands disq) st).2 := by
  intro l
  induction l with
  | nil => intro st x hx; exact hx
  | cons b t ih =>
    intro st x hx
    rw [List.foldl_cons]
    exact ih (criticalStep g entry cands disq st b) x
      (criticalStep_spl_mono g entry cands disq st b x hx)

theorem mainfold_split_establish (g : List RBlock) (cands : Nat → Bool)
    (b pb : RBlock) (v : Nat)
    (hpred : predsOf g b.num = [pb.num])
    (hpbsucc : b.num ∈ pb.succs)
    (hpbeq : pb.num = b.num → pb = b)
    (hcv : cands v = true) (hv : v ∈ b.liveIn) :
    ∀ (l : List RBlock) (M : RMaps), b ∈ l → l.Nodup →
      (∀ bl ∈ l, bl.num = b.num → bl = b) →
      (∀ bl ∈ l, bl.num = pb.num → bl = pb) →
      (l.foldl (mainStep g cands) M).inM b.num v =
        (l.foldl (mainStep g cands) M).outM pb.num v := by
  have hvf : v ∈ b.liveIn.filter cands := by
    rw [List.mem_filter]
    exact ⟨hv, hcv⟩
  have hfne : ¬(b.liveIn.filter cands) = [] := by
    intro hc
    rw [hc] at hvf
    exact absurd hvf (List.not_mem_nil v)
  have hjframe : ∀ s, b.succs = [s] → (predsOf g s).length = 1 ∨ ¬(pb.num = b.num) := by
    intro s hbs
    by_cases hpb : pb.num = b.num
    · have hpbb := hpbeq hpb
      rw [hpbb] at hpbsucc
      rw [hbs] at hpbsucc
      have hsb : s = b.num := by
        rcases List.mem_cons.mp hpbsucc with h | h
        · exact h.symm
        · exact absurd h (List.not_mem_nil _)
      rw [hsb, hpred]
      exact Or.inl rfl
    · exact Or.inr hpb
  intro l
  induction l with
  | nil =>
    intro M hb _ _ _
    exact absurd hb (List.not_mem_nil b)
  | cons h t ih =>
    intro M hbl hnd hnb hnpb
    rw [List.foldl_cons]
    by_cases hhb : h = b
    · subst hhb
      have hbnt : ∀ bl ∈ t, ¬(bl.num = h.num) := by
        intro bl hblt hc
        have := hnb bl (List.mem_cons_of_mem h hblt) hc
        rw [this] at hblt
        exact absurd hblt (List.nodup_cons.mp hnd).1
      have hpbt : ∀ bl ∈ t, ¬(bl.num = pb.num) ∨
          (∀ s, bl.succs = [s] → (predsOf g s).length = 1) := by
        intro bl hblt
        by_cases hc : bl.num = pb.num
        · have hblpb := hnpb bl (List.mem_cons_of_mem h hblt) hc
          refine Or.inr (fun s hbs => ?_)
          rw [hblpb] at hbs
          have hsb : s = h.num := by
            rw [hbs] at hpbsucc
            rcases List.mem_cons.mp hpbsucc with h2 | h2
            · exact h2.symm
            · exact absurd h2 (List.not_mem_nil _)
          rw [hsb, hpred]
          rfl
        · exact Or.inl hc
      rw [mainfold_inM_frame g cands t (mainStep g cands M h) h.num v
        (fun bl hblt => Or.inl (hbnt bl hblt))]
      rw [mainfold_outM_frame g cands t (mainStep g cands M h) pb.num v
        (fun bl hblt => by
          rcases hpbt bl hblt with h2 | h2
          · exact Or.inl h2
          · exact Or.inr (Or.inr h2))]
      have hjcond : ¬(pb.num = h.num) ∨ cands v = false ∨
          (∀ s, h.succs = [s] → (predsOf g s).length = 1) := by
        by_cases hpb : pb.num = h.num
        · refine Or.inr (Or.inr (fun s hbs => ?_))
          rcases hjframe s hbs with h2 | h2
          · exact h2
          · exact absurd hpb h2
        · exact Or.inl hpb
      have hin : (joinPart g cands (splitPart g cands M h) h).inM h.num v =
          M.outM pb.num v := by
        rw [joinPart_inM g cands (splitPart g cands M h) h]
        rw [splitPart_single g cands M h pb.num hpred, if_neg hfne]
        exact applySplit_eq (h.liveIn.filter cands) pb.num h.num M v hvf
      have hout : (joinPart g cands (splitPart g cands M h) h).outM pb.num v =
          M.outM pb.num v := by
        rw [joinPart_outM_frame g cands (splitPart g cands M h) h pb.num v hjcond]
        rw [splitPart_single g cands M h pb.num hpred, if_neg hfne]
        rw [applySplit_outM (h.liveIn.filter cands) pb.num h.num M]
      show (joinPart g cands (splitPart g cands M h) h).inM h.num v =
        (joinPart g cands (splitPart g cands M h) h).outM pb.num v
      rw [hin, hout]
    · have hbt : b ∈ t := by
        rcases List.mem_cons.mp hbl with h2 | h2
        · exact absurd h2.symm hhb
        · exact h2
      exact ih (mainStep g cands M h) hbt (List.nodup_cons.mp hnd).2
        (fun bl hblt => hnb bl (List.mem_cons_of_mem h hblt))
        (fun bl hblt => hnpb bl (List.mem_cons_of_mem h hblt))

theorem mainfold_join_establish (g : List RBlock) (cands : Nat → Bool)
    (b : RBlock) (sn : Nat) (v : Nat)
    (hsuccs : b.succs = [sn])
    (hnp : (predsOf g sn).length ≠ 1)
    (hcv : cands v = true) (hlv : v ∈ liveInOf g sn) :
    ∀ (l : List RBlock) (M : RMaps), b ∈ l → l.Nodup →
      (∀ bl ∈ l, bl.num = b.num → bl = b) →
      (l.foldl (mainStep g cands) M).outM b.num v =
        (l.foldl (mainStep g cands) M).inM sn v := by
  have hvf : v ∈ (liveInOf g sn).filter cands := by
    rw [List.mem_filter]
    exact ⟨hlv, hcv⟩
  have hfne : ¬((liveInOf g sn).filter cands) = [] := by
    intro hc
    rw [hc] at hvf
    exact absurd hvf (List.not_mem_nil v)
  have hinframe : ∀ bl : RBlock, ¬(bl.num = sn) ∨ cands v = false ∨
      (∀ p, predsOf g bl.num ≠ [p]) := by
    intro bl
    by_cases hc : bl.num = sn
    · refine Or.inr (Or.inr (fun p hp => ?_))
      rw [hc] at hp
      rw [hp] at hnp
      exact hnp rfl
    · exact Or.inl hc
  intro l
  induction l with
  | nil =>
    intro M hb _ _
    exact absurd hb (List.not_mem_nil b)
  | cons h t ih =>
    intro M hbl hnd hnb
    rw [List.foldl_cons]
    by_cases hhb : h = b
    · subst hhb
      have hbnt : ∀ bl ∈ t, ¬(bl.num = h.num) := by
        intro bl hblt hc
        have := hnb bl (List.mem_cons_of_mem h hblt) hc
        rw [this] at hblt
        exact absurd hblt (List.nodup_cons.mp hnd).1
      rw [mainfold_outM_frame g cands t (mainStep g cands M h) h.num v
        (fun bl hblt => Or.inl (hbnt bl hblt))]
      rw [mainfold_inM_frame g cands t (mainStep g cands M h) sn v
        (fun bl _ => hinframe bl)]
      show (joinPart g cands (splitPart g cands M h) h).outM h.num v =
        (joinPart g cands (splitPart g cands M h) h).inM sn v
      rw [joinPart_inM g cands (splitPart g cands M h) h]
      rw [joinPart_single g cands (splitPart g cands M h) h sn hsuccs]
      rw [if_neg hnp, if_neg hfne]
      rw [applyJoin_eq ((liveInOf g sn).filter cands) h.num sn
        (splitPart g cands M h) v hvf]
    · have hbt : b ∈ t := by
        rcases List.mem_cons.mp hbl with h2 | h2
        · exact absurd h2.symm hhb
        · exact h2
      exact ih (mainStep g cands M h) hbt (List.nodup_cons.mp hnd).2
        (fun bl hblt => hnb bl (List.mem_cons_of_mem h hblt))

theorem criticalStep_edge (g : List RBlock) (entry : Nat) (cands : Nat → Bool)
    (disq : Nat → Nat → Bool) (st : RMaps × List (Nat × Nat)) (b : RBlock)
    (s : Nat) (hs : s ∈ b.succs) (hnp : ¬(predsOf g s).length = 1)
    (hmulti : 2 ≤ b.succs.length)
    (v : Nat) (hcv : cands v = true) (hvl : v ∈ liveInOf g s) (hvo : v ∈ b.liveOut) :
    (criticalStep g entry cands disq st b).1.outM b.num v =
        (criticalStep g entry cands disq st b).1.inM s v ∨
      (b.num, s) ∈ (criticalStep g entry cands disq st b).2 := by
  have hg : hasCriticalOutEdge g b = true := by
    rw [hasCriticalOutEdge, Bool.and_eq_true]
    exact ⟨decide_eq_true hmulti,
      List.any_eq_true.mpr ⟨s, hs, decide_eq_true hnp⟩⟩
  rw [criticalStep_gate_true g entry cands disq st b hg]
  have hvf : v ∈ b.liveOut.filter cands := by
    rw [List.mem_filter]
    exact ⟨hvo, hcv⟩
  have hne : ¬(b.liveOut.filter cands) = [] := by
    intro hc
    rw [hc] at hvf
    exact absurd hvf (List.not_mem_nil v)
  have hgate : ¬((predsOf g s).length = 1 ∧ s ≠ entry) := fun hc => hnp hc.1
  cases he : effSame st.1.inM g (disq b.num) b v with
  | some r =>
    have hagree : st.1.inM s v = r :=
      effSame_agree st.1.inM g (disq b.num) b v r he s hs hvl
    by_cases hro : r = st.1.outM b.num v
    · -- the variable is already in the common target register: no action
      by_cases hc : batchConflict st.1 g cands (disq b.num) b = true
      · rw [handleOut_conflict g entry cands disq st b hne hc]
        refine Or.inl ?_
        show st.1.outM b.num v = st.1.inM s v
        rw [hagree, ← hro]
      · rw [handleOut_noconflict g entry cands disq st b hne (Bool.not_eq_true _ ▸ hc)]
        refine Or.inl ?_
        show (applyShared b.num (sameListOf st.1 g cands (disq b.num) b) st.1).outM b.num v =
          (applyShared b.num (sameListOf st.1 g cands (disq b.num) b) st.1).inM s v
        rw [applyShared_inM (sameListOf st.1 g cands (disq b.num) b) b.num st.1]
        rw [applyShared_outM_frame (sameListOf st.1 g cands (disq b.num) b) b.num st.1
          b.num v (Or.inr (fun pr hpr hprv => ?_))]
        · rw [hagree, ← hro]
        · obtain ⟨_, hk2, hk3⟩ := sameListOf_mem_key st.1 g cands (disq b.num) b pr hpr
          rw [hprv] at hk2 hk3
          rw [he] at hk2
          have h9 : pr.2 = r := by
            injection hk2 with h9
            exact h9.symm
          rw [h9] at hk3
          exact hk3 hro
    · -- sameResolutionSet member
      have hsl : (v, r) ∈ sameListOf st.1 g cands (disq b.num) b :=
        sameListOf_mem_of st.1 g cands (disq b.num) b v r hvf he hro
      by_cases hc : batchConflict st.1 g cands (disq b.num) b = true
      · rw [handleOut_conflict g entry cands disq st b hne hc]
        refine Or.inr ?_
        show (b.num, s) ∈ st.2 ++ diffSplits st.1 g entry
          (diffListOf st.1 g cands (disq b.num) b ++
            (sameListOf st.1 g cands (disq b.num) b).map Prod.fst) b
        refine List.mem_append_right _ ?_
        refine diffSplits_mem_of st.1 g entry _ b s hs hgate v ?_ hvl ?_
        · refine List.mem_append_right _ ?_
          exact List.mem_map.mpr ⟨(v, r), hsl, rfl⟩
        · rw [hagree]
          exact fun hc2 => hro hc2.symm
      · rw [handleOut_noconflict g entry cands disq st b hne (Bool.not_eq_true _ ▸ hc)]
        refine Or.inl ?_
        show (applyShared b.num (sameListOf st.1 g cands (disq b.num) b) st.1).outM b.num v =
          (applyShared b.num (sameListOf st.1 g cands (disq b.num) b) st.1).inM s v
        rw [applyShared_inM (sameListOf st.1 g cands (disq b.num) b) b.num st.1]
        rw [applyShared_outM_val (sameListOf st.1 g cands (disq b.num) b) b.num st.1 v r
          (fun pr hpr hprv => ?_) (Or.inl hsl)]
        · rw [hagree]
        · obtain ⟨_, hk2, _⟩ := sameListOf_mem_key st.1 g cands (disq b.num) b pr hpr
          rw [hprv] at hk2
          rw [he] at hk2
          injection hk2 with h9
          exact h9.symm
  | none =>
    -- diffResolutionSet member
    have hdl : v ∈ diffListOf st.1 g cands (disq b.num) b :=
      diffListOf_mem_of st.1 g cands (disq b.num) b v hvf he
    by_cases hc : batchConflict st.1 g cands (disq b.num) b = true
    · rw [handleOut_conflict g entry cands disq st b hne hc]
      by_cases heq : st.1.outM b.num v = st.1.inM s v
      · exact Or.inl heq
      · refine Or.inr ?_
        refine List.mem_append_right _ ?_
        refine diffSplits_mem_of st.1 g entry _ b s hs hgate v
          (List.mem_append_left _ hdl) hvl heq
    · rw [handleOut_noconflict g entry cands disq st b hne (Bool.not_eq_true _ ▸ hc)]
      by_cases heq :
          (applyShared b.num (sameListOf st.1 g cands (disq b.num) b) st.1).outM b.num v =
          (applyShared b.num (sameListOf st.1 g cands (disq b.num) b) st.1).inM s v
      · exact Or.inl heq
      · refine Or.inr ?_
        refine List.mem_append_right _ ?_
        exact diffSplits_mem_of
          (applyShared b.num (sameListOf st.1 g cands (disq b.num) b) st.1)
          g entry _ b s hs hgate v hdl hvl heq

theorem critfold_edge (g : List RBlock) (entry : Nat) (cands : Nat → Bool)
    (disq : Nat → Nat → Bool) (b : RBlock) (s : Nat)
    (hs : s ∈ b.succs) (hnp : ¬(predsOf g s).length = 1)
    (hmulti : 2 ≤ b.succs.length)
    (v : Nat) (hcv : cands v = true) (hvl : v ∈ liveInOf g s) (hvo : v ∈ b.liveOut) :
    ∀ (l : List RBlock) (st : RMaps × List (Nat × Nat)), b ∈ l → l.Nodup →
      (∀ bl ∈ l, bl.num = b.num → bl = b) →
      ((l.foldl (criticalStep g entry cands disq) st).1.outM b.num v =
          (l.foldl (criticalStep g entry cands disq) st).1.inM s v ∨
        (b.num, s) ∈ (l.foldl (criticalStep g entry cands disq) st).2) := by
  intro l
  induction l with
  | nil =>
    intro st hb _ _
    exact absurd hb (List.not_mem_nil b)
  | cons h t ih =>
    intro st hbl hnd hnb
    rw [List.foldl_cons]
    by_cases hhb : h = b
    · subst hhb
      have hbnt : ∀ bl ∈ t, ¬(bl.num = h.num) := by
        intro bl hblt hc
        have := hnb bl (List.mem_cons_of_mem h hblt) hc
        rw [this] at hblt
        exact absurd hblt (List.nodup_cons.mp hnd).1
      rcases criticalStep_edge g entry cands disq st h s hs hnp hmulti v hcv hvl hvo
        with hl | hr
      · refine Or.inl ?_
        rw [critfold_outM_frame g entry cands disq t
          (criticalStep g entry cands disq st h) h.num v
          (fun bl hblt => Or.inl (hbnt bl hblt))]
        rw [critfold_inM g entry cands disq t (criticalStep g entry cands disq st h)]
        exact hl
      · exact Or.inr (critfold_spl_mono g entry cands disq t
          (criticalStep g entry cands disq st h) (h.num, s) hr)
    · have hbt : b ∈ t := by
        rcases List.mem_cons.mp hbl with h2 | h2
        · exact absurd h2.symm hhb
        · exact h2
      exact ih (criticalStep g entry cands disq st h) hbt (List.nodup_cons.mp hnd).2
        (fun bl hblt => hnb bl (List.mem_cons_of_mem h hblt))

theorem resolveEdges_noncand (g : List RBlock) (entry : Nat) (cands : Nat → Bool)
    (disq : Nat → Nat → Bool) (M0 : RMaps)
    (b : RBlock) (hb : b ∈ g) (s : Nat) (hs : s ∈ b.succs)
    (hinit : ∀ b ∈ g, ∀ s ∈ b.succs, ∀ v ∈ liveInOf g s, cands v = false →
      M0.outM b.num v = M0.inM s v)
    (v : Nat) (hvl : v ∈ liveInOf g s) (hcv : cands v = false) :
    (resolveEdges g entry cands disq M0).1.outM b.num v =
    (resolveEdges g entry cands disq M0).1.inM s v := by
  have hres : (resolveEdges g entry cands disq M0).1 =
      g.foldl (mainStep g cands)
        (g.foldl (criticalStep g entry cands disq) (M0, [])).1 := rfl
  rw [hres]
  rw [mainfold_outM_frame g cands g _ b.num v (fun bl _ => Or.inr (Or.inl hcv))]
  rw [mainfold_inM_frame g cands g _ s v (fun bl _ => Or.inr (Or.inl hcv))]
  rw [critfold_inM g entry cands disq g (M0, [])]
  rw [critfold_outM_frame g entry cands disq g (M0, []) b.num v
    (fun bl _ => Or.inr hcv)]
  exact hinit b hb s hs v hvl hcv

theorem resolveEdges_split_edge (g : List RBlock) (entry : Nat) (cands : Nat → Bool)
    (disq : Nat → Nat → Bool) (M0 : RMaps)
    (hgnd : g.Nodup)
    (hnum : ∀ b1 ∈ g, ∀ b2 ∈ g, b1.num = b2.num → b1 = b2)
    (pb : RBlock) (hpb : pb ∈ g) (b : RBlock) (hb : b ∈ g)
    (hs : b.num ∈ pb.succs) (hpred : predsOf g b.num = [pb.num])
    (v : Nat) (hv : v ∈ b.liveIn) (hcv : cands v = true) :
    (resolveEdges g entry cands disq M0).1.outM pb.num v =
    (resolveEdges g entry cands disq M0).1.inM b.num v := by
  have hres : (resolveEdges g entry cands disq M0).1 =
      g.foldl (mainStep g cands)
        (g.foldl (criticalStep g entry cands disq) (M0, [])).1 := rfl
  rw [hres]
  exact (mainfold_split_establish g cands b pb v hpred hs
    (fun h => hnum pb hpb b hb h) hcv hv g _ hb hgnd
    (fun bl hbl h => hnum bl hbl b hb h)
    (fun bl hbl h => hnum bl hbl pb hpb h)).symm

theorem resolveEdges_join_edge (g : List RBlock) (entry : Nat) (cands : Nat → Bool)
    (disq : Nat → Nat → Bool) (M0 : RMaps)
    (hgnd : g.Nodup)
    (hnum : ∀ b1 ∈ g, ∀ b2 ∈ g, b1.num = b2.num → b1 = b2)
    (b : RBlock) (hb : b ∈ g) (sn : Nat) (hsuccs : b.succs = [sn])
    (hnp : ¬(predsOf g sn).length = 1)
    (v : Nat) (hlv : v ∈ liveInOf g sn) (hcv : cands v = true) :
    (resolveEdges g entry cands disq M0).1.outM b.num v =
    (resolveEdges g entry cands disq M0).1.inM sn v := by
  have hres : (resolveEdges g entry cands disq M0).1 =
      g.foldl (mainStep g cands)
        (g.foldl (criticalStep g entry cands disq) (M0, [])).1 := rfl
  rw [hres]
  exact mainfold_join_establish g cands b sn v hsuccs hnp hcv hlv g _ hb hgnd
    (fun bl hbl h => hnum bl hbl b hb h)

theorem resolveEdges_crit_edge (g : List RBlock) (entry : Nat) (cands : Nat → Bool)
    (disq : Nat → Nat → Bool) (M0 : RMaps)
    (hgnd : g.Nodup)
    (hnum : ∀ b1 ∈ g, ∀ b2 ∈ g, b1.num = b2.num → b1 = b2)
    (b : RBlock) (hb : b ∈ g) (s : Nat) (hs : s ∈ b.succs)
    (hnp : ¬(predsOf g s).length = 1) (hmulti : 2 ≤ b.succs.length)
    (v : Nat) (hlv : v ∈ liveInOf g s) (hvo : v ∈ b.liveOut) (hcv : cands v = true)
    (hnspl : (b.num, s) ∉ (resolveEdges g entry cands disq M0).2) :
    (resolveEdges g entry cands disq M0).1.outM b.num v =
    (resolveEdges g entry cands disq M0).1.inM s v := by
  have hc1 : ∀ bl ∈ g, ¬(bl.num = b.num) ∨ cands v = false ∨
      (∀ s2, bl.succs = [s2] → (predsOf g s2).length = 1) := by
    intro bl hbl
    by_cases hc : bl.num = b.num
    · have hblb := hnum bl hbl b hb hc
      refine Or.inr (Or.inr (fun s2 hbs => ?_))
      rw [hblb] at hbs
      rw [hbs] at hmulti
      simp at hmulti
    · exact Or.inl hc
  have hc2 : ∀ bl ∈ g, ¬(bl.num = s) ∨ cands v = false ∨
      (∀ p, predsOf g bl.num ≠ [p]) := by
    intro bl hbl
    by_cases hc : bl.num = s
    · refine Or.inr (Or.inr (fun p hp => ?_))
      rw [hc] at hp
      rw [hp] at hnp
      exact hnp rfl
    · exact Or.inl hc
  rcases critfold_edge g entry cands disq b s hs hnp hmulti v hcv hlv hvo g
    (M0, []) hb hgnd (fun bl hbl h => hnum bl hbl b hb h) with hl | hr
  · have hres : (resolveEdges g entry cands disq M0).1 =
        g.foldl (mainStep g cands)
          (g.foldl (criticalStep g entry cands disq) (M0, [])).1 := rfl
    rw [hres]
    rw [mainfold_outM_frame g cands g _ b.num v hc1]
    rw [mainfold_inM_frame g cands g _ s v hc2]
    exact hl
  · exact absurd hr hnspl

/-- C1: after the Resolution Engine completes (resolveEdges), for every edge
of the final flow graph and every variable live into its target, the
location in the predecessor's outgoing VarToRegMap equals the location in
the successor's incoming VarToRegMap: an edge the driver did not split is
made consistent by the split, join or shared-critical map rewrite covering
it (non-candidate variables were consistent before and are never touched),
and each half of a split critical edge is consistent because the inserted
block's maps alias the from-block's out map and the to-block's in map. -/
theorem claim_C1_resolveEdges_edge_consistency (g : List RBlock) (entry : Nat)
    (cands : Nat → Bool) (disq : Nat → Nat → Bool) (M0 : RMaps)
    (hgnd : g.Nodup)
    (hnum : ∀ b1 ∈ g, ∀ b2 ∈ g, b1.num = b2.num → b1 = b2)
    (hdual : ∀ b ∈ g, ∀ s ∈ b.succs, ∃ sb ∈ g, sb.num = s ∧ b.num ∈ sb.preds)
    (hlive : ∀ b ∈ g, ∀ s ∈ b.succs, ∀ v ∈ liveInOf g s, v ∈ b.liveOut)
    (hinit : ∀ b ∈ g, ∀ s ∈ b.succs, ∀ v ∈ liveInOf g s, cands v = false →
      M0.outM b.num v = M0.inM s v) :
    ∀ b ∈ g, ∀ s ∈ b.succs,
      ((b.num, s) ∉ (resolveEdges g entry cands disq M0).2 →
        ∀ v ∈ liveInOf g s,
          (resolveEdges g entry cands disq M0).1.outM b.num v =
          (resolveEdges g entry cands disq M0).1.inM s v) ∧
      ((b.num, s) ∈ (resolveEdges g entry cands disq M0).2 →
        ∀ v,
          splitBlockInMap (resolveEdges g entry cands disq M0).1 b.num s v =
            (resolveEdges g entry cands disq M0).1.outM b.num v ∧
          splitBlockOutMap (resolveEdges g entry cands disq M0).1 b.num s v =
            (resolveEdges g entry cands disq M0).1.inM s v) := by
  intro b hb s hs
  refine ⟨?_, fun _ v => ⟨rfl, rfl⟩⟩
  intro hnspl v hvl
  by_cases hcv : cands v = true
  · obtain ⟨sb, hsb, hsbn, hbp⟩ := hdual b hb s hs
    have hpreds : predsOf g s = sb.preds := by
      rw [← hsbn]
      exact predsOf_eq g hnum sb hsb
    cases hp : sb.preds with
    | nil =>
      rw [hp] at hbp
      exact absurd hbp (List.not_mem_nil _)
    | cons p t =>
      cases t with
      | nil =>
        have hpbn : p = b.num := by
          rw [hp] at hbp
          rcases List.mem_cons.mp hbp with h2 | h2
          · exact h2.symm
          · exact absurd h2 (List.not_mem_nil _)
        have hpred2 : predsOf g sb.num = [b.num] := by
          rw [hsbn, hpreds, hp, hpbn]
        have hvin : v ∈ sb.liveIn := by
          rw [← liveInOf_eq g hnum sb hsb, hsbn]
          exact hvl
        have hcons := resolveEdges_split_edge g entry cands disq M0 hgnd hnum
          b hb sb hsb (by rw [hsbn]; exact hs) hpred2 v hvin hcv
        rw [hsbn] at hcons
        exact hcons
      | cons q t2 =>
        have hnp : ¬(predsOf g s).length = 1 := by
          rw [hpreds, hp]
          simp
        cases hbs : b.succs with
        | nil =>
          rw [hbs] at hs
          exact absurd hs (List.not_mem_nil _)
        | cons s1 t3 =>
          cases t3 with
          | nil =>
            have hs1 : s1 = s := by
              rw [hbs] at hs
              rcases List.mem_cons.mp hs with h2 | h2
              · exact h2.symm
              · exact absurd h2 (List.not_mem_nil _)
            exact resolveEdges_join_edge g entry cands disq M0 hgnd hnum b hb s
              (by rw [hbs, hs1]) hnp v hvl hcv
          | cons s2 t4 =>
            have hmulti : 2 ≤ b.succs.length := by
              rw [hbs]
              exact Nat.succ_le_succ (Nat.succ_le_succ (Nat.zero_le t4.length))
            exact resolveEdges_crit_edge g entry cands disq M0 hgnd hnum b hb s hs
              hnp hmulti v hvl (hlive b hb s hs v hvl) hcv hnspl
  · have hcf : cands v = false := by
      rcases Bool.eq_false_or_eq_true (cands v) with h2 | h2
      · exact absurd h2 hcv
      · exact h2
    exact resolveEdges_noncand g entry cands disq M0 b hb s hs hinit v hvl hcf

/-- A concrete graph: entry 1 with successors 2 and 4, block 2 with unique
successor 4; the edge 1→4 is critical (block 4 has two predecessors), 1→2 is
a split edge, 2→4 a join edge.  Variable 7 is a resolution candidate,
variable 8 is not. -/
def c1blocks : List RBlock :=
  [⟨1, [2, 4], [], [], [7, 8]⟩,
   ⟨2, [4], [1], [7, 8], [7, 8]⟩,
   ⟨4, [], [1, 2], [7, 8], []⟩]

def c1m0 : RMaps :=
  { inM := fun b v => if v = 8 then 100 else b + v
    outM := fun b v => if v = 8 then 100 else 50 + b + v }

def c1b1 : RBlock := ⟨1, [2, 4], [], [], [7, 8]⟩

theorem claim_C1_witness :
    c1b1 ∈ c1blocks ∧ (4 : Nat) ∈ c1b1.succs ∧
    (((c1b1.num, 4) ∉
        (resolveEdges c1blocks 1 (fun v => v == 7) (fun _ _ => false) c1m0).2 →
      ∀ v ∈ liveInOf c1blocks 4,
        (resolveEdges c1blocks 1 (fun v => v == 7)
          (fun _ _ => false) c1m0).1.outM c1b1.num v =
        (resolveEdges c1blocks 1 (fun v => v == 7)
          (fun _ _ => false) c1m0).1.inM 4 v) ∧
     ((c1b1.num, 4) ∈
        (resolveEdges c1blocks 1 (fun v => v == 7) (fun _ _ => false) c1m0).2 →
      ∀ v,
        splitBlockInMap (resolveEdges c1blocks 1 (fun v => v == 7)
            (fun _ _ => false) c1m0).1 c1b1.num 4 v =
          (resolveEdges c1blocks 1 (fun v => v == 7)
            (fun _ _ => false) c1m0).1.outM c1b1.num v ∧
        splitBlockOutMap (resolveEdges c1blocks 1 (fun v => v == 7)
            (fun _ _ => false) c1m0).1 c1b1.num 4 v =
          (resolveEdges c1blocks 1 (fun v => v == 7)
            (fun _ _ => false) c1m0).1.inM 4 v)) :=
  ⟨by decide, by decide,
   claim_C1_resolveEdges_edge_consistency c1blocks 1 (fun v => v == 7)
     (fun _ _ => false) c1m0 (by decide) (by decide) (by decide) (by decide)
     (by decide) c1b1 (by decide) 4 (by decide)⟩

end LSRA
